import Mathlib

/-!
Grouping and counting keys with MPI: a model of `mpi_exam.cpp`

The development embeds the functions of `src/mpi_exam.cpp` as Lean functions and
proves properties of the embedding.  The serial program `src/chuanxing.cpp` and
the shared-memory program `src/omp_exam.cpp` are embedded after it, each in a
namespace of its own.

Conventions of the embedding
* A byte is a natural number (`0 .. 255`); `10` is the newline and `0` the NUL
  terminator.  A file is the list of its bytes.
* A `char` array holding a C string is the list of the bytes stored in it;
  every string function (`strcmp`, `hash`, `safe_strcpy`, `strchr`) stops at the
  first `0`, exactly as the C function stops at the terminator.
* `MPI_Offset` values (`start`, `end`, `pos`, `read_size`) are integers, ranks
  and sizes are natural numbers.
* `int` counters are integers.  The subtraction of `cmp_value` is reduced to
  32 bits in two's complement.  In the functions of the pipeline, where a count
  is a number of records of the file, increments and additions are exact (a
  count never exceeds the number of bytes of the file, which `MPI_File_read_at`
  takes as an `int`).  The functions that are stated on arbitrary counts (the
  merge of two runs, the reduction of given runs, the calls of `hashmap_add` by
  the threads) are repeated in the namespaces `Int32` with the addition reduced
  to 32 bits in two's complement, as the compiled program computes it.
* The `HashNode*` chain of a bucket is the list of its nodes, head first, and the
  calloc-ed bucket array is stored sparsely: only the buckets that are not NULL
  are listed, by increasing index.  The node pool is an index and a size; the
  addresses of its slots are not part of the model.
* The processes of `MPI_COMM_WORLD` are the entries of a list indexed by rank.
  Every process executes the reduction loop with the same sequence of values of
  `step`, so one iteration of the loop is executed for all processes together;
  a receive is matched with the send that the source executes in the same
  iteration, and an unmatched send or receive blocks the run (`none`).
* `malloc(0)` returns a pointer that is not NULL (as glibc does), so a process
  with no entry still owns an (empty) array.
* `char` is signed and `unsigned long` has 64 bits, as on x86-64 Linux (this
  matters for the value of `hash` only).
-/

namespace MpiExam

/-! ## Constants and strings -/

def BUCKET_SIZE : Nat := 1 <<< 24

def MAX_KEY_LEN : Nat := 33

def INITIAL_POOL_SIZE : Nat := 1 <<< 27

/-- The loop of `safe_strcpy`: copy from `src[i]` on while the byte is not the
terminator and `i < MAX_KEY_LEN - 1`. -/
def safe_strcpy_loop : List Nat → Nat → List Nat
  | [], _ => []
  | c :: src, i =>
    if c ≠ 0 ∧ i < MAX_KEY_LEN - 1 then c :: safe_strcpy_loop src (i + 1) else []

/-- The string that `safe_strcpy(dest, src)` leaves in `dest`. -/
def safe_strcpy (src : List Nat) : List Nat := safe_strcpy_loop src 0

/-- The libc `strcmp`: difference of the first two bytes that differ, read as
unsigned bytes, the end of a list being the terminator. -/
def strcmp : List Nat → List Nat → Int
  | [], [] => 0
  | [], b :: _ => 0 - (b : Int)
  | a :: _, [] => (a : Int) - 0
  | a :: as, b :: bs =>
    if a ≠ b then (a : Int) - (b : Int) else if a = 0 then 0 else strcmp as bs

/-- The libc `strchr(s, c)`: offset of the first byte equal to `c` before the
terminator, `none` for a NULL result. -/
def strchr : List Nat → Nat → Option Nat
  | [], _ => none
  | b :: s, c =>
    if b = c then some 0 else if b = 0 then none else (strchr s c).map (· + 1)

/-! ## Node pool and hash table -/

structure HashNode where
  key : List Nat
  value : Int
  deriving DecidableEq, Repr

structure NodePool where
  index : Nat
  size : Nat
  deriving DecidableEq, Repr

def NodePool.new : NodePool := { index := 0, size := INITIAL_POOL_SIZE }

/-- The method `NodePool::alloc`: doubles `size` when the pool is full, takes the
slot `index`, fills it with the copied key and the value 1. -/
def NodePool.alloc (p : NodePool) (key : List Nat) : NodePool × HashNode :=
  let size := if p.index ≥ p.size then p.size * 2 else p.size
  ({ index := p.index + 1, size := size }, { key := safe_strcpy key, value := 1 })

/-- Conversion of a (signed) `char` to `int` and then to `unsigned long`. -/
def sign_extend (c : Nat) : Nat := if c < 128 then c else c + (2 ^ 64 - 256)

/-- The loop of `HashTable::hash` on an `unsigned long` of 64 bits. -/
def hash_loop : Nat → List Nat → Nat
  | h, [] => h
  | h, c :: str =>
    if c = 0 then h
    else hash_loop ((((h <<< 5) % 2 ^ 64 + h) % 2 ^ 64) ^^^ sign_extend c) str

def hash (mask : Nat) (str : List Nat) : Nat := hash_loop 5381 str &&& mask

/-- Chain stored in `buckets[idx]` (empty for a NULL bucket). -/
def bucket_get : List (Nat × List HashNode) → Nat → List HashNode
  | [], _ => []
  | (i, chain) :: bs, idx => if idx = i then chain else bucket_get bs idx

/-- Assignment `buckets[idx] = chain`. -/
def bucket_set : List (Nat × List HashNode) → Nat → List HashNode →
    List (Nat × List HashNode)
  | [], idx, chain => [(idx, chain)]
  | (i, c) :: bs, idx, chain =>
    if idx < i then (idx, chain) :: (i, c) :: bs
    else if idx = i then (i, chain) :: bs
    else (i, c) :: bucket_set bs idx chain

structure HashTable where
  buckets : List (Nat × List HashNode)
  pool : NodePool
  capacity : Nat
  mask : Nat
  deriving DecidableEq, Repr

/-- The constructor `HashTable(p, cap)`. -/
def HashTable.new (p : NodePool) (cap : Nat) : HashTable :=
  { buckets := [], pool := p, capacity := cap, mask := cap - 1 }

/-- The scan of a chain in `HashTable::insert`: the chain with the value of the
first node whose key compares equal incremented, `none` when the scan reaches
the end of the chain. -/
def chain_increment (key : List Nat) : List HashNode → Option (List HashNode)
  | [] => none
  | node :: rest =>
    if strcmp node.key key = 0 then some ({ node with value := node.value + 1 } :: rest)
    else (chain_increment key rest).map (node :: ·)

/-- The method `HashTable::insert`. -/
def HashTable.insert (t : HashTable) (key : List Nat) : HashTable :=
  let idx := hash t.mask key
  match chain_increment key (bucket_get t.buckets idx) with
  | some chain => { t with buckets := bucket_set t.buckets idx chain }
  | none =>
    let (pool, new_node) := t.pool.alloc key
    { t with pool := pool,
             buckets := bucket_set t.buckets idx (new_node :: bucket_get t.buckets idx) }

/-- The method `HashTable::flatten`: the nodes by increasing bucket index
`i < capacity`, every chain from its head. -/
def HashTable.flatten (t : HashTable) : List HashNode :=
  (t.buckets.filter (fun b => b.1 < t.capacity)).flatMap (fun b => b.2)

/-! ## Entries, comparison, sorting and merging -/

structure Entry where
  key : List Nat
  value : Int
  deriving DecidableEq, Repr

def cmp_key (a b : Entry) : Int := strcmp a.key b.key

/-- Two's complement reduction of an integer to an `int` of 32 bits. -/
def wrap32 (x : Int) : Int := (x + 2 ^ 31) % 2 ^ 32 - 2 ^ 31

def cmp_value (a b : Entry) : Int :=
  if a.value ≠ b.value then wrap32 (b.value - a.value) else strcmp a.key b.key

/-- The three `while` loops of `merge_entries` (and of `merge_sorted_entries`):
the arguments are `L[i..]` and `R[j..]`, the result is what is written from
`arr[k]` on. -/
def merge_loop (cmp : Entry → Entry → Int) : Nat → List Entry → List Entry → List Entry
  | 0, _, _ => []
  | _ + 1, [], R => R
  | _ + 1, L, [] => L
  | fuel + 1, a :: L, b :: R =>
    if cmp a b ≤ 0 then a :: merge_loop cmp fuel L (b :: R)
    else b :: merge_loop cmp fuel (a :: L) R

/-- The function `merge_entries(arr, left, mid, right, cmp)`. -/
def merge_entries (cmp : Entry → Entry → Int) (arr : List Entry) (left mid right : Nat) :
    List Entry :=
  let n1 := mid - left + 1
  let n2 := right - mid
  let L := (arr.drop left).take n1
  let R := (arr.drop (mid + 1)).take n2
  arr.take left ++ merge_loop cmp (n1 + n2 + 1) L R ++ arr.drop (right + 1)

/-- The function `merge_sort(arr, l, r, cmp)`; the first argument bounds the
depth of the recursion. -/
def merge_sort (cmp : Entry → Entry → Int) : Nat → List Entry → Nat → Nat → List Entry
  | 0, arr, _, _ => arr
  | fuel + 1, arr, l, r =>
    if l < r then
      let m := l + (r - l) / 2
      let arr1 := merge_sort cmp fuel arr l m
      let arr2 := merge_sort cmp fuel arr1 (m + 1) r
      merge_entries cmp arr2 l m r
    else arr

/-- The guarded call `if (local_count > 1) merge_sort(local_entries, 0, local_count - 1, cmp)`. -/
def sort_entries (cmp : Entry → Entry → Int) (entries : List Entry) : List Entry :=
  if entries.length > 1 then merge_sort cmp entries.length entries 0 (entries.length - 1)
  else entries

/-- The function `merge_sorted_entries(arr1, n1, arr2, n2, &merged_size)`. -/
def merge_sorted_entries (arr1 arr2 : List Entry) : List Entry :=
  merge_loop cmp_key (arr1.length + arr2.length + 1) arr1 arr2

/-- The `for` loop of `merge_same_keys`: `cur` is `entries[unique_count]`, the
list is `entries[i..]`, the result is `entries[unique_count ..]` after the loop.
The addition is exact; `Int32.merge_same_keys_loop` is the loop with the
addition of 32 bits, and gives the same entries while the sums are in the
range of an `int`. -/
def merge_same_keys_loop (cur : Entry) : List Entry → List Entry
  | [] => [cur]
  | e :: rest =>
    if strcmp cur.key e.key = 0 then
      merge_same_keys_loop { cur with value := cur.value + e.value } rest
    else cur :: merge_same_keys_loop e rest

/-- The function `merge_same_keys(entries, &count)`: the first `count` entries
after the call. -/
def merge_same_keys : List Entry → List Entry
  | [] => []
  | e :: rest => merge_same_keys_loop e rest

/-! ## The range of a process and its local table -/

/-- Value of `start` after line 219. -/
def cand_start (file_size : Int) (size rank : Nat) : Int :=
  let chunk_size := file_size / (size : Int)
  let remainder := file_size % (size : Int)
  (rank : Int) * chunk_size + (if (rank : Int) < remainder then (rank : Int) else remainder)

/-- Value of `end` after line 221. -/
def cand_end (file_size : Int) (size rank : Nat) : Int :=
  let chunk_size := file_size / (size : Int)
  let remainder := file_size % (size : Int)
  let start := cand_start file_size size rank
  let end_0 := start + chunk_size - 1
  if (rank : Int) < remainder then end_0 + 1 else end_0

/-- The backward scan `while (pos >= 0)`, entered at `pos`: the new value of
`start`.  The variable `pos` is never negative inside the loop. -/
def scan_back (file : List Nat) (start : Int) : Nat → Int
  | 0 => if file.getD 0 0 = 10 then 0 + 1 else start
  | pos + 1 => if file.getD (pos + 1) 0 = 10 then ((pos + 1 : Nat) : Int) + 1
               else scan_back file start pos

/-- Value of `start` after line 238. -/
def true_start (file : List Nat) (size rank : Nat) : Int :=
  let start := cand_start file.length size rank
  if rank ≠ 0 ∧ start > 0 then
    let prev_char := file.getD (start - 1).toNat 0
    if prev_char ≠ 10 then scan_back file start (start - 1).toNat else start
  else start

/-- Value of `end` after line 240. -/
def true_end (file : List Nat) (size rank : Nat) : Int :=
  if (rank : Int) = (size : Int) - 1 then (file.length : Int) - 1
  else cand_end file.length size rank

def read_size (file : List Nat) (size rank : Nat) : Int :=
  let r := true_end file size rank - true_start file size rank + 1
  if r ≤ 0 then 0 else r

/-- The bytes that `MPI_File_read_at(fh, start, local_buf, read_size, ...)` stores. -/
def read_at (file : List Nat) (offset count : Int) : List Nat :=
  (file.drop offset.toNat).take count.toNat

/-- Bytes that the process `rank` reads into `local_buf` (without the terminator). -/
def local_bytes (file : List Nat) (size rank : Nat) : List Nat :=
  read_at file (true_start file size rank) (read_size file size rank)

/-- The buffer `local_buf` with its terminator, `none` when it stays NULL. -/
def local_buf (file : List Nat) (size rank : Nat) : Option (List Nat) :=
  if read_size file size rank > 0 then some (local_bytes file size rank ++ [0]) else none

/-- The parsing loop `while (*ptr)`: `ptr` is the buffer from the pointer on; the
first argument bounds the number of iterations (every iteration moves the
pointer forward, so the length of the buffer is enough). -/
def parse_loop : Nat → List Nat → HashTable → HashTable
  | 0, _, table => table
  | fuel + 1, ptr, table =>
    if ptr.headD 0 = 0 then table
    else
      match strchr ptr 10 with
      | none => table
      | some len =>
        parse_loop fuel (ptr.drop (len + 1))
          (if len < MAX_KEY_LEN then table.insert (ptr.take len) else table)

/-- The table of a process after the parsing loop. -/
def local_table (file : List Nat) (size rank : Nat) : HashTable :=
  match local_buf file size rank with
  | none => HashTable.new NodePool.new BUCKET_SIZE
  | some buf => parse_loop buf.length buf (HashTable.new NodePool.new BUCKET_SIZE)

/-- Entry copied from a node by the loop of lines 278-281. -/
def node_entry (node : HashNode) : Entry := { key := safe_strcpy node.key, value := node.value }

/-- The array `local_entries` after the copy loop of lines 278-281. -/
def local_entries (file : List Nat) (size rank : Nat) : List Entry :=
  (local_table file size rank).flatten.map node_entry

/-- The array `local_entries` of a process when it enters the reduction loop. -/
def local_run (file : List Nat) (size rank : Nat) : List Entry :=
  merge_same_keys (sort_entries cmp_key (local_entries file size rank))

/-! ## The reduction loop -/

/-- State of a process in the reduction loop: its array `local_entries` (`none`
for NULL), whether it has not left the loop through `break`, and the number of
iterations of the loop it has executed. -/
structure Worker where
  local_entries : Option (List Entry)
  in_loop : Bool
  iterations : Nat
  deriving DecidableEq, Repr

/-- One iteration of the loop `while (step < size)` for the process `rank`, the
others being in the states `ws` when they enter the same iteration. -/
def step_worker (size step : Nat) (ws : List Worker) (rank : Nat) (w : Worker) :
    Option Worker :=
  if w.in_loop = false then some w
  else if rank % (2 * step) = 0 then
    let src_rank := rank + step
    if src_rank < size then
      match ws[src_rank]? with
      | some src =>
        if src.in_loop = true ∧ src_rank % (2 * step) ≠ 0 then
          match w.local_entries, src.local_entries with
          | some entries, some src_entries =>
            some { local_entries := some (merge_same_keys (merge_sorted_entries entries src_entries)),
                   in_loop := true, iterations := w.iterations + 1 }
          | _, _ => none
        else none
      | none => none
    else some { w with iterations := w.iterations + 1 }
  else
    match (if step ≤ rank then ws[rank - step]? else none) with
    | some dst =>
      if dst.in_loop = true ∧ (rank - step) % (2 * step) = 0 then
        some { local_entries := none, in_loop := false, iterations := w.iterations + 1 }
      else none
    | none => none

/-- All the entries of a list of optional values, when none is missing. -/
def all_some {α : Type} : List (Option α) → Option (List α)
  | [] => some []
  | none :: _ => none
  | some a :: rest => (all_some rest).map (a :: ·)

/-- One iteration of the reduction loop for all the processes. -/
def reduce_round (size step : Nat) (ws : List Worker) : Option (List Worker) :=
  all_some ((List.range ws.length).map
    (fun rank => ws[rank]?.bind (step_worker size step ws rank)))

/-- The loop `while (step < size)` from the value `step` on. -/
def reduce_loop (size : Nat) : Nat → Nat → List Worker → Option (List Worker)
  | 0, _, _ => none
  | fuel + 1, step, ws =>
    if step < size then (reduce_round size step ws).bind (reduce_loop size fuel (step * 2))
    else some ws

/-- The reduction of the runs held by the processes `0 .. size - 1`. -/
def reduce (size : Nat) (runs : List (List Entry)) : Option (List Worker) :=
  reduce_loop size (size + 1) 1
    (runs.map (fun run => { local_entries := some run, in_loop := true, iterations := 0 }))

/-- The function `group_by_mpi`: the header and the rows that process 0 writes. -/
def group_by_mpi (file : List Nat) (size : Nat) : Option (Nat × List Entry) :=
  match reduce size ((List.range size).map (local_run file size)) with
  | none => none
  | some ws =>
    match ws.head? with
    | none => none
    | some w =>
      match w.local_entries with
      | none => none
      | some entries => some (entries.length, sort_entries cmp_value entries)


/-! ## Notions used in the statements -/

/-- Sum of the counts of the entries of a list whose key satisfies `p`. -/
def weight (p : List Nat → Bool) : List Entry → Int
  | [] => 0
  | e :: l => (if p e.key = true then e.value else 0) + weight p l

/-- Count recorded for the key `k`: sum of the counts of the entries whose key
is the string `k` (equality of C strings, as `strcmp` decides it). -/
def count_of (k : List Nat) (l : List Entry) : Int :=
  weight (fun key => decide (strcmp key k = 0)) l

/-- Sum of all the counts of a list of entries. -/
def total_count (l : List Entry) : Int := weight (fun _ => true) l

/-- The list has an entry for the key `k`. -/
def has_key (k : List Nat) (l : List Entry) : Prop := ∃ e ∈ l, strcmp e.key k = 0

/-- A sorted run: the keys increase strictly from one entry to the next ones. -/
def SortedRun (l : List Entry) : Prop := l.Pairwise (fun a b => strcmp a.key b.key < 0)

/-- Run that the process `r` holds after `k` iterations of the reduction loop, when
it is still in the loop: its own run merged with the runs of the processes
`r + 1 .. r + 2 ^ k - 1`. -/
def tree_run (size : Nat) (runs : List (List Entry)) : Nat → Nat → List Entry
  | 0, r => runs.getD r []
  | k + 1, r =>
    if r + 2 ^ k < size then
      merge_same_keys (merge_sorted_entries (tree_run size runs k r) (tree_run size runs k (r + 2 ^ k)))
    else tree_run size runs k r

/-- State of the process `r` after the iteration with `step = 2 ^ k`, given the
states `ws` before it. -/
def next_worker (size : Nat) (runs : List (List Entry)) (k : Nat) (ws : List Worker) (r : Nat) :
    Worker :=
  if r % 2 ^ (k + 1) = 0 then
    { local_entries := some (tree_run size runs (k + 1) r), in_loop := true, iterations := k + 1 }
  else if r % 2 ^ k = 0 then { local_entries := none, in_loop := false, iterations := k + 1 }
  else ws.getD r { local_entries := none, in_loop := false, iterations := 0 }

/-- Invariant of the reduction loop when `step = 2 ^ k`. -/
def ReduceInv (size : Nat) (runs : List (List Entry)) (k : Nat) (ws : List Worker) : Prop :=
  ws.length = size ∧ ∀ r, r < size → ∃ w, ws[r]? = some w ∧
    (r % 2 ^ k = 0 →
      w = { local_entries := some (tree_run size runs k r), in_loop := true, iterations := k }) ∧
    (r % 2 ^ k ≠ 0 → w.local_entries = none ∧ w.in_loop = false)

instance (l : List Entry) : Decidable (SortedRun l) := by
  unfold SortedRun
  infer_instance

/-- Records of a sequence of bytes: the lines that end with a newline, without
the newline; the bytes after the last newline are not a record.  The first
argument holds the bytes of the current line that were read before, last byte
first. -/
def records_from (cur : List Nat) : List Nat → List (List Nat)
  | [] => []
  | c :: cs => if c = 10 then cur.reverse :: records_from [] cs else records_from (c :: cur) cs

def records (bytes : List Nat) : List (List Nat) := records_from [] bytes

/-- Bytes of the unfinished line at the end of a sequence of bytes, last byte first. -/
def pending (cur : List Nat) : List Nat → List Nat
  | [] => cur
  | c :: cs => if c = 10 then pending [] cs else pending (c :: cur) cs

/-- Lines of a sequence of bytes when a last line without newline counts as a
line unless it is empty: the records and the bytes after the last newline. -/
def record_lines (bytes : List Nat) : List (List Nat) :=
  records bytes ++ (if pending [] bytes = [] then [] else [(pending [] bytes).reverse])

/-- Byte-wise order of two keys without NUL byte: the first key is a beginning of
the second, or the first has the smaller byte where they first differ. -/
def key_le : List Nat → List Nat → Prop
  | [], _ => True
  | _ :: _, [] => False
  | a :: as, b :: bs => a < b ∨ (a = b ∧ key_le as bs)

/-- Keys that the parsing loop passes to `table.insert`, in the order of the calls. -/
def parse_keys : Nat → List Nat → List (List Nat)
  | 0, _ => []
  | fuel + 1, ptr =>
    if ptr.headD 0 = 0 then []
    else
      match strchr ptr 10 with
      | none => []
      | some len =>
        (if len < MAX_KEY_LEN then [ptr.take len] else []) ++ parse_keys fuel (ptr.drop (len + 1))

/-- Keys that the process `rank` inserts into its table. -/
def inserted_keys (file : List Nat) (size rank : Nat) : List (List Nat) :=
  match local_buf file size rank with
  | none => []
  | some buf => parse_keys buf.length buf

/-- Offset at which the candidate range of the process `i` starts, as a natural
number. -/
def bound (N size i : Nat) : Nat := i * (N / size) + (if i < N % size then i else N % size)

/-- Every process but the first whose candidate range starts after offset 0 finds
a newline below its candidate start. -/
def WellSplit (file : List Nat) (size : Nat) : Prop :=
  ∀ i, 1 ≤ i → i < size → 0 < cand_start file.length size i →
    10 ∈ file.take (cand_start file.length size i).toNat

/-- Sum of the counts of the nodes whose copied key satisfies `p`. -/
def node_weight (p : List Nat → Bool) (nodes : List HashNode) : Int :=
  weight p (nodes.map node_entry)

/-- The listed buckets have increasing indices below the capacity. -/
def BucketsOK (cap : Nat) (bs : List (Nat × List HashNode)) : Prop :=
  bs.Pairwise (fun a b => a.1 < b.1) ∧ ∀ b ∈ bs, b.1 < cap

/-- Well-formed table: well-formed bucket list and a mask below the capacity. -/
def TableOK (t : HashTable) : Prop := BucketsOK t.capacity t.buckets ∧ t.mask < t.capacity

/-- The key fits in `MAX_KEY_LEN - 1` bytes: `safe_strcpy` copies the whole string. -/
def ShortKey (key : List Nat) : Prop := strcmp (safe_strcpy key) key = 0

/-! ## Concrete files -/

/-- The file `ab\ncd\nab\nef\ncd\nab\n`. -/
def ab_cd_file : List Nat :=
  [97, 98, 10, 99, 100, 10, 97, 98, 10, 101, 102, 10, 99, 100, 10, 97, 98, 10]

/-- The file `ab\n`. -/
def ab_file : List Nat := [97, 98, 10]

/-- A file with one record of 33 bytes. -/
def long_file : List Nat := List.replicate 33 97 ++ [10]

/-- A file with a record of 38 bytes followed by the record made of its first 32 bytes. -/
def trunc_file : List Nat := List.replicate 38 97 ++ [10] ++ List.replicate 32 97 ++ [10]

/-- The file `x\n`, a record of 38 bytes, and the record made of its first 32 bytes. -/
def split_file : List Nat :=
  [120, 10] ++ List.replicate 38 97 ++ [10] ++ List.replicate 32 97 ++ [10]

/-- The file `trunc_file` with a line made of a NUL byte between its two records. -/
def trunc_nul_file : List Nat :=
  List.replicate 38 97 ++ [10, 0, 10] ++ List.replicate 32 97 ++ [10]

/-- The file `a\n`, a NUL byte, `\nb\n`. -/
def nul_file : List Nat := [97, 10, 0, 10, 98, 10]

/-- The file `x\nabcd\n`. -/
def x_abcd_file : List Nat := [120, 10, 97, 98, 99, 100, 10]

/-- Three entries out of order. -/
def sample_entries : List Entry :=
  [{ key := [98], value := 1 }, { key := [97], value := 2 }, { key := [97], value := 1 }]

/-- Three sorted runs. -/
def sample_runs : List (List Entry) :=
  [[{ key := [97], value := 1 }, { key := [99], value := 2 }],
   [{ key := [98], value := 1 }],
   [{ key := [97], value := 4 }, { key := [98], value := 1 }]]

/-! ## Notions used in the statements on runs -/

/-- The C string held in a `char` array: its bytes before the first NUL byte. -/
def cstr : List Nat → List Nat
  | [] => []
  | c :: cs => if c = 0 then [] else c :: cstr cs

/-- The row `key count` that an entry stands for: its key as a string and its count. -/
def entry_row (e : Entry) : List Nat × Int := (cstr e.key, e.value)

/-- The merge of two runs in the reduction loop (lines 306-312):
`merge_sorted_entries` followed by `merge_same_keys`. -/
def merge_runs (A B : List Entry) : List Entry := merge_same_keys (merge_sorted_entries A B)

/-- Whether the list has an entry for the key `k`. -/
def in_keys (k : List Nat) (l : List Entry) : Bool :=
  l.any (fun e => decide (strcmp e.key k = 0))

/-- Two sorted runs with a common key. -/
def run_one : List Entry := [{ key := [97], value := 1 }, { key := [99], value := 2 }]

def run_two : List Entry := [{ key := [97], value := 4 }, { key := [98], value := 1 }]

def run_three : List Entry := [{ key := [98], value := 3 }, { key := [100], value := 1 }]

/-- Three entries with different keys, and the same entries in another order. -/
def rank_one : List Entry :=
  [{ key := [98], value := 1 }, { key := [97], value := 2 }, { key := [99], value := 1 }]

def rank_two : List Entry :=
  [{ key := [99], value := 1 }, { key := [98], value := 1 }, { key := [97], value := 2 }]

/-! ## Notions used in the statements on the reduction schedule -/

/-- States of the processes when they enter the reduction loop. -/
def initial_workers (runs : List (List Entry)) : List Worker :=
  runs.map (fun run => { local_entries := some run, in_loop := true, iterations := 0 })

/-- States of the processes after `k` iterations of the reduction loop (with
`step = 1, 2, ..., 2 ^ (k - 1)`), `none` when a send or a receive blocks. -/
def reduce_states (size : Nat) (ws : List Worker) : Nat → Option (List Worker)
  | 0 => some ws
  | k + 1 => (reduce_states size ws k).bind (reduce_round size (2 ^ k))

/-- The process `rank` is still in the loop. -/
def active (ws : List Worker) (rank : Nat) : Prop :=
  ∃ w, ws[rank]? = some w ∧ w.in_loop = true

/-- The process `rank` takes the `else` branch of the iteration with `step`: it
sends its run to `rank - step`. -/
def sends (step : Nat) (ws : List Worker) (rank : Nat) : Prop :=
  ∃ w, ws[rank]? = some w ∧ w.in_loop = true ∧ rank % (2 * step) ≠ 0

/-- The process `rank` receives in the iteration with `step`, from `rank + step`. -/
def receives (size step : Nat) (ws : List Worker) (rank : Nat) : Prop :=
  ∃ w, ws[rank]? = some w ∧ w.in_loop = true ∧ rank % (2 * step) = 0 ∧ rank + step < size

/-! ## Notions used in the statements on the hash table -/

/-- Every node of a listed bucket hashes to the index of the bucket, holds a key
that fits in `MAX_KEY_LEN - 1` bytes, and has a positive count. -/
def NodesOK (t : HashTable) : Prop :=
  ∀ b ∈ t.buckets, ∀ n ∈ b.2, hash t.mask n.key = b.1 ∧ ShortKey n.key ∧ 1 ≤ n.value

/-- No chain holds a key twice. -/
def ChainsOK (t : HashTable) : Prop :=
  ∀ b ∈ t.buckets, b.2.Pairwise (fun x y => strcmp x.key y.key ≠ 0)

/-- Invariant of the hash table under `insert`. -/
def TableInv (t : HashTable) : Prop := TableOK t ∧ NodesOK t ∧ ChainsOK t

/-- The node after `node->value++` when its key is `key`, the node itself otherwise. -/
def bump (key : List Nat) (n : HashNode) : HashNode :=
  if strcmp n.key key = 0 then { n with value := n.value + 1 } else n


/-- The table after the insertion of the keys of `keys`, in order, into the empty
table `HashTable(p, cap)`. -/
def insert_all (p : NodePool) (cap : Nat) (keys : List (List Nat)) : HashTable :=
  keys.foldl HashTable.insert (HashTable.new p cap)

/-- Number of keys of `keys` that are the string `key`. -/
def times_inserted (key : List Nat) (keys : List (List Nat)) : Int :=
  ((keys.filter (fun k => decide (strcmp k key = 0))).length : Int)

/-- The keys `a`, `b`, `a`. -/
def agg_keys : List (List Nat) := [[97], [98], [97]]

/-- A key of 40 bytes `a`. -/
def long_key : List Nat := List.replicate 40 97

/-- Two keys of 33 bytes that share their first 32 bytes. -/
def long_key_b : List Nat := List.replicate 32 97 ++ [98]

def long_key_c : List Nat := List.replicate 32 97 ++ [99]

/-! ## Notions used in the statement on the exactness of the pipeline -/

/-- Records of a sequence of bytes, each with the offset of the newline that
ends it; `off` is the offset of the first byte of the sequence and `cur` holds
the bytes of the current line that were read before, last byte first. -/
def records_pos_from (off : Nat) (cur : List Nat) : List Nat → List (Nat × List Nat)
  | [] => []
  | c :: cs =>
    if c = 10 then (off, cur.reverse) :: records_pos_from (off + 1) [] cs
    else records_pos_from (off + 1) (c :: cur) cs

def records_pos (bytes : List Nat) : List (Nat × List Nat) := records_pos_from 0 [] bytes

/-- The bytes of the line that ends at offset `p`: the bytes below `p` that
come after the last newline below `p`. -/
def line_before (file : List Nat) (p : Nat) : List Nat :=
  ((file.take p).reverse.takeWhile (fun c => decide (c ≠ 10))).reverse

/-- The newline of the record `q` is at an offset of the candidate range
`[start, end]` (lines 219-221) of the process `i`. -/
def in_cand_range (file_size size i : Nat) (q : Nat × List Nat) : Bool :=
  decide (cand_start (file_size : Int) size i ≤ (q.1 : Int)
    ∧ (q.1 : Int) ≤ cand_end (file_size : Int) size i)

/-! ## Counts as `int`

The functions above add counts as integers: in `group_by_mpi` a count is a
number of records of the file.  For runs that are given, the sum of two counts
can leave the range of an `int`.  The namespace `Int32` holds the functions
that add counts, with the addition `entries[unique_count].value +=
entries[i].value` (line 193) reduced to 32 bits in two's complement, as the
compiled program computes it; the functions that call them are repeated with
them. -/

namespace Int32

/-- The `for` loop of `merge_same_keys`: `cur` is `entries[unique_count]`, the
list is `entries[i..]`, the result is `entries[unique_count ..]` after the loop. -/
def merge_same_keys_loop (cur : Entry) : List Entry → List Entry
  | [] => [cur]
  | e :: rest =>
    if strcmp cur.key e.key = 0 then
      merge_same_keys_loop { cur with value := wrap32 (cur.value + e.value) } rest
    else cur :: merge_same_keys_loop e rest

/-- The function `merge_same_keys(entries, &count)`: the first `count` entries
after the call. -/
def merge_same_keys : List Entry → List Entry
  | [] => []
  | e :: rest => merge_same_keys_loop e rest

/-- The merge of two runs in the reduction loop (lines 306-312):
`merge_sorted_entries` followed by `merge_same_keys`. -/
def merge_runs (A B : List Entry) : List Entry :=
  merge_same_keys (merge_sorted_entries A B)

/-- One iteration of the loop `while (step < size)` for the process `rank`, the
others being in the states `ws` when they enter the same iteration. -/
def step_worker (size step : Nat) (ws : List Worker) (rank : Nat) (w : Worker) :
    Option Worker :=
  if w.in_loop = false then some w
  else if rank % (2 * step) = 0 then
    let src_rank := rank + step
    if src_rank < size then
      match ws[src_rank]? with
      | some src =>
        if src.in_loop = true ∧ src_rank % (2 * step) ≠ 0 then
          match w.local_entries, src.local_entries with
          | some entries, some src_entries =>
            some { local_entries := some (merge_same_keys (merge_sorted_entries entries src_entries)),
                   in_loop := true, iterations := w.iterations + 1 }
          | _, _ => none
        else none
      | none => none
    else some { w with iterations := w.iterations + 1 }
  else
    match (if step ≤ rank then ws[rank - step]? else none) with
    | some dst =>
      if dst.in_loop = true ∧ (rank - step) % (2 * step) = 0 then
        some { local_entries := none, in_loop := false, iterations := w.iterations + 1 }
      else none
    | none => none

/-- One iteration of the reduction loop for all the processes. -/
def reduce_round (size step : Nat) (ws : List Worker) : Option (List Worker) :=
  all_some ((List.range ws.length).map
    (fun rank => ws[rank]?.bind (step_worker size step ws rank)))

/-- The loop `while (step < size)` from the value `step` on. -/
def reduce_loop (size : Nat) : Nat → Nat → List Worker → Option (List Worker)
  | 0, _, _ => none
  | fuel + 1, step, ws =>
    if step < size then (reduce_round size step ws).bind (reduce_loop size fuel (step * 2))
    else some ws

/-- The reduction of the runs held by the processes `0 .. size - 1`. -/
def reduce (size : Nat) (runs : List (List Entry)) : Option (List Worker) :=
  reduce_loop size (size + 1) 1
    (runs.map (fun run => { local_entries := some run, in_loop := true, iterations := 0 }))

end Int32

/-! ## Notions used in the statements on counts as `int` -/

/-- The counts of the entries are in the range of an `int`. -/
def IntRun (l : List Entry) : Prop := ∀ e ∈ l, -(2 ^ 31) ≤ e.value ∧ e.value < 2 ^ 31

instance (l : List Entry) : Decidable (IntRun l) := by
  unfold IntRun
  infer_instance

instance (key : List Nat) : Decidable (ShortKey key) := by
  unfold ShortKey
  infer_instance

/-- The entry with its count reduced to 32 bits. -/
def wrap_entry (e : Entry) : Entry := { e with value := wrap32 e.value }

/-- The state of a process with the counts of its run reduced to 32 bits. -/
def wrap_worker (w : Worker) : Worker :=
  { w with local_entries := w.local_entries.map (fun l => l.map wrap_entry) }

/-- A run with the key `a` and the largest count of an `int`, and a run with the
key `a` and the count 1. -/
def max_run : List Entry := [{ key := [97], value := 2147483647 }]

def unit_run : List Entry := [{ key := [97], value := 1 }]

end MpiExam

/-!
The serial variant: a model of `chuanxing.cpp`

The conventions are those of the model of `mpi_exam.cpp`: a byte is a natural
number, a C string is the list of the bytes of its array (every string function
stops at the first `0`), `int` counters are integers, the bucket array is stored
sparsely by increasing index.  The input stream is the list of the bytes that
remain to be read.
-/

namespace Chuanxing

def MAX_KEY_LEN : Nat := 33

def HASH_CAPACITY : Nat := 1 <<< 20

structure Node where
  key : List Nat
  count : Int
  deriving DecidableEq, Repr

structure HashMap where
  buckets : List (Nat × List Node)
  capacity : Nat
  deriving DecidableEq, Repr

/-- The loop of `hash_string` on an `unsigned long` of 64 bits; `c` is the
(signed) `char` converted to `int`. -/
def hash_loop : Nat → List Nat → Nat
  | h, [] => h
  | h, c :: str =>
    if c = 0 then h
    else hash_loop ((((h <<< 5) % 2 ^ 64 + h) % 2 ^ 64) ^^^ MpiExam.sign_extend c) str

def hash_string (str : List Nat) : Nat := hash_loop 5381 str

def create_hashmap (capacity : Nat) : HashMap := { buckets := [], capacity := capacity }

/-- Chain stored in `buckets[h]` (empty for a NULL bucket). -/
def bucket_get : List (Nat × List Node) → Nat → List Node
  | [], _ => []
  | (i, chain) :: bs, h => if h = i then chain else bucket_get bs h

/-- Assignment `buckets[h] = chain`. -/
def bucket_set : List (Nat × List Node) → Nat → List Node → List (Nat × List Node)
  | [], h, chain => [(h, chain)]
  | (i, c) :: bs, h, chain =>
    if h < i then (h, chain) :: (i, c) :: bs
    else if h = i then (i, chain) :: bs
    else (i, c) :: bucket_set bs h chain

/-- The string left by `strncpy(dest, src, n)` followed by `dest[n] = 0`: the
bytes of `src` before its terminator, at most `n` of them. -/
def strncpy (src : List Nat) (n : Nat) : List Nat := (MpiExam.cstr src).take n

/-- The `while` loop of `hashmap_put`: the chain with the count of the first
node whose key compares equal incremented, `none` when `cur` reaches NULL. -/
def chain_put (key : List Nat) : List Node → Option (List Node)
  | [] => none
  | cur :: rest =>
    if MpiExam.strcmp cur.key key = 0 then some ({ cur with count := cur.count + 1 } :: rest)
    else (chain_put key rest).map (cur :: ·)

/-- The function `hashmap_put`. -/
def hashmap_put (map : HashMap) (key : List Nat) : HashMap :=
  let h := hash_string key % map.capacity
  match chain_put key (bucket_get map.buckets h) with
  | some chain => { map with buckets := bucket_set map.buckets h chain }
  | none =>
    let newNode : Node := { key := strncpy key (MAX_KEY_LEN - 1), count := 1 }
    { map with buckets := bucket_set map.buckets h (newNode :: bucket_get map.buckets h) }

structure Entry where
  key : List Nat
  count : Int
  deriving DecidableEq, Repr

/-- The function `compare_entries`; the subtraction is an `int` subtraction. -/
def compare_entries (ea eb : Entry) : Int :=
  if ea.count ≠ eb.count then MpiExam.wrap32 (eb.count - ea.count)
  else MpiExam.strcmp ea.key eb.key

/-- The bytes stored by `fgets` when at most `k` bytes may still be stored,
and the bytes left in the stream: reading stops after a newline, at the end of
the stream, or when the buffer is full. -/
def fgets_loop : Nat → List Nat → List Nat × List Nat
  | 0, stream => ([], stream)
  | _ + 1, [] => ([], [])
  | k + 1, c :: stream =>
    if c = 10 then ([c], stream)
    else (c :: (fgets_loop k stream).1, (fgets_loop k stream).2)

/-- The libc `fgets(line, n, file)`: `none` for a NULL result (end of the stream
and no byte read), otherwise the string stored in `line` (at most `n - 1` bytes)
and the rest of the stream. -/
def fgets (n : Nat) (stream : List Nat) : Option (List Nat × List Nat) :=
  match stream with
  | [] => none
  | _ :: _ => some (fgets_loop (n - 1) stream)

/-- The libc `strcspn(s, "\n")`: number of bytes of `s` before the first newline
or the terminator. -/
def strcspn : List Nat → Nat
  | [] => 0
  | c :: s => if c = 10 ∨ c = 0 then 0 else strcspn s + 1

/-- The reading loop of `process_file`; the first argument bounds the number of
iterations (every call of `fgets` that succeeds consumes a byte). -/
def read_loop : Nat → List Nat → HashMap → HashMap
  | 0, _, map => map
  | fuel + 1, stream, map =>
    match fgets MAX_KEY_LEN stream with
    | none => map
    | some (line, rest) => read_loop fuel rest (hashmap_put map (line.take (strcspn line)))

/-- The second collecting loop of `process_file`: the entries by increasing
bucket index, every chain from its head. -/
def collect (map : HashMap) : List Entry :=
  ((map.buckets.filter (fun b => b.1 < map.capacity)).flatMap (fun b => b.2)).map
    (fun cur => { key := strncpy cur.key MAX_KEY_LEN, count := cur.count })

/-- Insertion of an element in a sorted list, before the first element that
compares greater. -/
def qsort_insert (cmp : Entry → Entry → Int) (e : Entry) : List Entry → List Entry
  | [] => [e]
  | x :: l => if cmp e x ≤ 0 then e :: x :: l else x :: qsort_insert cmp e l

/-- The libc `qsort` with the comparison `cmp`, as a sort by insertion (the C
standard fixes the result up to the order of elements that compare equal). -/
def qsort (cmp : Entry → Entry → Int) (entries : List Entry) : List Entry :=
  entries.foldr (qsort_insert cmp) []

/-- The function `process_file` on the bytes of the input file: the value of
`unique_count` and the rows written after it. -/
def process_file (file : List Nat) : Nat × List Entry :=
  let map := read_loop (file.length + 1) file (create_hashmap HASH_CAPACITY)
  let entries := collect map
  (entries.length, qsort compare_entries entries)

/-- A file with one record of 32 bytes `a`. -/
def record32_file : List Nat := List.replicate 32 97 ++ [10]

/-- A file with one record of 31 bytes `a`. -/
def record31_file : List Nat := List.replicate 31 97 ++ [10]

end Chuanxing

/-!
The shared-memory variant: a model of `omp_exam.cpp`

The iterations of a `parallel for` loop are executed one after the other; the
thread that executes an iteration of the counting loop is given by an
assignment, and the order in which the iterations of the merging loop are
executed is given by a list.  The tasks of `parallel_merge_sort` are executed
when they are created.
-/

namespace OmpExam

structure Node where
  key : List Nat
  count : Int
  deriving DecidableEq, Repr

structure HashMap where
  buckets : List (Nat × List Node)
  capacity : Nat
  deriving DecidableEq, Repr

/-- The loop of `hash_string` on an `unsigned long` of 64 bits; `*str` is a
(signed) `char`. -/
def hash_loop : Nat → List Nat → Nat
  | h, [] => h
  | h, c :: str =>
    if c = 0 then h
    else hash_loop ((((h <<< 5) % 2 ^ 64 + h) % 2 ^ 64 + MpiExam.sign_extend c) % 2 ^ 64) str

def hash_string (str : List Nat) : Nat := hash_loop 5381 str

def create_hashmap (cap : Nat) : HashMap := { buckets := [], capacity := cap }

/-- Chain stored in `buckets[h]` (empty for a NULL bucket). -/
def bucket_get : List (Nat × List Node) → Nat → List Node
  | [], _ => []
  | (i, chain) :: bs, h => if h = i then chain else bucket_get bs h

/-- Assignment `buckets[h] = chain`. -/
def bucket_set : List (Nat × List Node) → Nat → List Node → List (Nat × List Node)
  | [], h, chain => [(h, chain)]
  | (i, c) :: bs, h, chain =>
    if h < i then (h, chain) :: (i, c) :: bs
    else if h = i then (i, chain) :: bs
    else (i, c) :: bucket_set bs h chain

/-- The libc `strdup`: a copy of the string, up to its terminator. -/
def strdup (s : List Nat) : List Nat := MpiExam.cstr s

/-- The `while` loop of `hashmap_add`: the chain with `cnt` added to the count of
the first node whose key compares equal, `none` when `cur` reaches NULL.  The
addition is exact; `Int32.chain_add` is the loop with the addition of 32 bits. -/
def chain_add (key : List Nat) (cnt : Int) : List Node → Option (List Node)
  | [] => none
  | cur :: rest =>
    if MpiExam.strcmp cur.key key = 0 then some ({ cur with count := cur.count + cnt } :: rest)
    else (chain_add key cnt rest).map (cur :: ·)

/-- The function `hashmap_add` (the lock of the bucket is taken on entry and
released on both returns). -/
def hashmap_add (m : HashMap) (key : List Nat) (cnt : Int) : HashMap :=
  let h := hash_string key % m.capacity
  match chain_add key cnt (bucket_get m.buckets h) with
  | some chain => { m with buckets := bucket_set m.buckets h chain }
  | none =>
    let n : Node := { key := strdup key, count := cnt }
    { m with buckets := bucket_set m.buckets h (n :: bucket_get m.buckets h) }

structure Entry where
  key : List Nat
  count : Int
  deriving DecidableEq, Repr

/-- The function `collect_from_hashmap(m, list)`: the nodes by increasing bucket
index, every chain from its head, pushed at the end of `list`. -/
def collect_from_hashmap (m : HashMap) (list : List Entry) : List Entry :=
  list ++ ((m.buckets.filter (fun b => b.1 < m.capacity)).flatMap (fun b => b.2)).map
    (fun n => { key := n.key, count := n.count })

/-- The three `while` loops of `merge`: the arguments are `arr[i..m]` and
`arr[j..r]`, the result is what is written from `temp[k]` on. -/
def merge_loop : Nat → List Entry → List Entry → List Entry
  | 0, _, _ => []
  | _ + 1, [], R => R
  | _ + 1, L, [] => L
  | fuel + 1, a :: L, b :: R =>
    if a.count > b.count ∨ (a.count = b.count ∧ MpiExam.strcmp a.key b.key < 0) then
      a :: merge_loop fuel L (b :: R)
    else b :: merge_loop fuel (a :: L) R

/-- The function `merge(arr, l, m, r, temp)`: the array after the copy back. -/
def merge (arr : List Entry) (l m r : Nat) : List Entry :=
  let L := (arr.drop l).take (m + 1 - l)
  let R := (arr.drop (m + 1)).take (r - m)
  arr.take l ++ merge_loop ((m + 1 - l) + (r - m) + 1) L R ++ arr.drop (r + 1)

/-- The function `parallel_merge_sort(arr, l, r, temp)`, the two tasks executed
in the order of their creation; the first argument bounds the depth of the
recursion. -/
def parallel_merge_sort : Nat → List Entry → Nat → Nat → List Entry
  | 0, arr, _, _ => arr
  | fuel + 1, arr, l, r =>
    if l ≥ r then arr
    else
      let m := (l + r) / 2
      let arr1 := parallel_merge_sort fuel arr l m
      let arr2 := parallel_merge_sort fuel arr1 (m + 1) r
      merge arr2 l m r

/-- The lines `lines.data[i]` of the iterations `i` that the thread `tid`
executes, in the order of the iterations; `assign` lists the thread of every
iteration. -/
def thread_lines (lines : List (List Nat)) (assign : List Nat) (tid : Nat) : List (List Nat) :=
  ((lines.zip assign).filter (fun p => p.2 = tid)).map (fun p => p.1)

/-- The table `locals[tid]` after the counting loop (lines 207-211). -/
def local_map (lines : List (List Nat)) (assign : List Nat) (tid : Nat) : HashMap :=
  (thread_lines lines assign tid).foldl (fun m key => hashmap_add m key 1)
    (create_hashmap (1 <<< 18))

/-- One iteration of the merging loop (lines 215-224): the entries collected
from `locals[t]` are added to `global`. -/
def merge_local (global loc : HashMap) : HashMap :=
  (collect_from_hashmap loc []).foldl (fun g e => hashmap_add g e.key e.count) global

/-- The table `global` after the merging loop, the iterations `t` executed in
the order of the list `order`. -/
def global_map (lines : List (List Nat)) (assign : List Nat) (order : List Nat) : HashMap :=
  order.foldl (fun g t => merge_local g (local_map lines assign t))
    (create_hashmap (1 <<< 20))

/-- The rows written to the output file by one iteration of the loop of `main`,
for the lines read from the input file: `result.data` after the sort (the call
has `r = result.size - 1`, which is `-1` for an empty array: the call returns at
once, as it does here with `r = 0`). -/
def group_by_omp (lines : List (List Nat)) (assign : List Nat) (order : List Nat) :
    List Entry :=
  let result := collect_from_hashmap (global_map lines assign order) []
  parallel_merge_sort result.length result 0 (result.length - 1)

/-! ## Notions used in the statements on the shared-memory variant -/

/-- Number of lines of `lines` that are the string `key`. -/
def occurrences (key : List Nat) (lines : List (List Nat)) : Int :=
  ((lines.filter (fun l => decide (MpiExam.strcmp l key = 0))).length : Int)

/-- Order of the rows: larger count first, smaller key first for equal counts. -/
def before (a b : Entry) : Prop :=
  a.count > b.count ∨ (a.count = b.count ∧ MpiExam.strcmp a.key b.key < 0)

/-- Sum of the counts of the nodes whose key satisfies `p`. -/
def wt (p : List Nat → Bool) : List Node → Int
  | [] => 0
  | n :: l => (if p n.key = true then n.count else 0) + wt p l

/-- The nodes of a table, by increasing bucket index. -/
def nodes (m : HashMap) : List Node := m.buckets.flatMap (fun b => b.2)

/-- Invariant of a table under `hashmap_add`: the listed buckets have increasing
indices below the capacity, every node is in the bucket of its hash and has a
positive count, and no chain holds a key twice. -/
def MapInv (m : HashMap) : Prop :=
  0 < m.capacity
  ∧ m.buckets.Pairwise (fun a b => a.1 < b.1)
  ∧ (∀ b ∈ m.buckets, b.1 < m.capacity)
  ∧ (∀ b ∈ m.buckets, ∀ n ∈ b.2, hash_string n.key % m.capacity = b.1 ∧ 1 ≤ n.count)
  ∧ ∀ b ∈ m.buckets, b.2.Pairwise (fun x y => MpiExam.strcmp x.key y.key ≠ 0)

/-- The lines `b`, `a`, `b`, `c`, and an assignment of their iterations to two
threads. -/
def sample_lines : List (List Nat) := [[98], [97], [98], [99]]

def sample_assign : List Nat := [0, 1, 1, 0]

/-! ## Threads that call `hashmap_add` on one table

A thread executes its calls of `hashmap_add` one after the other; a call is
executed in steps, and the steps of the threads are interleaved in any order.
A step is one access to the shared table or to a lock: taking the lock
(line 63), one test of the scan (lines 65-66, with the load of `cur->count` when
the keys are equal), the store of `cur->count` (line 67), the creation of the
node with the load of `m->buckets[h]` (lines 73-76), the store of
`m->buckets[h]` (line 77), the release of the lock (lines 68 and 78).  The
steps take effect in the order of the schedule (`omp_set_lock` and
`omp_unset_lock` flush the memory of the thread); `omp_set_lock` returns only
when the lock is not set.  The pointer `cur` is the position of its node in the
chain of the bucket.
-/

/-- A call `hashmap_add(m, key, cnt)`. -/
structure Call where
  key : List Nat
  cnt : Int
  deriving DecidableEq, Repr

/-- Point that a thread has reached: between two calls (`idle`); before
`omp_set_lock(&m->locks[h])` (`lock`); in the scan with `cur` at the position
`pos` of the chain (`scan`); before the store of `old + cnt` in `cur->count`
(`add`); before the store of the new node, whose `next` field holds the chain
`next`, in `m->buckets[h]` (`link`); before `omp_unset_lock(&m->locks[h])`
(`unlock`). -/
inductive Pc where
  | idle : Pc
  | lock (key : List Nat) (cnt : Int) (h : Nat) : Pc
  | scan (key : List Nat) (cnt : Int) (h : Nat) (pos : Nat) : Pc
  | add (key : List Nat) (cnt : Int) (h : Nat) (pos : Nat) (old : Int) : Pc
  | link (key : List Nat) (cnt : Int) (h : Nat) (next : List Node) : Pc
  | unlock (h : Nat) : Pc
  deriving DecidableEq, Repr

/-- A thread: the calls that it has still to start, and the point it has
reached in the call that it executes. -/
structure Thread where
  todo : List Call
  pc : Pc
  deriving DecidableEq, Repr

/-- The shared table, the buckets whose lock is set, and the threads. -/
structure World where
  m : HashMap
  held : List Nat
  threads : List Thread
  deriving DecidableEq, Repr

/-- The chain after the store of `v` in the field `count` of its node at the
position `pos`. -/
def store_count : List Node → Nat → Int → List Node
  | [], _, _ => []
  | n :: l, 0, v => { n with count := v } :: l
  | n :: l, pos + 1, v => n :: store_count l pos v

/-- One step of a thread: the table, the locks that are set and the thread
after the step.  A thread that has no call left, or that waits for a lock that
is set, does not move.  The store of line 67 writes the sum `old + cnt` as an
`int` of 32 bits. -/
def thread_step (m : HashMap) (held : List Nat) (t : Thread) : HashMap × List Nat × Thread :=
  match t.pc with
  | Pc.idle =>
    match t.todo with
    | [] => (m, held, t)
    | c :: rest =>
      (m, held, { todo := rest, pc := Pc.lock c.key c.cnt (hash_string c.key % m.capacity) })
  | Pc.lock key cnt h =>
    if h ∈ held then (m, held, t)
    else (m, h :: held, { t with pc := Pc.scan key cnt h 0 })
  | Pc.scan key cnt h pos =>
    match (bucket_get m.buckets h)[pos]? with
    | none => (m, held, { t with pc := Pc.link key cnt h (bucket_get m.buckets h) })
    | some cur =>
      if MpiExam.strcmp cur.key key = 0 then
        (m, held, { t with pc := Pc.add key cnt h pos cur.count })
      else (m, held, { t with pc := Pc.scan key cnt h (pos + 1) })
  | Pc.add _ cnt h pos old =>
    let sum := MpiExam.wrap32 (old + cnt)
    ({ m with buckets :=
        bucket_set m.buckets h (store_count (bucket_get m.buckets h) pos sum) },
      held, { t with pc := Pc.unlock h })
  | Pc.link key cnt h next =>
    ({ m with buckets := bucket_set m.buckets h ({ key := strdup key, count := cnt } :: next) },
      held, { t with pc := Pc.unlock h })
  | Pc.unlock h => (m, held.erase h, { t with pc := Pc.idle })

/-- One step of the thread `tid`. -/
def step (s : World) (tid : Nat) : World :=
  match s.threads[tid]? with
  | none => s
  | some t =>
    { m := (thread_step s.m s.held t).1, held := (thread_step s.m s.held t).2.1,
      threads := s.threads.set tid (thread_step s.m s.held t).2.2 }

/-- The steps of a schedule: the list of the threads that move, in order. -/
def run (s : World) (sched : List Nat) : World := sched.foldl step s

/-- The threads before their first call: thread `i` has the calls `calls[i]` to
execute on the table `m`, and no lock is set. -/
def start (m : HashMap) (calls : List (List Call)) : World :=
  { m := m, held := [], threads := calls.map (fun cs => { todo := cs, pc := Pc.idle }) }

/-- Every thread has returned from its last call. -/
def finished (s : World) : Prop := ∀ t ∈ s.threads, t.pc = Pc.idle ∧ t.todo = []

instance (s : World) : Decidable (finished s) := by
  unfold finished
  infer_instance

namespace Int32

/-- The `while` loop of `hashmap_add` with the addition `cur->count += cnt` of an
`int` of 32 bits. -/
def chain_add (key : List Nat) (cnt : Int) : List Node → Option (List Node)
  | [] => none
  | cur :: rest =>
    if MpiExam.strcmp cur.key key = 0 then
      some ({ cur with count := MpiExam.wrap32 (cur.count + cnt) } :: rest)
    else (chain_add key cnt rest).map (cur :: ·)

/-- The function `hashmap_add` executed by one thread from its entry to its
return, with the addition of an `int` of 32 bits. -/
def hashmap_add (m : HashMap) (key : List Nat) (cnt : Int) : HashMap :=
  let h := hash_string key % m.capacity
  match chain_add key cnt (bucket_get m.buckets h) with
  | some chain => { m with buckets := bucket_set m.buckets h chain }
  | none =>
    let n : Node := { key := strdup key, count := cnt }
    { m with buckets := bucket_set m.buckets h (n :: bucket_get m.buckets h) }

/-- The calls executed one after the other. -/
def run_calls (m : HashMap) (calls : List Call) : HashMap :=
  calls.foldl (fun m c => hashmap_add m c.key c.cnt) m

end Int32

/-! ## Notions used in the statements on the threads -/

/-- Sum of the `cnt` arguments of the calls whose key satisfies `p`. -/
def call_sum (p : List Nat → Bool) : List Call → Int
  | [] => 0
  | c :: l => (if p c.key = true then c.cnt else 0) + call_sum p l

/-- The counts of the nodes are values of an `int` of 32 bits. -/
def IntNodes (l : List Node) : Prop := ∀ n ∈ l, -(2 ^ 31) ≤ n.count ∧ n.count < 2 ^ 31

instance (l : List Node) : Decidable (IntNodes l) := by
  unfold IntNodes
  infer_instance

/-- The `cnt` arguments of the calls are values of an `int` of 32 bits. -/
def IntCalls (l : List Call) : Prop := ∀ c ∈ l, -(2 ^ 31) ≤ c.cnt ∧ c.cnt < 2 ^ 31

instance (l : List Call) : Decidable (IntCalls l) := by
  unfold IntCalls
  infer_instance

/-- The `cnt` argument of the call that a thread executes (0 between two calls
and after the store). -/
def pc_cnt : Pc → Int
  | Pc.lock _ cnt _ => cnt
  | Pc.scan _ cnt _ _ => cnt
  | Pc.add _ cnt _ _ _ => cnt
  | Pc.link _ cnt _ _ => cnt
  | _ => 0

/-- Every count of the table and every `cnt` argument of a call that is not
completed is a value of an `int` of 32 bits. -/
def IntWorld (s : World) : Prop :=
  IntNodes (nodes s.m)
  ∧ ∀ t ∈ s.threads, IntCalls t.todo ∧ -(2 ^ 31) ≤ pc_cnt t.pc ∧ pc_cnt t.pc < 2 ^ 31

/-- The bucket whose lock a thread must hold at the point it has reached: from
the return of `omp_set_lock` to the call of `omp_unset_lock`. -/
def crit : Pc → Option Nat
  | Pc.scan _ _ h _ => some h
  | Pc.add _ _ h _ _ => some h
  | Pc.link _ _ h _ => some h
  | Pc.unlock h => some h
  | _ => none

/-- Shape of a table: the listed buckets have increasing indices below the
capacity, every node is in the bucket of its hash, and no chain holds a key
twice. -/
def MapShape (m : HashMap) : Prop :=
  0 < m.capacity
  ∧ m.buckets.Pairwise (fun a b => a.1 < b.1)
  ∧ (∀ b ∈ m.buckets, b.1 < m.capacity)
  ∧ (∀ b ∈ m.buckets, ∀ n ∈ b.2, hash_string n.key % m.capacity = b.1)
  ∧ ∀ b ∈ m.buckets, b.2.Pairwise (fun x y => MpiExam.strcmp x.key y.key ≠ 0)

/-- What a thread knows of the table at the point it has reached. -/
def Asserts (m : HashMap) : Pc → Prop
  | Pc.idle => True
  | Pc.lock key _ h => h = hash_string key % m.capacity
  | Pc.scan key _ h pos =>
    h = hash_string key % m.capacity
      ∧ ∀ n ∈ (bucket_get m.buckets h).take pos, MpiExam.strcmp n.key key ≠ 0
  | Pc.add key _ h pos old =>
    h = hash_string key % m.capacity
      ∧ ∃ cur, (bucket_get m.buckets h)[pos]? = some cur ∧ cur.count = old
          ∧ MpiExam.strcmp cur.key key = 0
  | Pc.link key _ h next =>
    h = hash_string key % m.capacity ∧ bucket_get m.buckets h = next
      ∧ ∀ n ∈ next, MpiExam.strcmp n.key key ≠ 0
  | Pc.unlock _ => True

/-- The locks are held by the threads that are between `omp_set_lock` and
`omp_unset_lock`, and by no other: a lock that is set is the lock of the bucket
of such a thread, and no two such threads have the same bucket. -/
def LockInv (s : World) : Prop :=
  s.held.Nodup
  ∧ (∀ (i : Nat) (t : Thread) (h : Nat), s.threads[i]? = some t → crit t.pc = some h → h ∈ s.held)
  ∧ (∀ h ∈ s.held, ∃ i : Nat, ∃ t : Thread, s.threads[i]? = some t ∧ crit t.pc = some h)
  ∧ ∀ (i j : Nat) (ti tj : Thread) (h : Nat), s.threads[i]? = some ti → s.threads[j]? = some tj →
      crit ti.pc = some h → crit tj.pc = some h → i = j

/-- Invariant of the interleaved execution. -/
def WorldInv (s : World) : Prop :=
  MapShape s.m ∧ LockInv s ∧ ∀ (i : Nat) (t : Thread), s.threads[i]? = some t → Asserts s.m t.pc

/-- What the call that a thread executes has still to add to the counts of the
keys that satisfy `p`. -/
def pc_sum (p : List Nat → Bool) : Pc → Int
  | Pc.lock key cnt _ => if p key = true then cnt else 0
  | Pc.scan key cnt _ _ => if p key = true then cnt else 0
  | Pc.add key cnt _ _ _ => if p key = true then cnt else 0
  | Pc.link key cnt _ _ => if p key = true then cnt else 0
  | _ => 0

/-- What a thread has still to add to the counts of the keys that satisfy `p`. -/
def thread_sum (p : List Nat → Bool) (t : Thread) : Int := call_sum p t.todo + pc_sum p t.pc

/-- Number of calls of a thread that may still create a node. -/
def open_calls (t : Thread) : Nat :=
  t.todo.length + (match t.pc with
    | Pc.lock _ _ _ => 1
    | Pc.scan _ _ _ _ => 1
    | Pc.link _ _ _ _ => 1
    | _ => 0)

/-- Bound on the number of nodes of the table from now on. -/
def node_bound (s : World) : Nat := (nodes s.m).length + (s.threads.map open_calls).sum

/-- Bound on the number of steps that a thread still takes, when the table
never holds more than `N` nodes. -/
def thread_cost (N : Nat) (t : Thread) : Nat :=
  t.todo.length * (N + 5) + (match t.pc with
    | Pc.idle => 0
    | Pc.lock _ _ _ => N + 4
    | Pc.scan _ _ _ pos => (N - pos) + 3
    | Pc.add _ _ _ _ _ => 2
    | Pc.link _ _ _ _ => 2
    | Pc.unlock _ => 1)

/-- Bound on the number of steps that change the state. -/
def cost (s : World) : Nat := (s.threads.map (thread_cost (node_bound s))).sum

/-- Two threads that add the keys `a`, `b`, `a` and `a`, `c` to the empty table. -/
def sample_calls : List (List Call) :=
  [[{ key := [97], cnt := 1 }, { key := [98], cnt := 2 }, { key := [97], cnt := 3 }],
   [{ key := [97], cnt := 4 }, { key := [99], cnt := 5 }]]

/-- A schedule in which the two threads alternate, followed by steps of thread 0. -/
def sample_sched : List Nat :=
  [0, 1, 0, 1, 0, 1, 0, 1, 0, 1, 0, 1, 0, 1, 0, 1, 0, 1, 0, 1, 0, 1, 0, 1, 0, 1, 0, 1,
   0, 0, 0, 0, 0, 0, 0, 0]

/-- Two threads that add the key `a`, one with `cnt = 2147483647` and one with
`cnt = 1`, to the empty table. -/
def max_calls : List (List Call) :=
  [[{ key := [97], cnt := 2147483647 }], [{ key := [97], cnt := 1 }]]

/-- A schedule in which the two threads alternate, followed by steps of thread 1. -/
def max_sched : List Nat := [0, 1, 0, 1, 0, 1, 0, 1, 0, 1, 1, 1, 1, 1, 1]

end OmpExam

set_option maxRecDepth 100000

namespace MpiExam

/-! ## Strings -/

theorem strcmp_self (a : List Nat) : strcmp a a = 0 := by
  induction a with
  | nil => simp [strcmp]
  | cons x xs ih => simp [strcmp, ih]

theorem strcmp_swap (a b : List Nat) : strcmp b a = - strcmp a b := by
  induction a generalizing b with
  | nil => cases b <;> simp [strcmp]
  | cons x xs ih =>
    cases b with
    | nil => simp [strcmp]
    | cons y ys =>
      simp only [strcmp]
      by_cases h : x = y
      · subst h
        by_cases h0 : x = 0
        · simp [h0]
        · simp [h0, ih]
      · have h' : ¬ y = x := fun e => h e.symm
        simp [h, h']

theorem strcmp_trans (a b c : List Nat) (h1 : strcmp a b ≤ 0) (h2 : strcmp b c ≤ 0) :
    strcmp a c ≤ 0 := by
  induction a generalizing b c with
  | nil =>
    cases c with
    | nil => simp [strcmp]
    | cons z zs => simp [strcmp]
  | cons x xs ih =>
    cases b with
    | nil =>
      simp only [strcmp] at h1
      have hx : x = 0 := by omega
      subst hx
      cases c with
      | nil => simp [strcmp]
      | cons z zs =>
        simp only [strcmp]
        split_ifs <;> omega
    | cons y ys =>
      cases c with
      | nil =>
        simp only [strcmp] at h2 ⊢
        simp only [strcmp] at h1
        have hy : y = 0 := by omega
        subst hy
        split_ifs at h1 <;> omega
      | cons z zs =>
        simp only [strcmp] at h1 h2 ⊢
        split_ifs at h1 h2 ⊢ <;> first | omega | exact ih _ _ h1 h2

theorem strcmp_congr_left (a b c : List Nat) (h : strcmp a b = 0) : strcmp a c = strcmp b c := by
  induction a generalizing b c with
  | nil =>
    cases b with
    | nil => rfl
    | cons y ys =>
      simp only [strcmp] at h
      have hy : y = 0 := by omega
      subst hy
      cases c with
      | nil => simp [strcmp]
      | cons z zs =>
        simp only [strcmp]
        split_ifs <;> omega
  | cons x xs ih =>
    cases b with
    | nil =>
      simp only [strcmp] at h
      have hx : x = 0 := by omega
      subst hx
      cases c with
      | nil => simp [strcmp]
      | cons z zs =>
        simp only [strcmp]
        split_ifs <;> omega
    | cons y ys =>
      simp only [strcmp] at h
      by_cases hxy : x = y
      · subst hxy
        by_cases h0 : x = 0
        · subst h0
          cases c with
          | nil => simp [strcmp]
          | cons z zs => simp [strcmp]
        · simp only [ne_eq, not_true_eq_false, if_false, h0] at h
          cases c with
          | nil => simp [strcmp]
          | cons z zs =>
            simp only [strcmp]
            split_ifs
            · rfl
            · exact ih _ _ h
      · simp only [ne_eq, hxy, not_false_eq_true, if_true] at h
        omega

theorem strcmp_congr_right (a b c : List Nat) (h : strcmp a b = 0) : strcmp c a = strcmp c b := by
  rw [strcmp_swap a c, strcmp_swap b c, strcmp_congr_left a b c h]

theorem strcmp_total (a b : List Nat) : strcmp a b ≤ 0 ∨ strcmp b a ≤ 0 := by
  rw [strcmp_swap a b]
  omega

/-! ### The merge loop -/

theorem merge_loop_perm (cmp : Entry → Entry → Int) (fuel : Nat) (L R : List Entry)
    (h : L.length + R.length < fuel) : List.Perm (merge_loop cmp fuel L R) (L ++ R) := by
  induction fuel generalizing L R with
  | zero => omega
  | succ n ih =>
    cases L with
    | nil => simp [merge_loop]
    | cons a L =>
      cases R with
      | nil => simp [merge_loop]
      | cons b R =>
        simp only [merge_loop]
        simp only [List.length_cons] at h
        split_ifs with hc
        · exact List.Perm.cons a (ih L (b :: R) (by simp only [List.length_cons]; omega))
        · have h1 := ih (a :: L) R (by simp only [List.length_cons]; omega)
          have h2 : List.Perm (b :: (a :: L ++ R)) (a :: L ++ b :: R) :=
            List.perm_middle.symm
          exact (List.Perm.cons b h1).trans h2

theorem merge_loop_sorted (cmp : Entry → Entry → Int) (S : Entry → Prop)
    (htotal : ∀ a b, S a → S b → cmp a b ≤ 0 ∨ cmp b a ≤ 0)
    (htrans : ∀ a b c, S a → S b → S c → cmp a b ≤ 0 → cmp b c ≤ 0 → cmp a c ≤ 0)
    (fuel : Nat) (L R : List Entry) (h : L.length + R.length < fuel)
    (hSL : ∀ e ∈ L, S e) (hSR : ∀ e ∈ R, S e)
    (hL : L.Pairwise (fun a b => cmp a b ≤ 0)) (hR : R.Pairwise (fun a b => cmp a b ≤ 0)) :
    (merge_loop cmp fuel L R).Pairwise (fun a b => cmp a b ≤ 0) := by
  induction fuel generalizing L R with
  | zero => omega
  | succ n ih =>
    cases L with
    | nil => simpa [merge_loop] using hR
    | cons a L =>
      cases R with
      | nil => simpa [merge_loop] using hL
      | cons b R =>
        simp only [merge_loop]
        simp only [List.length_cons] at h
        have hSa : S a := hSL a (List.mem_cons_self _ _)
        have hSb : S b := hSR b (List.mem_cons_self _ _)
        have hL' := List.pairwise_cons.1 hL
        have hR' := List.pairwise_cons.1 hR
        split_ifs with hc
        · have hlen : L.length + (b :: R).length < n := by simp only [List.length_cons]; omega
          refine List.pairwise_cons.2 ⟨?_, ih L (b :: R) hlen
            (fun e he => hSL e (List.mem_cons_of_mem _ he)) hSR hL'.2 hR⟩
          intro x hx
          have hx' := (merge_loop_perm cmp n L (b :: R) hlen).mem_iff.1 hx
          rcases List.mem_append.1 hx' with hxL | hxR
          · exact hL'.1 x hxL
          · rcases List.mem_cons.1 hxR with rfl | hxR'
            · exact hc
            · exact htrans a b x hSa hSb (hSR x hxR) hc (hR'.1 x hxR')
        · have hlen : (a :: L).length + R.length < n := by simp only [List.length_cons]; omega
          have hba : cmp b a ≤ 0 := by
            rcases htotal a b hSa hSb with h1 | h1
            · exact absurd h1 hc
            · exact h1
          refine List.pairwise_cons.2 ⟨?_, ih (a :: L) R hlen hSL
            (fun e he => hSR e (List.mem_cons_of_mem _ he)) hL hR'.2⟩
          intro x hx
          have hx' := (merge_loop_perm cmp n (a :: L) R hlen).mem_iff.1 hx
          rcases List.mem_append.1 hx' with hxL | hxR
          · rcases List.mem_cons.1 hxL with rfl | hxL'
            · exact hba
            · exact htrans b a x hSb hSa (hSL x hxL) hba (hL'.1 x hxL')
          · exact hR'.1 x hxR

/-! ### Merge sort on a range of the array -/

theorem merge_entries_append (cmp : Entry → Entry → Int) (A s1 s2 B : List Entry)
    (h1 : s1 ≠ []) :
    merge_entries cmp (A ++ (s1 ++ (s2 ++ B))) A.length (A.length + s1.length - 1)
      (A.length + s1.length + s2.length - 1)
    = A ++ (merge_loop cmp (s1.length + s2.length + 1) s1 s2 ++ B) := by
  have hpos : 0 < s1.length := List.length_pos.2 h1
  unfold merge_entries
  have e1 : A.length + s1.length - 1 - A.length + 1 = s1.length := by omega
  have e2 : A.length + s1.length + s2.length - 1 - (A.length + s1.length - 1) = s2.length := by
    omega
  have e3 : A.length + s1.length - 1 + 1 = (A ++ s1).length := by
    simp only [List.length_append]; omega
  have e4 : A.length + s1.length + s2.length - 1 + 1 = (A ++ (s1 ++ s2)).length := by
    simp only [List.length_append]; omega
  simp only [e1, e2]
  rw [e3, e4]
  have d1 : List.drop A.length (A ++ (s1 ++ (s2 ++ B))) = s1 ++ (s2 ++ B) :=
    List.drop_left' rfl
  have d2 : List.drop (A ++ s1).length (A ++ (s1 ++ (s2 ++ B))) = s2 ++ B := by
    rw [← List.append_assoc A s1]
    exact List.drop_left' rfl
  have d3 : List.drop (A ++ (s1 ++ s2)).length (A ++ (s1 ++ (s2 ++ B))) = B := by
    rw [← List.append_assoc s1 s2, ← List.append_assoc A (s1 ++ s2)]
    exact List.drop_left' rfl
  have t1 : List.take A.length (A ++ (s1 ++ (s2 ++ B))) = A := List.take_left' rfl
  rw [d1, d2, d3, t1, List.take_left' rfl, List.take_left' rfl]
  simp only [List.append_assoc]

theorem merge_sort_range (cmp : Entry → Entry → Int) (S : Entry → Prop)
    (htotal : ∀ a b, S a → S b → cmp a b ≤ 0 ∨ cmp b a ≤ 0)
    (htrans : ∀ a b c, S a → S b → S c → cmp a b ≤ 0 → cmp b c ≤ 0 → cmp a c ≤ 0)
    (fuel : Nat) (A X B : List Entry)
    (hX : X ≠ []) (hfuel : X.length ≤ fuel) :
    ∃ s, merge_sort cmp fuel (A ++ (X ++ B)) A.length (A.length + X.length - 1) = A ++ (s ++ B)
      ∧ List.Perm s X ∧ ((∀ e ∈ X, S e) → s.Pairwise (fun a b => cmp a b ≤ 0)) := by
  induction fuel generalizing A X B with
  | zero =>
    have := List.length_pos.2 hX
    omega
  | succ n ih =>
    have hpos : 0 < X.length := List.length_pos.2 hX
    simp only [merge_sort]
    by_cases hlt : A.length < A.length + X.length - 1
    · rw [if_pos hlt]
      set k := (X.length - 1) / 2 + 1 with hk
      have hk1 : k < X.length := by omega
      have hX1 : (X.take k).length = k := by
        rw [List.length_take]; omega
      have hX2 : (X.drop k).length = X.length - k := List.length_drop _ _
      have hsplit : X = X.take k ++ X.drop k := (List.take_append_drop k X).symm
      have hne1 : X.take k ≠ [] := by
        intro h0
        rw [h0] at hX1
        simp at hX1
        omega
      have hne2 : X.drop k ≠ [] := by
        intro h0
        rw [h0] at hX2
        simp at hX2
        omega
      have hm : A.length + (A.length + X.length - 1 - A.length) / 2
          = A.length + (X.take k).length - 1 := by
        rw [hX1]
        have : A.length + X.length - 1 - A.length = X.length - 1 := by omega
        rw [this]
        omega
      rw [hm]
      obtain ⟨s1, hs1, hp1, hsort1⟩ := ih A (X.take k) (X.drop k ++ B) hne1 (by omega)
      have harr : A ++ (X ++ B) = A ++ (X.take k ++ (X.drop k ++ B)) := by
        rw [← List.append_assoc (X.take k), List.take_append_drop]
      rw [harr, hs1]
      have hl1 : s1.length = k := by rw [hp1.length_eq, hX1]
      obtain ⟨s2, hs2, hp2, hsort2⟩ := ih (A ++ s1) (X.drop k) B hne2 (by omega)
      have hidx1 : A.length + (X.take k).length - 1 + 1 = (A ++ s1).length := by
        simp only [List.length_append]; omega
      have hidx2 : A.length + X.length - 1 = (A ++ s1).length + (X.drop k).length - 1 := by
        simp only [List.length_append]; omega
      rw [hidx1, hidx2]
      rw [show A ++ (s1 ++ (X.drop k ++ B)) = (A ++ s1) ++ (X.drop k ++ B) by
        simp only [List.append_assoc]]
      rw [hs2]
      have hs1ne : s1 ≠ [] := by
        intro h0
        rw [h0] at hl1
        simp at hl1
        omega
      have hidx3 : (X.take k).length = s1.length := by omega
      have hidx4 : (A ++ s1).length + (X.drop k).length - 1
          = A.length + s1.length + s2.length - 1 := by
        simp only [List.length_append]
        rw [hp2.length_eq]
      rw [hidx3, hidx4]
      rw [show (A ++ s1) ++ (s2 ++ B) = A ++ (s1 ++ (s2 ++ B)) by simp only [List.append_assoc]]
      rw [merge_entries_append cmp A s1 s2 B hs1ne]
      refine ⟨_, rfl, ?_, ?_⟩
      · have hm := merge_loop_perm cmp (s1.length + s2.length + 1) s1 s2 (by omega)
        refine hm.trans ?_
        have : List.Perm (s1 ++ s2) (X.take k ++ X.drop k) := List.Perm.append hp1 hp2
        rw [List.take_append_drop] at this
        exact this
      · intro hS
        have hS1 : ∀ e ∈ X.take k, S e := fun e he => hS e (List.mem_of_mem_take he)
        have hS2 : ∀ e ∈ X.drop k, S e := fun e he => hS e (List.mem_of_mem_drop he)
        exact merge_loop_sorted cmp S htotal htrans _ s1 s2 (by omega)
          (fun e he => hS1 e (hp1.mem_iff.1 he)) (fun e he => hS2 e (hp2.mem_iff.1 he))
          (hsort1 hS1) (hsort2 hS2)
    · rw [if_neg hlt]
      refine ⟨X, rfl, List.Perm.refl _, ?_⟩
      intro _
      have h1 : X.length = 1 := by omega
      match X, h1 with
      | [x], _ => exact List.pairwise_singleton _ _

theorem sort_entries_spec (cmp : Entry → Entry → Int) (S : Entry → Prop)
    (htotal : ∀ a b, S a → S b → cmp a b ≤ 0 ∨ cmp b a ≤ 0)
    (htrans : ∀ a b c, S a → S b → S c → cmp a b ≤ 0 → cmp b c ≤ 0 → cmp a c ≤ 0)
    (entries : List Entry) :
    List.Perm (sort_entries cmp entries) entries
      ∧ ((∀ e ∈ entries, S e) → (sort_entries cmp entries).Pairwise (fun a b => cmp a b ≤ 0)) := by
  unfold sort_entries
  split_ifs with h
  · have hne : entries ≠ [] := by
      intro h0
      rw [h0] at h
      simp at h
    obtain ⟨s, hs, hp, hsort⟩ :=
      merge_sort_range cmp S htotal htrans entries.length [] entries [] hne (le_refl _)
    simp only [List.nil_append, List.append_nil, List.length_nil, Nat.zero_add] at hs
    rw [hs]
    exact ⟨hp, hsort⟩
  · refine ⟨List.Perm.refl _, fun _ => ?_⟩
    match entries, h with
    | [], _ => exact List.Pairwise.nil
    | [x], _ => exact List.pairwise_singleton _ _
    | _ :: _ :: _, h => simp at h

theorem sort_entries_perm (cmp : Entry → Entry → Int) (entries : List Entry) :
    List.Perm (sort_entries cmp entries) entries :=
  (sort_entries_spec cmp (fun _ => False) (fun _ _ h => h.elim) (fun _ _ _ h => h.elim)
    entries).1

theorem cmp_key_sorted (entries : List Entry) :
    (sort_entries cmp_key entries).Pairwise (fun a b => cmp_key a b ≤ 0) :=
  (sort_entries_spec cmp_key (fun _ => True) (fun a b _ _ => strcmp_total a.key b.key)
    (fun a b c _ _ _ h1 h2 => strcmp_trans a.key b.key c.key h1 h2) entries).2 (fun _ _ => trivial)

/-! ### The comparison by value -/

theorem wrap32_small (x : Int) (h1 : -(2 ^ 31) ≤ x) (h2 : x < 2 ^ 31) : wrap32 x = x := by
  unfold wrap32
  omega

theorem cmp_value_le_iff (a b : Entry) (ha : 1 ≤ a.value ∧ a.value < 2 ^ 31)
    (hb : 1 ≤ b.value ∧ b.value < 2 ^ 31) :
    cmp_value a b ≤ 0 ↔ (a.value > b.value ∨ (a.value = b.value ∧ strcmp a.key b.key ≤ 0)) := by
  unfold cmp_value
  by_cases h : a.value = b.value
  · simp [h]
  · rw [if_pos h, wrap32_small _ (by omega) (by omega)]
    constructor
    · intro h1
      left
      omega
    · intro h1
      rcases h1 with h1 | h1
      · omega
      · exact absurd h1.1 h

theorem cmp_value_total (a b : Entry) (ha : 1 ≤ a.value ∧ a.value < 2 ^ 31)
    (hb : 1 ≤ b.value ∧ b.value < 2 ^ 31) : cmp_value a b ≤ 0 ∨ cmp_value b a ≤ 0 := by
  rw [cmp_value_le_iff a b ha hb, cmp_value_le_iff b a hb ha]
  rcases strcmp_total a.key b.key with h | h
  · rcases lt_trichotomy a.value b.value with h1 | h1 | h1
    · exact Or.inr (Or.inl h1)
    · exact Or.inl (Or.inr ⟨h1, h⟩)
    · exact Or.inl (Or.inl h1)
  · rcases lt_trichotomy a.value b.value with h1 | h1 | h1
    · exact Or.inr (Or.inl h1)
    · exact Or.inr (Or.inr ⟨h1.symm, h⟩)
    · exact Or.inl (Or.inl h1)

theorem cmp_value_trans (a b c : Entry) (ha : 1 ≤ a.value ∧ a.value < 2 ^ 31)
    (hb : 1 ≤ b.value ∧ b.value < 2 ^ 31) (hc : 1 ≤ c.value ∧ c.value < 2 ^ 31)
    (h1 : cmp_value a b ≤ 0) (h2 : cmp_value b c ≤ 0) : cmp_value a c ≤ 0 := by
  rw [cmp_value_le_iff a b ha hb] at h1
  rw [cmp_value_le_iff b c hb hc] at h2
  rw [cmp_value_le_iff a c ha hc]
  rcases h1 with h1 | ⟨h1, k1⟩
  · rcases h2 with h2 | ⟨h2, _⟩
    · left; omega
    · left; omega
  · rcases h2 with h2 | ⟨h2, k2⟩
    · left; omega
    · right
      exact ⟨h1.trans h2, strcmp_trans _ _ _ k1 k2⟩

/-! ### Weights -/

theorem weight_append (p : List Nat → Bool) (l1 l2 : List Entry) :
    weight p (l1 ++ l2) = weight p l1 + weight p l2 := by
  induction l1 with
  | nil => simp [weight]
  | cons e l ih =>
    show (if p e.key = true then e.value else 0) + weight p (l ++ l2)
      = (if p e.key = true then e.value else 0) + weight p l + weight p l2
    rw [ih]
    omega

theorem weight_perm (p : List Nat → Bool) {l1 l2 : List Entry} (h : List.Perm l1 l2) :
    weight p l1 = weight p l2 := by
  induction h with
  | nil => rfl
  | cons x _ ih => simp only [weight, ih]
  | swap x y l => simp only [weight]; omega
  | trans _ _ ih1 ih2 => exact ih1.trans ih2

theorem has_key_perm (k : List Nat) {l1 l2 : List Entry} (h : List.Perm l1 l2) :
    has_key k l1 ↔ has_key k l2 := by
  unfold has_key
  constructor
  · rintro ⟨e, he, hk⟩
    exact ⟨e, h.mem_iff.1 he, hk⟩
  · rintro ⟨e, he, hk⟩
    exact ⟨e, h.mem_iff.2 he, hk⟩

theorem has_key_append (k : List Nat) (l1 l2 : List Entry) :
    has_key k (l1 ++ l2) ↔ has_key k l1 ∨ has_key k l2 := by
  unfold has_key
  constructor
  · rintro ⟨e, he, hk⟩
    rcases List.mem_append.1 he with h | h
    · exact Or.inl ⟨e, h, hk⟩
    · exact Or.inr ⟨e, h, hk⟩
  · rintro (⟨e, he, hk⟩ | ⟨e, he, hk⟩)
    · exact ⟨e, List.mem_append_left _ he, hk⟩
    · exact ⟨e, List.mem_append_right _ he, hk⟩

/-! ### Summing the counts of equal keys -/

theorem merge_same_keys_loop_weight (p : List Nat → Bool)
    (hp : ∀ a b, strcmp a b = 0 → p a = p b) (cur : Entry) (rest : List Entry) :
    weight p (merge_same_keys_loop cur rest) = weight p (cur :: rest) := by
  induction rest generalizing cur with
  | nil => rfl
  | cons e rest ih =>
    simp only [merge_same_keys_loop]
    split_ifs with h
    · rw [ih]
      simp only [weight]
      rw [← hp _ _ h]
      split_ifs <;> omega
    · simp only [weight, ih]

theorem merge_same_keys_weight (p : List Nat → Bool)
    (hp : ∀ a b, strcmp a b = 0 → p a = p b) (l : List Entry) :
    weight p (merge_same_keys l) = weight p l := by
  cases l with
  | nil => rfl
  | cons e rest => exact merge_same_keys_loop_weight p hp e rest

theorem merge_same_keys_loop_keys (cur : Entry) (rest : List Entry) :
    ∀ x ∈ merge_same_keys_loop cur rest, ∃ y ∈ cur :: rest, x.key = y.key := by
  induction rest generalizing cur with
  | nil =>
    intro x hx
    exact ⟨x, hx, rfl⟩
  | cons e rest ih =>
    intro x hx
    simp only [merge_same_keys_loop] at hx
    split_ifs at hx with h
    · obtain ⟨y, hy, hxy⟩ := ih _ x hx
      rcases List.mem_cons.1 hy with rfl | hy'
      · exact ⟨cur, List.mem_cons_self _ _, hxy⟩
      · exact ⟨y, List.mem_cons_of_mem _ (List.mem_cons_of_mem _ hy'), hxy⟩
    · rcases List.mem_cons.1 hx with rfl | hx'
      · exact ⟨x, List.mem_cons_self _ _, rfl⟩
      · obtain ⟨y, hy, hxy⟩ := ih _ x hx'
        exact ⟨y, List.mem_cons_of_mem _ hy, hxy⟩

theorem merge_same_keys_loop_has_key (k : List Nat) (cur : Entry) (rest : List Entry) :
    has_key k (merge_same_keys_loop cur rest) ↔ has_key k (cur :: rest) := by
  constructor
  · rintro ⟨x, hx, hk⟩
    obtain ⟨y, hy, hxy⟩ := merge_same_keys_loop_keys cur rest x hx
    exact ⟨y, hy, hxy ▸ hk⟩
  · induction rest generalizing cur with
    | nil => exact fun h => h
    | cons e rest ih =>
      rintro ⟨x, hx, hk⟩
      simp only [merge_same_keys_loop]
      split_ifs with h
      · apply ih
        rcases List.mem_cons.1 hx with rfl | hx'
        · exact ⟨_, List.mem_cons_self _ _, hk⟩
        · rcases List.mem_cons.1 hx' with rfl | hx''
          · refine ⟨_, List.mem_cons_self _ _, ?_⟩
            show strcmp cur.key k = 0
            rw [strcmp_congr_left _ _ k h]
            exact hk
          · exact ⟨x, List.mem_cons_of_mem _ hx'', hk⟩
      · rcases List.mem_cons.1 hx with rfl | hx'
        · exact ⟨_, List.mem_cons_self _ _, hk⟩
        · obtain ⟨y, hy, hyk⟩ := ih e ⟨x, hx', hk⟩
          exact ⟨y, List.mem_cons_of_mem _ hy, hyk⟩

theorem merge_same_keys_has_key (k : List Nat) (l : List Entry) :
    has_key k (merge_same_keys l) ↔ has_key k l := by
  cases l with
  | nil => exact Iff.rfl
  | cons e rest => exact merge_same_keys_loop_has_key k e rest

theorem strcmp_lt_of_lt_of_le (a b c : List Nat) (h1 : strcmp a b < 0) (h2 : strcmp b c ≤ 0) :
    strcmp a c < 0 := by
  by_contra hne
  have h3 : strcmp c a ≤ 0 := by
    rw [strcmp_swap a c]
    omega
  have h4 := strcmp_trans b c a h2 h3
  rw [strcmp_swap a b] at h4
  omega

theorem merge_same_keys_loop_sorted (cur : Entry) (rest : List Entry)
    (h : (cur :: rest).Pairwise (fun a b => strcmp a.key b.key ≤ 0)) :
    SortedRun (merge_same_keys_loop cur rest) := by
  unfold SortedRun
  induction rest generalizing cur with
  | nil => exact List.pairwise_singleton _ _
  | cons e rest ih =>
    simp only [merge_same_keys_loop]
    have h' := List.pairwise_cons.1 h
    have h'' := List.pairwise_cons.1 h'.2
    split_ifs with hc
    · apply ih
      refine List.pairwise_cons.2 ⟨?_, h''.2⟩
      intro x hx
      exact h'.1 x (List.mem_cons_of_mem _ hx)
    · refine List.pairwise_cons.2 ⟨?_, ih e h'.2⟩
      intro x hx
      obtain ⟨y, hy, hxy⟩ := merge_same_keys_loop_keys e rest x hx
      rw [hxy]
      have hlt : strcmp cur.key e.key < 0 := by
        have := h'.1 e (List.mem_cons_self _ _)
        omega
      rcases List.mem_cons.1 hy with rfl | hy'
      · exact hlt
      · exact strcmp_lt_of_lt_of_le _ _ _ hlt (h''.1 y hy')

theorem merge_same_keys_sorted (l : List Entry)
    (h : l.Pairwise (fun a b => strcmp a.key b.key ≤ 0)) : SortedRun (merge_same_keys l) := by
  cases l with
  | nil => exact List.Pairwise.nil
  | cons e rest => exact merge_same_keys_loop_sorted e rest h

/-! ### Merging two sorted runs -/

theorem SortedRun.le {l : List Entry} (h : SortedRun l) :
    l.Pairwise (fun a b => cmp_key a b ≤ 0) := by
  unfold SortedRun at h
  exact h.imp (fun hab => le_of_lt hab)

theorem merge_sorted_entries_perm (A B : List Entry) :
    List.Perm (merge_sorted_entries A B) (A ++ B) :=
  merge_loop_perm cmp_key _ A B (by omega)

theorem merge_sorted_entries_sorted (A B : List Entry) (hA : SortedRun A) (hB : SortedRun B) :
    (merge_sorted_entries A B).Pairwise (fun a b => strcmp a.key b.key ≤ 0) :=
  merge_loop_sorted cmp_key (fun _ => True) (fun a b _ _ => strcmp_total a.key b.key)
    (fun a b c _ _ _ h1 h2 => strcmp_trans a.key b.key c.key h1 h2) _ A B (by omega)
    (fun _ _ => trivial) (fun _ _ => trivial) hA.le hB.le

theorem merge_runs_sorted (A B : List Entry) (hA : SortedRun A) (hB : SortedRun B) :
    SortedRun (merge_same_keys (merge_sorted_entries A B)) :=
  merge_same_keys_sorted _ (merge_sorted_entries_sorted A B hA hB)

theorem merge_runs_weight (p : List Nat → Bool) (hp : ∀ a b, strcmp a b = 0 → p a = p b)
    (A B : List Entry) :
    weight p (merge_same_keys (merge_sorted_entries A B)) = weight p A + weight p B := by
  rw [merge_same_keys_weight p hp, weight_perm p (merge_sorted_entries_perm A B), weight_append]

theorem merge_runs_has_key (k : List Nat) (A B : List Entry) :
    has_key k (merge_same_keys (merge_sorted_entries A B)) ↔ has_key k A ∨ has_key k B := by
  rw [merge_same_keys_has_key, has_key_perm k (merge_sorted_entries_perm A B), has_key_append]

theorem count_of_respects (k a b : List Nat) (h : strcmp a b = 0) :
    (fun key => decide (strcmp key k = 0)) a = (fun key => decide (strcmp key k = 0)) b := by
  show decide (strcmp a k = 0) = decide (strcmp b k = 0)
  rw [strcmp_congr_left a b k h]

/-! ### The runs of the reduction tree -/

theorem tree_run_sorted (size : Nat) (runs : List (List Entry))
    (hs : ∀ run ∈ runs, SortedRun run) (k r : Nat) : SortedRun (tree_run size runs k r) := by
  induction k generalizing r with
  | zero =>
    simp only [tree_run]
    by_cases h : r < runs.length
    · rw [List.getD_eq_getElem _ _ h]
      exact hs _ (List.getElem_mem h)
    · rw [List.getD_eq_default _ _ (by omega)]
      exact List.Pairwise.nil
  | succ k ih =>
    simp only [tree_run]
    split_ifs
    · exact merge_runs_sorted _ _ (ih r) (ih _)
    · exact ih r

theorem drop_take_weight_zero (f : List Entry → Int) (runs : List (List Entry)) (r n : Nat)
    (h : runs.length ≤ r) : (((runs.drop r).take n).map f).sum = 0 := by
  rw [List.drop_of_length_le h]
  simp

theorem drop_take_split (f : List Entry → Int) (runs : List (List Entry)) (r n m : Nat) :
    (((runs.drop r).take (n + m)).map f).sum
      = (((runs.drop r).take n).map f).sum + (((runs.drop (r + n)).take m).map f).sum := by
  rw [List.take_add, List.map_append, List.sum_append, List.drop_drop]

theorem tree_run_weight (p : List Nat → Bool) (hp : ∀ a b, strcmp a b = 0 → p a = p b)
    (size : Nat) (runs : List (List Entry)) (hlen : runs.length = size) (k r : Nat) :
    weight p (tree_run size runs k r) = (((runs.drop r).take (2 ^ k)).map (weight p)).sum := by
  induction k generalizing r with
  | zero =>
    simp only [tree_run, pow_zero]
    by_cases h : r < runs.length
    · rw [List.getD_eq_getElem _ _ h]
      have : (runs.drop r).take 1 = [runs[r]] := by
        rw [List.drop_eq_getElem_cons h]
        rfl
      rw [this]
      simp
    · rw [List.getD_eq_default _ _ (by omega), List.drop_of_length_le (by omega)]
      simp [weight]
  | succ k ih =>
    simp only [tree_run]
    have h2 : 2 ^ (k + 1) = 2 ^ k + 2 ^ k := by ring
    rw [h2, drop_take_split]
    split_ifs with h
    · rw [merge_runs_weight p hp, ih, ih]
    · rw [ih, drop_take_weight_zero (weight p) runs (r + 2 ^ k) (2 ^ k) (by omega)]
      omega

theorem tree_run_has_key (key : List Nat) (size : Nat) (runs : List (List Entry))
    (hlen : runs.length = size) (k r : Nat) :
    has_key key (tree_run size runs k r)
      ↔ ∃ run ∈ (runs.drop r).take (2 ^ k), has_key key run := by
  induction k generalizing r with
  | zero =>
    simp only [tree_run, pow_zero]
    by_cases h : r < runs.length
    · rw [List.getD_eq_getElem _ _ h]
      have : (runs.drop r).take 1 = [runs[r]] := by
        rw [List.drop_eq_getElem_cons h]
        rfl
      rw [this]
      simp
    · rw [List.getD_eq_default _ _ (by omega), List.drop_of_length_le (by omega)]
      simp [has_key]
  | succ k ih =>
    simp only [tree_run]
    have h2 : 2 ^ (k + 1) = 2 ^ k + 2 ^ k := by ring
    have hsplit : (runs.drop r).take (2 ^ (k + 1))
        = (runs.drop r).take (2 ^ k) ++ (runs.drop (r + 2 ^ k)).take (2 ^ k) := by
      rw [h2, List.take_add, List.drop_drop]
    rw [hsplit]
    split_ifs with h
    · rw [merge_runs_has_key, ih, ih]
      constructor
      · rintro (⟨run, hr, hk⟩ | ⟨run, hr, hk⟩)
        · exact ⟨run, List.mem_append_left _ hr, hk⟩
        · exact ⟨run, List.mem_append_right _ hr, hk⟩
      · rintro ⟨run, hr, hk⟩
        rcases List.mem_append.1 hr with h1 | h1
        · exact Or.inl ⟨run, h1, hk⟩
        · exact Or.inr ⟨run, h1, hk⟩
    · rw [ih, List.drop_of_length_le (show runs.length ≤ r + 2 ^ k by omega)]
      simp

/-! ### The reduction loop -/

theorem all_some_map {α β : Type} (f : α → Option β) (g : α → β) (l : List α)
    (h : ∀ x ∈ l, f x = some (g x)) : all_some (l.map f) = some (l.map g) := by
  induction l with
  | nil => rfl
  | cons a l ih =>
    have ha := h a (List.mem_cons_self _ _)
    have hl := ih (fun x hx => h x (List.mem_cons_of_mem _ hx))
    simp only [List.map_cons, ha, all_some, hl, Option.map_some']

theorem mod_double_cases (s r : Nat) (hs : 0 < s) (h : r % s = 0) :
    r % (2 * s) = 0 ∨ (r % (2 * s) ≠ 0 ∧ s ≤ r ∧ (r - s) % (2 * s) = 0 ∧ (r - s) % s = 0) := by
  obtain ⟨q, rfl⟩ := Nat.dvd_of_mod_eq_zero h
  rcases Nat.even_or_odd' q with ⟨t, rfl | rfl⟩
  · left
    have : s * (2 * t) = 2 * s * t := by ring
    rw [this]
    exact Nat.mul_mod_right _ _
  · right
    have e1 : s * (2 * t + 1) = s + 2 * s * t := by ring
    have e2 : s + 2 * s * t - s = 2 * s * t := by omega
    have e3 : 2 * s * t = s * (2 * t) := by ring
    rw [e1, e2]
    refine ⟨?_, by omega, Nat.mul_mod_right _ _, ?_⟩
    · rw [Nat.add_mul_mod_self_left, Nat.mod_eq_of_lt (by omega)]
      omega
    · rw [e3]
      exact Nat.mul_mod_right _ _

theorem mod_double_zero (s r : Nat) (hs : 0 < s) (h : r % (2 * s) = 0) :
    r % s = 0 ∧ (r + s) % s = 0 ∧ (r + s) % (2 * s) ≠ 0 := by
  obtain ⟨q, rfl⟩ := Nat.dvd_of_mod_eq_zero h
  have e1 : 2 * s * q = s * (2 * q) := by ring
  have e2 : 2 * s * q + s = s * (2 * q + 1) := by ring
  have e3 : 2 * s * q + s = s + 2 * s * q := by ring
  refine ⟨?_, ?_, ?_⟩
  · rw [e1]
    exact Nat.mul_mod_right _ _
  · rw [e2]
    exact Nat.mul_mod_right _ _
  · rw [e3, Nat.add_mul_mod_self_left, Nat.mod_eq_of_lt (by omega)]
    omega

theorem mod_double_ne (s r : Nat) (h : r % s ≠ 0) : r % (2 * s) ≠ 0 := by
  intro h0
  apply h
  have hd : s ∣ r := Dvd.dvd.trans (Dvd.intro_left 2 rfl) (Nat.dvd_of_mod_eq_zero h0)
  exact Nat.mod_eq_zero_of_dvd hd

theorem step_worker_next (size : Nat) (runs : List (List Entry)) (k : Nat) (ws : List Worker)
    (hinv : ReduceInv size runs k ws) (r : Nat) (hr : r < size) :
    ws[r]?.bind (step_worker size (2 ^ k) ws r) = some (next_worker size runs k ws r) := by
  have hs : 0 < 2 ^ k := Nat.pos_pow_of_pos k (by norm_num)
  have hpow : 2 ^ (k + 1) = 2 * 2 ^ k := by ring
  obtain ⟨hlen, hall⟩ := hinv
  obtain ⟨w, hw, hw1, hw2⟩ := hall r hr
  rw [hw, Option.some_bind]
  by_cases hmod : r % 2 ^ k = 0
  · have hweq := hw1 hmod
    rcases mod_double_cases (2 ^ k) r hs hmod with h0 | ⟨h0, hle, hd1, hd2⟩
    · have hnext : next_worker size runs k ws r =
          { local_entries := some (tree_run size runs (k + 1) r), in_loop := true,
            iterations := k + 1 } := by
        unfold next_worker
        rw [hpow, if_pos h0]
      rw [hnext]
      unfold step_worker
      rw [hweq]
      simp only [Bool.true_eq_false, if_false, h0, if_true]
      by_cases hsrc : r + 2 ^ k < size
      · obtain ⟨src, hsrc1, hsrc2, _⟩ := hall (r + 2 ^ k) hsrc
        have hz := mod_double_zero (2 ^ k) r hs h0
        have hsrceq := hsrc2 hz.2.1
        rw [if_pos hsrc, hsrc1]
        simp only [hsrceq, hz.2.2, ne_eq, not_false_eq_true, and_self, if_true, tree_run,
          if_pos hsrc]
      · rw [if_neg hsrc]
        simp only [tree_run, if_neg hsrc]
    · have hnext : next_worker size runs k ws r =
          { local_entries := none, in_loop := false, iterations := k + 1 } := by
        unfold next_worker
        rw [hpow, if_neg h0, if_pos hmod]
      rw [hnext]
      unfold step_worker
      rw [hweq]
      obtain ⟨dst, hdst1, hdst2, _⟩ := hall (r - 2 ^ k) (by omega)
      have hdsteq := hdst2 hd2
      simp only [Bool.true_eq_false, if_false, h0, if_pos hle, hdst1, hdsteq, hd1, and_self,
        if_true]
  · obtain ⟨hnone, hloop⟩ := hw2 hmod
    have hnext : next_worker size runs k ws r = w := by
      unfold next_worker
      rw [hpow, if_neg (mod_double_ne _ _ hmod), if_neg hmod]
      rw [List.getD_eq_getElem?_getD, hw]
      rfl
    rw [hnext]
    unfold step_worker
    rw [if_pos hloop]

theorem reduce_round_inv (size : Nat) (runs : List (List Entry)) (k : Nat) (ws : List Worker)
    (hinv : ReduceInv size runs k ws) :
    ∃ ws', reduce_round size (2 ^ k) ws = some ws' ∧ ReduceInv size runs (k + 1) ws' := by
  refine ⟨(List.range size).map (next_worker size runs k ws), ?_, ?_⟩
  · unfold reduce_round
    rw [hinv.1]
    apply all_some_map
    intro r hr
    exact step_worker_next size runs k ws hinv r (List.mem_range.1 hr)
  · refine ⟨by simp, ?_⟩
    intro r hr
    refine ⟨next_worker size runs k ws r, ?_, ?_, ?_⟩
    · rw [List.getElem?_map, List.getElem?_range hr]
      rfl
    · intro h0
      unfold next_worker
      rw [if_pos h0]
    · intro h0
      unfold next_worker
      rw [if_neg h0]
      split_ifs with h1
      · exact ⟨rfl, rfl⟩
      · obtain ⟨w, hw, _, hw2⟩ := hinv.2 r hr
        rw [List.getD_eq_getElem?_getD, hw]
        exact hw2 h1

theorem reduce_loop_inv (size : Nat) (runs : List (List Entry)) (fuel k : Nat) (ws : List Worker)
    (hinv : ReduceInv size runs k ws) (hfuel : size + 1 ≤ fuel + k)
    (hk : ∀ j, j < k → 2 ^ j < size) :
    ∃ ws' K, reduce_loop size fuel (2 ^ k) ws = some ws' ∧ ReduceInv size runs K ws'
      ∧ size ≤ 2 ^ K ∧ ∀ j, j < K → 2 ^ j < size := by
  induction fuel generalizing k ws with
  | zero =>
    exfalso
    have h1 : k - 1 < k := by omega
    have h2 := hk (k - 1) h1
    have h3 : k - 1 < 2 ^ (k - 1) := Nat.lt_two_pow (k - 1)
    omega
  | succ n ih =>
    simp only [reduce_loop]
    by_cases hlt : 2 ^ k < size
    · rw [if_pos hlt]
      obtain ⟨ws1, hws1, hinv1⟩ := reduce_round_inv size runs k ws hinv
      rw [hws1, Option.some_bind]
      have hpow : 2 ^ k * 2 = 2 ^ (k + 1) := by ring
      rw [hpow]
      apply ih (k + 1) ws1 hinv1 (by omega)
      intro j hj
      rcases Nat.lt_succ_iff_lt_or_eq.1 hj with h | h
      · exact hk j h
      · rw [h]
        exact hlt
    · rw [if_neg hlt]
      exact ⟨ws, k, rfl, hinv, by omega, hk⟩

theorem reduce_init_inv (runs : List (List Entry)) :
    ReduceInv runs.length runs 0
      (runs.map (fun run => { local_entries := some run, in_loop := true, iterations := 0 })) := by
  refine ⟨by simp, ?_⟩
  intro r hr
  refine ⟨{ local_entries := some (runs.getD r []), in_loop := true, iterations := 0 }, ?_, ?_, ?_⟩
  · rw [List.getElem?_map, List.getElem?_eq_getElem hr, List.getD_eq_getElem _ _ hr]
    rfl
  · intro _
    rfl
  · intro h
    exact absurd (Nat.mod_one r) h

theorem clog_of_bounds (size K : Nat) (h1 : size ≤ 2 ^ K) (h2 : ∀ j, j < K → 2 ^ j < size) :
    Nat.clog 2 size = K := by
  apply le_antisymm
  · exact (Nat.le_pow_iff_clog_le (by norm_num)).1 h1
  · cases K with
    | zero => exact Nat.zero_le _
    | succ K =>
      have := (Nat.pow_lt_iff_lt_clog (by norm_num : 1 < 2)).1 (h2 K (Nat.lt_succ_self K))
      omega

theorem take_all_sum (f : List Entry → Int) (runs : List (List Entry)) (n : Nat)
    (h : runs.length ≤ n) : (((runs.drop 0).take n).map f).sum = (runs.map f).sum := by
  rw [List.drop_zero, List.take_of_length_le h]

theorem reduce_spec (size : Nat) (runs : List (List Entry)) (hsize : 1 ≤ size)
    (hlen : runs.length = size) (hsorted : ∀ run ∈ runs, SortedRun run) :
    ∃ ws w0 R, reduce size runs = some ws ∧ ws.length = size ∧ ws[0]? = some w0
      ∧ w0.local_entries = some R ∧ SortedRun R
      ∧ (∀ k, has_key k R ↔ ∃ run ∈ runs, has_key k run)
      ∧ (∀ p : List Nat → Bool, (∀ a b, strcmp a b = 0 → p a = p b) →
          weight p R = (runs.map (weight p)).sum)
      ∧ w0.iterations = Nat.clog 2 size
      ∧ ∀ i, 1 ≤ i → i < size → ∃ w, ws[i]? = some w ∧ w.local_entries = none := by
  subst hlen
  obtain ⟨ws, K, hws, hinv, hK1, hK2⟩ :=
    reduce_loop_inv runs.length runs (runs.length + 1) 0 _ (reduce_init_inv runs) (by omega)
      (fun j hj => absurd hj (Nat.not_lt_zero j))
  obtain ⟨w0, hw0, hw0eq, _⟩ := hinv.2 0 (by omega)
  have hw0' := hw0eq (Nat.zero_mod _)
  refine ⟨ws, w0, tree_run runs.length runs K 0, hws, hinv.1, hw0, ?_, ?_, ?_, ?_, ?_, ?_⟩
  · rw [hw0']
  · exact tree_run_sorted _ _ hsorted K 0
  · intro k
    rw [tree_run_has_key k _ runs rfl K 0, List.drop_zero, List.take_of_length_le hK1]
  · intro p hp
    rw [tree_run_weight p hp _ runs rfl K 0]
    exact take_all_sum _ runs _ hK1
  · rw [hw0']
    exact (clog_of_bounds _ K hK1 hK2).symm
  · intro i hi1 hi2
    obtain ⟨w, hw, _, hw2⟩ := hinv.2 i hi2
    refine ⟨w, hw, (hw2 ?_).1⟩
    rw [Nat.mod_eq_of_lt (by omega)]
    omega

/-! ### The candidate split -/

theorem cand_start_eq (N size i : Nat) : cand_start (N : Int) size i = ((bound N size i : Nat) : Int) := by
  unfold cand_start bound
  simp only
  have h1 : ((N : Int) / (size : Int)) = ((N / size : Nat) : Int) := by norm_cast
  have h2 : ((N : Int) % (size : Int)) = ((N % size : Nat) : Int) := by norm_cast
  rw [h1, h2]
  split_ifs with ha hb hb
  · push_cast; ring
  · exfalso; apply hb; exact_mod_cast ha
  · exfalso; apply ha; exact_mod_cast hb
  · push_cast; ring

theorem bound_zero (N size : Nat) : bound N size 0 = 0 := by
  unfold bound
  simp

theorem bound_size (N size : Nat) (hsize : 1 ≤ size) : bound N size size = N := by
  unfold bound
  have h := Nat.mod_lt N (show size > 0 by omega)
  rw [if_neg (by omega)]
  exact Nat.div_add_mod N size

theorem bound_succ (N size i : Nat) :
    bound N size (i + 1) = bound N size i + N / size + (if i < N % size then 1 else 0) := by
  unfold bound
  have : (i + 1) * (N / size) = i * (N / size) + N / size := by ring
  rw [this]
  split_ifs <;> omega

theorem bound_mono (N size i : Nat) : bound N size i ≤ bound N size (i + 1) := by
  rw [bound_succ, Nat.add_assoc]
  exact Nat.le_add_right _ _

theorem bound_le (N size : Nat) (hsize : 1 ≤ size) (i : Nat) (hi : i ≤ size) : bound N size i ≤ N := by
  induction hi using Nat.decreasingInduction with
  | self => exact le_of_eq (bound_size N size hsize)
  | of_succ k _ ih => exact le_trans (bound_mono N size k) ih

theorem cand_end_eq (N size i : Nat) :
    cand_end (N : Int) size i = ((bound N size (i + 1) : Nat) : Int) - 1 := by
  unfold cand_end
  simp only
  rw [cand_start_eq, bound_succ]
  have h1 : ((N : Int) / (size : Int)) = ((N / size : Nat) : Int) := by norm_cast
  have h2 : ((N : Int) % (size : Int)) = ((N % size : Nat) : Int) := by norm_cast
  rw [h1, h2]
  split_ifs with ha hb hb
  · push_cast; ring
  · exfalso; apply hb; exact_mod_cast ha
  · exfalso; apply ha; exact_mod_cast hb
  · push_cast; ring

theorem true_end_eq (file : List Nat) (size i : Nat) (hsize : 1 ≤ size) :
    true_end file size i = ((bound file.length size (i + 1) : Nat) : Int) - 1 := by
  unfold true_end
  split_ifs with h
  · have : i + 1 = size := by omega
    rw [this, bound_size _ _ hsize]
  · exact cand_end_eq _ _ _

/-! ### The backward scan -/

theorem scan_back_spec (file : List Nat) (start : Int) (pos : Nat) :
    (scan_back file start pos = start ∧ ∀ j, j ≤ pos → file.getD j 0 ≠ 10)
    ∨ ∃ p, p ≤ pos ∧ scan_back file start pos = ((p + 1 : Nat) : Int) ∧ file.getD p 0 = 10
        ∧ ∀ j, p < j → j ≤ pos → file.getD j 0 ≠ 10 := by
  induction pos with
  | zero =>
    simp only [scan_back]
    by_cases h : file.getD 0 0 = 10
    · right
      refine ⟨0, le_refl _, ?_, h, ?_⟩
      · rw [if_pos h]; rfl
      · intro j h1 h2
        omega
    · left
      refine ⟨by rw [if_neg h], ?_⟩
      intro j hj
      have : j = 0 := by omega
      rw [this]
      exact h
  | succ n ih =>
    simp only [scan_back]
    by_cases h : file.getD (n + 1) 0 = 10
    · right
      refine ⟨n + 1, le_refl _, ?_, h, ?_⟩
      · rw [if_pos h]; rfl
      · intro j h1 h2
        omega
    · rw [if_neg h]
      rcases ih with ⟨h1, h2⟩ | ⟨p, hp, h1, h2, h3⟩
      · left
        refine ⟨h1, ?_⟩
        intro j hj
        rcases Nat.lt_or_ge j (n + 1) with hlt | hge
        · exact h2 j (by omega)
        · have : j = n + 1 := by omega
          rw [this]
          exact h
      · right
        refine ⟨p, by omega, h1, h2, ?_⟩
        intro j hj1 hj2
        rcases Nat.lt_or_ge j (n + 1) with hlt | hge
        · exact h3 j hj1 (by omega)
        · have : j = n + 1 := by omega
          rw [this]
          exact h

theorem true_start_spec (file : List Nat) (size i : Nat) :
    ∃ s : Nat, true_start file size i = (s : Int) ∧ s ≤ bound file.length size i
      ∧ (∀ j, s ≤ j → j < bound file.length size i → file.getD j 0 ≠ 10)
      ∧ ((i = 0 ∨ bound file.length size i = 0
            ∨ ∃ p, p < bound file.length size i ∧ file.getD p 0 = 10)
          → s = 0 ∨ file.getD (s - 1) 0 = 10) := by
  unfold true_start
  simp only
  rw [cand_start_eq]
  set b := bound file.length size i with hb
  by_cases hcond : i ≠ 0 ∧ ((b : Nat) : Int) > 0
  · rw [if_pos hcond]
    have hbpos : 0 < b := by omega
    have htn : (((b : Nat) : Int) - 1).toNat = b - 1 := by omega
    rw [htn]
    by_cases hprev : file.getD (b - 1) 0 ≠ 10
    · rw [if_pos hprev]
      rcases scan_back_spec file (b : Int) (b - 1) with ⟨h1, h2⟩ | ⟨p, hp, h1, h2, h3⟩
      · refine ⟨b, h1, le_refl _, ?_, ?_⟩
        · intro j hj1 hj2
          omega
        · rintro (h0 | h0 | ⟨p, hp1, hp2⟩)
          · exact absurd h0 hcond.1
          · omega
          · exact absurd hp2 (h2 p (by omega))
      · refine ⟨p + 1, h1, by omega, ?_, ?_⟩
        · intro j hj1 hj2
          exact h3 j (by omega) (by omega)
        · intro _
          right
          exact h2
    · rw [if_neg hprev]
      refine ⟨b, rfl, le_refl _, ?_, ?_⟩
      · intro j hj1 hj2
        omega
      · intro _
        right
        by_contra hne
        exact hprev hne
  · rw [if_neg hcond]
    refine ⟨b, rfl, le_refl _, ?_, ?_⟩
    · intro j hj1 hj2
      omega
    · intro _
      left
      by_cases h0 : i = 0
      · rw [hb, h0, bound_zero]
      · have : ¬ ((b : Nat) : Int) > 0 := fun h => hcond ⟨h0, h⟩
        omega

/-! ### Records of a sequence of bytes -/

theorem records_from_append (cur X Y : List Nat) :
    records_from cur (X ++ Y) = records_from cur X ++ records_from (pending cur X) Y := by
  induction X generalizing cur with
  | nil => rfl
  | cons c cs ih =>
    rw [List.cons_append]
    simp only [records_from, pending]
    split_ifs with h
    · rw [ih]
      rfl
    · exact ih _

theorem records_from_no_newline (cur X : List Nat) (h : 10 ∉ X) : records_from cur X = [] := by
  induction X generalizing cur with
  | nil => rfl
  | cons c cs ih =>
    have hc : c ≠ 10 := fun e => h (e ▸ List.mem_cons_self _ _)
    have hcs : 10 ∉ cs := fun e => h (List.mem_cons_of_mem _ e)
    simp only [records_from, if_neg hc]
    exact ih _ hcs

theorem records_from_shift (cur X : List Nat) :
    records_from cur X =
      match records_from [] X with
      | [] => []
      | r :: rs => (cur.reverse ++ r) :: rs := by
  induction X generalizing cur with
  | nil => rfl
  | cons c cs ih =>
    simp only [records_from]
    split_ifs with h
    · simp
    · rw [ih (c :: cur), ih [c]]
      cases records_from [] cs with
      | nil => rfl
      | cons r rs => simp

theorem records_from_length (cur X : List Nat) :
    (records_from cur X).length = (records X).length := by
  rw [records_from_shift cur X]
  unfold records
  cases records_from [] X <;> rfl

theorem records_from_short (cur X : List Nat) (n : Nat)
    (h : ∀ r ∈ records_from cur X, r.length < n) : ∀ r ∈ records X, r.length < n := by
  rw [records_from_shift cur X] at h
  unfold records
  cases hx : records_from [] X with
  | nil => intro r hr; cases hr
  | cons r0 rs =>
    rw [hx] at h
    intro r hr
    rcases List.mem_cons.1 hr with rfl | hr'
    · have := h _ (List.mem_cons_self _ _)
      simp only [List.length_append, List.length_reverse] at this
      omega
    · exact h r (List.mem_cons_of_mem _ hr')

theorem pending_append_newline (cur X : List Nat) : pending cur (X ++ [10]) = [] := by
  induction X generalizing cur with
  | nil => simp [pending]
  | cons c cs ih =>
    simp only [List.cons_append, pending]
    split_ifs
    · exact ih _
    · exact ih _

theorem pending_of_aligned (file : List Nat) (s : Nat) (hs : s ≤ file.length)
    (h : s = 0 ∨ file.getD (s - 1) 0 = 10) : pending [] (file.take s) = [] := by
  rcases Nat.eq_zero_or_pos s with h0 | hpos
  · rw [h0]
    rfl
  · have h10 : file.getD (s - 1) 0 = 10 := by
      rcases h with h | h
      · omega
      · exact h
    have hlt : s - 1 < file.length := by omega
    have hsplit : file.take s = file.take (s - 1) ++ [10] := by
      have h1 : s = (s - 1) + 1 := by omega
      rw [h1, List.take_succ, List.getElem?_eq_getElem (by omega)]
      rw [List.getD_eq_getElem _ _ hlt] at h10
      simp only [Nat.add_sub_cancel] at h10 ⊢
      rw [h10]
      rfl
    rw [hsplit]
    exact pending_append_newline _ _

theorem no_newline_segment (file : List Nat) (s b : Nat)
    (h : ∀ j, s ≤ j → j < b → file.getD j 0 ≠ 10) : 10 ∉ (file.drop s).take (b - s) := by
  intro hmem
  obtain ⟨n, hn, heq⟩ := List.getElem_of_mem hmem
  have hn' := hn
  simp only [List.length_take, List.length_drop] at hn'
  rw [List.getElem_take, List.getElem_drop] at heq
  have hlt : s + n < file.length := by omega
  apply h (s + n) (by omega) (by omega)
  rw [List.getD_eq_getElem _ _ hlt]
  exact heq

/-! ### The parsing loop -/

theorem strchr_records (bytes : List Nat) (h0 : 0 ∉ bytes) (cur : List Nat) :
    (strchr (bytes ++ [0]) 10 = none ∧ records_from cur bytes = [])
    ∨ ∃ len, strchr (bytes ++ [0]) 10 = some len ∧ len < bytes.length
        ∧ records_from cur bytes
            = (cur.reverse ++ bytes.take len) :: records_from [] (bytes.drop (len + 1)) := by
  induction bytes generalizing cur with
  | nil =>
    left
    exact ⟨by simp [strchr], rfl⟩
  | cons c cs ih =>
    have hc : c ≠ 0 := fun e => h0 (e ▸ List.mem_cons_self _ _)
    have hcs : 0 ∉ cs := fun e => h0 (List.mem_cons_of_mem _ e)
    by_cases h10 : c = 10
    · right
      refine ⟨0, ?_, by simp, ?_⟩
      · simp [strchr, h10]
      · simp [records_from, h10]
    · rcases ih hcs (c :: cur) with ⟨h1, h2⟩ | ⟨len, h1, h2, h3⟩
      · left
        refine ⟨?_, ?_⟩
        · rw [List.cons_append]
          simp only [strchr, if_neg h10, if_neg hc, h1, Option.map_none']
        · simp only [records_from, if_neg h10, h2]
      · right
        refine ⟨len + 1, ?_, by simp only [List.length_cons]; omega, ?_⟩
        · rw [List.cons_append]
          simp only [strchr, if_neg h10, if_neg hc, h1, Option.map_some']
        · simp only [records_from, if_neg h10, h3, List.reverse_cons, List.append_assoc,
            List.singleton_append, List.take_succ_cons, List.drop_succ_cons]

theorem parse_keys_records (fuel : Nat) (bytes : List Nat) (h0 : 0 ∉ bytes)
    (hfuel : bytes.length < fuel) :
    parse_keys fuel (bytes ++ [0])
      = (records bytes).filter (fun r => decide (r.length < MAX_KEY_LEN)) := by
  induction fuel generalizing bytes with
  | zero => omega
  | succ n ih =>
    cases bytes with
    | nil => simp [parse_keys, records, records_from]
    | cons c cs =>
      have hc : c ≠ 0 := fun e => h0 (e ▸ List.mem_cons_self _ _)
      have hhead : ¬ ((c :: cs) ++ [0]).headD 0 = 0 := by simpa using hc
      simp only [parse_keys, if_neg hhead]
      rcases strchr_records (c :: cs) h0 [] with ⟨h1, h2⟩ | ⟨len, h1, h2, h3⟩
      · rw [h1]
        unfold records
        rw [h2]
        rfl
      · rw [h1]
        simp only
        have htake : ((c :: cs) ++ [0]).take len = (c :: cs).take len :=
          List.take_append_of_le_length (by omega)
        have hdrop : ((c :: cs) ++ [0]).drop (len + 1) = (c :: cs).drop (len + 1) ++ [0] :=
          List.drop_append_of_le_length (by omega)
        have hsub : 0 ∉ (c :: cs).drop (len + 1) := fun e => h0 (List.mem_of_mem_drop e)
        have hlen : ((c :: cs).drop (len + 1)).length < n := by
          rw [List.length_drop]
          simp only [List.length_cons] at hfuel h2 ⊢
          omega
        rw [htake, hdrop, ih _ hsub hlen]
        unfold records
        rw [h3]
        simp only [List.reverse_nil, List.nil_append, List.filter_cons, List.length_take,
          decide_eq_true_eq]
        have hmin : min len (c :: cs).length = len := by omega
        rw [hmin]
        split_ifs <;> rfl

theorem strchr_none_of_not_mem (ptr : List Nat) (c : Nat) (h : c ∉ ptr) : strchr ptr c = none := by
  induction ptr with
  | nil => rfl
  | cons b s ih =>
    have hb : b ≠ c := fun e => h (e ▸ List.mem_cons_self _ _)
    have hs : c ∉ s := fun e => h (List.mem_cons_of_mem _ e)
    simp only [strchr, if_neg hb, ih hs, Option.map_none']
    split_ifs <;> rfl

theorem parse_keys_no_newline (fuel : Nat) (ptr : List Nat) (h : 10 ∉ ptr) :
    parse_keys fuel ptr = [] := by
  cases fuel with
  | zero => rfl
  | succ n =>
    simp only [parse_keys, strchr_none_of_not_mem ptr 10 h]
    split_ifs <;> rfl

theorem parse_loop_keys (fuel : Nat) (ptr : List Nat) (table : HashTable) :
    parse_loop fuel ptr table = (parse_keys fuel ptr).foldl HashTable.insert table := by
  induction fuel generalizing ptr table with
  | zero => rfl
  | succ n ih =>
    simp only [parse_loop, parse_keys]
    split_ifs with h
    · rfl
    · cases hs : strchr ptr 10 with
      | none => rfl
      | some len =>
        simp only
        rw [ih]
        split_ifs with hlen
        · rfl
        · rfl

theorem parse_keys_fuel (fuel extra : Nat) (ptr : List Nat) (h : ptr.length ≤ fuel) :
    parse_keys (fuel + extra) ptr = parse_keys fuel ptr := by
  induction fuel generalizing ptr with
  | zero =>
    have hnil : ptr = [] := List.length_eq_zero.1 (Nat.le_zero.1 h)
    subst hnil
    cases extra with
    | zero => rfl
    | succ e =>
      rw [Nat.zero_add]
      simp [parse_keys]
  | succ n ih =>
    have hadd : n + 1 + extra = (n + extra) + 1 := by omega
    rw [hadd]
    simp only [parse_keys]
    split_ifs with h0
    · rfl
    · cases hs : strchr ptr 10 with
      | none => rfl
      | some len =>
        simp only
        rw [ih]
        rw [List.length_drop]
        omega

theorem parse_loop_fuel (fuel extra : Nat) (ptr : List Nat) (table : HashTable)
    (h : ptr.length ≤ fuel) : parse_loop (fuel + extra) ptr table = parse_loop fuel ptr table := by
  rw [parse_loop_keys, parse_loop_keys, parse_keys_fuel fuel extra ptr h]

/-! ### Keys and the hash table -/

theorem safe_strcpy_loop_short (key : List Nat) (i : Nat) (h : key.length + i ≤ MAX_KEY_LEN - 1) :
    strcmp (safe_strcpy_loop key i) key = 0 := by
  induction key generalizing i with
  | nil => rfl
  | cons c cs ih =>
    simp only [List.length_cons] at h
    simp only [safe_strcpy_loop]
    by_cases hc : c = 0
    · subst hc
      simp [strcmp]
    · have hi : i < MAX_KEY_LEN - 1 := by omega
      rw [if_pos ⟨hc, hi⟩]
      simp only [strcmp, ne_eq, not_true_eq_false, if_false, if_neg hc]
      exact ih (i + 1) (by omega)

theorem short_of_length (key : List Nat) (h : key.length < MAX_KEY_LEN) : ShortKey key := by
  unfold ShortKey safe_strcpy
  apply safe_strcpy_loop_short
  have : MAX_KEY_LEN = 33 := rfl
  omega

theorem safe_strcpy_loop_congr (a b : List Nat) (i : Nat) (h : strcmp a b = 0) :
    safe_strcpy_loop a i = safe_strcpy_loop b i := by
  induction a generalizing b i with
  | nil =>
    cases b with
    | nil => rfl
    | cons y ys =>
      simp only [strcmp] at h
      have hy : y = 0 := by omega
      subst hy
      simp [safe_strcpy_loop]
  | cons x xs ih =>
    cases b with
    | nil =>
      simp only [strcmp] at h
      have hx : x = 0 := by omega
      subst hx
      simp [safe_strcpy_loop]
    | cons y ys =>
      simp only [strcmp] at h
      by_cases hxy : x = y
      · subst hxy
        by_cases h0 : x = 0
        · subst h0
          simp [safe_strcpy_loop]
        · simp only [ne_eq, not_true_eq_false, if_false, h0] at h
          simp only [safe_strcpy_loop]
          split_ifs
          · rw [ih ys (i + 1) h]
          · rfl
      · simp only [ne_eq, hxy, not_false_eq_true, if_true] at h
        omega

theorem respects_copy (p : List Nat → Bool) (hp : ∀ a b, strcmp a b = 0 → p a = p b)
    (key : List Nat) (hk : ShortKey key) : p (safe_strcpy key) = p key := hp _ _ hk

theorem respects_copy_copy (p : List Nat → Bool) (hp : ∀ a b, strcmp a b = 0 → p a = p b)
    (key : List Nat) (hk : ShortKey key) : p (safe_strcpy (safe_strcpy key)) = p key := by
  have h1 : safe_strcpy (safe_strcpy key) = safe_strcpy key :=
    safe_strcpy_loop_congr _ _ 0 hk
  rw [h1]
  exact hp _ _ hk

theorem respects_copy_of_eq (p : List Nat → Bool) (hp : ∀ a b, strcmp a b = 0 → p a = p b)
    (key other : List Nat) (hk : ShortKey key) (h : strcmp other key = 0) :
    p (safe_strcpy other) = p key := by
  have h1 : safe_strcpy other = safe_strcpy key := safe_strcpy_loop_congr _ _ 0 h
  rw [h1]
  exact hp _ _ hk

theorem node_weight_append (p : List Nat → Bool) (l1 l2 : List HashNode) :
    node_weight p (l1 ++ l2) = node_weight p l1 + node_weight p l2 := by
  unfold node_weight
  rw [List.map_append, weight_append]

theorem node_weight_cons (p : List Nat → Bool) (n : HashNode) (l : List HashNode) :
    node_weight p (n :: l)
      = (if p (safe_strcpy n.key) = true then n.value else 0) + node_weight p l := rfl

theorem chain_increment_weight (p : List Nat → Bool) (hp : ∀ a b, strcmp a b = 0 → p a = p b)
    (key : List Nat) (hk : ShortKey key) (chain chain' : List HashNode)
    (h : chain_increment key chain = some chain') :
    node_weight p chain' = node_weight p chain + (if p key = true then 1 else 0) := by
  induction chain generalizing chain' with
  | nil => simp [chain_increment] at h
  | cons n rest ih =>
    simp only [chain_increment] at h
    split_ifs at h with hc
    · have := Option.some.inj h
      subst this
      rw [node_weight_cons, node_weight_cons]
      simp only
      rw [respects_copy_of_eq p hp key n.key hk hc]
      split_ifs <;> omega
    · cases hr : chain_increment key rest with
      | none => simp [hr] at h
      | some c =>
        rw [hr] at h
        have := Option.some.inj h
        subst this
        rw [node_weight_cons, node_weight_cons, ih c hr]
        omega

theorem bucket_get_nil_of_lt (bs : List (Nat × List HashNode)) (idx : Nat)
    (h : ∀ b ∈ bs, idx < b.1) : bucket_get bs idx = [] := by
  induction bs with
  | nil => rfl
  | cons b bs ih =>
    obtain ⟨i, c⟩ := b
    have hi : idx < i := h (i, c) (List.mem_cons_self _ _)
    simp only [bucket_get, if_neg (show ¬ idx = i by omega)]
    exact ih (fun b hb => h b (List.mem_cons_of_mem _ hb))

theorem bucket_set_mem (bs : List (Nat × List HashNode)) (idx : Nat) (chain : List HashNode) :
    ∀ b ∈ bucket_set bs idx chain, b.1 = idx ∨ ∃ b' ∈ bs, b'.1 = b.1 := by
  induction bs with
  | nil =>
    intro b hb
    simp only [bucket_set, List.mem_singleton] at hb
    left
    rw [hb]
  | cons b0 bs ih =>
    obtain ⟨i, c⟩ := b0
    intro b hb
    simp only [bucket_set] at hb
    split_ifs at hb with h1 h2
    · rcases List.mem_cons.1 hb with rfl | hb'
      · left; rfl
      · right; exact ⟨b, hb', rfl⟩
    · rcases List.mem_cons.1 hb with rfl | hb'
      · right; exact ⟨(i, c), List.mem_cons_self _ _, rfl⟩
      · right; exact ⟨b, List.mem_cons_of_mem _ hb', rfl⟩
    · rcases List.mem_cons.1 hb with rfl | hb'
      · right; exact ⟨(i, c), List.mem_cons_self _ _, rfl⟩
      · rcases ih b hb' with h | ⟨b', hb'', he⟩
        · left; exact h
        · right; exact ⟨b', List.mem_cons_of_mem _ hb'', he⟩

theorem bucket_set_ok (cap : Nat) (bs : List (Nat × List HashNode)) (idx : Nat)
    (chain : List HashNode) (h : BucketsOK cap bs) (hidx : idx < cap) :
    BucketsOK cap (bucket_set bs idx chain) := by
  obtain ⟨hs, hc⟩ := h
  refine ⟨?_, ?_⟩
  · induction bs with
    | nil => exact List.pairwise_singleton _ _
    | cons b0 bs ih =>
      obtain ⟨i, c⟩ := b0
      have hs' := List.pairwise_cons.1 hs
      simp only [bucket_set]
      split_ifs with h1 h2
      · refine List.pairwise_cons.2 ⟨?_, hs⟩
        intro b hb
        rcases List.mem_cons.1 hb with rfl | hb'
        · exact h1
        · exact lt_trans h1 (hs'.1 b hb')
      · exact List.pairwise_cons.2 ⟨hs'.1, hs'.2⟩
      · refine List.pairwise_cons.2 ⟨?_, ih hs'.2 (fun b hb => hc b (List.mem_cons_of_mem _ hb))⟩
        intro b hb
        rcases bucket_set_mem bs idx chain b hb with h | ⟨b', hb', he⟩
        · show i < b.1
          omega
        · show i < b.1
          rw [← he]
          exact hs'.1 b' hb'
  · intro b hb
    rcases bucket_set_mem bs idx chain b hb with h | ⟨b', hb', he⟩
    · rw [h]; exact hidx
    · rw [← he]; exact hc b' hb'

theorem bucket_set_weight (p : List Nat → Bool) (bs : List (Nat × List HashNode)) (idx : Nat)
    (chain : List HashNode) (hs : bs.Pairwise (fun a b => a.1 < b.1)) :
    node_weight p ((bucket_set bs idx chain).flatMap (fun b => b.2))
        + node_weight p (bucket_get bs idx)
      = node_weight p (bs.flatMap (fun b => b.2)) + node_weight p chain := by
  induction bs with
  | nil =>
    simp only [bucket_set, bucket_get, List.flatMap_cons, List.flatMap_nil, List.append_nil]
    have : node_weight p [] = 0 := rfl
    omega
  | cons b0 bs ih =>
    obtain ⟨i, c⟩ := b0
    have hs' := List.pairwise_cons.1 hs
    by_cases h1 : idx < i
    · have hne : ¬ idx = i := by omega
      simp only [bucket_set, bucket_get, if_pos h1, if_neg hne]
      have hnil : bucket_get bs idx = [] :=
        bucket_get_nil_of_lt bs idx (fun b hb => lt_trans h1 (hs'.1 b hb))
      rw [hnil]
      simp only [List.flatMap_cons, node_weight_append]
      have : node_weight p [] = 0 := rfl
      omega
    · by_cases h2 : idx = i
      · simp only [bucket_set, bucket_get, if_neg h1, if_pos h2]
        simp only [List.flatMap_cons, node_weight_append]
        omega
      · simp only [bucket_set, bucket_get, if_neg h1, if_neg h2]
        have := ih hs'.2
        simp only [List.flatMap_cons, node_weight_append]
        omega

theorem flatten_eq (t : HashTable) (h : TableOK t) :
    t.flatten = t.buckets.flatMap (fun b => b.2) := by
  unfold HashTable.flatten
  rw [List.filter_eq_self.2]
  intro b hb
  simpa using h.1.2 b hb

theorem hash_lt (t : HashTable) (h : TableOK t) (key : List Nat) : hash t.mask key < t.capacity :=
  lt_of_le_of_lt Nat.and_le_right h.2

theorem insert_ok (t : HashTable) (h : TableOK t) (key : List Nat) : TableOK (t.insert key) := by
  unfold HashTable.insert
  simp only
  cases chain_increment key (bucket_get t.buckets (hash t.mask key)) with
  | none => exact ⟨bucket_set_ok _ _ _ _ h.1 (hash_lt t h key), h.2⟩
  | some chain => exact ⟨bucket_set_ok _ _ _ _ h.1 (hash_lt t h key), h.2⟩

theorem insert_weight (p : List Nat → Bool) (hp : ∀ a b, strcmp a b = 0 → p a = p b)
    (t : HashTable) (h : TableOK t) (key : List Nat) (hk : ShortKey key) :
    node_weight p (t.insert key).flatten
      = node_weight p t.flatten + (if p key = true then 1 else 0) := by
  rw [flatten_eq _ (insert_ok t h key), flatten_eq t h]
  unfold HashTable.insert
  simp only
  have hset := fun chain => bucket_set_weight p t.buckets (hash t.mask key) chain h.1.1
  cases hc : chain_increment key (bucket_get t.buckets (hash t.mask key)) with
  | none =>
    simp only
    have h1 := hset ({ key := safe_strcpy key, value := 1 } ::
      bucket_get t.buckets (hash t.mask key))
    rw [node_weight_cons] at h1
    simp only at h1
    rw [respects_copy_copy p hp key hk] at h1
    simp only [NodePool.alloc]
    omega
  | some chain =>
    simp only
    have h1 := hset chain
    have h2 := chain_increment_weight p hp key hk _ chain hc
    omega

theorem foldl_insert_weight (p : List Nat → Bool) (hp : ∀ a b, strcmp a b = 0 → p a = p b)
    (keys : List (List Nat)) (t : HashTable) (h : TableOK t) (hk : ∀ k ∈ keys, ShortKey k) :
    TableOK (keys.foldl HashTable.insert t)
      ∧ node_weight p (keys.foldl HashTable.insert t).flatten
          = node_weight p t.flatten + ((keys.filter p).length : Int) := by
  induction keys generalizing t with
  | nil => exact ⟨h, by simp⟩
  | cons k ks ih =>
    have hk1 := hk k (List.mem_cons_self _ _)
    obtain ⟨h1, h2⟩ := ih (t.insert k) (insert_ok t h k)
      (fun k' hk' => hk k' (List.mem_cons_of_mem _ hk'))
    refine ⟨h1, ?_⟩
    rw [List.foldl_cons, h2, insert_weight p hp t h k hk1, List.filter_cons]
    by_cases hpk : p k = true
    · rw [if_pos hpk, if_pos hpk, List.length_cons]
      push_cast
      omega
    · rw [if_neg hpk, if_neg hpk]
      omega

theorem new_table_ok : TableOK (HashTable.new NodePool.new BUCKET_SIZE) := by
  refine ⟨⟨List.Pairwise.nil, fun b hb => ?_⟩, ?_⟩
  · cases hb
  · show BUCKET_SIZE - 1 < BUCKET_SIZE
    decide

/-! ### The buffer of a process -/

theorem read_size_eq (file : List Nat) (size i s : Nat) (hsize : 1 ≤ size)
    (hs : true_start file size i = (s : Int)) (hle : s ≤ bound file.length size (i + 1)) :
    read_size file size i = ((bound file.length size (i + 1) - s : Nat) : Int) := by
  unfold read_size
  simp only
  rw [true_end_eq file size i hsize, hs]
  split_ifs <;> omega

theorem local_bytes_eq (file : List Nat) (size i s : Nat) (hsize : 1 ≤ size)
    (hs : true_start file size i = (s : Int)) (hle : s ≤ bound file.length size (i + 1)) :
    local_bytes file size i = (file.drop s).take (bound file.length size (i + 1) - s) := by
  unfold local_bytes read_at
  rw [read_size_eq file size i s hsize hs hle, hs]
  simp only [Int.toNat_ofNat]

theorem inserted_keys_eq (file : List Nat) (size i : Nat) :
    inserted_keys file size i
      = parse_keys ((local_bytes file size i).length + 1) (local_bytes file size i ++ [0]) := by
  unfold inserted_keys local_buf
  split_ifs with hpos
  · simp only [List.length_append, List.length_singleton]
  · have h0 : (read_size file size i).toNat = 0 := by omega
    have hb : local_bytes file size i = [] := by
      unfold local_bytes read_at
      rw [h0]
      rfl
    rw [hb]
    rfl

theorem local_table_eq (file : List Nat) (size i : Nat) :
    local_table file size i
      = (inserted_keys file size i).foldl HashTable.insert (HashTable.new NodePool.new BUCKET_SIZE) := by
  unfold local_table inserted_keys
  cases local_buf file size i with
  | none => rfl
  | some buf => exact parse_loop_keys _ _ _

theorem parse_keys_short (fuel : Nat) (ptr : List Nat) :
    ∀ k ∈ parse_keys fuel ptr, k.length < MAX_KEY_LEN := by
  induction fuel generalizing ptr with
  | zero => intro k hk; cases hk
  | succ n ih =>
    intro k hk
    simp only [parse_keys] at hk
    split_ifs at hk with h
    · cases hk
    · cases hs : strchr ptr 10 with
      | none => rw [hs] at hk; cases hk
      | some len =>
        rw [hs] at hk
        simp only at hk
        rcases List.mem_append.1 hk with h1 | h1
        · split_ifs at h1 with hlen
          · rw [List.mem_singleton] at h1
            rw [h1, List.length_take]
            omega
          · cases h1
        · exact ih _ k h1

theorem inserted_keys_short (file : List Nat) (size i : Nat) :
    ∀ k ∈ inserted_keys file size i, ShortKey k := by
  intro k hk
  rw [inserted_keys_eq] at hk
  exact short_of_length k (parse_keys_short _ _ k hk)

theorem local_entries_weight (p : List Nat → Bool) (hp : ∀ a b, strcmp a b = 0 → p a = p b)
    (file : List Nat) (size i : Nat) :
    weight p (local_entries file size i)
      = (((inserted_keys file size i).filter p).length : Int) := by
  have h := foldl_insert_weight p hp (inserted_keys file size i) _ new_table_ok
    (inserted_keys_short file size i)
  rw [← local_table_eq] at h
  have h2 : weight p (local_entries file size i)
      = node_weight p (local_table file size i).flatten := rfl
  rw [h2, h.2]
  have h3 : node_weight p (HashTable.new NodePool.new BUCKET_SIZE).flatten = 0 := rfl
  rw [h3]
  omega

theorem local_run_weight (p : List Nat → Bool) (hp : ∀ a b, strcmp a b = 0 → p a = p b)
    (file : List Nat) (size i : Nat) :
    weight p (local_run file size i)
      = (((inserted_keys file size i).filter p).length : Int) := by
  unfold local_run
  rw [merge_same_keys_weight p hp, weight_perm p (sort_entries_perm cmp_key _),
    local_entries_weight p hp]

theorem local_run_sorted (file : List Nat) (size i : Nat) : SortedRun (local_run file size i) :=
  merge_same_keys_sorted _ (cmp_key_sorted _)

/-! ### The whole pipeline -/

theorem pipeline_spec (file : List Nat) (size : Nat) (hsize : 1 ≤ size) :
    ∃ R, group_by_mpi file size = some (R.length, sort_entries cmp_value R) ∧ SortedRun R
      ∧ (∀ p : List Nat → Bool, (∀ a b, strcmp a b = 0 → p a = p b) →
          weight p R
            = ((List.range size).map
                (fun i => (((inserted_keys file size i).filter p).length : Int))).sum)
      ∧ (∀ k, has_key k R ↔ ∃ i, i < size ∧ has_key k (local_run file size i)) := by
  obtain ⟨ws, w0, R, hred, _, hw0, hR, hsorted, hkey, hweight, _, _⟩ :=
    reduce_spec size ((List.range size).map (local_run file size)) hsize (by simp)
      (by
        intro run hrun
        obtain ⟨i, _, rfl⟩ := List.mem_map.1 hrun
        exact local_run_sorted file size i)
  refine ⟨R, ?_, hsorted, ?_, ?_⟩
  · unfold group_by_mpi
    rw [hred]
    have hhead : ws.head? = some w0 := by
      rw [List.head?_eq_getElem?]
      exact hw0
    simp only [hhead, hR]
  · intro p hp
    rw [hweight p hp, List.map_map]
    congr 1
    apply List.map_congr_left
    intro i _
    exact local_run_weight p hp file size i
  · intro k
    rw [hkey k]
    constructor
    · rintro ⟨run, hrun, hk⟩
      obtain ⟨i, hi, rfl⟩ := List.mem_map.1 hrun
      exact ⟨i, List.mem_range.1 hi, hk⟩
    · rintro ⟨i, hi, hk⟩
      exact ⟨_, List.mem_map.2 ⟨i, List.mem_range.2 hi, rfl⟩, hk⟩

theorem sorted_run_distinct {l l' : List Entry} (h : SortedRun l) (hp : List.Perm l' l) :
    l'.Pairwise (fun a b => strcmp a.key b.key ≠ 0) := by
  have h1 : l.Pairwise (fun a b => strcmp a.key b.key ≠ 0) := by
    unfold SortedRun at h
    exact h.imp (fun hab => ne_of_lt hab)
  have hsymm : ∀ a b : Entry, strcmp a.key b.key ≠ 0 → strcmp b.key a.key ≠ 0 := by
    intro a b hab
    rw [strcmp_swap a.key b.key]
    omega
  exact (List.Perm.pairwise_iff (fun {a b} => hsymm a b) hp).2 h1

theorem distinct_keys_nodup {l : List Entry}
    (h : l.Pairwise (fun a b => strcmp a.key b.key ≠ 0)) : (l.map (fun e => e.key)).Nodup := by
  unfold List.Nodup
  rw [List.pairwise_map]
  exact h.imp (fun {a b} hab heq => hab (by rw [heq]; exact strcmp_self _))

/-! ### Telescoping over the processes -/

theorem sum_range_telescope (f : Nat → Int) (g : Nat → Int) (n : Nat)
    (h : ∀ i, i < n → g (i + 1) = g i + f i) :
    ((List.range n).map f).sum = g n - g 0 := by
  induction n with
  | zero => simp
  | succ n ih =>
    rw [List.range_succ, List.map_append, List.sum_append, ih (fun i hi => h i (by omega)),
      h n (by omega)]
    simp only [List.map_cons, List.map_nil, List.sum_cons, List.sum_nil]
    omega

theorem flatMap_range_telescope {α : Type} (f : Nat → List α) (g : Nat → List α) (n : Nat)
    (h0 : g 0 = []) (h : ∀ i, i < n → g (i + 1) = g i ++ f i) :
    (List.range n).flatMap f = g n := by
  induction n with
  | zero => simp [h0]
  | succ n ih =>
    rw [List.range_succ, List.flatMap_append, ih (fun i hi => h i (by omega)), h n (by omega)]
    simp

theorem take_split (file : List Nat) (s b : Nat) (h : s ≤ b) :
    file.take b = file.take s ++ (file.drop s).take (b - s) := by
  have : b = s + (b - s) := by omega
  rw [this, List.take_add]
  simp

/-- Facts on the buffer of the process `i`: where it starts, what it adds to the
records of the bytes before the candidate range. -/
theorem worker_records (file : List Nat) (size i : Nat) (hsize : 1 ≤ size) :
    ∃ cur : List Nat,
      records (file.take (bound file.length size (i + 1)))
        = records (file.take (bound file.length size i))
            ++ records_from cur (local_bytes file size i)
      ∧ ((i = 0 ∨ bound file.length size i = 0
            ∨ ∃ p, p < bound file.length size i ∧ file.getD p 0 = 10) → cur = []) := by
  obtain ⟨s, hs, hle, hgap, halign⟩ := true_start_spec file size i
  have hle' : s ≤ bound file.length size (i + 1) := le_trans hle (bound_mono _ _ _)
  refine ⟨pending [] (file.take s), ?_, ?_⟩
  · rw [local_bytes_eq file size i s hsize hs hle', take_split file s _ hle',
      take_split file s _ hle]
    unfold records
    rw [records_from_append, records_from_append,
      records_from_no_newline _ _ (no_newline_segment file s _ hgap), List.append_nil]
  · intro hc
    by_cases hsl : s ≤ file.length
    · exact pending_of_aligned file s hsl (halign hc)
    · rw [List.take_of_length_le (by omega)]
      rcases halign hc with h0 | h10
      · omega
      · exfalso
        rw [List.getD_eq_default _ _ (by omega)] at h10
        omega

theorem local_bytes_subset (file : List Nat) (size i : Nat) :
    ∀ x ∈ local_bytes file size i, x ∈ file := by
  intro x hx
  unfold local_bytes read_at at hx
  exact List.mem_of_mem_drop (List.mem_of_mem_take hx)

theorem inserted_keys_records (file : List Nat) (size i : Nat) (hnul : 0 ∉ file) :
    inserted_keys file size i
      = (records (local_bytes file size i)).filter (fun r => decide (r.length < MAX_KEY_LEN)) := by
  rw [inserted_keys_eq]
  exact parse_keys_records _ _ (fun h => hnul (local_bytes_subset file size i 0 h))
    (Nat.lt_succ_self _)

theorem records_take_sub (file : List Nat) (b : Nat) :
    ∀ r ∈ records (file.take b), r ∈ records file := by
  intro r hr
  have h : records file = records (file.take b)
      ++ records_from (pending [] (file.take b)) (file.drop b) := by
    unfold records
    rw [← records_from_append, List.take_append_drop]
  rw [h]
  exact List.mem_append_left _ hr

theorem local_records_short (file : List Nat) (size i : Nat) (hsize : 1 ≤ size)
    (hshort : ∀ r ∈ records file, r.length < MAX_KEY_LEN) :
    ∀ r ∈ records (local_bytes file size i), r.length < MAX_KEY_LEN := by
  obtain ⟨cur, hrec, _⟩ := worker_records file size i hsize
  apply records_from_short cur
  intro r hr
  apply hshort
  apply records_take_sub file (bound file.length size (i + 1))
  rw [hrec]
  exact List.mem_append_right _ hr

theorem records_length_sum (file : List Nat) (size : Nat) (hsize : 1 ≤ size) :
    ((List.range size).map (fun i => ((records (local_bytes file size i)).length : Int))).sum
      = ((records file).length : Int) := by
  rw [sum_range_telescope _
    (fun i => ((records (file.take (bound file.length size i))).length : Int)) size]
  · rw [bound_size _ _ hsize, bound_zero, List.take_of_length_le (le_refl _)]
    simp [records, records_from]
  · intro i _
    obtain ⟨cur, hrec, _⟩ := worker_records file size i hsize
    show ((records (file.take (bound file.length size (i + 1)))).length : Int)
      = ((records (file.take (bound file.length size i))).length : Int)
        + ((records (local_bytes file size i)).length : Int)
    rw [hrec, List.length_append, records_from_length]
    push_cast
    rfl

theorem filter_flatMap_eq {α β : Type} (q : β → Bool) (f : α → List β) (l : List α) :
    (l.flatMap f).filter q = l.flatMap (fun i => (f i).filter q) := by
  induction l with
  | nil => rfl
  | cons a l ih => simp only [List.flatMap_cons, List.filter_append, ih]

theorem sum_filter_length {α : Type} (p : List Nat → Bool) (f : α → List (List Nat))
    (l : List α) :
    (l.map (fun i => (((f i).filter p).length : Int))).sum
      = ((((l.flatMap f).filter p).length : Nat) : Int) := by
  induction l with
  | nil => rfl
  | cons a l ih =>
    simp only [List.map_cons, List.sum_cons, ih, List.flatMap_cons, List.filter_append,
      List.length_append]
    push_cast
    rfl

theorem well_split_newline (file : List Nat) (size i : Nat) (h : WellSplit file size)
    (hi : i < size) :
    i = 0 ∨ bound file.length size i = 0
      ∨ ∃ p, p < bound file.length size i ∧ file.getD p 0 = 10 := by
  by_cases h0 : i = 0
  · exact Or.inl h0
  · by_cases hb : bound file.length size i = 0
    · exact Or.inr (Or.inl hb)
    · right; right
      have hmem := h i (by omega) hi (by rw [cand_start_eq]; omega)
      rw [cand_start_eq, Int.toNat_ofNat] at hmem
      obtain ⟨n, hn, heq⟩ := List.getElem_of_mem hmem
      have hn' := hn
      rw [List.length_take] at hn'
      rw [List.getElem_take] at heq
      refine ⟨n, by omega, ?_⟩
      rw [List.getD_eq_getElem _ _ (by omega)]
      exact heq

theorem records_flatMap (file : List Nat) (size : Nat) (hsize : 1 ≤ size)
    (hsplit : WellSplit file size) :
    (List.range size).flatMap (fun i => records (local_bytes file size i)) = records file := by
  have key : ∀ n, n ≤ size →
      (List.range n).flatMap (fun i => records (local_bytes file size i))
        = records (file.take (bound file.length size n)) := by
    intro n hn
    apply flatMap_range_telescope _ (fun i => records (file.take (bound file.length size i)))
    · rw [bound_zero]
      rfl
    · intro i hi
      obtain ⟨cur, hrec, hcur⟩ := worker_records file size i hsize
      have hc := hcur (well_split_newline file size i hsplit (by omega))
      rw [hc] at hrec
      exact hrec
  rw [key size (le_refl _), bound_size _ _ hsize, List.take_of_length_le (le_refl _)]

theorem inserted_flatMap (file : List Nat) (size : Nat) (hsize : 1 ≤ size) (hnul : 0 ∉ file)
    (hsplit : WellSplit file size) :
    (List.range size).flatMap (inserted_keys file size)
      = (records file).filter (fun r => decide (r.length < MAX_KEY_LEN)) := by
  rw [← records_flatMap file size hsize hsplit, filter_flatMap_eq]
  apply List.flatMap_congr
  intro i _
  exact inserted_keys_records file size i hnul

/-! ## The claims -/

/-- C1, as stated, fails: a record of 33 bytes is in no row (sum of the counts 0
for 1 line), a last line without newline is in no row (sum 0 for 1 line), and
after a NUL byte the records of the buffer are not read (sum 1 for 3 lines). -/
theorem count_conservation_counterexample :
    ((record_lines long_file).length = 1 ∧ group_by_mpi long_file 1 = some (0, []))
    ∧ ((record_lines [97, 98]).length = 1 ∧ group_by_mpi [97, 98] 1 = some (0, []))
    ∧ ((record_lines nul_file).length = 3
        ∧ group_by_mpi nul_file 1 = some (1, [{ key := [97], value := 1 }])) := by
  decide

/-- C1, amended (count conservation).  For a file without NUL byte whose records
(newline-terminated lines) have at most `MAX_KEY_LEN - 1` bytes each, and any
number of processes `size ≥ 1`, process 0 writes rows whose counts sum to the
number of records of the file. -/
theorem count_conservation (file : List Nat) (size : Nat) (hsize : 1 ≤ size)
    (hnul : 0 ∉ file) (hshort : ∀ r ∈ records file, r.length < MAX_KEY_LEN) :
    ∃ n rows, group_by_mpi file size = some (n, rows)
      ∧ total_count rows = ((records file).length : Int) := by
  obtain ⟨R, hout, _, hweight, _⟩ := pipeline_spec file size hsize
  refine ⟨R.length, sort_entries cmp_value R, hout, ?_⟩
  unfold total_count
  rw [weight_perm _ (sort_entries_perm cmp_value R),
    hweight (fun _ => true) (fun _ _ _ => rfl), ← records_length_sum file size hsize]
  congr 1
  apply List.map_congr_left
  intro i _
  rw [inserted_keys_records file size i hnul, List.filter_eq_self.2 (fun _ _ => rfl),
    List.filter_eq_self.2]
  intro r hr
  simpa using local_records_short file size i hsize hshort r hr

theorem count_conservation_witness :
    (1 ≤ 2 ∧ 0 ∉ ab_cd_file ∧ ∀ r ∈ records ab_cd_file, r.length < MAX_KEY_LEN)
    ∧ ∃ n rows, group_by_mpi ab_cd_file 2 = some (n, rows)
        ∧ total_count rows = ((records ab_cd_file).length : Int) :=
  ⟨by decide, count_conservation ab_cd_file 2 (by decide) (by decide) (by decide)⟩

/-- C2 (key uniqueness).  For every file and every number of processes
`size ≥ 1`, process 0 writes its rows and no two rows have the same key. -/
theorem key_uniqueness (file : List Nat) (size : Nat) (hsize : 1 ≤ size) :
    ∃ n rows, group_by_mpi file size = some (n, rows)
      ∧ (rows.map (fun e => e.key)).Nodup
      ∧ rows.Pairwise (fun a b => strcmp a.key b.key ≠ 0) := by
  obtain ⟨R, hout, hsorted, _, _⟩ := pipeline_spec file size hsize
  have hd := sorted_run_distinct hsorted (sort_entries_perm cmp_value R)
  exact ⟨R.length, sort_entries cmp_value R, hout, distinct_keys_nodup hd, hd⟩

theorem key_uniqueness_witness :
    1 ≤ 2 ∧ ∃ n rows, group_by_mpi ab_cd_file 2 = some (n, rows)
      ∧ (rows.map (fun e => e.key)).Nodup
      ∧ rows.Pairwise (fun a b => strcmp a.key b.key ≠ 0) :=
  ⟨by decide, key_uniqueness ab_cd_file 2 (by decide)⟩

/-- C3 fails on the file `ab\n`: one process writes the row `ab 1`, two processes
write a row with the empty key, because process 1 finds no newline below its
candidate start 2 and keeps it. -/
theorem worker_count_divergence :
    group_by_mpi ab_file 1 = some (1, [{ key := [97, 98], value := 1 }])
    ∧ group_by_mpi ab_file 2 = some (1, [{ key := [], value := 1 }]) := by
  decide

/-- C4 (concrete scenario).  On the file `ab\ncd\nab\nef\ncd\nab\n` one process
and two processes write the header 3 and the rows `ab 3`, `cd 2`, `ef 1`. -/
theorem concrete_scenario :
    group_by_mpi ab_cd_file 1
      = some (3, [{ key := [97, 98], value := 3 }, { key := [99, 100], value := 2 },
                  { key := [101, 102], value := 1 }])
    ∧ group_by_mpi ab_cd_file 2
      = some (3, [{ key := [97, 98], value := 3 }, { key := [99, 100], value := 2 },
                  { key := [101, 102], value := 1 }]) := by
  decide

theorem merge_sort_eq_sort_entries (cmp : Entry → Entry → Int) (entries : List Entry) :
    merge_sort cmp entries.length entries 0 (entries.length - 1) = sort_entries cmp entries := by
  unfold sort_entries
  split_ifs with h
  · rfl
  · match entries, h with
    | [], _ => rfl
    | [x], _ => rfl
    | _ :: _ :: _, h => simp at h

theorem strcmp_le_iff_key_le (a b : List Nat) (ha : 0 ∉ a) (hb : 0 ∉ b) :
    strcmp a b ≤ 0 ↔ key_le a b := by
  induction a generalizing b with
  | nil =>
    cases b with
    | nil => simp [strcmp, key_le]
    | cons y ys =>
      simp only [strcmp, key_le, iff_true]
      omega
  | cons x xs ih =>
    have hx : x ≠ 0 := fun e => ha (e ▸ List.mem_cons_self _ _)
    have hxs : 0 ∉ xs := fun e => ha (List.mem_cons_of_mem _ e)
    cases b with
    | nil =>
      simp only [strcmp, key_le, iff_false]
      omega
    | cons y ys =>
      have hys : 0 ∉ ys := fun e => hb (List.mem_cons_of_mem _ e)
      simp only [strcmp, key_le]
      by_cases hxy : x = y
      · subst hxy
        simp only [ne_eq, not_true_eq_false, if_false, if_neg hx, lt_self_iff_false, true_and,
          false_or]
        exact ih ys hxs hys
      · simp only [ne_eq, hxy, not_false_eq_true, if_true, false_and, or_false]
        omega

/-- C5 (ranker ordering).  For entries whose counts are positive `int` values,
`merge_sort` with `cmp_value` on the whole array returns a permutation of it in
which every adjacent pair, and every pair, has the greater count first, or equal
counts and keys in the order of `strcmp`; for keys without NUL byte this is the
byte-wise order of the keys. -/
theorem ranker_ordering (entries : List Entry)
    (h : ∀ e ∈ entries, 1 ≤ e.value ∧ e.value < 2 ^ 31) :
    List.Perm (merge_sort cmp_value entries.length entries 0 (entries.length - 1)) entries
    ∧ (merge_sort cmp_value entries.length entries 0 (entries.length - 1)).Chain'
        (fun a b => a.value > b.value ∨ (a.value = b.value ∧ strcmp a.key b.key ≤ 0))
    ∧ (merge_sort cmp_value entries.length entries 0 (entries.length - 1)).Pairwise
        (fun a b => a.value > b.value ∨ (a.value = b.value ∧ strcmp a.key b.key ≤ 0))
    ∧ ((∀ e ∈ entries, 0 ∉ e.key) →
        (merge_sort cmp_value entries.length entries 0 (entries.length - 1)).Chain'
          (fun a b => a.value > b.value ∨ (a.value = b.value ∧ key_le a.key b.key))) := by
  rw [merge_sort_eq_sort_entries]
  obtain ⟨hperm, hsorted⟩ := sort_entries_spec cmp_value
    (fun e => 1 ≤ e.value ∧ e.value < 2 ^ 31) cmp_value_total cmp_value_trans entries
  have hall : ∀ e ∈ sort_entries cmp_value entries, 1 ≤ e.value ∧ e.value < 2 ^ 31 :=
    fun e he => h e (hperm.mem_iff.1 he)
  have hpair : (sort_entries cmp_value entries).Pairwise
      (fun a b => a.value > b.value ∨ (a.value = b.value ∧ strcmp a.key b.key ≤ 0)) := by
    have h1 := hsorted h
    rw [List.pairwise_iff_forall_sublist] at h1 ⊢
    intro a b hab
    have ha : a ∈ sort_entries cmp_value entries := hab.subset (List.mem_cons_self _ _)
    have hb : b ∈ sort_entries cmp_value entries :=
      hab.subset (List.mem_cons_of_mem _ (List.mem_singleton_self _))
    exact (cmp_value_le_iff a b (hall a ha) (hall b hb)).1 (h1 hab)
  refine ⟨hperm, List.Pairwise.chain' hpair, hpair, ?_⟩
  intro hnul
  apply List.Pairwise.chain'
  rw [List.pairwise_iff_forall_sublist] at hpair ⊢
  intro a b hab
  have ha : a ∈ sort_entries cmp_value entries := hab.subset (List.mem_cons_self _ _)
  have hb : b ∈ sort_entries cmp_value entries :=
    hab.subset (List.mem_cons_of_mem _ (List.mem_singleton_self _))
  rcases hpair hab with h1 | ⟨h1, h2⟩
  · exact Or.inl h1
  · exact Or.inr ⟨h1, (strcmp_le_iff_key_le _ _ (hnul a (hperm.mem_iff.1 ha))
      (hnul b (hperm.mem_iff.1 hb))).1 h2⟩

theorem ranker_ordering_witness :
    (∀ e ∈ sample_entries, 1 ≤ e.value ∧ e.value < 2 ^ 31)
    ∧ (List.Perm
        (merge_sort cmp_value sample_entries.length sample_entries 0 (sample_entries.length - 1))
        sample_entries
      ∧ (merge_sort cmp_value sample_entries.length sample_entries 0
          (sample_entries.length - 1)).Chain'
          (fun a b => a.value > b.value ∨ (a.value = b.value ∧ strcmp a.key b.key ≤ 0))
      ∧ (merge_sort cmp_value sample_entries.length sample_entries 0
          (sample_entries.length - 1)).Pairwise
          (fun a b => a.value > b.value ∨ (a.value = b.value ∧ strcmp a.key b.key ≤ 0))
      ∧ ((∀ e ∈ sample_entries, 0 ∉ e.key) →
          (merge_sort cmp_value sample_entries.length sample_entries 0
            (sample_entries.length - 1)).Chain'
            (fun a b => a.value > b.value ∨ (a.value = b.value ∧ key_le a.key b.key)))) :=
  ⟨by decide, ranker_ordering sample_entries (by decide)⟩

/-- C6, as stated, fails: with a record of 38 bytes and a record equal to its
first 32 bytes, one process writes the row of the 32 bytes with count 1, not 2
(the record of 38 bytes is in no row); two processes write, besides, a row for
the last 2 bytes of the long record, which the second process reads from the
middle of the record on; and with a NUL byte between the two records no row is
written at all. -/
theorem truncation_counterexample :
    records trunc_file = [List.replicate 38 97, List.replicate 32 97]
    ∧ group_by_mpi trunc_file 1 = some (1, [{ key := List.replicate 32 97, value := 1 }])
    ∧ group_by_mpi trunc_file 2
        = some (2, [{ key := [97, 97], value := 1 }, { key := List.replicate 32 97, value := 1 }])
    ∧ group_by_mpi trunc_nul_file 1 = some (0, []) := by
  decide

/-- C6, amended (no truncation in the parsing loop).  For a file without NUL
byte and a number of processes `size ≥ 1` such that every process but the first
finds a newline below its candidate start, the rows have pairwise different
keys and the count recorded for a key `k` is the number of records of at most
`MAX_KEY_LEN - 1` bytes that are equal to `k`: a longer record (38 bytes, say)
is skipped, it is counted under no key, and the row of its first 32 bytes counts
the records that are exactly these 32 bytes. -/
theorem truncation_skips (file : List Nat) (size : Nat) (hsize : 1 ≤ size) (hnul : 0 ∉ file)
    (hsplit : WellSplit file size) :
    ∃ n rows, group_by_mpi file size = some (n, rows)
      ∧ rows.Pairwise (fun a b => strcmp a.key b.key ≠ 0)
      ∧ ∀ k, count_of k rows
          = ((((records file).filter (fun r => decide (r.length < MAX_KEY_LEN))).filter
              (fun r => decide (strcmp r k = 0))).length : Int) := by
  obtain ⟨R, hout, hsorted, hweight, _⟩ := pipeline_spec file size hsize
  refine ⟨R.length, sort_entries cmp_value R, hout,
    sorted_run_distinct hsorted (sort_entries_perm cmp_value R), ?_⟩
  intro k
  unfold count_of
  rw [weight_perm _ (sort_entries_perm cmp_value R), hweight _ (count_of_respects k),
    sum_filter_length, inserted_flatMap file size hsize hnul hsplit]

theorem truncation_skips_witness :
    (1 ≤ 2 ∧ 0 ∉ split_file ∧ WellSplit split_file 2)
    ∧ ∃ n rows, group_by_mpi split_file 2 = some (n, rows)
      ∧ rows.Pairwise (fun a b => strcmp a.key b.key ≠ 0)
      ∧ ∀ k, count_of k rows
          = ((((records split_file).filter (fun r => decide (r.length < MAX_KEY_LEN))).filter
              (fun r => decide (strcmp r k = 0))).length : Int) :=
  have hsplit : WellSplit split_file 2 := by
    intro i h1 h2 _
    have hi : i = 1 := by omega
    subst hi
    decide
  ⟨⟨by decide, by decide, hsplit⟩, truncation_skips split_file 2 (by decide) (by decide) hsplit⟩

/-! ### The ranges of the processes -/

theorem bound_mono_le (N size : Nat) {i j : Nat} (h : i ≤ j) : bound N size i ≤ bound N size j := by
  induction h with
  | refl => exact le_refl _
  | step _ ih => exact le_trans ih (bound_mono N size _)

theorem cand_range_bytes (file : List Nat) (size i : Nat) :
    read_at file (cand_start file.length size i)
        (cand_end file.length size i - cand_start file.length size i + 1)
      = (file.drop (bound file.length size i)).take
          (bound file.length size (i + 1) - bound file.length size i) := by
  unfold read_at
  rw [cand_start_eq, cand_end_eq]
  have hm := bound_mono file.length size i
  have h1 : (((bound file.length size (i + 1) : Nat) : Int) - 1
      - ((bound file.length size i : Nat) : Int) + 1).toNat
      = bound file.length size (i + 1) - bound file.length size i := by omega
  rw [h1, Int.toNat_ofNat]

/-- C7, as stated, fails on the file `x\nabcd\n` with two processes: process 0
reads the offsets 0 to 3 and process 1 the offsets 2 to 6, so the two ranges
share the offsets 2 and 3 and their concatenation is not the file. -/
theorem partition_counterexample :
    true_start x_abcd_file 2 0 = 0 ∧ true_end x_abcd_file 2 0 = 3
    ∧ true_start x_abcd_file 2 1 = 2 ∧ true_end x_abcd_file 2 1 = 6
    ∧ local_bytes x_abcd_file 2 0 ++ local_bytes x_abcd_file 2 1 ≠ x_abcd_file := by
  decide

/-- C7, amended (partition).  For every file and `size ≥ 1`: the candidate
ranges `[cand_start, cand_end]` start at 0, each ends right before the next one
starts, the last ends at the last byte, they are pairwise disjoint and their
bytes, concatenated by rank, are the file; the range that a process reads ends
at its candidate end and starts at or before its candidate start, the bytes
read before the candidate start holding no newline. -/
theorem partition_ranges (file : List Nat) (size : Nat) (hsize : 1 ≤ size) :
    cand_start file.length size 0 = 0
    ∧ (∀ i, cand_end file.length size i + 1 = cand_start file.length size (i + 1))
    ∧ cand_end file.length size (size - 1) = (file.length : Int) - 1
    ∧ (∀ i j, i < j → cand_end file.length size i < cand_start file.length size j)
    ∧ (List.range size).flatMap (fun i => read_at file (cand_start file.length size i)
        (cand_end file.length size i - cand_start file.length size i + 1)) = file
    ∧ (∀ i, true_end file size i = cand_end file.length size i)
    ∧ (∀ i, 0 ≤ true_start file size i ∧ true_start file size i ≤ cand_start file.length size i
        ∧ 10 ∉ read_at file (true_start file size i)
            (cand_start file.length size i - true_start file size i)) := by
  refine ⟨?_, ?_, ?_, ?_, ?_, ?_, ?_⟩
  · rw [cand_start_eq, bound_zero]
    rfl
  · intro i
    rw [cand_end_eq, cand_start_eq]
    omega
  · rw [cand_end_eq]
    have : size - 1 + 1 = size := by omega
    rw [this, bound_size _ _ hsize]
  · intro i j hij
    rw [cand_end_eq, cand_start_eq]
    have := bound_mono_le file.length size (show i + 1 ≤ j by omega)
    omega
  · have key : (List.range size).flatMap (fun i => read_at file (cand_start file.length size i)
        (cand_end file.length size i - cand_start file.length size i + 1))
        = file.take (bound file.length size size) := by
      apply flatMap_range_telescope _ (fun i => file.take (bound file.length size i))
      · rw [bound_zero]
        rfl
      · intro i _
        rw [cand_range_bytes]
        exact take_split file _ _ (bound_mono _ _ _)
    rw [key, bound_size _ _ hsize, List.take_of_length_le (le_refl _)]
  · intro i
    rw [true_end_eq file size i hsize, cand_end_eq]
  · intro i
    obtain ⟨s, hs, hle, hgap, _⟩ := true_start_spec file size i
    rw [hs, cand_start_eq]
    refine ⟨by omega, by omega, ?_⟩
    unfold read_at
    have h1 : (((bound file.length size i : Nat) : Int) - (s : Int)).toNat
        = bound file.length size i - s := by omega
    rw [h1, Int.toNat_ofNat]
    exact no_newline_segment file s _ hgap

theorem partition_ranges_witness :
    1 ≤ 2 ∧ (cand_start x_abcd_file.length 2 0 = 0
    ∧ (∀ i, cand_end x_abcd_file.length 2 i + 1 = cand_start x_abcd_file.length 2 (i + 1))
    ∧ cand_end x_abcd_file.length 2 (2 - 1) = (x_abcd_file.length : Int) - 1
    ∧ (∀ i j, i < j → cand_end x_abcd_file.length 2 i < cand_start x_abcd_file.length 2 j)
    ∧ (List.range 2).flatMap (fun i => read_at x_abcd_file (cand_start x_abcd_file.length 2 i)
        (cand_end x_abcd_file.length 2 i - cand_start x_abcd_file.length 2 i + 1)) = x_abcd_file
    ∧ (∀ i, true_end x_abcd_file 2 i = cand_end x_abcd_file.length 2 i)
    ∧ (∀ i, 0 ≤ true_start x_abcd_file 2 i
        ∧ true_start x_abcd_file 2 i ≤ cand_start x_abcd_file.length 2 i
        ∧ 10 ∉ read_at x_abcd_file (true_start x_abcd_file 2 i)
            (cand_start x_abcd_file.length 2 i - true_start x_abcd_file 2 i))) :=
  ⟨by decide, partition_ranges x_abcd_file 2 (by decide)⟩

/-- C8 fails on the file `ab\n` with two processes: the candidate start of
process 1 is 2, no offset below 2 holds a newline, and the start that process 1
uses is 2, not 0. -/
theorem degenerate_start :
    cand_start ab_file.length 2 1 = 2 ∧ 10 ∉ ab_file.take 2 ∧ true_start ab_file 2 1 = 2
    ∧ local_bytes ab_file 2 1 = [10] := by
  decide

/-! ### A file made of one record -/

theorem pending_no_newline (cur X : List Nat) (h : 10 ∉ X) : pending cur X = X.reverse ++ cur := by
  induction X generalizing cur with
  | nil => rfl
  | cons c cs ih =>
    have hc : c ≠ 10 := fun e => h (e ▸ List.mem_cons_self _ _)
    have hcs : 10 ∉ cs := fun e => h (List.mem_cons_of_mem _ e)
    simp only [pending, if_neg hc, ih _ hcs, List.reverse_cons, List.append_assoc,
      List.singleton_append]

theorem records_single (rec : List Nat) (h : 10 ∉ rec) : records (rec ++ [10]) = [rec] := by
  unfold records
  rw [records_from_append, records_from_no_newline _ _ h, pending_no_newline _ _ h]
  simp [records_from]

theorem newline_index (rec : List Nat) (h : 10 ∉ rec) (j : Nat)
    (hj : (rec ++ [10]).getD j 0 = 10) : j = rec.length := by
  rcases Nat.lt_trichotomy j rec.length with hlt | heq | hgt
  · exfalso
    rw [List.getD_eq_getElem _ _ (by simp; omega), List.getElem_append_left hlt] at hj
    exact h (hj ▸ List.getElem_mem hlt)
  · exact heq
  · exfalso
    rw [List.getD_eq_default _ _ (by simp; omega)] at hj
    omega

theorem safe_strcpy_loop_id (key : List Nat) (i : Nat) (h0 : 0 ∉ key)
    (h : key.length + i ≤ MAX_KEY_LEN - 1) : safe_strcpy_loop key i = key := by
  induction key generalizing i with
  | nil => rfl
  | cons c cs ih =>
    have hc : c ≠ 0 := fun e => h0 (e ▸ List.mem_cons_self _ _)
    have hcs : 0 ∉ cs := fun e => h0 (List.mem_cons_of_mem _ e)
    simp only [List.length_cons] at h
    have hi : i < MAX_KEY_LEN - 1 := by omega
    simp only [safe_strcpy_loop, if_pos (And.intro hc hi)]
    rw [ih (i + 1) hcs (by omega)]

theorem insert_new_flatten (key : List Nat) (h0 : 0 ∉ key) (h : key.length < MAX_KEY_LEN) :
    ((HashTable.new NodePool.new BUCKET_SIZE).insert key).flatten
      = [{ key := key, value := 1 }] := by
  have hlt := hash_lt _ new_table_ok key
  have hcopy : safe_strcpy key = key := by
    apply safe_strcpy_loop_id key 0 h0
    have : MAX_KEY_LEN = 33 := rfl
    omega
  unfold HashTable.insert HashTable.flatten
  simp only [HashTable.new, bucket_get, chain_increment, NodePool.alloc, bucket_set, hcopy]
  simp only [HashTable.new] at hlt
  simp [List.filter, hlt]

theorem idle_process (rec : List Nat) (size i : Nat) (hsize : 1 ≤ size) (hrec : 10 ∉ rec)
    (hout : ¬ (cand_start (rec ++ [10]).length size i ≤ ((rec ++ [10]).length : Int) - 1
      ∧ ((rec ++ [10]).length : Int) - 1 ≤ cand_end (rec ++ [10]).length size i)) :
    inserted_keys (rec ++ [10]) size i = [] := by
  obtain ⟨s, hs, hle, hgap, _⟩ := true_start_spec (rec ++ [10]) size i
  have hle' : s ≤ bound (rec ++ [10]).length size (i + 1) := le_trans hle (bound_mono _ _ _)
  rw [cand_start_eq, cand_end_eq] at hout
  rw [inserted_keys_eq, local_bytes_eq (rec ++ [10]) size i s hsize hs hle']
  apply parse_keys_no_newline
  intro hmem
  rcases List.mem_append.1 hmem with hm | hm
  · obtain ⟨n, hn, heq⟩ := List.getElem_of_mem hm
    have hn' := hn
    simp only [List.length_take, List.length_drop] at hn'
    rw [List.getElem_take, List.getElem_drop] at heq
    have hlt : s + n < (rec ++ [10]).length := by omega
    have h10 : (rec ++ [10]).getD (s + n) 0 = 10 := by
      rw [List.getD_eq_getElem _ _ hlt]
      exact heq
    have hidx := newline_index rec hrec (s + n) h10
    have hlen : (rec ++ [10]).length = rec.length + 1 := by simp
    have hb : s + n < bound (rec ++ [10]).length size i := by
      by_contra hnb
      apply hout
      constructor <;> omega
    exact hgap (s + n) (by omega) hb h10
  · simp at hm

/-- C9, as stated, fails on the file `ab\n` with two processes: process 0 inserts
no key and process 1 inserts the empty key. -/
theorem whole_file_counterexample :
    inserted_keys ab_file 2 0 = [] ∧ (local_table ab_file 2 0).flatten = []
    ∧ inserted_keys ab_file 2 1 = [[]]
    ∧ (local_table ab_file 2 1).flatten = [{ key := [], value := 1 }] := by
  decide

/-- C9, amended (whole-file record).  For a file made of one record and its
newline and `size ≥ 1` processes, a process whose candidate range does not hold
the last byte inserts no key and keeps an empty table; with one process, a
record without NUL byte of at most `MAX_KEY_LEN - 1` bytes is inserted in full
by process 0, whose table then holds this key alone, with count 1. -/
theorem whole_file_record (rec : List Nat) (size : Nat) (hsize : 1 ≤ size) (hrec : 10 ∉ rec) :
    (∀ i, i < size →
      ¬ (cand_start (rec ++ [10]).length size i ≤ ((rec ++ [10]).length : Int) - 1
          ∧ ((rec ++ [10]).length : Int) - 1 ≤ cand_end (rec ++ [10]).length size i) →
      inserted_keys (rec ++ [10]) size i = []
        ∧ local_table (rec ++ [10]) size i = HashTable.new NodePool.new BUCKET_SIZE)
    ∧ (0 ∉ rec → rec.length < MAX_KEY_LEN →
        inserted_keys (rec ++ [10]) 1 0 = [rec]
          ∧ (local_table (rec ++ [10]) 1 0).flatten = [{ key := rec, value := 1 }]) := by
  constructor
  · intro i _ hout
    have h := idle_process rec size i hsize hrec hout
    refine ⟨h, ?_⟩
    rw [local_table_eq, h]
    rfl
  · intro h0 hlen
    have hnul : 0 ∉ rec ++ [10] := by
      intro hm
      rcases List.mem_append.1 hm with h | h
      · exact h0 h
      · simp at h
    have hs : true_start (rec ++ [10]) 1 0 = ((0 : Nat) : Int) := by
      unfold true_start
      simp only [ne_eq, not_true_eq_false, false_and, if_false]
      rw [cand_start_eq, bound_zero]
    have hbytes : local_bytes (rec ++ [10]) 1 0 = rec ++ [10] := by
      rw [local_bytes_eq (rec ++ [10]) 1 0 0 (le_refl _) hs (Nat.zero_le _),
        bound_size _ _ (le_refl _)]
      simp
    have hkeys : inserted_keys (rec ++ [10]) 1 0 = [rec] := by
      rw [inserted_keys_records _ _ _ hnul, hbytes, records_single rec hrec]
      simp [hlen]
    refine ⟨hkeys, ?_⟩
    rw [local_table_eq, hkeys]
    exact insert_new_flatten rec h0 hlen

theorem whole_file_record_witness :
    (1 ≤ 2 ∧ 10 ∉ [97, 98])
    ∧ ((∀ i, i < 2 →
      ¬ (cand_start ([97, 98] ++ [10]).length 2 i ≤ ((([97, 98] : List Nat) ++ [10]).length : Int) - 1
          ∧ ((([97, 98] : List Nat) ++ [10]).length : Int) - 1
              ≤ cand_end ([97, 98] ++ [10]).length 2 i) →
      inserted_keys ([97, 98] ++ [10]) 2 i = []
        ∧ local_table ([97, 98] ++ [10]) 2 i = HashTable.new NodePool.new BUCKET_SIZE)
    ∧ (0 ∉ [97, 98] → ([97, 98] : List Nat).length < MAX_KEY_LEN →
        inserted_keys ([97, 98] ++ [10]) 1 0 = [[97, 98]]
          ∧ (local_table ([97, 98] ++ [10]) 1 0).flatten = [{ key := [97, 98], value := 1 }])) :=
  ⟨by decide, whole_file_record [97, 98] 2 (by decide) (by decide)⟩

/-! ## Strings and rows -/

theorem strcmp_eq_zero_iff_cstr (a b : List Nat) : strcmp a b = 0 ↔ cstr a = cstr b := by
  induction a generalizing b with
  | nil =>
    cases b with
    | nil => simp [strcmp, cstr]
    | cons y ys =>
      simp only [strcmp, cstr]
      by_cases hy : y = 0
      · simp [hy]
      · simp only [if_neg hy]
        constructor
        · intro h; omega
        · intro h; cases h
  | cons x xs ih =>
    cases b with
    | nil =>
      simp only [strcmp, cstr]
      by_cases hx : x = 0
      · simp [hx]
      · simp only [if_neg hx]
        constructor
        · intro h; omega
        · intro h; cases h
    | cons y ys =>
      simp only [strcmp, cstr]
      by_cases hxy : x = y
      · subst hxy
        by_cases h0 : x = 0
        · simp [h0]
        · simp only [ne_eq, not_true_eq_false, if_false, if_neg h0, List.cons.injEq, true_and]
          exact ih ys
      · simp only [ne_eq, hxy, not_false_eq_true, if_true]
        constructor
        · intro h; omega
        · intro h
          exfalso
          by_cases hx0 : x = 0
          · subst hx0
            have hy0 : ¬ y = 0 := fun e => hxy e.symm
            simp [hy0] at h
          · by_cases hy0 : y = 0
            · subst hy0
              simp [hx0] at h
            · simp only [if_neg hx0, if_neg hy0, List.cons.injEq] at h
              exact hxy h.1

theorem cstr_of_no_nul (a : List Nat) (h : 0 ∉ a) : cstr a = a := by
  induction a with
  | nil => rfl
  | cons x xs ih =>
    have hx : x ≠ 0 := fun e => h (e ▸ List.mem_cons_self _ _)
    have hxs : 0 ∉ xs := fun e => h (List.mem_cons_of_mem _ e)
    simp only [cstr, if_neg hx, ih hxs]

theorem weight_eq_zero (p : List Nat → Bool) (l : List Entry)
    (h : ∀ e ∈ l, p e.key = false) : weight p l = 0 := by
  induction l with
  | nil => rfl
  | cons e l ih =>
    have he := h e (List.mem_cons_self _ _)
    simp only [weight, he, Bool.false_eq_true, if_false,
      ih (fun x hx => h x (List.mem_cons_of_mem _ hx))]
    rfl

theorem count_of_cons (k : List Nat) (e : Entry) (l : List Entry) :
    count_of k (e :: l) = (if strcmp e.key k = 0 then e.value else 0) + count_of k l := by
  unfold count_of
  simp only [weight, decide_eq_true_eq]

theorem count_of_tail_zero (a : Entry) (l : List Entry) (k : List Nat)
    (h : SortedRun (a :: l)) (hk : strcmp a.key k = 0) : count_of k l = 0 := by
  unfold count_of
  apply weight_eq_zero
  intro e he
  have hlt : strcmp a.key e.key < 0 := (List.pairwise_cons.1 h).1 e he
  simp only [decide_eq_false_iff_not]
  intro h0
  rw [strcmp_congr_right e.key k a.key h0] at hlt
  omega

theorem has_key_cons (k : List Nat) (e : Entry) (l : List Entry) :
    has_key k (e :: l) ↔ strcmp e.key k = 0 ∨ has_key k l := by
  unfold has_key
  constructor
  · rintro ⟨x, hx, hk⟩
    rcases List.mem_cons.1 hx with rfl | hx'
    · exact Or.inl hk
    · exact Or.inr ⟨x, hx', hk⟩
  · rintro (hk | ⟨x, hx, hk⟩)
    · exact ⟨e, List.mem_cons_self _ _, hk⟩
    · exact ⟨x, List.mem_cons_of_mem _ hx, hk⟩

theorem sorted_head_le (a : Entry) (l : List Entry) (k : List Nat) (h : SortedRun (a :: l))
    (hk : has_key k (a :: l)) : strcmp a.key k ≤ 0 := by
  rcases (has_key_cons k a l).1 hk with h0 | ⟨x, hx, hxk⟩
  · omega
  · have hlt : strcmp a.key x.key < 0 := (List.pairwise_cons.1 h).1 x hx
    rw [strcmp_congr_right x.key k a.key hxk] at hlt
    omega

/-- Two sorted runs with the same keys and the same count for every key hold the
same rows. -/
theorem sorted_run_ext (l1 l2 : List Entry) (h1 : SortedRun l1) (h2 : SortedRun l2)
    (hkeys : ∀ k, has_key k l1 ↔ has_key k l2)
    (hcount : ∀ k, count_of k l1 = count_of k l2) :
    l1.map entry_row = l2.map entry_row := by
  induction l1 generalizing l2 with
  | nil =>
    cases l2 with
    | nil => rfl
    | cons b l2 =>
      exfalso
      have := (hkeys b.key).2 ⟨b, List.mem_cons_self _ _, strcmp_self _⟩
      obtain ⟨x, hx, _⟩ := this
      cases hx
  | cons a l1 ih =>
    cases l2 with
    | nil =>
      exfalso
      have := (hkeys a.key).1 ⟨a, List.mem_cons_self _ _, strcmp_self _⟩
      obtain ⟨x, hx, _⟩ := this
      cases hx
    | cons b l2 =>
      have hba : strcmp b.key a.key ≤ 0 :=
        sorted_head_le b l2 a.key h2
          ((hkeys a.key).1 ⟨a, List.mem_cons_self _ _, strcmp_self _⟩)
      have hab : strcmp a.key b.key ≤ 0 :=
        sorted_head_le a l1 b.key h1
          ((hkeys b.key).2 ⟨b, List.mem_cons_self _ _, strcmp_self _⟩)
      have heq : strcmp a.key b.key = 0 := by
        rw [strcmp_swap a.key b.key] at hba
        omega
      have heq' : strcmp b.key a.key = 0 := by
        rw [strcmp_swap a.key b.key]
        omega
      have hval : a.value = b.value := by
        have hc := hcount a.key
        rw [count_of_cons, count_of_cons, count_of_tail_zero a l1 a.key h1 (strcmp_self _),
          count_of_tail_zero b l2 a.key h2 heq', if_pos (strcmp_self _), if_pos heq'] at hc
        omega
      have hsame : ∀ k, strcmp a.key k = 0 ↔ strcmp b.key k = 0 := by
        intro k
        rw [strcmp_congr_left a.key b.key k heq]
      have htail : l1.map entry_row = l2.map entry_row := by
        apply ih l2 (List.pairwise_cons.1 h1).2 (List.pairwise_cons.1 h2).2
        · intro k
          have hk := hkeys k
          rw [has_key_cons, has_key_cons] at hk
          constructor
          · intro hl
            rcases hk.1 (Or.inr hl) with hb | hl2
            · exfalso
              have h0 := count_of_tail_zero a l1 k h1 ((hsame k).2 hb)
              obtain ⟨x, hx, hxk⟩ := hl
              have hlt : strcmp a.key x.key < 0 := (List.pairwise_cons.1 h1).1 x hx
              rw [strcmp_congr_right x.key k a.key hxk, (hsame k).2 hb] at hlt
              omega
            · exact hl2
          · intro hl
            rcases hk.2 (Or.inr hl) with ha | hl1
            · exfalso
              obtain ⟨x, hx, hxk⟩ := hl
              have hlt : strcmp b.key x.key < 0 := (List.pairwise_cons.1 h2).1 x hx
              rw [strcmp_congr_right x.key k b.key hxk, (hsame k).1 ha] at hlt
              omega
            · exact hl1
        · intro k
          have hc := hcount k
          rw [count_of_cons, count_of_cons] at hc
          by_cases hk : strcmp a.key k = 0
          · rw [if_pos hk, if_pos ((hsame k).1 hk)] at hc
            omega
          · rw [if_neg hk, if_neg (fun h => hk ((hsame k).2 h))] at hc
            omega
      simp only [List.map_cons, htail, List.cons.injEq, and_true]
      unfold entry_row
      rw [(strcmp_eq_zero_iff_cstr a.key b.key).1 heq, hval]

theorem rows_injective (l1 l2 : List Entry) (h1 : ∀ e ∈ l1, 0 ∉ e.key)
    (h2 : ∀ e ∈ l2, 0 ∉ e.key) (h : l1.map entry_row = l2.map entry_row) : l1 = l2 := by
  induction l1 generalizing l2 with
  | nil =>
    cases l2 with
    | nil => rfl
    | cons b l2 => simp at h
  | cons a l1 ih =>
    cases l2 with
    | nil => simp at h
    | cons b l2 =>
      simp only [List.map_cons, List.cons.injEq] at h
      obtain ⟨hrow, htail⟩ := h
      have hl := ih l2 (fun e he => h1 e (List.mem_cons_of_mem _ he))
        (fun e he => h2 e (List.mem_cons_of_mem _ he)) htail
      unfold entry_row at hrow
      rw [cstr_of_no_nul _ (h1 a (List.mem_cons_self _ _)),
        cstr_of_no_nul _ (h2 b (List.mem_cons_self _ _))] at hrow
      have hab : a = b := by
        cases a
        cases b
        simp only [Prod.mk.injEq] at hrow
        simp only [Entry.mk.injEq]
        exact hrow
      rw [hab, hl]

/-! ## The merge of two runs -/

theorem in_keys_iff (k : List Nat) (l : List Entry) : in_keys k l = true ↔ has_key k l := by
  unfold in_keys has_key
  rw [List.any_eq_true]
  constructor
  · rintro ⟨e, he, h⟩
    exact ⟨e, he, by simpa using h⟩
  · rintro ⟨e, he, h⟩
    exact ⟨e, he, by simpa using h⟩

theorem merge_same_keys_keys (l : List Entry) :
    ∀ x ∈ merge_same_keys l, ∃ y ∈ l, x.key = y.key := by
  cases l with
  | nil => intro x hx; cases hx
  | cons e rest => exact merge_same_keys_loop_keys e rest

theorem merge_runs_keys (A B : List Entry) :
    ∀ x ∈ merge_runs A B, ∃ y ∈ A ++ B, x.key = y.key := by
  intro x hx
  obtain ⟨y, hy, hxy⟩ := merge_same_keys_keys _ x hx
  exact ⟨y, (merge_sorted_entries_perm A B).mem_iff.1 hy, hxy⟩

theorem count_of_sorted_mem (l : List Entry) (h : SortedRun l) (e : Entry) (he : e ∈ l) :
    count_of e.key l = e.value := by
  induction l with
  | nil => cases he
  | cons a l ih =>
    rw [count_of_cons]
    rcases List.mem_cons.1 he with rfl | he'
    · rw [if_pos (strcmp_self _), count_of_tail_zero e l e.key h (strcmp_self _)]
      omega
    · have hlt : strcmp a.key e.key < 0 := (List.pairwise_cons.1 h).1 e he'
      rw [if_neg (by omega), ih (List.pairwise_cons.1 h).2 he']
      omega

theorem sorted_run_nodup (l : List Entry) (h : SortedRun l) :
    (l.map (fun e => cstr e.key)).Nodup := by
  unfold List.Nodup
  rw [List.pairwise_map]
  unfold SortedRun at h
  refine h.imp ?_
  intro a b hab heq
  rw [(strcmp_eq_zero_iff_cstr a.key b.key).2 heq] at hab
  omega

theorem mem_keys_iff (s : List Nat) (l : List Entry) :
    s ∈ l.map (fun e => cstr e.key) ↔ ∃ e ∈ l, cstr e.key = s := by
  rw [List.mem_map]

theorem has_key_iff_cstr (k : List Nat) (l : List Entry) :
    has_key k l ↔ cstr k ∈ l.map (fun e => cstr e.key) := by
  rw [mem_keys_iff]
  unfold has_key
  constructor
  · rintro ⟨e, he, h⟩
    exact ⟨e, he, (strcmp_eq_zero_iff_cstr _ _).1 h⟩
  · rintro ⟨e, he, h⟩
    exact ⟨e, he, (strcmp_eq_zero_iff_cstr _ _).2 h⟩

theorem merge_runs_length (A B : List Entry) (hA : SortedRun A) (hB : SortedRun B) :
    (merge_runs A B).length + (A.filter (fun a => in_keys a.key B)).length
      = A.length + B.length := by
  have hM : SortedRun (merge_runs A B) := merge_runs_sorted A B hA hB
  have hA' : SortedRun (A.filter (fun a => !in_keys a.key B)) := by
    unfold SortedRun at hA ⊢
    exact hA.sublist (List.filter_sublist A)
  have d1 := sorted_run_nodup _ hM
  have d2 : ((A.filter (fun a => !in_keys a.key B) ++ B).map (fun e => cstr e.key)).Nodup := by
    rw [List.map_append]
    refine List.Nodup.append (sorted_run_nodup _ hA') (sorted_run_nodup _ hB) ?_
    intro s hs1 hs2
    obtain ⟨a, ha, has⟩ := (mem_keys_iff s _).1 hs1
    obtain ⟨b, hb, hbs⟩ := (mem_keys_iff s _).1 hs2
    have hfa := (List.mem_filter.1 ha).2
    have hin : in_keys a.key B = true :=
      (in_keys_iff a.key B).2 ⟨b, hb, (strcmp_eq_zero_iff_cstr _ _).2 (hbs.trans has.symm)⟩
    rw [hin] at hfa
    simp at hfa
  have hperm : List.Perm ((merge_runs A B).map (fun e => cstr e.key))
      ((A.filter (fun a => !in_keys a.key B) ++ B).map (fun e => cstr e.key)) := by
    rw [List.perm_ext_iff_of_nodup d1 d2]
    intro s
    rw [mem_keys_iff, mem_keys_iff]
    constructor
    · rintro ⟨x, hx, hxs⟩
      have hk : has_key x.key (merge_runs A B) := ⟨x, hx, strcmp_self _⟩
      unfold merge_runs at hk
      rw [merge_runs_has_key] at hk
      rcases hk with ⟨a, ha, hax⟩ | ⟨b, hb, hbx⟩
      · by_cases hin : in_keys a.key B = true
        · obtain ⟨b, hb, hba⟩ := (in_keys_iff a.key B).1 hin
          refine ⟨b, List.mem_append_right _ hb, ?_⟩
          rw [(strcmp_eq_zero_iff_cstr _ _).1 hba, (strcmp_eq_zero_iff_cstr _ _).1 hax, hxs]
        · refine ⟨a, List.mem_append_left _ (List.mem_filter.2 ⟨ha, by simpa using hin⟩), ?_⟩
          rw [(strcmp_eq_zero_iff_cstr _ _).1 hax, hxs]
      · exact ⟨b, List.mem_append_right _ hb,
          by rw [(strcmp_eq_zero_iff_cstr _ _).1 hbx, hxs]⟩
    · rintro ⟨q, hq, hqs⟩
      have hk : has_key q.key (merge_runs A B) := by
        unfold merge_runs
        rw [merge_runs_has_key]
        rcases List.mem_append.1 hq with h | h
        · exact Or.inl ⟨q, (List.mem_filter.1 h).1, strcmp_self _⟩
        · exact Or.inr ⟨q, h, strcmp_self _⟩
      obtain ⟨x, hx, hxq⟩ := hk
      exact ⟨x, hx, by rw [(strcmp_eq_zero_iff_cstr _ _).1 hxq, hqs]⟩
  have hlen := hperm.length_eq
  simp only [List.length_map, List.length_append] at hlen
  have hsplit := @List.length_eq_length_filter_add Entry A (fun a => in_keys a.key B)
  omega

theorem merge_runs_sorted' (A B : List Entry) (hA : SortedRun A) (hB : SortedRun B) :
    SortedRun (merge_runs A B) := merge_runs_sorted A B hA hB

theorem merge_runs_count (k : List Nat) (A B : List Entry) :
    count_of k (merge_runs A B) = count_of k A + count_of k B :=
  merge_runs_weight _ (count_of_respects k) A B

theorem merge_runs_has_key' (k : List Nat) (A B : List Entry) :
    has_key k (merge_runs A B) ↔ has_key k A ∨ has_key k B := merge_runs_has_key k A B

theorem merge_runs_no_nul (A B : List Entry) (hA : ∀ e ∈ A, 0 ∉ e.key)
    (hB : ∀ e ∈ B, 0 ∉ e.key) : ∀ e ∈ merge_runs A B, 0 ∉ e.key := by
  intro e he
  obtain ⟨y, hy, hey⟩ := merge_runs_keys A B e he
  rw [hey]
  rcases List.mem_append.1 hy with h | h
  · exact hA y h
  · exact hB y h

theorem merge_runs_comm_rows (A B : List Entry) (hA : SortedRun A) (hB : SortedRun B) :
    (merge_runs A B).map entry_row = (merge_runs B A).map entry_row := by
  apply sorted_run_ext (merge_runs A B) (merge_runs B A) (merge_runs_sorted' A B hA hB)
    (merge_runs_sorted' B A hB hA)
  · intro k
    rw [merge_runs_has_key', merge_runs_has_key', or_comm]
  · intro k
    rw [merge_runs_count, merge_runs_count]
    omega

theorem merge_runs_assoc_rows (A B C : List Entry) (hA : SortedRun A) (hB : SortedRun B)
    (hC : SortedRun C) :
    (merge_runs (merge_runs A B) C).map entry_row
      = (merge_runs A (merge_runs B C)).map entry_row := by
  apply sorted_run_ext (merge_runs (merge_runs A B) C) (merge_runs A (merge_runs B C))
    (merge_runs_sorted' _ C (merge_runs_sorted' A B hA hB) hC)
    (merge_runs_sorted' A _ hA (merge_runs_sorted' B C hB hC))
  · intro k
    rw [merge_runs_has_key', merge_runs_has_key', merge_runs_has_key', merge_runs_has_key',
      or_assoc]
  · intro k
    rw [merge_runs_count, merge_runs_count, merge_runs_count, merge_runs_count]
    omega

/-! ## The candidate split -/

theorem bound_eq_min (N size i : Nat) :
    bound N size i = i * (N / size) + min i (N % size) := by
  unfold bound
  rw [Nat.min_def]
  split_ifs <;> omega

theorem cand_length (N size i : Nat) :
    cand_end (N : Int) size i + 1 - cand_start (N : Int) size i
      = ((N / size + (if i < N % size then 1 else 0) : Nat) : Int) := by
  rw [cand_end_eq, cand_start_eq, bound_succ]
  push_cast
  ring

theorem bound_of_zero (size i : Nat) : bound 0 size i = 0 := by
  unfold bound
  simp

/-- C18 (candidate split).  For a file of `N` bytes and `size ≥ 1` processes the
candidate range of process `i` starts at `i * (N / size) + min i (N mod size)`;
process 0 starts at 0, every candidate range ends right before the next one
starts, the last one ends at `N`, the first `N mod size` processes get
`N / size + 1` bytes and the others `N / size`; for `N = 0` every range is empty
and no process reads a byte. -/
theorem candidate_split (N size : Nat) (hsize : 1 ≤ size) :
    (∀ i : Nat, cand_start (N : Int) size i = ((i * (N / size) + min i (N % size) : Nat) : Int))
    ∧ cand_start (N : Int) size 0 = 0
    ∧ (∀ i, cand_end (N : Int) size i + 1 = cand_start (N : Int) size (i + 1))
    ∧ cand_end (N : Int) size (size - 1) + 1 = (N : Int)
    ∧ (∀ i, i < N % size →
        cand_end (N : Int) size i + 1 - cand_start (N : Int) size i = ((N / size + 1 : Nat) : Int))
    ∧ (∀ i, N % size ≤ i →
        cand_end (N : Int) size i + 1 - cand_start (N : Int) size i = ((N / size : Nat) : Int))
    ∧ (N = 0 → ∀ i, cand_end (N : Int) size i + 1 - cand_start (N : Int) size i = 0)
    ∧ (∀ i, read_size [] size i = 0 ∧ local_buf [] size i = none) := by
  refine ⟨?_, ?_, ?_, ?_, ?_, ?_, ?_, ?_⟩
  · intro i
    rw [cand_start_eq, bound_eq_min]
  · rw [cand_start_eq, bound_zero]
    rfl
  · intro i
    rw [cand_end_eq, cand_start_eq]
    omega
  · rw [cand_end_eq]
    have : size - 1 + 1 = size := by omega
    rw [this, bound_size _ _ hsize]
    omega
  · intro i hi
    rw [cand_length, if_pos hi]
  · intro i hi
    rw [cand_length, if_neg (by omega)]
    rfl
  · intro h0 i
    subst h0
    rw [cand_length]
    simp
  · intro i
    have hs : true_start [] size i = ((0 : Nat) : Int) := by
      obtain ⟨s, hs, hle, _, _⟩ := true_start_spec [] size i
      have hb : bound ([] : List Nat).length size i = 0 := bound_of_zero size i
      rw [hb] at hle
      have : s = 0 := by omega
      rw [hs, this]
    have hr : read_size [] size i = 0 := by
      rw [read_size_eq [] size i 0 hsize hs (Nat.zero_le _)]
      have hb : bound ([] : List Nat).length size (i + 1) = 0 := bound_of_zero size (i + 1)
      rw [hb]
      rfl
    refine ⟨hr, ?_⟩
    unfold local_buf
    rw [hr]
    rfl

theorem candidate_split_witness :
    1 ≤ 3 ∧
    ((∀ i : Nat, cand_start ((7 : Nat) : Int) 3 i = ((i * (7 / 3) + min i (7 % 3) : Nat) : Int))
    ∧ cand_start ((7 : Nat) : Int) 3 0 = 0
    ∧ (∀ i, cand_end ((7 : Nat) : Int) 3 i + 1 = cand_start ((7 : Nat) : Int) 3 (i + 1))
    ∧ cand_end ((7 : Nat) : Int) 3 (3 - 1) + 1 = ((7 : Nat) : Int)
    ∧ (∀ i, i < 7 % 3 →
        cand_end ((7 : Nat) : Int) 3 i + 1 - cand_start ((7 : Nat) : Int) 3 i
          = ((7 / 3 + 1 : Nat) : Int))
    ∧ (∀ i, 7 % 3 ≤ i →
        cand_end ((7 : Nat) : Int) 3 i + 1 - cand_start ((7 : Nat) : Int) 3 i
          = ((7 / 3 : Nat) : Int))
    ∧ (7 = 0 → ∀ i, cand_end ((7 : Nat) : Int) 3 i + 1 - cand_start ((7 : Nat) : Int) 3 i = 0)
    ∧ (∀ i, read_size [] 3 i = 0 ∧ local_buf [] 3 i = none)) :=
  ⟨by decide, candidate_split 7 3 (by decide)⟩

/-! ## Ranking -/

theorem sorted_perm_unique (r : Entry → Entry → Prop) (l1 l2 : List Entry)
    (hp : List.Perm l1 l2) (h1 : l1.Pairwise r) (h2 : l2.Pairwise r)
    (hanti : ∀ a ∈ l1, ∀ b ∈ l1, r a b → r b a → a = b) : l1 = l2 := by
  induction l1 generalizing l2 with
  | nil => exact (List.Perm.nil_eq hp)
  | cons a l1 ih =>
    cases l2 with
    | nil => exact absurd hp.length_eq (by simp)
    | cons b l2 =>
      have h1' := List.pairwise_cons.1 h1
      have h2' := List.pairwise_cons.1 h2
      have hab : a = b := by
        by_contra hne
        have ha2 : a ∈ b :: l2 := hp.mem_iff.1 (List.mem_cons_self _ _)
        have hb1 : b ∈ a :: l1 := hp.mem_iff.2 (List.mem_cons_self _ _)
        have hba : r b a := by
          rcases List.mem_cons.1 ha2 with h | h
          · exact absurd h hne
          · exact h2'.1 a h
        have hab : r a b := by
          rcases List.mem_cons.1 hb1 with h | h
          · exact absurd h.symm hne
          · exact h1'.1 b h
        exact hne (hanti a (List.mem_cons_self _ _) b hb1 hab hba)
      subst hab
      rw [ih l2 (List.Perm.cons_inv hp) h1'.2 h2'.2
        (fun x hx y hy => hanti x (List.mem_cons_of_mem _ hx) y (List.mem_cons_of_mem _ hy))]

theorem distinct_keys_eq (l : List Entry)
    (h : l.Pairwise (fun a b => strcmp a.key b.key ≠ 0)) (a b : Entry) (ha : a ∈ l) (hb : b ∈ l)
    (hk : strcmp a.key b.key = 0) : a = b := by
  have hR : l.Pairwise (fun x y => strcmp x.key y.key = 0 → x = y) :=
    h.imp (fun hne h0 => absurd h0 hne)
  have hsymm : Symmetric (fun x y : Entry => strcmp x.key y.key = 0 → x = y) := by
    intro x y hxy hyx
    have : strcmp x.key y.key = 0 := by
      rw [strcmp_swap y.key x.key]
      omega
    exact (hxy this).symm
  exact List.Pairwise.forall_of_forall hsymm (fun x _ _ => rfl) hR ha hb hk

theorem sort_entries_canonical (l1 l2 : List Entry) (hperm : List.Perm l1 l2)
    (hdist : l1.Pairwise (fun a b => strcmp a.key b.key ≠ 0))
    (hpos : ∀ e ∈ l1, 1 ≤ e.value ∧ e.value < 2 ^ 31) :
    sort_entries cmp_value l1 = sort_entries cmp_value l2 := by
  have hpos2 : ∀ e ∈ l2, 1 ≤ e.value ∧ e.value < 2 ^ 31 :=
    fun e he => hpos e (hperm.mem_iff.2 he)
  obtain ⟨hp1, hs1⟩ := sort_entries_spec cmp_value
    (fun e => 1 ≤ e.value ∧ e.value < 2 ^ 31) cmp_value_total cmp_value_trans l1
  obtain ⟨hp2, hs2⟩ := sort_entries_spec cmp_value
    (fun e => 1 ≤ e.value ∧ e.value < 2 ^ 31) cmp_value_total cmp_value_trans l2
  apply sorted_perm_unique (fun a b => cmp_value a b ≤ 0) _ _
    (hp1.trans (hperm.trans hp2.symm)) (hs1 hpos) (hs2 hpos2)
  intro a ha b hb hab hba
  have ha1 : a ∈ l1 := hp1.mem_iff.1 ha
  have hb1 : b ∈ l1 := hp1.mem_iff.1 hb
  rw [cmp_value_le_iff a b (hpos a ha1) (hpos b hb1)] at hab
  rw [cmp_value_le_iff b a (hpos b hb1) (hpos a ha1)] at hba
  apply distinct_keys_eq l1 hdist a b ha1 hb1
  rcases hab with h | ⟨_, h⟩
  · rcases hba with h' | ⟨h', _⟩ <;> omega
  · rcases hba with h' | ⟨_, h'⟩
    · omega
    · rw [strcmp_swap a.key b.key] at h'
      omega

/-- C20 (ranking is canonical).  For two arrays of entries that are permutations
of each other, with pairwise different keys and positive `int` counts,
`merge_sort` with `cmp_value` on the whole array returns the same sequence. -/
theorem ranking_canonical (l1 l2 : List Entry) (hperm : List.Perm l1 l2)
    (hdist : l1.Pairwise (fun a b => strcmp a.key b.key ≠ 0))
    (hpos : ∀ e ∈ l1, 1 ≤ e.value ∧ e.value < 2 ^ 31) :
    merge_sort cmp_value l1.length l1 0 (l1.length - 1)
      = merge_sort cmp_value l2.length l2 0 (l2.length - 1) := by
  rw [merge_sort_eq_sort_entries, merge_sort_eq_sort_entries]
  exact sort_entries_canonical l1 l2 hperm hdist hpos

theorem ranking_canonical_witness :
    (List.Perm rank_one rank_two
      ∧ rank_one.Pairwise (fun a b => strcmp a.key b.key ≠ 0)
      ∧ ∀ e ∈ rank_one, 1 ≤ e.value ∧ e.value < 2 ^ 31)
    ∧ merge_sort cmp_value rank_one.length rank_one 0 (rank_one.length - 1)
      = merge_sort cmp_value rank_two.length rank_two 0 (rank_two.length - 1) :=
  ⟨by decide, ranking_canonical rank_one rank_two (by decide) (by decide) (by decide)⟩

/-! ## The schedule of the reduction loop -/

theorem reduce_states_inv (runs : List (List Entry)) (k : Nat) :
    ∃ ws, reduce_states runs.length (initial_workers runs) k = some ws
      ∧ ReduceInv runs.length runs k ws := by
  induction k with
  | zero => exact ⟨_, rfl, reduce_init_inv runs⟩
  | succ k ih =>
    obtain ⟨ws, hws, hinv⟩ := ih
    obtain ⟨ws', hws', hinv'⟩ := reduce_round_inv runs.length runs k ws hinv
    refine ⟨ws', ?_, hinv'⟩
    simp only [reduce_states, hws, Option.some_bind, hws']

theorem reduce_loop_states (runs : List (List Entry)) (fuel k : Nat) (ws : List Worker)
    (hws : reduce_states runs.length (initial_workers runs) k = some ws)
    (hinv : ReduceInv runs.length runs k ws) (hfuel : runs.length + 1 ≤ fuel + k)
    (hk : ∀ j, j < k → 2 ^ j < runs.length) :
    ∃ K, reduce_loop runs.length fuel (2 ^ k) ws
        = reduce_states runs.length (initial_workers runs) K
      ∧ runs.length ≤ 2 ^ K ∧ ∀ j, j < K → 2 ^ j < runs.length := by
  induction fuel generalizing k ws with
  | zero =>
    exfalso
    have h1 : k - 1 < k := by omega
    have h2 := hk (k - 1) h1
    have h3 : k - 1 < 2 ^ (k - 1) := Nat.lt_two_pow (k - 1)
    omega
  | succ n ih =>
    simp only [reduce_loop]
    by_cases hlt : 2 ^ k < runs.length
    · rw [if_pos hlt]
      obtain ⟨ws1, hws1, hinv1⟩ := reduce_round_inv runs.length runs k ws hinv
      rw [hws1, Option.some_bind]
      have hpow : 2 ^ k * 2 = 2 ^ (k + 1) := by ring
      rw [hpow]
      apply ih (k + 1) ws1 _ hinv1 (by omega)
      · intro j hj
        rcases Nat.lt_succ_iff_lt_or_eq.1 hj with h | h
        · exact hk j h
        · rw [h]
          exact hlt
      · simp only [reduce_states, hws, Option.some_bind, hws1]
    · rw [if_neg hlt]
      exact ⟨k, hws.symm, by omega, hk⟩

theorem active_iff (runs : List (List Entry)) (k : Nat) (ws : List Worker)
    (hinv : ReduceInv runs.length runs k ws) (r : Nat) :
    active ws r ↔ r < runs.length ∧ r % 2 ^ k = 0 := by
  unfold active
  constructor
  · rintro ⟨w, hw, hloop⟩
    have hr : r < runs.length := by
      by_contra hge
      rw [List.getElem?_eq_none (by rw [hinv.1]; omega)] at hw
      cases hw
    refine ⟨hr, ?_⟩
    obtain ⟨w', hw', _, h2⟩ := hinv.2 r hr
    rw [hw] at hw'
    have := Option.some.inj hw'
    subst this
    by_contra hne
    have := (h2 hne).2
    rw [hloop] at this
    cases this
  · rintro ⟨hr, hmod⟩
    obtain ⟨w, hw, h1, _⟩ := hinv.2 r hr
    refine ⟨w, hw, ?_⟩
    rw [h1 hmod]

theorem sends_iff (runs : List (List Entry)) (k : Nat) (ws : List Worker)
    (hinv : ReduceInv runs.length runs k ws) (r : Nat) :
    sends (2 ^ k) ws r ↔ r < runs.length ∧ r % 2 ^ k = 0 ∧ r % (2 * 2 ^ k) ≠ 0 := by
  have ha := active_iff runs k ws hinv r
  unfold active at ha
  unfold sends
  constructor
  · rintro ⟨w, hw, hloop, hmod⟩
    have := ha.1 ⟨w, hw, hloop⟩
    exact ⟨this.1, this.2, hmod⟩
  · rintro ⟨hr, h1, h2⟩
    obtain ⟨w, hw, hloop⟩ := ha.2 ⟨hr, h1⟩
    exact ⟨w, hw, hloop, h2⟩

theorem receives_iff (runs : List (List Entry)) (k : Nat) (ws : List Worker)
    (hinv : ReduceInv runs.length runs k ws) (r : Nat) :
    receives runs.length (2 ^ k) ws r
      ↔ r % 2 ^ k = 0 ∧ r % (2 * 2 ^ k) = 0 ∧ r + 2 ^ k < runs.length := by
  have ha := active_iff runs k ws hinv r
  unfold active at ha
  unfold receives
  have hs : 0 < 2 ^ k := Nat.pos_pow_of_pos k (by norm_num)
  constructor
  · rintro ⟨w, hw, hloop, hmod, hlt⟩
    have := ha.1 ⟨w, hw, hloop⟩
    exact ⟨this.2, hmod, hlt⟩
  · rintro ⟨h1, h2, h3⟩
    obtain ⟨w, hw, hloop⟩ := ha.2 ⟨by omega, h1⟩
    exact ⟨w, hw, hloop, h2, h3⟩

theorem pow_two_mod_of_le (r j k : Nat) (hjk : j ≤ k) (h : r % 2 ^ k = 0) : r % 2 ^ j = 0 := by
  have hd : 2 ^ j ∣ 2 ^ k := Nat.pow_dvd_pow 2 hjk
  exact Nat.mod_eq_zero_of_dvd (Dvd.dvd.trans hd (Nat.dvd_of_mod_eq_zero h))

theorem exists_odd_part (r : Nat) (hr : 1 ≤ r) :
    ∃ k, r % 2 ^ k = 0 ∧ r % 2 ^ (k + 1) ≠ 0 := by
  have hex : ∃ k, r % 2 ^ (k + 1) ≠ 0 := by
    refine ⟨r, ?_⟩
    have h1 : r < 2 ^ (r + 1) := lt_trans (Nat.lt_two_pow r) (Nat.pow_lt_pow_right (by norm_num) (by omega))
    rw [Nat.mod_eq_of_lt h1]
    omega
  classical
  refine ⟨Nat.find hex, ?_, Nat.find_spec hex⟩
  cases hk : Nat.find hex with
  | zero =>
    rw [pow_zero]
    exact Nat.mod_one r
  | succ j =>
    have hmin := Nat.find_min hex (show j < Nat.find hex by omega)
    by_contra hne
    exact hmin hne

/-- C19 (reduction schedule pairing).  For `size ≥ 1` processes the reduction
loop goes through the states `reduce_states` and ends after `⌈log2 size⌉`
iterations; when the iteration with `step = 2 ^ k` starts, the processes still
in the loop are the ranks below `size` that are multiples of `2 ^ k`; a process
that sends is at rank `r ≥ step` and the process `r - step` is in the loop and
receives, in this iteration, from `r - step + step = r`; a process that receives
(from `r + step < size`) is matched by the send of `r + step`; and every process
but process 0 sends in exactly one iteration of the loop and is out of the loop
in every later state. -/
theorem reduction_pairing (size : Nat) (runs : List (List Entry)) (hsize : 1 ≤ size)
    (hlen : runs.length = size) :
    reduce size runs = reduce_states size (initial_workers runs) (Nat.clog 2 size)
    ∧ (∀ k, ∃ ws, reduce_states size (initial_workers runs) k = some ws
        ∧ (∀ r, active ws r ↔ r < size ∧ r % 2 ^ k = 0)
        ∧ (∀ r, sends (2 ^ k) ws r →
            2 ^ k ≤ r ∧ active ws (r - 2 ^ k) ∧ receives size (2 ^ k) ws (r - 2 ^ k)
              ∧ r - 2 ^ k + 2 ^ k = r)
        ∧ (∀ r, receives size (2 ^ k) ws r → sends (2 ^ k) ws (r + 2 ^ k)))
    ∧ (∀ r, 1 ≤ r → r < size →
        ∃! k, 2 ^ k < size
          ∧ ∃ ws, reduce_states size (initial_workers runs) k = some ws ∧ sends (2 ^ k) ws r)
    ∧ (∀ r k ws, reduce_states size (initial_workers runs) k = some ws → sends (2 ^ k) ws r →
        ∀ k' ws', k < k' → reduce_states size (initial_workers runs) k' = some ws' →
          ¬ active ws' r) := by
  subst hlen
  refine ⟨?_, ?_, ?_, ?_⟩
  · obtain ⟨K, hK, hK1, hK2⟩ := reduce_loop_states runs (runs.length + 1) 0
      (initial_workers runs) rfl (reduce_init_inv runs) (by omega)
      (fun j hj => absurd hj (Nat.not_lt_zero j))
    rw [clog_of_bounds _ K hK1 hK2]
    exact hK
  · intro k
    obtain ⟨ws, hws, hinv⟩ := reduce_states_inv runs k
    have hs : 0 < 2 ^ k := Nat.pos_pow_of_pos k (by norm_num)
    refine ⟨ws, hws, active_iff runs k ws hinv, ?_, ?_⟩
    · intro r hsend
      obtain ⟨hr, h1, h2⟩ := (sends_iff runs k ws hinv r).1 hsend
      rcases mod_double_cases (2 ^ k) r hs h1 with h0 | ⟨_, hle, hd1, hd2⟩
      · exact absurd h0 h2
      · refine ⟨hle, (active_iff runs k ws hinv _).2 ⟨by omega, hd2⟩,
          (receives_iff runs k ws hinv _).2 ⟨hd2, hd1, by omega⟩, by omega⟩
    · intro r hrecv
      obtain ⟨_, h2, h3⟩ := (receives_iff runs k ws hinv r).1 hrecv
      obtain ⟨_, hz1, hz2⟩ := mod_double_zero (2 ^ k) r hs h2
      exact (sends_iff runs k ws hinv _).2 ⟨h3, hz1, hz2⟩
  · intro r hr1 hr2
    obtain ⟨k, hk1, hk2⟩ := exists_odd_part r hr1
    have hpow : ∀ j, 2 * 2 ^ j = 2 ^ (j + 1) := fun j => by ring
    have hs : 0 < 2 ^ k := Nat.pos_pow_of_pos k (by norm_num)
    refine ⟨k, ⟨?_, ?_⟩, ?_⟩
    · have hle : 2 ^ k ≤ r := Nat.le_of_dvd (by omega) (Nat.dvd_of_mod_eq_zero hk1)
      omega
    · obtain ⟨ws, hws, hinv⟩ := reduce_states_inv runs k
      refine ⟨ws, hws, (sends_iff runs k ws hinv r).2 ⟨hr2, hk1, ?_⟩⟩
      rw [hpow]
      exact hk2
    · rintro k' ⟨_, ws', hws', hsend⟩
      obtain ⟨ws, hws, hinv⟩ := reduce_states_inv runs k'
      rw [hws] at hws'
      have := Option.some.inj hws'
      subst this
      obtain ⟨_, h1, h2⟩ := (sends_iff runs k' ws hinv r).1 hsend
      rw [hpow] at h2
      rcases Nat.lt_trichotomy k' k with hlt | heq | hgt
      · exact absurd (pow_two_mod_of_le r (k' + 1) k (by omega) hk1) h2
      · exact heq
      · exact absurd (pow_two_mod_of_le r (k + 1) k' (by omega) h1) hk2
  · intro r k ws hws hsend k' ws' hkk hws' hact
    have hpow : 2 * 2 ^ k = 2 ^ (k + 1) := by ring
    obtain ⟨ws1, hws1, hinv1⟩ := reduce_states_inv runs k
    rw [hws] at hws1
    have e1 := Option.some.inj hws1
    subst e1
    obtain ⟨ws2, hws2, hinv2⟩ := reduce_states_inv runs k'
    rw [hws'] at hws2
    have e2 := Option.some.inj hws2
    subst e2
    obtain ⟨_, _, h2⟩ := (sends_iff runs k ws hinv1 r).1 hsend
    rw [hpow] at h2
    have h3 := ((active_iff runs k' ws' hinv2 r).1 hact).2
    exact h2 (pow_two_mod_of_le r (k + 1) k' (by omega) h3)

theorem reduction_pairing_witness :
    (1 ≤ 3 ∧ sample_runs.length = 3)
    ∧ (reduce 3 sample_runs = reduce_states 3 (initial_workers sample_runs) (Nat.clog 2 3)
    ∧ (∀ k, ∃ ws, reduce_states 3 (initial_workers sample_runs) k = some ws
        ∧ (∀ r, active ws r ↔ r < 3 ∧ r % 2 ^ k = 0)
        ∧ (∀ r, sends (2 ^ k) ws r →
            2 ^ k ≤ r ∧ active ws (r - 2 ^ k) ∧ receives 3 (2 ^ k) ws (r - 2 ^ k)
              ∧ r - 2 ^ k + 2 ^ k = r)
        ∧ (∀ r, receives 3 (2 ^ k) ws r → sends (2 ^ k) ws (r + 2 ^ k)))
    ∧ (∀ r, 1 ≤ r → r < 3 →
        ∃! k, 2 ^ k < 3
          ∧ ∃ ws, reduce_states 3 (initial_workers sample_runs) k = some ws
            ∧ sends (2 ^ k) ws r)
    ∧ (∀ r k ws, reduce_states 3 (initial_workers sample_runs) k = some ws →
        sends (2 ^ k) ws r →
        ∀ k' ws', k < k' → reduce_states 3 (initial_workers sample_runs) k' = some ws' →
          ¬ active ws' r)) :=
  ⟨by decide, reduction_pairing 3 sample_runs (by decide) (by decide)⟩

/-! ## The invariant of the hash table -/

theorem hash_loop_congr (a b : List Nat) (h : Nat) (hab : strcmp a b = 0) :
    hash_loop h a = hash_loop h b := by
  induction a generalizing b h with
  | nil =>
    cases b with
    | nil => rfl
    | cons y ys =>
      simp only [strcmp] at hab
      have hy : y = 0 := by omega
      subst hy
      simp [hash_loop]
  | cons x xs ih =>
    cases b with
    | nil =>
      simp only [strcmp] at hab
      have hx : x = 0 := by omega
      subst hx
      simp [hash_loop]
    | cons y ys =>
      simp only [strcmp] at hab
      by_cases hxy : x = y
      · subst hxy
        by_cases h0 : x = 0
        · subst h0
          simp [hash_loop]
        · simp only [ne_eq, not_true_eq_false, if_false, h0] at hab
          simp only [hash_loop, if_neg h0]
          exact ih ys _ hab
      · simp only [ne_eq, hxy, not_false_eq_true, if_true] at hab
        omega

theorem hash_congr (mask : Nat) (a b : List Nat) (hab : strcmp a b = 0) :
    hash mask a = hash mask b := by
  unfold hash
  rw [hash_loop_congr a b 5381 hab]

theorem short_copy (key : List Nat) (hk : ShortKey key) : ShortKey (safe_strcpy key) := by
  unfold ShortKey at hk ⊢
  have h1 : safe_strcpy (safe_strcpy key) = safe_strcpy key := safe_strcpy_loop_congr _ _ 0 hk
  rw [h1]
  exact strcmp_self _

theorem bucket_set_mem_full (bs : List (Nat × List HashNode)) (idx : Nat)
    (chain : List HashNode) :
    ∀ b ∈ bucket_set bs idx chain, b = (idx, chain) ∨ b ∈ bs := by
  induction bs with
  | nil =>
    intro b hb
    simp only [bucket_set, List.mem_singleton] at hb
    exact Or.inl hb
  | cons b0 bs ih =>
    obtain ⟨i, c⟩ := b0
    intro b hb
    simp only [bucket_set] at hb
    split_ifs at hb with h1 h2
    · rcases List.mem_cons.1 hb with h | h
      · exact Or.inl h
      · exact Or.inr h
    · rcases List.mem_cons.1 hb with h | h
      · left
        rw [h, h2]
      · exact Or.inr (List.mem_cons_of_mem _ h)
    · rcases List.mem_cons.1 hb with h | h
      · right
        rw [h]
        exact List.mem_cons_self _ _
      · rcases ih b h with h' | h'
        · exact Or.inl h'
        · exact Or.inr (List.mem_cons_of_mem _ h')

theorem bucket_get_mem (bs : List (Nat × List HashNode)) (idx : Nat) :
    bucket_get bs idx = [] ∨ (idx, bucket_get bs idx) ∈ bs := by
  induction bs with
  | nil => exact Or.inl rfl
  | cons b0 bs ih =>
    obtain ⟨i, c⟩ := b0
    simp only [bucket_get]
    split_ifs with h
    · right
      rw [h]
      exact List.mem_cons_self _ _
    · rcases ih with h' | h'
      · exact Or.inl h'
      · exact Or.inr (List.mem_cons_of_mem _ h')

theorem bucket_get_of_mem (bs : List (Nat × List HashNode))
    (hs : bs.Pairwise (fun a b => a.1 < b.1)) (b : Nat × List HashNode) (hb : b ∈ bs) :
    bucket_get bs b.1 = b.2 := by
  induction bs with
  | nil => cases hb
  | cons b0 bs ih =>
    obtain ⟨i, c⟩ := b0
    have hs' := List.pairwise_cons.1 hs
    simp only [bucket_get]
    rcases List.mem_cons.1 hb with h | h
    · rw [h]
      simp
    · have hlt : i < b.1 := hs'.1 b h
      rw [if_neg (by omega)]
      exact ih hs'.2 h

theorem chain_increment_none (key : List Nat) (chain : List HashNode) :
    chain_increment key chain = none ↔ ∀ n ∈ chain, strcmp n.key key ≠ 0 := by
  induction chain with
  | nil => simp [chain_increment]
  | cons n rest ih =>
    simp only [chain_increment]
    by_cases h : strcmp n.key key = 0
    · simp [h]
    · simp only [if_neg h, Option.map_eq_none', ih, List.mem_cons, forall_eq_or_imp]
      constructor
      · intro hr
        exact ⟨h, hr⟩
      · intro hr
        exact hr.2

theorem map_self_of_forall {α : Type} (f : α → α) (l : List α) (h : ∀ x ∈ l, f x = x) :
    l.map f = l := by
  induction l with
  | nil => rfl
  | cons a l ih =>
    rw [List.map_cons, h a (List.mem_cons_self _ _),
      ih (fun x hx => h x (List.mem_cons_of_mem _ hx))]

theorem chain_increment_some (key : List Nat) (chain : List HashNode)
    (hd : chain.Pairwise (fun x y => strcmp x.key y.key ≠ 0))
    (hex : ∃ n ∈ chain, strcmp n.key key = 0) :
    chain_increment key chain = some (chain.map (bump key)) := by
  induction chain with
  | nil =>
    obtain ⟨n, hn, _⟩ := hex
    cases hn
  | cons n rest ih =>
    have hd' := List.pairwise_cons.1 hd
    simp only [chain_increment, List.map_cons]
    by_cases h : strcmp n.key key = 0
    · rw [if_pos h]
      have hrest : rest.map (bump key) = rest := by
        apply map_self_of_forall
        intro x hx
        unfold bump
        rw [if_neg]
        intro hx0
        apply hd'.1 x hx
        rw [strcmp_congr_left n.key key x.key h, strcmp_swap x.key key]
        omega
      rw [hrest]
      unfold bump
      rw [if_pos h]
    · rw [if_neg h]
      have hex' : ∃ m ∈ rest, strcmp m.key key = 0 := by
        obtain ⟨m, hm, hmk⟩ := hex
        rcases List.mem_cons.1 hm with rfl | hm'
        · exact absurd hmk h
        · exact ⟨m, hm', hmk⟩
      rw [ih hd'.2 hex']
      simp only [Option.map_some', bump, if_neg h]

theorem bump_key (key : List Nat) (n : HashNode) : (bump key n).key = n.key := by
  unfold bump
  split_ifs <;> rfl

theorem bump_value (key : List Nat) (n : HashNode) : n.value ≤ (bump key n).value := by
  unfold bump
  split_ifs
  · show n.value ≤ n.value + 1
    omega
  · exact le_refl _

theorem pairwise_map_bump (key : List Nat) (chain : List HashNode)
    (hd : chain.Pairwise (fun x y => strcmp x.key y.key ≠ 0)) :
    (chain.map (bump key)).Pairwise (fun x y => strcmp x.key y.key ≠ 0) := by
  rw [List.pairwise_map]
  refine hd.imp ?_
  intro a b hab
  rw [bump_key, bump_key]
  exact hab

theorem table_set_inv (t : HashTable) (h : TableInv t) (idx : Nat) (hidx : idx < t.capacity)
    (chain : List HashNode) (pool : NodePool)
    (hnodes : ∀ n ∈ chain, hash t.mask n.key = idx ∧ ShortKey n.key ∧ 1 ≤ n.value)
    (hchain : chain.Pairwise (fun x y => strcmp x.key y.key ≠ 0)) :
    TableInv { buckets := bucket_set t.buckets idx chain, pool := pool,
               capacity := t.capacity, mask := t.mask } := by
  obtain ⟨hok, hn, hc⟩ := h
  refine ⟨⟨bucket_set_ok _ _ _ _ hok.1 hidx, hok.2⟩, ?_, ?_⟩
  · intro b hb n hnb
    rcases bucket_set_mem_full _ _ _ b hb with h | h
    · rw [h] at hnb ⊢
      exact hnodes n hnb
    · exact hn b h n hnb
  · intro b hb
    rcases bucket_set_mem_full _ _ _ b hb with h | h
    · rw [h]
      exact hchain
    · exact hc b h

theorem chain_facts (t : HashTable) (h : TableInv t) (idx : Nat) :
    (∀ n ∈ bucket_get t.buckets idx, hash t.mask n.key = idx ∧ ShortKey n.key ∧ 1 ≤ n.value)
    ∧ (bucket_get t.buckets idx).Pairwise (fun x y => strcmp x.key y.key ≠ 0)
    ∧ ∀ n ∈ bucket_get t.buckets idx, n ∈ t.flatten := by
  rcases bucket_get_mem t.buckets idx with h0 | hmem
  · rw [h0]
    exact ⟨fun n hn => absurd hn (List.not_mem_nil n), List.Pairwise.nil,
      fun n hn => absurd hn (List.not_mem_nil n)⟩
  · refine ⟨fun n hn => h.2.1 _ hmem n hn, h.2.2 _ hmem, ?_⟩
    intro n hn
    rw [flatten_eq t h.1, List.mem_flatMap]
    exact ⟨_, hmem, hn⟩

theorem insert_inv (t : HashTable) (h : TableInv t) (key : List Nat) (hk : ShortKey key) :
    TableInv (t.insert key) := by
  obtain ⟨hnodes, hchain, _⟩ := chain_facts t h (hash t.mask key)
  have hlt := hash_lt t h.1 key
  unfold HashTable.insert
  simp only
  cases hc : chain_increment key (bucket_get t.buckets (hash t.mask key)) with
  | none =>
    simp only [NodePool.alloc]
    apply table_set_inv t h _ hlt
    · intro n hn
      rcases List.mem_cons.1 hn with rfl | hn'
      · exact ⟨hash_congr _ _ _ hk, short_copy key hk, le_refl _⟩
      · exact hnodes n hn'
    · refine List.pairwise_cons.2 ⟨?_, hchain⟩
      intro n hn
      have hne := (chain_increment_none key _).1 hc n hn
      show strcmp (safe_strcpy key) n.key ≠ 0
      rw [strcmp_congr_left _ _ n.key hk, strcmp_swap n.key key]
      omega
  | some chain =>
    simp only
    have hex : ∃ n ∈ bucket_get t.buckets (hash t.mask key), strcmp n.key key = 0 := by
      by_contra hno
      have : chain_increment key (bucket_get t.buckets (hash t.mask key)) = none := by
        rw [chain_increment_none]
        intro n hn h0
        exact hno ⟨n, hn, h0⟩
      rw [this] at hc
      cases hc
    rw [chain_increment_some key _ hchain hex] at hc
    have hceq := Option.some.inj hc
    subst hceq
    apply table_set_inv t h _ hlt
    · intro n hn
      obtain ⟨m, hm, rfl⟩ := List.mem_map.1 hn
      obtain ⟨h1, h2, h3⟩ := hnodes m hm
      rw [bump_key]
      exact ⟨h1, h2, le_trans h3 (bump_value key m)⟩
    · exact pairwise_map_bump key _ hchain

theorem new_table_inv (p : NodePool) (cap : Nat) (hcap : 1 ≤ cap) :
    TableInv (HashTable.new p cap) := by
  refine ⟨⟨⟨List.Pairwise.nil, fun b hb => absurd hb (List.not_mem_nil b)⟩, ?_⟩,
    fun b hb => absurd hb (List.not_mem_nil b), fun b hb => absurd hb (List.not_mem_nil b)⟩
  show cap - 1 < cap
  omega

theorem foldl_insert_inv (keys : List (List Nat)) (t : HashTable) (h : TableInv t)
    (hk : ∀ k ∈ keys, ShortKey k) : TableInv (keys.foldl HashTable.insert t) := by
  induction keys generalizing t with
  | nil => exact h
  | cons k ks ih =>
    exact ih (t.insert k) (insert_inv t h k (hk k (List.mem_cons_self _ _)))
      (fun k' hk' => hk k' (List.mem_cons_of_mem _ hk'))

theorem flatten_distinct (t : HashTable) (h : TableInv t) :
    t.flatten.Pairwise (fun a b => strcmp a.key b.key ≠ 0) := by
  rw [flatten_eq t h.1, List.pairwise_flatMap]
  refine ⟨fun b hb => h.2.2 b hb, ?_⟩
  refine List.Pairwise.imp_of_mem ?_ h.1.1.1
  intro b1 b2 hb1 hb2 hlt x hx y hy hxy
  have h1 := (h.2.1 b1 hb1 x hx).1
  have h2 := (h.2.1 b2 hb2 y hy).1
  rw [hash_congr t.mask x.key y.key hxy] at h1
  omega

theorem flatten_nodes (t : HashTable) (h : TableInv t) :
    ∀ n ∈ t.flatten, ∃ b ∈ t.buckets, n ∈ b.2 ∧ hash t.mask n.key = b.1 ∧ ShortKey n.key
      ∧ 1 ≤ n.value := by
  intro n hn
  rw [flatten_eq t h.1, List.mem_flatMap] at hn
  obtain ⟨b, hb, hnb⟩ := hn
  obtain ⟨h1, h2, h3⟩ := h.2.1 b hb n hnb
  exact ⟨b, hb, hnb, h1, h2, h3⟩

theorem bucket_get_set_same (bs : List (Nat × List HashNode)) (idx : Nat)
    (chain : List HashNode) : bucket_get (bucket_set bs idx chain) idx = chain := by
  induction bs with
  | nil => simp [bucket_set, bucket_get]
  | cons b0 bs ih =>
    obtain ⟨i, c⟩ := b0
    simp only [bucket_set]
    split_ifs with h1 h2
    · simp [bucket_get]
    · simp [bucket_get, h2]
    · simp only [bucket_get, if_neg h2]
      exact ih

theorem bucket_get_set_other (bs : List (Nat × List HashNode)) (idx j : Nat)
    (chain : List HashNode) (hj : j ≠ idx) :
    bucket_get (bucket_set bs idx chain) j = bucket_get bs j := by
  induction bs with
  | nil => simp [bucket_set, bucket_get, hj]
  | cons b0 bs ih =>
    obtain ⟨i, c⟩ := b0
    simp only [bucket_set]
    split_ifs with h1 h2
    · simp [bucket_get, hj]
    · have hji : ¬ j = i := fun e => hj (e.trans h2.symm)
      simp [bucket_get, hji]
    · simp only [bucket_get]
      split_ifs
      · rfl
      · exact ih

theorem flat_map_self (f : HashNode → HashNode) (bs : List (Nat × List HashNode))
    (hf : ∀ b ∈ bs, ∀ n ∈ b.2, f n = n) :
    (bs.flatMap (fun b => b.2)).map f = bs.flatMap (fun b => b.2) := by
  apply map_self_of_forall
  intro n hn
  obtain ⟨b, hb, hnb⟩ := List.mem_flatMap.1 hn
  exact hf b hb n hnb

theorem flat_set_map (f : HashNode → HashNode) (bs : List (Nat × List HashNode)) (idx : Nat)
    (hs : bs.Pairwise (fun a b => a.1 < b.1))
    (hf : ∀ b ∈ bs, b.1 ≠ idx → ∀ n ∈ b.2, f n = n) :
    (bucket_set bs idx ((bucket_get bs idx).map f)).flatMap (fun b => b.2)
      = (bs.flatMap (fun b => b.2)).map f := by
  induction bs with
  | nil => rfl
  | cons b0 bs ih =>
    obtain ⟨i, c⟩ := b0
    have hs' := List.pairwise_cons.1 hs
    have hf' : ∀ b ∈ bs, b.1 ≠ idx → ∀ n ∈ b.2, f n = n :=
      fun b hb => hf b (List.mem_cons_of_mem _ hb)
    by_cases h1 : idx < i
    · have hne : ¬ idx = i := by omega
      have hnil : bucket_get bs idx = [] :=
        bucket_get_nil_of_lt bs idx (fun b hb => lt_trans h1 (hs'.1 b hb))
      simp only [bucket_set, bucket_get, if_pos h1, if_neg hne, hnil, List.map_nil,
        List.flatMap_cons, List.nil_append]
      rw [← List.flatMap_cons (i, c) bs (fun b => b.2)]
      symm
      apply flat_map_self
      intro b hb n hn
      apply hf b hb _ n hn
      rcases List.mem_cons.1 hb with h | h
      · rw [h]
        show i ≠ idx
        omega
      · have := hs'.1 b h
        omega
    · by_cases h2 : idx = i
      · simp only [bucket_set, bucket_get, if_neg h1, if_pos h2, List.flatMap_cons,
          List.map_append]
        congr 1
        symm
        apply flat_map_self
        intro b hb n hn
        apply hf' b hb _ n hn
        have := hs'.1 b hb
        omega
      · simp only [bucket_set, bucket_get, if_neg h1, if_neg h2, List.flatMap_cons,
          List.map_append]
        rw [ih hs'.2 hf']
        congr 1
        symm
        apply map_self_of_forall
        intro n hn
        exact hf (i, c) (List.mem_cons_self _ _) (fun e => h2 e.symm) n hn

theorem flat_set_cons (x : HashNode) (bs : List (Nat × List HashNode)) (idx : Nat)
    (hs : bs.Pairwise (fun a b => a.1 < b.1)) :
    List.Perm ((bucket_set bs idx (x :: bucket_get bs idx)).flatMap (fun b => b.2))
      (x :: bs.flatMap (fun b => b.2)) := by
  induction bs with
  | nil => exact List.Perm.refl _
  | cons b0 bs ih =>
    obtain ⟨i, c⟩ := b0
    have hs' := List.pairwise_cons.1 hs
    by_cases h1 : idx < i
    · have hne : ¬ idx = i := by omega
      have hnil : bucket_get bs idx = [] :=
        bucket_get_nil_of_lt bs idx (fun b hb => lt_trans h1 (hs'.1 b hb))
      simp only [bucket_set, bucket_get, if_pos h1, if_neg hne, hnil, List.flatMap_cons]
      exact List.Perm.refl _
    · by_cases h2 : idx = i
      · simp only [bucket_set, bucket_get, if_neg h1, if_pos h2, List.flatMap_cons]
        exact List.Perm.refl _
      · simp only [bucket_set, bucket_get, if_neg h1, if_neg h2, List.flatMap_cons]
        exact (List.Perm.append_left c (ih hs'.2)).trans List.perm_middle

theorem insert_present (t : HashTable) (h : TableInv t) (key : List Nat)
    (hex : ∃ n ∈ t.flatten, strcmp n.key key = 0) :
    (t.insert key).flatten = t.flatten.map (bump key) ∧ (t.insert key).pool = t.pool := by
  obtain ⟨n, hn, hnk⟩ := hex
  obtain ⟨b, hb, hnb, hhash, _, _⟩ := flatten_nodes t h n hn
  have hidx : hash t.mask key = b.1 := by rw [← hhash, hash_congr t.mask n.key key hnk]
  have hget : bucket_get t.buckets (hash t.mask key) = b.2 := by
    rw [hidx]
    exact bucket_get_of_mem t.buckets h.1.1.1 b hb
  have hinc : chain_increment key (bucket_get t.buckets (hash t.mask key))
      = some ((bucket_get t.buckets (hash t.mask key)).map (bump key)) := by
    apply chain_increment_some key _ (chain_facts t h _).2.1
    rw [hget]
    exact ⟨n, hnb, hnk⟩
  have hflat : (t.insert key).flatten = (t.insert key).buckets.flatMap (fun b => b.2) := by
    have hok := insert_ok t h.1 key
    exact flatten_eq _ hok
  rw [hflat, flatten_eq t h.1]
  unfold HashTable.insert
  simp only [hinc]
  refine ⟨?_, trivial⟩
  apply flat_set_map (bump key) t.buckets _ h.1.1.1
  intro b' hb' hne m hm
  unfold bump
  rw [if_neg]
  intro hmk
  apply hne
  rw [← (h.2.1 b' hb' m hm).1, hash_congr t.mask m.key key hmk]

theorem insert_absent (t : HashTable) (h : TableInv t) (key : List Nat)
    (hno : ∀ n ∈ t.flatten, strcmp n.key key ≠ 0) :
    bucket_get (t.insert key).buckets (hash t.mask key)
        = { key := safe_strcpy key, value := 1 } :: bucket_get t.buckets (hash t.mask key)
    ∧ (∀ j, j ≠ hash t.mask key →
        bucket_get (t.insert key).buckets j = bucket_get t.buckets j)
    ∧ List.Perm (t.insert key).flatten ({ key := safe_strcpy key, value := 1 } :: t.flatten)
    ∧ (t.insert key).pool.index = t.pool.index + 1 := by
  have hinc : chain_increment key (bucket_get t.buckets (hash t.mask key)) = none := by
    rw [chain_increment_none]
    intro n hn
    exact hno n ((chain_facts t h _).2.2 n hn)
  have hflat : (t.insert key).flatten = (t.insert key).buckets.flatMap (fun b => b.2) :=
    flatten_eq _ (insert_ok t h.1 key)
  rw [hflat, flatten_eq t h.1]
  unfold HashTable.insert
  simp only [hinc, NodePool.alloc]
  exact ⟨bucket_get_set_same _ _ _, fun j hj => bucket_get_set_other _ _ _ _ hj,
    flat_set_cons _ _ _ h.1.1.1, trivial⟩

/-! ### Counts of the nodes of a table -/

theorem node_weight_zero (p : List Nat → Bool) (l : List HashNode)
    (h : ∀ n ∈ l, p (safe_strcpy n.key) = false) : node_weight p l = 0 := by
  induction l with
  | nil => rfl
  | cons m l ih =>
    rw [node_weight_cons, h m (List.mem_cons_self _ _),
      ih (fun n hn => h n (List.mem_cons_of_mem _ hn))]
    simp

theorem node_weight_distinct (n : HashNode) (l : List HashNode)
    (hd : l.Pairwise (fun x y => strcmp x.key y.key ≠ 0))
    (hs : ∀ m ∈ l, ShortKey m.key) (hn : n ∈ l) :
    node_weight (fun key => decide (strcmp key n.key = 0)) l = n.value := by
  induction l with
  | nil => cases hn
  | cons m l ih =>
    have hd' := List.pairwise_cons.1 hd
    have hs' : ∀ x ∈ l, ShortKey x.key := fun x hx => hs x (List.mem_cons_of_mem _ hx)
    have hcopy : ∀ x ∈ m :: l, ∀ k, decide (strcmp (safe_strcpy x.key) k = 0)
        = decide (strcmp x.key k = 0) := by
      intro x hx k
      rw [strcmp_congr_left _ _ k (hs x hx)]
    rw [node_weight_cons]
    by_cases hmn : n = m
    · subst hmn
      have h1 : decide (strcmp (safe_strcpy n.key) n.key = 0) = true :=
        decide_eq_true (hs n (List.mem_cons_self _ _))
      rw [if_pos h1, node_weight_zero, add_zero]
      intro x hx
      show decide (strcmp (safe_strcpy x.key) n.key = 0) = false
      rw [hcopy x (List.mem_cons_of_mem _ hx)]
      apply decide_eq_false
      intro h0
      apply hd'.1 x hx
      rw [strcmp_swap] at h0
      omega
    · have hnl : n ∈ l := by
        rcases List.mem_cons.1 hn with h | h
        · exact absurd h hmn
        · exact h
      have h1 : decide (strcmp (safe_strcpy m.key) n.key = 0) = false := by
        rw [hcopy m (List.mem_cons_self _ _)]
        exact decide_eq_false (hd'.1 n hnl)
      rw [h1, ih hd'.2 hs' hnl]
      simp

theorem insert_all_inv (p : NodePool) (cap : Nat) (hcap : 1 ≤ cap) (keys : List (List Nat))
    (hkeys : ∀ k ∈ keys, k.length < MAX_KEY_LEN) : TableInv (insert_all p cap keys) :=
  foldl_insert_inv keys _ (new_table_inv p cap hcap)
    (fun k hk => short_of_length k (hkeys k hk))

theorem insert_all_weight (p : NodePool) (cap : Nat) (hcap : 1 ≤ cap) (keys : List (List Nat))
    (hkeys : ∀ k ∈ keys, k.length < MAX_KEY_LEN) (key : List Nat) :
    node_weight (fun k => decide (strcmp k key = 0)) (insert_all p cap keys).flatten
      = times_inserted key keys := by
  have h := (foldl_insert_weight (fun k => decide (strcmp k key = 0)) (count_of_respects key)
    keys (HashTable.new p cap) (new_table_inv p cap hcap).1
    (fun k hk => short_of_length k (hkeys k hk))).2
  unfold insert_all times_inserted
  rw [h]
  have h0 : (HashTable.new p cap).flatten = [] := rfl
  rw [h0]
  show (0 : Int) + _ = _
  rw [zero_add]

theorem insert_all_value (p : NodePool) (cap : Nat) (hcap : 1 ≤ cap) (keys : List (List Nat))
    (hkeys : ∀ k ∈ keys, k.length < MAX_KEY_LEN) (n : HashNode)
    (hn : n ∈ (insert_all p cap keys).flatten) : n.value = times_inserted n.key keys := by
  have hinv := insert_all_inv p cap hcap keys hkeys
  rw [← insert_all_weight p cap hcap keys hkeys n.key]
  exact (node_weight_distinct n _ (flatten_distinct _ hinv)
    (fun m hm => (flatten_nodes _ hinv m hm).choose_spec.2.2.2.1) hn).symm

/-- Claim C16.  Local aggregator: after the insertion of a sequence of keys of at
most 32 bytes into an empty table, the nodes returned by `flatten` have pairwise
different keys, every key of the sequence has a node, every node holds a key of
the sequence with the number of times it was inserted as count (at least 1);
inserting one more key that is present only increments the count of its node
(no node is allocated), and inserting one more key that is absent allocates one
node with the copied key and count 1 and puts it at the head of the chain of
its bucket, every other chain staying as it is. -/
theorem local_aggregator (p : NodePool) (cap : Nat) (hcap : 1 ≤ cap) (keys : List (List Nat))
    (hkeys : ∀ k ∈ keys, k.length < MAX_KEY_LEN) :
    (insert_all p cap keys).flatten.Pairwise (fun x y => strcmp x.key y.key ≠ 0)
    ∧ (∀ k ∈ keys, ∃ n ∈ (insert_all p cap keys).flatten, strcmp n.key k = 0)
    ∧ (∀ n ∈ (insert_all p cap keys).flatten, (∃ k ∈ keys, strcmp n.key k = 0)
        ∧ n.value = times_inserted n.key keys ∧ 1 ≤ n.value)
    ∧ (∀ key, (∃ n ∈ (insert_all p cap keys).flatten, strcmp n.key key = 0) →
        ((insert_all p cap keys).insert key).flatten
            = (insert_all p cap keys).flatten.map (bump key)
        ∧ ((insert_all p cap keys).insert key).pool = (insert_all p cap keys).pool)
    ∧ (∀ key, (∀ n ∈ (insert_all p cap keys).flatten, strcmp n.key key ≠ 0) →
        bucket_get ((insert_all p cap keys).insert key).buckets
            (hash (insert_all p cap keys).mask key)
          = { key := safe_strcpy key, value := 1 }
              :: bucket_get (insert_all p cap keys).buckets
                  (hash (insert_all p cap keys).mask key)
        ∧ (∀ j, j ≠ hash (insert_all p cap keys).mask key →
            bucket_get ((insert_all p cap keys).insert key).buckets j
              = bucket_get (insert_all p cap keys).buckets j)
        ∧ List.Perm ((insert_all p cap keys).insert key).flatten
            ({ key := safe_strcpy key, value := 1 } :: (insert_all p cap keys).flatten)
        ∧ ((insert_all p cap keys).insert key).pool.index
            = (insert_all p cap keys).pool.index + 1) := by
  have hinv := insert_all_inv p cap hcap keys hkeys
  have hval := insert_all_value p cap hcap keys hkeys
  have hpos : ∀ n ∈ (insert_all p cap keys).flatten, 1 ≤ n.value :=
    fun n hn => (flatten_nodes _ hinv n hn).choose_spec.2.2.2.2
  refine ⟨flatten_distinct _ hinv, ?_, ?_, fun key hex => insert_present _ hinv key hex,
    fun key hno => insert_absent _ hinv key hno⟩
  · intro k hk
    by_contra hno
    have hz : node_weight (fun x => decide (strcmp x k = 0)) (insert_all p cap keys).flatten
        = 0 := by
      apply node_weight_zero
      intro n hn
      show decide (strcmp (safe_strcpy n.key) k = 0) = false
      rw [strcmp_congr_left _ _ k (flatten_nodes _ hinv n hn).choose_spec.2.2.2.1]
      apply decide_eq_false
      intro h0
      exact hno ⟨n, hn, h0⟩
    rw [insert_all_weight p cap hcap keys hkeys k] at hz
    unfold times_inserted at hz
    have hmem : k ∈ keys.filter (fun x => decide (strcmp x k = 0)) :=
      List.mem_filter.2 ⟨hk, decide_eq_true (strcmp_self k)⟩
    have := List.length_pos_of_mem hmem
    omega
  · intro n hn
    have h1 := hval n hn
    have h2 := hpos n hn
    refine ⟨?_, h1, h2⟩
    rw [h1] at h2
    unfold times_inserted at h2
    have hlen : 0 < (keys.filter (fun k => decide (strcmp k n.key = 0))).length := by omega
    obtain ⟨k, hk⟩ := List.exists_mem_of_length_pos hlen
    have hk' := List.mem_filter.1 hk
    refine ⟨k, hk'.1, ?_⟩
    have h0 : strcmp k n.key = 0 := of_decide_eq_true hk'.2
    rw [strcmp_swap]
    omega

theorem local_aggregator_witness :
    (1 ≤ BUCKET_SIZE ∧ ∀ k ∈ agg_keys, k.length < MAX_KEY_LEN)
    ∧ (insert_all NodePool.new BUCKET_SIZE agg_keys).flatten.Pairwise
        (fun x y => strcmp x.key y.key ≠ 0)
    ∧ (∀ k ∈ agg_keys, ∃ n ∈ (insert_all NodePool.new BUCKET_SIZE agg_keys).flatten,
        strcmp n.key k = 0)
    ∧ (∀ n ∈ (insert_all NodePool.new BUCKET_SIZE agg_keys).flatten,
        (∃ k ∈ agg_keys, strcmp n.key k = 0)
        ∧ n.value = times_inserted n.key agg_keys ∧ 1 ≤ n.value) :=
  have h := local_aggregator NodePool.new BUCKET_SIZE (by decide) agg_keys (by decide)
  ⟨⟨by decide, by decide⟩, h.1, h.2.1, h.2.2.1⟩

/-! ### Keys longer than the key buffer -/

/-- C17, as stated, fails.  `HashTable::insert` hashes and compares the key it is
given, not the key truncated to 32 bytes that `NodePool::alloc` stores: the key
of 40 bytes `a` inserted twice into an empty table leaves two nodes, both
holding the truncated key with count 1, and so do two keys of 33 bytes that
share their first 32 bytes; the stored key compares different from the key it
was copied from and hashes to another bucket. -/
theorem canonical_key_divergence :
    (insert_all NodePool.new BUCKET_SIZE [long_key, long_key]).flatten
      = [{ key := List.replicate 32 97, value := 1 }, { key := List.replicate 32 97, value := 1 }]
    ∧ (insert_all NodePool.new BUCKET_SIZE [long_key_b, long_key_c]).flatten
      = [{ key := List.replicate 32 97, value := 1 }, { key := List.replicate 32 97, value := 1 }]
    ∧ safe_strcpy long_key_b = safe_strcpy long_key_c
    ∧ strcmp (safe_strcpy long_key) long_key ≠ 0
    ∧ hash (BUCKET_SIZE - 1) (safe_strcpy long_key) ≠ hash (BUCKET_SIZE - 1) long_key := by
  decide

/-! ## Exactness of the pipeline -/

theorem cstr_idem (s : List Nat) : cstr (cstr s) = cstr s := by
  induction s with
  | nil => rfl
  | cons c s ih =>
    by_cases h : c = 0
    · simp [cstr, h]
    · simp only [cstr, if_neg h, ih]

/-! ### Records and their offsets -/

theorem records_pos_from_snd (off : Nat) (cur bytes : List Nat) :
    (records_pos_from off cur bytes).map Prod.snd = records_from cur bytes := by
  induction bytes generalizing off cur with
  | nil => rfl
  | cons c cs ih =>
    simp only [records_pos_from, records_from]
    split_ifs with h
    · rw [List.map_cons, ih]
    · exact ih _ _

theorem records_pos_from_range (off : Nat) (cur bytes : List Nat) :
    ∀ q ∈ records_pos_from off cur bytes, off ≤ q.1 ∧ q.1 < off + bytes.length := by
  induction bytes generalizing off cur with
  | nil => intro q hq; cases hq
  | cons c cs ih =>
    intro q hq
    simp only [records_pos_from] at hq
    rw [List.length_cons]
    split_ifs at hq with h
    · rcases List.mem_cons.1 hq with rfl | hq'
      · exact ⟨le_refl _, by omega⟩
      · have := ih _ _ q hq'
        omega
    · have := ih _ _ q hq
      omega

theorem records_pos_from_append (off : Nat) (cur X Y : List Nat) :
    records_pos_from off cur (X ++ Y)
      = records_pos_from off cur X ++ records_pos_from (off + X.length) (pending cur X) Y := by
  induction X generalizing off cur with
  | nil => rfl
  | cons c cs ih =>
    rw [List.cons_append]
    simp only [records_pos_from, pending, List.length_cons]
    have e : off + (cs.length + 1) = off + 1 + cs.length := by omega
    split_ifs with h
    · rw [ih, e]
      rfl
    · rw [ih, e]

theorem records_pos_from_line (pre bytes : List Nat) :
    ∀ q ∈ records_pos_from pre.length
        (pre.reverse.takeWhile (fun c => decide (c ≠ 10))) bytes,
      (pre ++ bytes).getD q.1 0 = 10 ∧ q.2 = line_before (pre ++ bytes) q.1 := by
  induction bytes generalizing pre with
  | nil => intro q hq; cases hq
  | cons c cs ih =>
    intro q hq
    simp only [records_pos_from] at hq
    have happ : pre ++ c :: cs = (pre ++ [c]) ++ cs := by simp
    have hlen : pre.length + 1 = (pre ++ [c]).length := by simp
    split_ifs at hq with h
    · rcases List.mem_cons.1 hq with rfl | hq'
      · constructor
        · show (pre ++ c :: cs).getD pre.length 0 = 10
          rw [List.getD_eq_getElem?_getD, List.getElem?_append_right (le_refl _)]
          simp [h]
        · show _ = line_before (pre ++ c :: cs) pre.length
          unfold line_before
          rw [List.take_left' rfl]
      · have hcur : ([] : List Nat)
            = (pre ++ [c]).reverse.takeWhile (fun c => decide (c ≠ 10)) := by
          rw [List.reverse_append]
          simp [h]
        rw [hcur, hlen] at hq'
        rw [happ]
        exact ih (pre ++ [c]) q hq'
    · have hcur : c :: pre.reverse.takeWhile (fun c => decide (c ≠ 10))
          = (pre ++ [c]).reverse.takeWhile (fun c => decide (c ≠ 10)) := by
        rw [List.reverse_append]
        simp [h]
      rw [hcur, hlen] at hq
      rw [happ]
      exact ih (pre ++ [c]) q hq

theorem records_pos_spec (file : List Nat) :
    (records_pos file).map Prod.snd = records file
    ∧ ∀ q ∈ records_pos file,
        q.1 < file.length ∧ file.getD q.1 0 = 10 ∧ q.2 = line_before file q.1 := by
  refine ⟨records_pos_from_snd 0 [] file, ?_⟩
  intro q hq
  have h1 := records_pos_from_range 0 [] file q hq
  have h2 := records_pos_from_line [] file q hq
  exact ⟨by omega, h2.1, h2.2⟩

/-- The records whose newline is at an offset in `[b, b')` are those that the
bytes from `b` to `b'` add to the records of the first `b` bytes. -/
theorem records_pos_window (file : List Nat) (b b' : Nat) (hb : b ≤ b') :
    ((records_pos file).filter (fun q => decide (b ≤ q.1 ∧ q.1 < b'))).map Prod.snd
      = records_from (pending [] (file.take b)) ((file.drop b).take (b' - b)) := by
  have h2 : (file.drop b).drop (b' - b) = file.drop b' := by
    rw [List.drop_drop]
    congr 1
    omega
  have hsplit : file = file.take b ++ ((file.drop b).take (b' - b) ++ file.drop b') := by
    rw [← h2, List.take_append_drop, List.take_append_drop]
  have hdec : records_pos file
      = records_pos_from 0 [] (file.take b)
        ++ (records_pos_from (0 + (file.take b).length) (pending [] (file.take b))
              ((file.drop b).take (b' - b))
          ++ records_pos_from (0 + (file.take b).length + ((file.drop b).take (b' - b)).length)
              (pending (pending [] (file.take b)) ((file.drop b).take (b' - b)))
              (file.drop b')) := by
    unfold records_pos
    conv_lhs => rw [hsplit]
    rw [records_pos_from_append, records_pos_from_append]
  by_cases hbl : b ≤ file.length
  · have hl1 : (file.take b).length = b := by rw [List.length_take]; omega
    rw [hdec, List.filter_append, List.filter_append, List.map_append, List.map_append]
    have hA : (records_pos_from 0 [] (file.take b)).filter
        (fun q => decide (b ≤ q.1 ∧ q.1 < b')) = [] := by
      rw [List.filter_eq_nil_iff]
      intro q hq
      have := records_pos_from_range _ _ _ q hq
      rw [hl1] at this
      simp only [decide_eq_true_eq]
      omega
    by_cases hbl' : b' ≤ file.length
    · have hl2 : ((file.drop b).take (b' - b)).length = b' - b := by
        rw [List.length_take, List.length_drop]; omega
      have hB : (records_pos_from (0 + (file.take b).length) (pending [] (file.take b))
          ((file.drop b).take (b' - b))).filter (fun q => decide (b ≤ q.1 ∧ q.1 < b'))
          = records_pos_from (0 + (file.take b).length) (pending [] (file.take b))
              ((file.drop b).take (b' - b)) := by
        rw [List.filter_eq_self]
        intro q hq
        have := records_pos_from_range _ _ _ q hq
        rw [hl1, hl2] at this
        simp only [decide_eq_true_eq]
        omega
      have hC : (records_pos_from (0 + (file.take b).length
            + ((file.drop b).take (b' - b)).length)
          (pending (pending [] (file.take b)) ((file.drop b).take (b' - b)))
          (file.drop b')).filter (fun q => decide (b ≤ q.1 ∧ q.1 < b')) = [] := by
        rw [List.filter_eq_nil_iff]
        intro q hq
        have := records_pos_from_range _ _ _ q hq
        rw [hl1, hl2] at this
        simp only [decide_eq_true_eq]
        omega
      rw [hA, hB, hC]
      simp only [List.map_nil, List.nil_append, List.append_nil]
      rw [records_pos_from_snd]
    · have hnil : file.drop b' = [] := List.drop_eq_nil_of_le (by omega)
      have hB : (records_pos_from (0 + (file.take b).length) (pending [] (file.take b))
          ((file.drop b).take (b' - b))).filter (fun q => decide (b ≤ q.1 ∧ q.1 < b'))
          = records_pos_from (0 + (file.take b).length) (pending [] (file.take b))
              ((file.drop b).take (b' - b)) := by
        rw [List.filter_eq_self]
        intro q hq
        have := records_pos_from_range _ _ _ q hq
        rw [hl1, List.length_take, List.length_drop] at this
        simp only [decide_eq_true_eq]
        omega
      rw [hA, hB, hnil]
      simp only [records_pos_from, List.filter_nil, List.map_nil, List.nil_append,
        List.append_nil]
      rw [records_pos_from_snd]
  · have hd : file.drop b = [] := List.drop_eq_nil_of_le (by omega)
    rw [hd, List.take_nil]
    have hA : (records_pos file).filter (fun q => decide (b ≤ q.1 ∧ q.1 < b')) = [] := by
      rw [List.filter_eq_nil_iff]
      intro q hq
      have := (records_pos_spec file).2 q hq
      simp only [decide_eq_true_eq]
      omega
    rw [hA]
    rfl

/-! ### The records of a process -/

theorem in_cand_range_eq (N size i : Nat) :
    in_cand_range N size i
      = fun q => decide (bound N size i ≤ q.1 ∧ q.1 < bound N size (i + 1)) := by
  funext q
  unfold in_cand_range
  rw [cand_start_eq, cand_end_eq]
  apply decide_eq_decide.2
  constructor
  · intro h
    omega
  · intro h
    omega

theorem worker_window (file : List Nat) (size i : Nat) (hsize : 1 ≤ size) (hi : i < size)
    (hnul : 0 ∉ file) (hshort : ∀ r ∈ records file, r.length < MAX_KEY_LEN)
    (hsplit : WellSplit file size) :
    inserted_keys file size i
      = ((records_pos file).filter (in_cand_range file.length size i)).map Prod.snd := by
  rw [in_cand_range_eq, records_pos_window file _ _ (bound_mono _ _ _),
    inserted_keys_records file size i hnul, List.filter_eq_self.2]
  · obtain ⟨cur, hrec, hcur⟩ := worker_records file size i hsize
    rw [hcur (well_split_newline file size i hsplit hi)] at hrec
    have h2 : records (file.take (bound file.length size (i + 1)))
        = records (file.take (bound file.length size i))
          ++ records_from (pending [] (file.take (bound file.length size i)))
              ((file.drop (bound file.length size i)).take
                (bound file.length size (i + 1) - bound file.length size i)) := by
      rw [take_split file _ _ (bound_mono file.length size i)]
      unfold records
      rw [records_from_append]
    rw [hrec] at h2
    exact List.append_cancel_left h2
  · intro r hr
    simpa using local_records_short file size i hsize hshort r hr

theorem bound_locate (N size : Nat) (p n : Nat) (hp : p < bound N size n) :
    ∃ i, i < n ∧ bound N size i ≤ p ∧ p < bound N size (i + 1) := by
  induction n with
  | zero =>
    rw [bound_zero] at hp
    omega
  | succ n ih =>
    by_cases h : p < bound N size n
    · obtain ⟨i, hi, h1, h2⟩ := ih h
      exact ⟨i, by omega, h1, h2⟩
    · exact ⟨n, by omega, by omega, hp⟩

theorem bound_unique (N size : Nat) (p i j : Nat)
    (hi : bound N size i ≤ p ∧ p < bound N size (i + 1))
    (hj : bound N size j ≤ p ∧ p < bound N size (j + 1)) : i = j := by
  by_contra hne
  rcases Nat.lt_or_gt_of_ne hne with h | h
  · have := bound_mono_le N size (show i + 1 ≤ j by omega)
    omega
  · have := bound_mono_le N size (show j + 1 ≤ i by omega)
    omega

theorem owner_unique (file : List Nat) (size : Nat) (hsize : 1 ≤ size) (p : Nat)
    (hp : p < file.length) (x : List Nat) :
    ∃! i, i < size ∧ in_cand_range file.length size i (p, x) = true := by
  obtain ⟨i, hi, h1, h2⟩ := bound_locate file.length size p size
    (by rw [bound_size _ _ hsize]; exact hp)
  refine ⟨i, ⟨hi, ?_⟩, ?_⟩
  · rw [in_cand_range_eq]
    exact decide_eq_true ⟨h1, h2⟩
  · rintro j ⟨_, hj⟩
    rw [in_cand_range_eq] at hj
    exact bound_unique file.length size p j i (of_decide_eq_true hj) ⟨h1, h2⟩

/-! ### The keys of a local run -/

theorem insert_all_keys (p : NodePool) (cap : Nat) (hcap : 1 ≤ cap) (keys : List (List Nat))
    (hkeys : ∀ k ∈ keys, k.length < MAX_KEY_LEN) (k : List Nat) :
    (∃ n ∈ (insert_all p cap keys).flatten, strcmp n.key k = 0)
      ↔ ∃ key ∈ keys, strcmp key k = 0 := by
  have hinv := insert_all_inv p cap hcap keys hkeys
  have hw := insert_all_weight p cap hcap keys hkeys k
  constructor
  · rintro ⟨n, hn, hnk⟩
    have hval := insert_all_value p cap hcap keys hkeys n hn
    have hpos := (flatten_nodes _ hinv n hn).choose_spec.2.2.2.2
    rw [hval] at hpos
    unfold times_inserted at hpos
    have hlen : 0 < (keys.filter (fun x => decide (strcmp x n.key = 0))).length := by omega
    obtain ⟨key, hkey⟩ := List.exists_mem_of_length_pos hlen
    have hkey' := List.mem_filter.1 hkey
    refine ⟨key, hkey'.1, ?_⟩
    rw [strcmp_congr_left key n.key k (of_decide_eq_true hkey'.2)]
    exact hnk
  · rintro ⟨key, hkey, hkk⟩
    by_contra hno
    have hz : node_weight (fun x => decide (strcmp x k = 0)) (insert_all p cap keys).flatten
        = 0 := by
      apply node_weight_zero
      intro n hn
      show decide (strcmp (safe_strcpy n.key) k = 0) = false
      rw [strcmp_congr_left _ _ k (flatten_nodes _ hinv n hn).choose_spec.2.2.2.1]
      apply decide_eq_false
      intro h0
      exact hno ⟨n, hn, h0⟩
    rw [hw] at hz
    unfold times_inserted at hz
    have hmem : key ∈ keys.filter (fun x => decide (strcmp x k = 0)) :=
      List.mem_filter.2 ⟨hkey, decide_eq_true hkk⟩
    have := List.length_pos_of_mem hmem
    omega

theorem local_run_has_key (file : List Nat) (size i : Nat) (k : List Nat) :
    has_key k (local_run file size i) ↔ ∃ key ∈ inserted_keys file size i, strcmp key k = 0 := by
  have hlen : ∀ x ∈ inserted_keys file size i, x.length < MAX_KEY_LEN := by
    intro x hx
    rw [inserted_keys_eq] at hx
    exact parse_keys_short _ _ x hx
  have hinv := insert_all_inv NodePool.new BUCKET_SIZE (by decide) _ hlen
  have htab : local_table file size i
      = insert_all NodePool.new BUCKET_SIZE (inserted_keys file size i) := local_table_eq file size i
  unfold local_run
  rw [merge_same_keys_has_key, has_key_perm k (sort_entries_perm cmp_key _),
    ← insert_all_keys NodePool.new BUCKET_SIZE (by decide) _ hlen k]
  unfold local_entries has_key
  rw [htab]
  constructor
  · rintro ⟨e, he, hek⟩
    obtain ⟨n, hn, rfl⟩ := List.mem_map.1 he
    refine ⟨n, hn, ?_⟩
    have hs : ShortKey n.key := (flatten_nodes _ hinv n hn).choose_spec.2.2.2.1
    rw [← strcmp_congr_left _ _ k hs]
    exact hek
  · rintro ⟨n, hn, hnk⟩
    refine ⟨node_entry n, List.mem_map_of_mem _ hn, ?_⟩
    have hs : ShortKey n.key := (flatten_nodes _ hinv n hn).choose_spec.2.2.2.1
    show strcmp (safe_strcpy n.key) k = 0
    rw [strcmp_congr_left _ _ k hs]
    exact hnk

/-! ### Records without NUL byte -/

theorem records_from_bytes (cur X : List Nat) :
    ∀ r ∈ records_from cur X, ∀ x ∈ r, x ∈ cur ∨ x ∈ X := by
  induction X generalizing cur with
  | nil => intro r hr; cases hr
  | cons c cs ih =>
    intro r hr x hx
    simp only [records_from] at hr
    split_ifs at hr with h
    · rcases List.mem_cons.1 hr with rfl | hr'
      · exact Or.inl (List.mem_reverse.1 hx)
      · rcases ih [] r hr' x hx with h1 | h1
        · cases h1
        · exact Or.inr (List.mem_cons_of_mem _ h1)
    · rcases ih (c :: cur) r hr x hx with h1 | h1
      · rcases List.mem_cons.1 h1 with rfl | h2
        · exact Or.inr (List.mem_cons_self _ _)
        · exact Or.inl h2
      · exact Or.inr (List.mem_cons_of_mem _ h1)

theorem records_no_nul (file : List Nat) (hnul : 0 ∉ file) : ∀ r ∈ records file, 0 ∉ r := by
  intro r hr h0
  rcases records_from_bytes [] file r hr 0 h0 with h | h
  · cases h
  · exact hnul h

theorem match_count (l : List (List Nat)) (hl : ∀ r ∈ l, 0 ∉ r) (k : List Nat) :
    (l.filter (fun r => decide (strcmp r k = 0))).length = l.count (cstr k) := by
  rw [List.count, List.countP_eq_length_filter]
  congr 1
  apply List.filter_congr
  intro r hr
  have h1 : strcmp r k = 0 ↔ r = cstr k := by
    rw [strcmp_eq_zero_iff_cstr, cstr_of_no_nul r (hl r hr)]
  by_cases h : r = cstr k
  · rw [decide_eq_true (h1.2 h)]
    simp [h]
  · rw [decide_eq_false (fun e => h (h1.1 e))]
    simp [h]

/-! ### The rows of a file under a well-formed split -/

theorem lines_are_records (file : List Nat) (hlast : file.getLast? = some 10) :
    record_lines file = records file := by
  obtain ⟨X, hX⟩ : ∃ X, file = X ++ [10] := by
    cases hf : file.reverse with
    | nil =>
      have : file = [] := List.reverse_eq_nil_iff.1 hf
      rw [this] at hlast
      cases hlast
    | cons c rest =>
      have hfile : file = rest.reverse ++ [c] := by
        rw [← List.reverse_reverse file, hf, List.reverse_cons]
      rw [hfile] at hlast
      simp only [List.getLast?_append, List.getLast?_singleton,
        Option.or_some, Option.some.injEq] at hlast
      rw [hlast] at hfile
      exact ⟨_, hfile⟩
  unfold record_lines
  rw [hX, pending_append_newline, if_pos rfl, List.append_nil]

/-- Claim C21.  Exactness of the MPI pipeline under a well-formed split: for a
file without NUL byte that ends with a newline, whose records have at most 32
bytes, and `size ≥ 1` processes such that every process but the first with a
candidate start above 0 has a newline below its candidate start,
every line of the file is a record; every record, taken with the offset of its
newline, is the whole line that ends there and its newline is in the candidate
range of exactly one process; the keys that a process inserts are the records
whose newline is in its candidate range, in the order of the file; and process 0
writes rows with pairwise different keys, one for every record of the file and
no other, the count of a row being the number of records equal to its key. -/
theorem pipeline_exact (file : List Nat) (size : Nat) (hsize : 1 ≤ size) (hnul : 0 ∉ file)
    (hlast : file.getLast? = some 10)
    (hshort : ∀ r ∈ records file, r.length < MAX_KEY_LEN) (hsplit : WellSplit file size) :
    record_lines file = records file
    ∧ (records_pos file).map Prod.snd = records file
    ∧ (∀ q ∈ records_pos file, file.getD q.1 0 = 10 ∧ q.2 = line_before file q.1
        ∧ ∃! i, i < size ∧ in_cand_range file.length size i q = true)
    ∧ (∀ i, i < size → inserted_keys file size i
        = ((records_pos file).filter (in_cand_range file.length size i)).map Prod.snd)
    ∧ ∃ n rows, group_by_mpi file size = some (n, rows) ∧ n = rows.length
        ∧ (rows.map (fun e => cstr e.key)).Nodup
        ∧ (∀ r, r ∈ rows.map (fun e => cstr e.key) ↔ r ∈ records file)
        ∧ ∀ e ∈ rows, e.value = ((records file).count (cstr e.key) : Int) := by
  refine ⟨lines_are_records file hlast, (records_pos_spec file).1, ?_,
    fun i hi => worker_window file size i hsize hi hnul hshort hsplit, ?_⟩
  · intro q hq
    obtain ⟨h1, h2, h3⟩ := (records_pos_spec file).2 q hq
    exact ⟨h2, h3, owner_unique file size hsize q.1 h1 q.2⟩
  · obtain ⟨R, hout, hsorted, hweight, hkey⟩ := pipeline_spec file size hsize
    have hperm := sort_entries_perm cmp_value R
    have hrec0 := records_no_nul file hnul
    have hall : (List.range size).flatMap (inserted_keys file size) = records file := by
      rw [inserted_flatMap file size hsize hnul hsplit, List.filter_eq_self]
      intro r hr
      exact decide_eq_true (hshort r hr)
    have hcount : ∀ k, count_of k R = ((records file).count (cstr k) : Int) := by
      intro k
      unfold count_of
      rw [hweight _ (count_of_respects k), sum_filter_length, hall,
        match_count _ hrec0 k]
    have hmem : ∀ k, has_key k R ↔ cstr k ∈ records file := by
      intro k
      rw [hkey k]
      constructor
      · rintro ⟨i, hi, hk⟩
        obtain ⟨key, hkey1, hkey2⟩ := (local_run_has_key file size i k).1 hk
        have hkr : key ∈ records file := by
          rw [← hall]
          exact List.mem_flatMap.2 ⟨i, List.mem_range.2 hi, hkey1⟩
        rw [← (strcmp_eq_zero_iff_cstr key k).1 hkey2, cstr_of_no_nul key (hrec0 key hkr)]
        exact hkr
      · intro hk
        rw [← hall] at hk
        obtain ⟨i, hi, hki⟩ := List.mem_flatMap.1 hk
        refine ⟨i, List.mem_range.1 hi, (local_run_has_key file size i k).2 ⟨cstr k, hki, ?_⟩⟩
        rw [strcmp_eq_zero_iff_cstr, cstr_idem]
    refine ⟨R.length, sort_entries cmp_value R, hout, hperm.length_eq.symm, ?_, ?_, ?_⟩
    · exact (List.Perm.nodup_iff (hperm.map _)).2 (sorted_run_nodup R hsorted)
    · intro r
      rw [(hperm.map _).mem_iff]
      constructor
      · intro hr
        obtain ⟨e, he, hek⟩ := List.mem_map.1 hr
        rw [← hek]
        exact (hmem e.key).1 ⟨e, he, strcmp_self _⟩
      · intro hr
        have h1 : has_key r R := (hmem r).2
          (by rw [cstr_of_no_nul r (hrec0 r hr)]; exact hr)
        obtain ⟨e, he, hek⟩ := h1
        refine List.mem_map.2 ⟨e, he, ?_⟩
        rw [(strcmp_eq_zero_iff_cstr _ _).1 hek, cstr_of_no_nul r (hrec0 r hr)]
    · intro e he
      have heR : e ∈ R := hperm.mem_iff.1 he
      rw [← count_of_sorted_mem R hsorted e heR]
      exact hcount e.key

theorem pipeline_exact_witness :
    (1 ≤ 2 ∧ 0 ∉ ab_cd_file ∧ ab_cd_file.getLast? = some 10
      ∧ (∀ r ∈ records ab_cd_file, r.length < MAX_KEY_LEN) ∧ WellSplit ab_cd_file 2)
    ∧ record_lines ab_cd_file = records ab_cd_file
    ∧ (records_pos ab_cd_file).map Prod.snd = records ab_cd_file
    ∧ (∀ q ∈ records_pos ab_cd_file, ab_cd_file.getD q.1 0 = 10
        ∧ q.2 = line_before ab_cd_file q.1
        ∧ ∃! i, i < 2 ∧ in_cand_range ab_cd_file.length 2 i q = true)
    ∧ (∀ i, i < 2 → inserted_keys ab_cd_file 2 i
        = ((records_pos ab_cd_file).filter (in_cand_range ab_cd_file.length 2 i)).map Prod.snd)
    ∧ ∃ n rows, group_by_mpi ab_cd_file 2 = some (n, rows) ∧ n = rows.length
        ∧ (rows.map (fun e => cstr e.key)).Nodup
        ∧ (∀ r, r ∈ rows.map (fun e => cstr e.key) ↔ r ∈ records ab_cd_file)
        ∧ ∀ e ∈ rows, e.value = ((records ab_cd_file).count (cstr e.key) : Int) :=
  have hsplit : WellSplit ab_cd_file 2 := by
    intro i h1 h2 _
    have hi : i = 1 := by omega
    subst hi
    decide
  ⟨⟨by decide, by decide, by decide, by decide, hsplit⟩,
    pipeline_exact ab_cd_file 2 (by decide) (by decide) (by decide) (by decide) hsplit⟩

/-! ## Counts as `int`: the merge with the addition of 32 bits -/

theorem wrap32_range (x : Int) : -(2 ^ 31) ≤ wrap32 x ∧ wrap32 x < 2 ^ 31 := by
  unfold wrap32
  omega

theorem wrap32_add (a b : Int) : wrap32 (wrap32 a + wrap32 b) = wrap32 (a + b) := by
  unfold wrap32
  omega

theorem wrap_entry_of_int (e : Entry) (h : -(2 ^ 31) ≤ e.value ∧ e.value < 2 ^ 31) :
    wrap_entry e = e := by
  unfold wrap_entry
  rw [wrap32_small _ h.1 h.2]

theorem map_wrap_of_int (l : List Entry) (h : IntRun l) : l.map wrap_entry = l := by
  induction l with
  | nil => rfl
  | cons e l ih =>
    rw [List.map_cons, wrap_entry_of_int e (h e (List.mem_cons_self _ _)),
      ih (fun x hx => h x (List.mem_cons_of_mem _ hx))]

theorem wrap_int_run (l : List Entry) : IntRun (l.map wrap_entry) := by
  intro e he
  obtain ⟨x, _, rfl⟩ := List.mem_map.1 he
  exact wrap32_range x.value

theorem wrap_merge_loop (fuel : Nat) (L R : List Entry) :
    merge_loop cmp_key fuel (L.map wrap_entry) (R.map wrap_entry)
      = (merge_loop cmp_key fuel L R).map wrap_entry := by
  induction fuel generalizing L R with
  | zero => rfl
  | succ n ih =>
    cases L with
    | nil =>
      cases R with
      | nil => rfl
      | cons b R => simp [merge_loop]
    | cons a L =>
      cases R with
      | nil => simp [merge_loop]
      | cons b R =>
        have hcmp : cmp_key (wrap_entry a) (wrap_entry b) = cmp_key a b := rfl
        simp only [List.map_cons, merge_loop, hcmp]
        split_ifs with h
        · rw [List.map_cons, ← ih L (b :: R)]
          rfl
        · rw [List.map_cons, ← ih (a :: L) R]
          rfl

theorem wrap_merge_sorted (A B : List Entry) :
    merge_sorted_entries (A.map wrap_entry) (B.map wrap_entry)
      = (merge_sorted_entries A B).map wrap_entry := by
  unfold merge_sorted_entries
  rw [List.length_map, List.length_map]
  exact wrap_merge_loop _ A B

theorem wrap_same_keys_loop (cur : Entry) (rest : List Entry) :
    Int32.merge_same_keys_loop (wrap_entry cur) (rest.map wrap_entry)
      = (merge_same_keys_loop cur rest).map wrap_entry := by
  induction rest generalizing cur with
  | nil => rfl
  | cons e rest ih =>
    have hk : strcmp (wrap_entry cur).key (wrap_entry e).key = strcmp cur.key e.key := rfl
    simp only [List.map_cons, Int32.merge_same_keys_loop, merge_same_keys_loop, hk]
    split_ifs with h
    · rw [← ih]
      congr 1
      show ({ key := cur.key, value := wrap32 (wrap32 cur.value + wrap32 e.value) } : Entry)
        = { key := cur.key, value := wrap32 (cur.value + e.value) }
      rw [wrap32_add]
    · rw [List.map_cons, ← ih]

theorem wrap_same_keys (l : List Entry) :
    Int32.merge_same_keys (l.map wrap_entry) = (merge_same_keys l).map wrap_entry := by
  cases l with
  | nil => rfl
  | cons e rest => exact wrap_same_keys_loop e rest

theorem wrap_merge_runs (A B : List Entry) :
    Int32.merge_runs (A.map wrap_entry) (B.map wrap_entry)
      = (merge_runs A B).map wrap_entry := by
  unfold Int32.merge_runs merge_runs
  rw [wrap_merge_sorted, wrap_same_keys]

theorem int_merge_runs (A B : List Entry) (hA : IntRun A) (hB : IntRun B) :
    Int32.merge_runs A B = (merge_runs A B).map wrap_entry := by
  rw [← wrap_merge_runs, map_wrap_of_int A hA, map_wrap_of_int B hB]

/-! ### Runs with their counts reduced to 32 bits -/

theorem wrap_sorted (l : List Entry) : SortedRun (l.map wrap_entry) ↔ SortedRun l := by
  unfold SortedRun
  rw [List.pairwise_map]
  rfl

theorem wrap_has_key (k : List Nat) (l : List Entry) :
    has_key k (l.map wrap_entry) ↔ has_key k l := by
  unfold has_key
  constructor
  · rintro ⟨e, he, hk⟩
    obtain ⟨x, hx, rfl⟩ := List.mem_map.1 he
    exact ⟨x, hx, hk⟩
  · rintro ⟨x, hx, hk⟩
    exact ⟨wrap_entry x, List.mem_map_of_mem _ hx, hk⟩

theorem wrap_count_sorted (l : List Entry) (h : SortedRun l) (k : List Nat) :
    count_of k (l.map wrap_entry) = wrap32 (count_of k l) := by
  induction l with
  | nil => rfl
  | cons a l ih =>
    have hl : SortedRun l := (List.pairwise_cons.1 h).2
    rw [List.map_cons, count_of_cons, count_of_cons]
    by_cases hk : strcmp a.key k = 0
    · have hk' : strcmp (wrap_entry a).key k = 0 := hk
      have h0 := count_of_tail_zero a l k h hk
      rw [if_pos hk', if_pos hk, ih hl, h0]
      show wrap32 a.value + wrap32 0 = wrap32 (a.value + 0)
      unfold wrap32
      omega
    · have hk' : ¬ strcmp (wrap_entry a).key k = 0 := hk
      rw [if_neg hk', if_neg hk, ih hl, zero_add, zero_add]

theorem wrap_rows (l : List Entry) :
    (l.map wrap_entry).map entry_row = (l.map entry_row).map (fun r => (r.1, wrap32 r.2)) := by
  rw [List.map_map, List.map_map]
  rfl

theorem wrap_keys (l : List Entry) :
    (l.map wrap_entry).map (fun e => cstr e.key) = l.map (fun e => cstr e.key) := by
  rw [List.map_map]
  rfl

theorem wrap_in_keys (k : List Nat) (l : List Entry) :
    in_keys k (l.map wrap_entry) = in_keys k l := by
  unfold in_keys
  rw [List.any_map]
  rfl

/-! ### The reduction loop on counts of 32 bits -/

theorem wrap_all_some {α : Type} (f : α → α) (l : List (Option α)) :
    all_some (l.map (Option.map f)) = (all_some l).map (List.map f) := by
  induction l with
  | nil => rfl
  | cons a l ih =>
    cases a with
    | none => rfl
    | some x =>
      simp only [List.map_cons, Option.map_some', all_some, ih]
      cases all_some l <;> rfl

theorem wrap_get (ws : List Worker) (i : Nat) :
    (ws.map wrap_worker)[i]? = (ws[i]?).map wrap_worker := List.getElem?_map _ _ _

theorem wrap_step_worker (size step : Nat) (ws : List Worker) (rank : Nat) (w : Worker) :
    Int32.step_worker size step (ws.map wrap_worker) rank (wrap_worker w)
      = (step_worker size step ws rank w).map wrap_worker := by
  unfold Int32.step_worker step_worker
  have hin : (wrap_worker w).in_loop = w.in_loop := rfl
  have hit : (wrap_worker w).iterations = w.iterations := rfl
  rw [hin]
  by_cases h1 : w.in_loop = false
  · rw [if_pos h1, if_pos h1]
    rfl
  · rw [if_neg h1, if_neg h1]
    by_cases h2 : rank % (2 * step) = 0
    · rw [if_pos h2, if_pos h2]
      simp only
      by_cases h3 : rank + step < size
      · rw [if_pos h3, if_pos h3, wrap_get]
        cases hsrc : ws[rank + step]? with
        | none => rfl
        | some src =>
          simp only [Option.map_some']
          have hsin : (wrap_worker src).in_loop = src.in_loop := rfl
          rw [hsin]
          by_cases h4 : src.in_loop = true ∧ (rank + step) % (2 * step) ≠ 0
          · rw [if_pos h4, if_pos h4]
            obtain ⟨we, win, wit⟩ := w
            obtain ⟨se, sin, sit⟩ := src
            cases we with
            | none => rfl
            | some entries =>
              cases se with
              | none => rfl
              | some src_entries =>
                simp only [wrap_worker, Option.map_some']
                rw [wrap_merge_sorted, wrap_same_keys]
          · rw [if_neg h4, if_neg h4]
            rfl
      · rw [if_neg h3, if_neg h3]
        rfl
    · rw [if_neg h2, if_neg h2]
      by_cases h5 : step ≤ rank
      · rw [if_pos h5, if_pos h5, wrap_get]
        cases hdst : ws[rank - step]? with
        | none => rfl
        | some dst =>
          simp only [Option.map_some']
          have hdin : (wrap_worker dst).in_loop = dst.in_loop := rfl
          rw [hdin, hit]
          split_ifs <;> rfl
      · rw [if_neg h5, if_neg h5]
        rfl

theorem wrap_reduce_round (size step : Nat) (ws : List Worker) :
    Int32.reduce_round size step (ws.map wrap_worker)
      = (reduce_round size step ws).map (List.map wrap_worker) := by
  unfold Int32.reduce_round reduce_round
  rw [List.length_map, ← wrap_all_some, List.map_map]
  congr 1
  apply List.map_congr_left
  intro rank _
  show (ws.map wrap_worker)[rank]?.bind (Int32.step_worker size step (ws.map wrap_worker) rank)
    = Option.map wrap_worker (ws[rank]?.bind (step_worker size step ws rank))
  rw [wrap_get]
  cases ws[rank]? with
  | none => rfl
  | some w => exact wrap_step_worker size step ws rank w

theorem wrap_reduce_loop (size fuel step : Nat) (ws : List Worker) :
    Int32.reduce_loop size fuel step (ws.map wrap_worker)
      = (reduce_loop size fuel step ws).map (List.map wrap_worker) := by
  induction fuel generalizing step ws with
  | zero => rfl
  | succ n ih =>
    simp only [Int32.reduce_loop, reduce_loop]
    split_ifs with h
    · rw [wrap_reduce_round]
      cases reduce_round size step ws with
      | none => rfl
      | some ws' => exact ih (step * 2) ws'
    · rfl

theorem int_reduce (size : Nat) (runs : List (List Entry)) (hint : ∀ run ∈ runs, IntRun run) :
    Int32.reduce size runs = (reduce size runs).map (List.map wrap_worker) := by
  unfold Int32.reduce reduce
  rw [← wrap_reduce_loop, List.map_map]
  congr 1
  apply List.map_congr_left
  intro run hrun
  show _ = wrap_worker { local_entries := some run, in_loop := true, iterations := 0 }
  simp only [wrap_worker, Option.map_some', map_wrap_of_int run (hint run hrun)]

/-! ### Merging runs of `int` counts -/

theorem wrap32_of_range (x : Int) (h1 : -(2 ^ 31) ≤ x) (h2 : x < 2 ^ 31) : wrap32 x = x :=
  wrap32_small x h1 h2

theorem int_merge_count (A B : List Entry) (hA : SortedRun A) (hB : SortedRun B)
    (hAi : IntRun A) (hBi : IntRun B) (k : List Nat) :
    count_of k (Int32.merge_runs A B) = wrap32 (count_of k A + count_of k B) := by
  rw [int_merge_runs A B hAi hBi, wrap_count_sorted _ (merge_runs_sorted' A B hA hB),
    merge_runs_count]

theorem int_merge_sorted (A B : List Entry) (hA : SortedRun A) (hB : SortedRun B)
    (hAi : IntRun A) (hBi : IntRun B) : SortedRun (Int32.merge_runs A B) := by
  rw [int_merge_runs A B hAi hBi, wrap_sorted]
  exact merge_runs_sorted' A B hA hB

theorem int_merge_int (A B : List Entry) (hAi : IntRun A) (hBi : IntRun B) :
    IntRun (Int32.merge_runs A B) := by
  rw [int_merge_runs A B hAi hBi]
  exact wrap_int_run _

/-- C14, as stated, fails: the run with the key `a` and the count 2147483647 and
the run with the key `a` and the count 1 are sorted runs with counts at least 1,
and their merge holds the key `a` with the count -2147483648, not the sum
2147483648 of the two counts. -/
theorem merge_two_runs_counterexample :
    (SortedRun max_run ∧ SortedRun unit_run ∧ (∀ e ∈ max_run, 1 ≤ e.value)
      ∧ (∀ e ∈ unit_run, 1 ≤ e.value) ∧ IntRun max_run ∧ IntRun unit_run)
    ∧ Int32.merge_same_keys (merge_sorted_entries max_run unit_run)
        = [{ key := [97], value := -2147483648 }]
    ∧ count_of [97] max_run + count_of [97] unit_run = 2147483648 := by
  decide

/-- C14, amended (merge of two runs).  For sorted runs `A` and `B` with counts in
the range of an `int`, `merge_sorted_entries` followed by `merge_same_keys`
gives a sorted run; its length is at most `|A| + |B|`, exactly `|A| + |B|` minus
the number of entries of `A` whose key is in `B`; the count of every key is its
count in `A` plus its count in `B` (0 for a key that a run does not hold)
reduced to 32 bits, which is the sum itself when the sum is in the range of an
`int`; and this is the count of the entry that holds the key. -/
theorem merge_two_runs (A B : List Entry) (hA : SortedRun A) (hB : SortedRun B)
    (hAi : IntRun A) (hBi : IntRun B) :
    SortedRun (Int32.merge_same_keys (merge_sorted_entries A B))
    ∧ (Int32.merge_same_keys (merge_sorted_entries A B)).length ≤ A.length + B.length
    ∧ (Int32.merge_same_keys (merge_sorted_entries A B)).length
        + (A.filter (fun a => in_keys a.key B)).length = A.length + B.length
    ∧ (∀ k, count_of k (Int32.merge_same_keys (merge_sorted_entries A B))
        = wrap32 (count_of k A + count_of k B))
    ∧ (∀ k, -(2 ^ 31) ≤ count_of k A + count_of k B → count_of k A + count_of k B < 2 ^ 31 →
        count_of k (Int32.merge_same_keys (merge_sorted_entries A B))
          = count_of k A + count_of k B)
    ∧ (∀ e ∈ Int32.merge_same_keys (merge_sorted_entries A B),
        e.value = wrap32 (count_of e.key A + count_of e.key B))
    ∧ (∀ k, has_key k (Int32.merge_same_keys (merge_sorted_entries A B))
        ↔ has_key k A ∨ has_key k B) := by
  have hM : Int32.merge_same_keys (merge_sorted_entries A B)
      = (merge_runs A B).map wrap_entry := int_merge_runs A B hAi hBi
  have hlen := merge_runs_length A B hA hB
  have hsorted : SortedRun (Int32.merge_same_keys (merge_sorted_entries A B)) :=
    int_merge_sorted A B hA hB hAi hBi
  have hcount := int_merge_count A B hA hB hAi hBi
  refine ⟨hsorted, ?_, ?_, hcount, ?_, ?_, ?_⟩
  · rw [hM, List.length_map]
    omega
  · rw [hM, List.length_map]
    exact hlen
  · intro k h1 h2
    have := hcount k
    unfold Int32.merge_runs at this
    rw [this, wrap32_of_range _ h1 h2]
  · intro e he
    rw [← count_of_sorted_mem _ hsorted e he]
    exact hcount e.key
  · intro k
    rw [hM, wrap_has_key]
    exact merge_runs_has_key' k A B

theorem merge_two_runs_witness :
    (SortedRun run_one ∧ SortedRun run_two ∧ IntRun run_one ∧ IntRun run_two)
    ∧ (SortedRun (Int32.merge_same_keys (merge_sorted_entries run_one run_two))
    ∧ (Int32.merge_same_keys (merge_sorted_entries run_one run_two)).length
        ≤ run_one.length + run_two.length
    ∧ (Int32.merge_same_keys (merge_sorted_entries run_one run_two)).length
        + (run_one.filter (fun a => in_keys a.key run_two)).length
        = run_one.length + run_two.length
    ∧ (∀ k, count_of k (Int32.merge_same_keys (merge_sorted_entries run_one run_two))
        = wrap32 (count_of k run_one + count_of k run_two))
    ∧ (∀ k, -(2 ^ 31) ≤ count_of k run_one + count_of k run_two →
        count_of k run_one + count_of k run_two < 2 ^ 31 →
        count_of k (Int32.merge_same_keys (merge_sorted_entries run_one run_two))
          = count_of k run_one + count_of k run_two)
    ∧ (∀ e ∈ Int32.merge_same_keys (merge_sorted_entries run_one run_two),
        e.value = wrap32 (count_of e.key run_one + count_of e.key run_two))
    ∧ (∀ k, has_key k (Int32.merge_same_keys (merge_sorted_entries run_one run_two))
        ↔ has_key k run_one ∨ has_key k run_two)) :=
  ⟨by decide, merge_two_runs run_one run_two (by decide) (by decide) (by decide) (by decide)⟩

/-- C15, as stated, fails: for the array of the key `a` with the count
2147483647 followed by the key `a` with the count 1, `merge_sort` with `cmp_key`
followed by `merge_same_keys` gives the key `a` with the count -2147483648, not
the sum 2147483648 of the counts of the entries with this key. -/
theorem sorted_run_producer_counterexample :
    Int32.merge_same_keys
        (merge_sort cmp_key (max_run ++ unit_run).length (max_run ++ unit_run) 0
          ((max_run ++ unit_run).length - 1))
      = [{ key := [97], value := -2147483648 }]
    ∧ count_of [97] (max_run ++ unit_run) = 2147483648 := by
  decide

/-- C15, amended (sorted-run producer).  For every array of entries with counts
in the range of an `int`, the guarded call of `merge_sort` with `cmp_key` (which
is `merge_sort` on the whole array) followed by `merge_same_keys` gives a sorted
run: strictly increasing keys, hence no key twice, with an entry for a key
exactly when the input has one, the count of a key being the sum of the counts
of the input entries that hold it reduced to 32 bits, which is the sum itself
when the sum is in the range of an `int`. -/
theorem sorted_run_producer (entries : List Entry) (hint : IntRun entries) :
    merge_sort cmp_key entries.length entries 0 (entries.length - 1)
        = sort_entries cmp_key entries
    ∧ SortedRun (Int32.merge_same_keys (sort_entries cmp_key entries))
    ∧ ((Int32.merge_same_keys (sort_entries cmp_key entries)).map (fun e => cstr e.key)).Nodup
    ∧ (∀ k, has_key k (Int32.merge_same_keys (sort_entries cmp_key entries))
        ↔ has_key k entries)
    ∧ (∀ k, count_of k (Int32.merge_same_keys (sort_entries cmp_key entries))
        = wrap32 (count_of k entries))
    ∧ (∀ k, -(2 ^ 31) ≤ count_of k entries → count_of k entries < 2 ^ 31 →
        count_of k (Int32.merge_same_keys (sort_entries cmp_key entries)) = count_of k entries)
    ∧ (∀ e ∈ Int32.merge_same_keys (sort_entries cmp_key entries),
        e.value = wrap32 (count_of e.key entries)) := by
  have hperm := sort_entries_perm cmp_key entries
  have hS : IntRun (sort_entries cmp_key entries) := fun e he => hint e (hperm.mem_iff.1 he)
  have hM : Int32.merge_same_keys (sort_entries cmp_key entries)
      = (merge_same_keys (sort_entries cmp_key entries)).map wrap_entry := by
    rw [← wrap_same_keys, map_wrap_of_int _ hS]
  have hexact : SortedRun (merge_same_keys (sort_entries cmp_key entries)) :=
    merge_same_keys_sorted _ (cmp_key_sorted entries)
  have hsorted : SortedRun (Int32.merge_same_keys (sort_entries cmp_key entries)) := by
    rw [hM, wrap_sorted]
    exact hexact
  have hcount : ∀ k, count_of k (Int32.merge_same_keys (sort_entries cmp_key entries))
      = wrap32 (count_of k entries) := by
    intro k
    rw [hM, wrap_count_sorted _ hexact]
    unfold count_of
    rw [merge_same_keys_weight _ (count_of_respects k), weight_perm _ hperm]
  refine ⟨merge_sort_eq_sort_entries cmp_key entries, hsorted, sorted_run_nodup _ hsorted,
    ?_, hcount, ?_, ?_⟩
  · intro k
    rw [hM, wrap_has_key, merge_same_keys_has_key, has_key_perm k hperm]
  · intro k h1 h2
    rw [hcount k, wrap32_of_range _ h1 h2]
  · intro e he
    rw [← count_of_sorted_mem _ hsorted e he]
    exact hcount e.key

theorem sorted_run_producer_witness :
    IntRun sample_entries
    ∧ merge_sort cmp_key sample_entries.length sample_entries 0 (sample_entries.length - 1)
        = sort_entries cmp_key sample_entries
    ∧ SortedRun (Int32.merge_same_keys (sort_entries cmp_key sample_entries))
    ∧ ((Int32.merge_same_keys (sort_entries cmp_key sample_entries)).map
        (fun e => cstr e.key)).Nodup
    ∧ (∀ k, has_key k (Int32.merge_same_keys (sort_entries cmp_key sample_entries))
        ↔ has_key k sample_entries)
    ∧ (∀ k, count_of k (Int32.merge_same_keys (sort_entries cmp_key sample_entries))
        = wrap32 (count_of k sample_entries))
    ∧ (∀ k, -(2 ^ 31) ≤ count_of k sample_entries → count_of k sample_entries < 2 ^ 31 →
        count_of k (Int32.merge_same_keys (sort_entries cmp_key sample_entries))
          = count_of k sample_entries)
    ∧ (∀ e ∈ Int32.merge_same_keys (sort_entries cmp_key sample_entries),
        e.value = wrap32 (count_of e.key sample_entries)) :=
  ⟨by decide, sorted_run_producer sample_entries (by decide)⟩

/-- C11 (merge associativity and commutativity).  For sorted runs `A`, `B`, `C`
with counts in the range of an `int`, the merge of the reduction loop
(`merge_sorted_entries` followed by `merge_same_keys`, with its addition of 32
bits) is associative and commutative on the rows (the key as a string, the
count); when no key holds a NUL byte the merged arrays themselves are equal;
the count of a key after merging three runs is the sum of its three counts
reduced to 32 bits, whatever the order of the merges. -/
theorem merge_assoc_comm (A B C : List Entry) (hA : SortedRun A) (hB : SortedRun B)
    (hC : SortedRun C) (hAi : IntRun A) (hBi : IntRun B) (hCi : IntRun C) :
    (Int32.merge_runs (Int32.merge_runs A B) C).map entry_row
        = (Int32.merge_runs A (Int32.merge_runs B C)).map entry_row
    ∧ (Int32.merge_runs A B).map entry_row = (Int32.merge_runs B A).map entry_row
    ∧ ((∀ e ∈ A, 0 ∉ e.key) → (∀ e ∈ B, 0 ∉ e.key) → (∀ e ∈ C, 0 ∉ e.key) →
        Int32.merge_runs (Int32.merge_runs A B) C = Int32.merge_runs A (Int32.merge_runs B C)
          ∧ Int32.merge_runs A B = Int32.merge_runs B A)
    ∧ (∀ k, count_of k (Int32.merge_runs (Int32.merge_runs A B) C)
          = wrap32 (count_of k A + count_of k B + count_of k C)
        ∧ count_of k (Int32.merge_runs A (Int32.merge_runs B C))
          = wrap32 (count_of k A + count_of k B + count_of k C)) := by
  have hAB := int_merge_runs A B hAi hBi
  have hBC := int_merge_runs B C hBi hCi
  have hBA := int_merge_runs B A hBi hAi
  have hL : Int32.merge_runs (Int32.merge_runs A B) C
      = (merge_runs (merge_runs A B) C).map wrap_entry := by
    rw [hAB]
    conv_lhs => rw [← map_wrap_of_int C hCi]
    exact wrap_merge_runs _ _
  have hR : Int32.merge_runs A (Int32.merge_runs B C)
      = (merge_runs A (merge_runs B C)).map wrap_entry := by
    rw [hBC]
    conv_lhs => rw [← map_wrap_of_int A hAi]
    exact wrap_merge_runs _ _
  refine ⟨?_, ?_, ?_, ?_⟩
  · rw [hL, hR, wrap_rows, wrap_rows, merge_runs_assoc_rows A B C hA hB hC]
  · rw [hAB, hBA, wrap_rows, wrap_rows, merge_runs_comm_rows A B hA hB]
  · intro nA nB nC
    constructor
    · rw [hL, hR]
      congr 1
      apply rows_injective _ _ _ _ (merge_runs_assoc_rows A B C hA hB hC)
      · exact merge_runs_no_nul _ _ (merge_runs_no_nul A B nA nB) nC
      · exact merge_runs_no_nul _ _ nA (merge_runs_no_nul B C nB nC)
    · rw [hAB, hBA]
      congr 1
      exact rows_injective _ _ (merge_runs_no_nul A B nA nB) (merge_runs_no_nul B A nB nA)
        (merge_runs_comm_rows A B hA hB)
  · intro k
    constructor
    · rw [hL, wrap_count_sorted _ (merge_runs_sorted' _ C (merge_runs_sorted' A B hA hB) hC),
        merge_runs_count, merge_runs_count]
    · rw [hR, wrap_count_sorted _ (merge_runs_sorted' A _ hA (merge_runs_sorted' B C hB hC)),
        merge_runs_count, merge_runs_count]
      congr 1
      omega

theorem merge_assoc_comm_witness :
    (SortedRun max_run ∧ SortedRun unit_run ∧ SortedRun run_one
      ∧ IntRun max_run ∧ IntRun unit_run ∧ IntRun run_one)
    ∧ ((Int32.merge_runs (Int32.merge_runs max_run unit_run) run_one).map entry_row
        = (Int32.merge_runs max_run (Int32.merge_runs unit_run run_one)).map entry_row
    ∧ (Int32.merge_runs max_run unit_run).map entry_row
        = (Int32.merge_runs unit_run max_run).map entry_row
    ∧ ((∀ e ∈ max_run, 0 ∉ e.key) → (∀ e ∈ unit_run, 0 ∉ e.key) → (∀ e ∈ run_one, 0 ∉ e.key) →
        Int32.merge_runs (Int32.merge_runs max_run unit_run) run_one
            = Int32.merge_runs max_run (Int32.merge_runs unit_run run_one)
          ∧ Int32.merge_runs max_run unit_run = Int32.merge_runs unit_run max_run)
    ∧ (∀ k, count_of k (Int32.merge_runs (Int32.merge_runs max_run unit_run) run_one)
          = wrap32 (count_of k max_run + count_of k unit_run + count_of k run_one)
        ∧ count_of k (Int32.merge_runs max_run (Int32.merge_runs unit_run run_one))
          = wrap32 (count_of k max_run + count_of k unit_run + count_of k run_one))) :=
  ⟨by decide, merge_assoc_comm max_run unit_run run_one (by decide) (by decide) (by decide)
    (by decide) (by decide) (by decide)⟩

/-- C10, as stated, fails: with 2 processes, process 0 holding the key `a` with
the count 2147483647 and process 1 the key `a` with the count 1, the reduction
loop leaves process 0 with the key `a` and the count -2147483648, not the sum
2147483648 of the counts over the two runs. -/
theorem reduction_tree_counterexample :
    ((∀ run ∈ [max_run, unit_run], SortedRun run) ∧ (∀ run ∈ [max_run, unit_run], IntRun run))
    ∧ Int32.reduce 2 [max_run, unit_run]
        = some [{ local_entries := some [{ key := [97], value := -2147483648 }],
                  in_loop := true, iterations := 1 },
                { local_entries := none, in_loop := false, iterations := 1 }]
    ∧ ([max_run, unit_run].map (count_of [97])).sum = 2147483648 := by
  decide

/-- C10, amended (reduction tree result).  For `size ≥ 1` processes holding
sorted runs with counts in the range of an `int`, the doubling loop ends
without a blocked send or receive; process 0 then holds a sorted run `R` that has
a key exactly when the run of some process has it, the count of every key in `R`
is the sum of its counts over all the runs reduced to 32 bits, which is the sum
itself when the counts are not negative and the sum is below `2 ^ 31`; process 0
has executed `⌈log2 size⌉` iterations of the loop and every other process is
left without a run. -/
theorem reduction_tree_result (size : Nat) (runs : List (List Entry)) (hsize : 1 ≤ size)
    (hlen : runs.length = size) (hsorted : ∀ run ∈ runs, SortedRun run)
    (hint : ∀ run ∈ runs, IntRun run) :
    ∃ ws w0 R, Int32.reduce size runs = some ws ∧ ws.length = size ∧ ws[0]? = some w0
      ∧ w0.local_entries = some R ∧ SortedRun R
      ∧ (∀ k, has_key k R ↔ ∃ run ∈ runs, has_key k run)
      ∧ (∀ k, count_of k R = wrap32 ((runs.map (count_of k)).sum))
      ∧ (∀ k, -(2 ^ 31) ≤ (runs.map (count_of k)).sum → (runs.map (count_of k)).sum < 2 ^ 31 →
          count_of k R = (runs.map (count_of k)).sum)
      ∧ w0.iterations = Nat.clog 2 size
      ∧ ∀ i, 1 ≤ i → i < size → ∃ w, ws[i]? = some w ∧ w.local_entries = none := by
  obtain ⟨ws, w0, R, h1, h2, h3, h4, h5, h6, h7, h8, h9⟩ :=
    reduce_spec size runs hsize hlen hsorted
  have hcount : ∀ k, count_of k (R.map wrap_entry) = wrap32 ((runs.map (count_of k)).sum) := by
    intro k
    rw [wrap_count_sorted R h5 k]
    congr 1
    exact h7 _ (count_of_respects k)
  refine ⟨ws.map wrap_worker, wrap_worker w0, R.map wrap_entry, ?_, ?_, ?_, ?_, ?_, ?_,
    hcount, ?_, h8, ?_⟩
  · rw [int_reduce size runs hint, h1]
    rfl
  · rw [List.length_map, h2]
  · rw [wrap_get, h3]
    rfl
  · show w0.local_entries.map (fun l => l.map wrap_entry) = some (R.map wrap_entry)
    rw [h4]
    rfl
  · exact (wrap_sorted R).2 h5
  · intro k
    rw [wrap_has_key]
    exact h6 k
  · intro k hk1 hk2
    rw [hcount k, wrap32_of_range _ hk1 hk2]
  · intro i hi1 hi2
    obtain ⟨w, hw, hwn⟩ := h9 i hi1 hi2
    refine ⟨wrap_worker w, ?_, ?_⟩
    · rw [wrap_get, hw]
      rfl
    · show w.local_entries.map (fun l => l.map wrap_entry) = none
      rw [hwn]
      rfl

theorem reduction_tree_result_witness :
    (1 ≤ 3 ∧ sample_runs.length = 3 ∧ (∀ run ∈ sample_runs, SortedRun run)
      ∧ ∀ run ∈ sample_runs, IntRun run)
    ∧ ∃ ws w0 R, Int32.reduce 3 sample_runs = some ws ∧ ws.length = 3 ∧ ws[0]? = some w0
      ∧ w0.local_entries = some R ∧ SortedRun R
      ∧ (∀ k, has_key k R ↔ ∃ run ∈ sample_runs, has_key k run)
      ∧ (∀ k, count_of k R = wrap32 ((sample_runs.map (count_of k)).sum))
      ∧ (∀ k, -(2 ^ 31) ≤ (sample_runs.map (count_of k)).sum →
          (sample_runs.map (count_of k)).sum < 2 ^ 31 →
          count_of k R = (sample_runs.map (count_of k)).sum)
      ∧ w0.iterations = Nat.clog 2 3
      ∧ ∀ i, 1 ≤ i → i < 3 → ∃ w, ws[i]? = some w ∧ w.local_entries = none :=
  ⟨by decide, reduction_tree_result 3 sample_runs (by decide) (by decide) (by decide)
    (by decide)⟩

/-! ### Keys that fit the key buffer -/

theorem safe_strcpy_loop_take (src : List Nat) (i : Nat) :
    safe_strcpy_loop (src.take (MAX_KEY_LEN - 1 - i)) i = safe_strcpy_loop src i := by
  induction src generalizing i with
  | nil => simp [safe_strcpy_loop]
  | cons c cs ih =>
    by_cases h : i < MAX_KEY_LEN - 1
    · have hs : MAX_KEY_LEN - 1 - i = (MAX_KEY_LEN - 1 - (i + 1)) + 1 := by omega
      rw [hs, List.take_succ_cons]
      simp only [safe_strcpy_loop]
      rw [ih (i + 1)]
    · have hs : MAX_KEY_LEN - 1 - i = 0 := by omega
      rw [hs, List.take_zero]
      simp only [safe_strcpy_loop]
      rw [if_neg (fun hc => h hc.2)]

theorem safe_strcpy_take (src : List Nat) :
    safe_strcpy (src.take (MAX_KEY_LEN - 1)) = safe_strcpy src :=
  safe_strcpy_loop_take src 0

theorem new_table_flatten (p : NodePool) (cap : Nat) : (HashTable.new p cap).flatten = [] := rfl

/-- C17, amended (canonical-key consistency of insertion).  `HashTable::insert`
hashes and compares the key it is given and `NodePool::alloc` stores its first
32 bytes; for a key that is a string of at most 32 bytes the stored key is the
same string as the key, has the same hash and compares alike with every key.
For two such keys that agree on their first 32 bytes, inserting both into an
empty table leaves exactly one node, holding the copied key with count 2.
Every key that `group_by_mpi` passes to `insert` is shorter than `MAX_KEY_LEN`,
by the guard of the parsing loop. -/
theorem canonical_key_consistency (p : NodePool) (cap : Nat) (hcap : 1 ≤ cap)
    (k1 k2 : List Nat) (h1 : ShortKey k1) (h2 : ShortKey k2)
    (hagree : k1.take (MAX_KEY_LEN - 1) = k2.take (MAX_KEY_LEN - 1)) :
    (insert_all p cap [k1, k2]).flatten = [{ key := safe_strcpy k1, value := 2 }]
    ∧ safe_strcpy k1 = safe_strcpy k2
    ∧ strcmp (safe_strcpy k1) k1 = 0
    ∧ hash (cap - 1) (safe_strcpy k1) = hash (cap - 1) k1
    ∧ (∀ key, strcmp key (safe_strcpy k1) = strcmp key k1)
    ∧ (∀ k, k.length < MAX_KEY_LEN → ShortKey k)
    ∧ (∀ file size i, ∀ k ∈ inserted_keys file size i, k.length < MAX_KEY_LEN) := by
  have hcopy : safe_strcpy k1 = safe_strcpy k2 := by
    rw [← safe_strcpy_take k1, ← safe_strcpy_take k2, hagree]
  have hinv0 := new_table_inv p cap hcap
  have hinv1 : TableInv ((HashTable.new p cap).insert k1) := insert_inv _ hinv0 k1 h1
  have habs := insert_absent (HashTable.new p cap) hinv0 k1
    (fun n hn => absurd hn (List.not_mem_nil n))
  have hflat1 : ((HashTable.new p cap).insert k1).flatten
      = [{ key := safe_strcpy k1, value := 1 }] := by
    have hperm := habs.2.2.1
    rw [new_table_flatten] at hperm
    exact List.perm_singleton.1 hperm
  have hpres := insert_present _ hinv1 k2
    ⟨{ key := safe_strcpy k1, value := 1 }, by rw [hflat1]; exact List.mem_singleton_self _,
      by show strcmp (safe_strcpy k1) k2 = 0; rw [hcopy]; exact h2⟩
  refine ⟨?_, hcopy, h1, hash_congr _ _ _ h1, fun key => strcmp_congr_right _ _ key h1,
    short_of_length, ?_⟩
  · show (((HashTable.new p cap).insert k1).insert k2).flatten = _
    rw [hpres.1, hflat1]
    have hb : strcmp (safe_strcpy k1) k2 = 0 := by rw [hcopy]; exact h2
    simp only [List.map_cons, List.map_nil, bump, if_pos hb]
    rfl
  · intro file size i k hk
    rw [inserted_keys_eq] at hk
    exact parse_keys_short _ _ k hk

theorem canonical_key_consistency_witness :
    (1 ≤ BUCKET_SIZE ∧ ShortKey (List.replicate 32 97) ∧ ShortKey (List.replicate 32 97 ++ [0, 98])
      ∧ (List.replicate 32 97).take (MAX_KEY_LEN - 1)
          = (List.replicate 32 97 ++ [0, 98]).take (MAX_KEY_LEN - 1))
    ∧ (insert_all NodePool.new BUCKET_SIZE
          [List.replicate 32 97, List.replicate 32 97 ++ [0, 98]]).flatten
        = [{ key := safe_strcpy (List.replicate 32 97), value := 2 }]
    ∧ hash (BUCKET_SIZE - 1) (safe_strcpy (List.replicate 32 97))
        = hash (BUCKET_SIZE - 1) (List.replicate 32 97) :=
  have h := canonical_key_consistency NodePool.new BUCKET_SIZE (by decide)
    (List.replicate 32 97) (List.replicate 32 97 ++ [0, 98]) (by decide) (by decide) (by decide)
  ⟨by decide, h.1, h.2.2.2.1⟩

end MpiExam

namespace Chuanxing

/-- Claim C12.  The serial variant reads with `fgets` into a buffer of
`MAX_KEY_LEN = 33` bytes, which holds 32 bytes and the terminator: a record of
32 bytes fills it and its newline is left for the next call, which yields an
empty line.  For the file of one record of 32 bytes `a` the output has two
rows, the empty key with count 1 and the record with count 1; for one record of
31 bytes it has the row of the record only. -/
theorem serial_divergence :
    process_file record32_file
      = (2, [{ key := [], count := 1 }, { key := List.replicate 32 97, count := 1 }])
    ∧ fgets MAX_KEY_LEN record32_file = some (List.replicate 32 97, [10])
    ∧ process_file record31_file = (1, [{ key := List.replicate 31 97, count := 1 }]) := by
  decide

end Chuanxing

namespace OmpExam

open MpiExam (strcmp strcmp_self strcmp_swap strcmp_trans strcmp_congr_left
  strcmp_congr_right cstr)

/-! ## The shared-memory variant: strings and hashing -/

theorem strdup_eq (s : List Nat) : strcmp (strdup s) s = 0 :=
  (MpiExam.strcmp_eq_zero_iff_cstr _ _).2 (MpiExam.cstr_idem s)

theorem hash_string_congr (a b : List Nat) (hab : strcmp a b = 0) :
    hash_string a = hash_string b := by
  unfold hash_string
  generalize 5381 = h
  induction a generalizing b h with
  | nil =>
    cases b with
    | nil => rfl
    | cons y ys =>
      simp only [strcmp] at hab
      have hy : y = 0 := by omega
      subst hy
      simp [hash_loop]
  | cons x xs ih =>
    cases b with
    | nil =>
      simp only [strcmp] at hab
      have hx : x = 0 := by omega
      subst hx
      simp [hash_loop]
    | cons y ys =>
      simp only [strcmp] at hab
      by_cases hxy : x = y
      · subst hxy
        by_cases h0 : x = 0
        · subst h0
          simp [hash_loop]
        · simp only [ne_eq, not_true_eq_false, if_false, h0] at hab
          simp only [hash_loop, if_neg h0]
          exact ih ys hab _
      · simp only [ne_eq, hxy, not_false_eq_true, if_true] at hab
        omega

/-! ## The bucket array -/

theorem slot_get_nil_of_lt (bs : List (Nat × List Node)) (idx : Nat)
    (h : ∀ b ∈ bs, idx < b.1) : bucket_get bs idx = [] := by
  induction bs with
  | nil => rfl
  | cons b bs ih =>
    obtain ⟨i, c⟩ := b
    have hi : idx < i := h (i, c) (List.mem_cons_self _ _)
    simp only [bucket_get, if_neg (show ¬ idx = i by omega)]
    exact ih (fun b hb => h b (List.mem_cons_of_mem _ hb))

theorem slot_set_mem (bs : List (Nat × List Node)) (idx : Nat) (chain : List Node) :
    ∀ b ∈ bucket_set bs idx chain, b = (idx, chain) ∨ b ∈ bs := by
  induction bs with
  | nil =>
    intro b hb
    simp only [bucket_set, List.mem_singleton] at hb
    exact Or.inl hb
  | cons b0 bs ih =>
    obtain ⟨i, c⟩ := b0
    intro b hb
    simp only [bucket_set] at hb
    split_ifs at hb with h1 h2
    · rcases List.mem_cons.1 hb with h | h
      · exact Or.inl h
      · exact Or.inr h
    · rcases List.mem_cons.1 hb with h | h
      · left
        rw [h, h2]
      · exact Or.inr (List.mem_cons_of_mem _ h)
    · rcases List.mem_cons.1 hb with h | h
      · right
        rw [h]
        exact List.mem_cons_self _ _
      · rcases ih b h with h' | h'
        · exact Or.inl h'
        · exact Or.inr (List.mem_cons_of_mem _ h')

theorem slot_set_sorted (bs : List (Nat × List Node)) (idx : Nat) (chain : List Node)
    (hs : bs.Pairwise (fun a b => a.1 < b.1)) :
    (bucket_set bs idx chain).Pairwise (fun a b => a.1 < b.1) := by
  induction bs with
  | nil => exact List.pairwise_singleton _ _
  | cons b0 bs ih =>
    obtain ⟨i, c⟩ := b0
    have hs' := List.pairwise_cons.1 hs
    simp only [bucket_set]
    split_ifs with h1 h2
    · refine List.pairwise_cons.2 ⟨?_, hs⟩
      intro b hb
      rcases List.mem_cons.1 hb with rfl | hb'
      · exact h1
      · exact lt_trans h1 (hs'.1 b hb')
    · exact List.pairwise_cons.2 ⟨hs'.1, hs'.2⟩
    · refine List.pairwise_cons.2 ⟨?_, ih hs'.2⟩
      intro b hb
      rcases slot_set_mem bs idx chain b hb with h | h
      · rw [h]
        show i < idx
        omega
      · exact hs'.1 b h

theorem slot_get_mem (bs : List (Nat × List Node)) (idx : Nat) :
    bucket_get bs idx = [] ∨ (idx, bucket_get bs idx) ∈ bs := by
  induction bs with
  | nil => exact Or.inl rfl
  | cons b0 bs ih =>
    obtain ⟨i, c⟩ := b0
    simp only [bucket_get]
    split_ifs with h
    · right
      rw [h]
      exact List.mem_cons_self _ _
    · rcases ih with h' | h'
      · exact Or.inl h'
      · exact Or.inr (List.mem_cons_of_mem _ h')

theorem wt_append (p : List Nat → Bool) (l1 l2 : List Node) :
    wt p (l1 ++ l2) = wt p l1 + wt p l2 := by
  induction l1 with
  | nil => simp [wt]
  | cons n l ih =>
    rw [List.cons_append]
    simp only [wt, ih]
    omega

theorem slot_set_wt (p : List Nat → Bool) (bs : List (Nat × List Node)) (idx : Nat)
    (chain : List Node) (hs : bs.Pairwise (fun a b => a.1 < b.1)) :
    wt p ((bucket_set bs idx chain).flatMap (fun b => b.2)) + wt p (bucket_get bs idx)
      = wt p (bs.flatMap (fun b => b.2)) + wt p chain := by
  induction bs with
  | nil =>
    simp only [bucket_set, bucket_get, List.flatMap_cons, List.flatMap_nil, List.append_nil]
    have : wt p [] = 0 := rfl
    omega
  | cons b0 bs ih =>
    obtain ⟨i, c⟩ := b0
    have hs' := List.pairwise_cons.1 hs
    by_cases h1 : idx < i
    · have hne : ¬ idx = i := by omega
      simp only [bucket_set, bucket_get, if_pos h1, if_neg hne]
      have hnil : bucket_get bs idx = [] :=
        slot_get_nil_of_lt bs idx (fun b hb => lt_trans h1 (hs'.1 b hb))
      rw [hnil]
      simp only [List.flatMap_cons, wt_append]
      have : wt p [] = 0 := rfl
      omega
    · by_cases h2 : idx = i
      · simp only [bucket_set, bucket_get, if_neg h1, if_pos h2]
        simp only [List.flatMap_cons, wt_append]
        omega
      · simp only [bucket_set, bucket_get, if_neg h1, if_neg h2]
        have := ih hs'.2
        simp only [List.flatMap_cons, wt_append]
        omega

/-! ## The chain of a bucket -/

theorem chain_add_none (key : List Nat) (cnt : Int) (chain : List Node) :
    chain_add key cnt chain = none ↔ ∀ n ∈ chain, strcmp n.key key ≠ 0 := by
  induction chain with
  | nil => simp [chain_add]
  | cons n rest ih =>
    simp only [chain_add]
    by_cases h : strcmp n.key key = 0
    · simp [h]
    · simp only [if_neg h, Option.map_eq_none', ih, List.mem_cons, forall_eq_or_imp]
      constructor
      · intro hr
        exact ⟨h, hr⟩
      · intro hr
        exact hr.2

theorem chain_add_some (key : List Nat) (cnt : Int) (chain chain' : List Node)
    (h : chain_add key cnt chain = some chain') :
    chain'.map (fun n => n.key) = chain.map (fun n => n.key)
    ∧ (∀ p : List Nat → Bool, (∀ a b, strcmp a b = 0 → p a = p b) →
        wt p chain' = wt p chain + (if p key = true then cnt else 0))
    ∧ ((∀ n ∈ chain, 1 ≤ n.count) → 0 ≤ cnt → ∀ n ∈ chain', 1 ≤ n.count) := by
  induction chain generalizing chain' with
  | nil => simp [chain_add] at h
  | cons n rest ih =>
    simp only [chain_add] at h
    split_ifs at h with hc
    · have := Option.some.inj h
      subst this
      refine ⟨rfl, ?_, ?_⟩
      · intro p hp
        simp only [wt]
        rw [hp _ _ hc]
        split_ifs <;> omega
      · intro hpos hcnt m hm
        rcases List.mem_cons.1 hm with rfl | hm'
        · have := hpos n (List.mem_cons_self _ _)
          show 1 ≤ n.count + cnt
          omega
        · exact hpos m (List.mem_cons_of_mem _ hm')
    · cases hr : chain_add key cnt rest with
      | none => simp [hr] at h
      | some c =>
        rw [hr] at h
        have := Option.some.inj h
        subst this
        obtain ⟨h1, h2, h3⟩ := ih c hr
        refine ⟨?_, ?_, ?_⟩
        · simp only [List.map_cons, h1]
        · intro p hp
          simp only [wt]
          rw [h2 p hp]
          omega
        · intro hpos hcnt m hm
          rcases List.mem_cons.1 hm with rfl | hm'
          · exact hpos _ (List.mem_cons_self _ _)
          · exact h3 (fun x hx => hpos x (List.mem_cons_of_mem _ hx)) hcnt m hm'

theorem pairwise_of_keys (l1 l2 : List Node)
    (h : l1.map (fun n => n.key) = l2.map (fun n => n.key))
    (hd : l2.Pairwise (fun x y => strcmp x.key y.key ≠ 0)) :
    l1.Pairwise (fun x y => strcmp x.key y.key ≠ 0) := by
  have h2 : (l2.map (fun n => n.key)).Pairwise (fun x y => strcmp x y ≠ 0) :=
    List.pairwise_map.2 hd
  rw [← h] at h2
  exact List.pairwise_map.1 h2

theorem forall_of_keys (P : List Nat → Prop) (l1 l2 : List Node)
    (h : l1.map (fun n => n.key) = l2.map (fun n => n.key))
    (hP : ∀ n ∈ l2, P n.key) : ∀ n ∈ l1, P n.key := by
  intro n hn
  have h1 : n.key ∈ l1.map (fun n => n.key) := List.mem_map_of_mem _ hn
  rw [h] at h1
  obtain ⟨m, hm, hmk⟩ := List.mem_map.1 h1
  have := hP m hm
  rw [hmk] at this
  exact this

end OmpExam

namespace OmpExam

open MpiExam (strcmp strcmp_self strcmp_swap strcmp_trans strcmp_congr_left
  strcmp_congr_right cstr)

/-! ## The invariant of a table -/

theorem create_inv (cap : Nat) (hcap : 0 < cap) : MapInv (create_hashmap cap) :=
  ⟨hcap, List.Pairwise.nil, fun b hb => absurd hb (List.not_mem_nil b),
    fun b hb => absurd hb (List.not_mem_nil b), fun b hb => absurd hb (List.not_mem_nil b)⟩

theorem map_set_inv (m : HashMap) (h : MapInv m) (idx : Nat) (hidx : idx < m.capacity)
    (chain : List Node)
    (hnodes : ∀ n ∈ chain, hash_string n.key % m.capacity = idx ∧ 1 ≤ n.count)
    (hchain : chain.Pairwise (fun x y => strcmp x.key y.key ≠ 0)) :
    MapInv { buckets := bucket_set m.buckets idx chain, capacity := m.capacity } := by
  obtain ⟨hcap, hs, hlt, hn, hc⟩ := h
  refine ⟨hcap, slot_set_sorted _ _ _ hs, ?_, ?_, ?_⟩
  · intro b hb
    rcases slot_set_mem _ _ _ b hb with h | h
    · rw [h]
      exact hidx
    · exact hlt b h
  · intro b hb n hnb
    rcases slot_set_mem _ _ _ b hb with h | h
    · rw [h] at hnb ⊢
      exact hnodes n hnb
    · exact hn b h n hnb
  · intro b hb
    rcases slot_set_mem _ _ _ b hb with h | h
    · rw [h]
      exact hchain
    · exact hc b h

theorem map_chain_facts (m : HashMap) (h : MapInv m) (idx : Nat) :
    (∀ n ∈ bucket_get m.buckets idx, hash_string n.key % m.capacity = idx ∧ 1 ≤ n.count)
    ∧ (bucket_get m.buckets idx).Pairwise (fun x y => strcmp x.key y.key ≠ 0) := by
  rcases slot_get_mem m.buckets idx with h0 | hmem
  · rw [h0]
    exact ⟨fun n hn => absurd hn (List.not_mem_nil n), List.Pairwise.nil⟩
  · exact ⟨fun n hn => h.2.2.2.1 _ hmem n hn, h.2.2.2.2 _ hmem⟩

theorem hashmap_add_inv (m : HashMap) (h : MapInv m) (key : List Nat) (cnt : Int)
    (hcnt : 1 ≤ cnt) : MapInv (hashmap_add m key cnt) := by
  obtain ⟨hnodes, hchain⟩ := map_chain_facts m h (hash_string key % m.capacity)
  have hlt : hash_string key % m.capacity < m.capacity := Nat.mod_lt _ h.1
  unfold hashmap_add
  simp only
  cases hc : chain_add key cnt (bucket_get m.buckets (hash_string key % m.capacity)) with
  | none =>
    simp only
    apply map_set_inv m h _ hlt
    · intro n hn
      rcases List.mem_cons.1 hn with rfl | hn'
      · exact ⟨by rw [hash_string_congr _ _ (strdup_eq key)], hcnt⟩
      · exact hnodes n hn'
    · refine List.pairwise_cons.2 ⟨?_, hchain⟩
      intro n hn
      have hne := (chain_add_none key cnt _).1 hc n hn
      show strcmp (strdup key) n.key ≠ 0
      rw [strcmp_congr_left _ _ n.key (strdup_eq key), strcmp_swap n.key key]
      omega
  | some chain =>
    simp only
    obtain ⟨hkeys, _, hpos⟩ := chain_add_some key cnt _ chain hc
    apply map_set_inv m h _ hlt
    · intro n hn
      refine ⟨?_, hpos (fun x hx => (hnodes x hx).2) (by omega) n hn⟩
      exact forall_of_keys (fun k => hash_string k % m.capacity
        = hash_string key % m.capacity) chain _ hkeys (fun x hx => (hnodes x hx).1) n hn
    · exact pairwise_of_keys chain _ hkeys hchain

theorem hashmap_add_wt (p : List Nat → Bool) (hp : ∀ a b, strcmp a b = 0 → p a = p b)
    (m : HashMap) (h : MapInv m) (key : List Nat) (cnt : Int) :
    wt p (nodes (hashmap_add m key cnt))
      = wt p (nodes m) + (if p key = true then cnt else 0) := by
  unfold nodes hashmap_add
  simp only
  have hset := fun chain =>
    slot_set_wt p m.buckets (hash_string key % m.capacity) chain h.2.1
  cases hc : chain_add key cnt (bucket_get m.buckets (hash_string key % m.capacity)) with
  | none =>
    simp only
    have h1 := hset ({ key := strdup key, count := cnt } ::
      bucket_get m.buckets (hash_string key % m.capacity))
    simp only [wt] at h1
    rw [hp _ _ (strdup_eq key)] at h1
    omega
  | some chain =>
    simp only
    have h1 := hset chain
    have h2 := (chain_add_some key cnt _ chain hc).2.1 p hp
    omega

theorem nodes_distinct (m : HashMap) (h : MapInv m) :
    (nodes m).Pairwise (fun a b => strcmp a.key b.key ≠ 0) := by
  unfold nodes
  rw [List.pairwise_flatMap]
  refine ⟨fun b hb => h.2.2.2.2 b hb, ?_⟩
  refine List.Pairwise.imp_of_mem ?_ h.2.1
  intro b1 b2 hb1 hb2 hlt x hx y hy hxy
  have h1 := (h.2.2.2.1 b1 hb1 x hx).1
  have h2 := (h.2.2.2.1 b2 hb2 y hy).1
  rw [hash_string_congr x.key y.key hxy] at h1
  omega

theorem nodes_pos (m : HashMap) (h : MapInv m) : ∀ n ∈ nodes m, 1 ≤ n.count := by
  intro n hn
  obtain ⟨b, hb, hnb⟩ := List.mem_flatMap.1 hn
  exact (h.2.2.2.1 b hb n hnb).2

theorem collect_eq (m : HashMap) (h : MapInv m) :
    collect_from_hashmap m [] = (nodes m).map (fun n => { key := n.key, count := n.count }) := by
  unfold collect_from_hashmap nodes
  rw [List.nil_append, List.filter_eq_self.2]
  intro b hb
  simpa using h.2.2.1 b hb

/-! ## Counts of the nodes of a table -/

theorem wt_zero (p : List Nat → Bool) (l : List Node) (h : ∀ n ∈ l, p n.key = false) :
    wt p l = 0 := by
  induction l with
  | nil => rfl
  | cons m l ih =>
    simp only [wt, h m (List.mem_cons_self _ _),
      ih (fun n hn => h n (List.mem_cons_of_mem _ hn))]
    simp

theorem wt_distinct (n : Node) (l : List Node)
    (hd : l.Pairwise (fun x y => strcmp x.key y.key ≠ 0)) (hn : n ∈ l) :
    wt (fun key => decide (strcmp key n.key = 0)) l = n.count := by
  induction l with
  | nil => cases hn
  | cons m l ih =>
    have hd' := List.pairwise_cons.1 hd
    simp only [wt]
    by_cases hmn : n = m
    · subst hmn
      have h1 : decide (strcmp n.key n.key = 0) = true := decide_eq_true (strcmp_self _)
      rw [if_pos h1, wt_zero, add_zero]
      intro x hx
      apply decide_eq_false
      intro h0
      apply hd'.1 x hx
      rw [strcmp_swap] at h0
      omega
    · have hnl : n ∈ l := by
        rcases List.mem_cons.1 hn with h | h
        · exact absurd h hmn
        · exact h
      have h1 : ¬ decide (strcmp m.key n.key = 0) = true := by
        intro h0
        exact hd'.1 n hnl (of_decide_eq_true h0)
      rw [if_neg h1, ih hd'.2 hnl, zero_add]

theorem match_respects (k a b : List Nat) (h : strcmp a b = 0) :
    (fun key => decide (strcmp key k = 0)) a = (fun key => decide (strcmp key k = 0)) b := by
  show decide (strcmp a k = 0) = decide (strcmp b k = 0)
  rw [strcmp_congr_left a b k h]

/-! ## The counting loop and the merging loop -/

theorem foldl_add_one (p : List Nat → Bool) (hp : ∀ a b, strcmp a b = 0 → p a = p b)
    (keys : List (List Nat)) (m : HashMap) (h : MapInv m) :
    MapInv (keys.foldl (fun m key => hashmap_add m key 1) m)
      ∧ wt p (nodes (keys.foldl (fun m key => hashmap_add m key 1) m))
          = wt p (nodes m) + ((keys.filter p).length : Int) := by
  induction keys generalizing m with
  | nil => exact ⟨h, by simp⟩
  | cons k ks ih =>
    obtain ⟨h1, h2⟩ := ih (hashmap_add m k 1) (hashmap_add_inv m h k 1 (le_refl _))
    refine ⟨h1, ?_⟩
    rw [List.foldl_cons, h2, hashmap_add_wt p hp m h k 1, List.filter_cons]
    by_cases hpk : p k = true
    · rw [if_pos hpk, if_pos hpk, List.length_cons]
      push_cast
      omega
    · rw [if_neg hpk, if_neg hpk]
      omega

theorem foldl_add_nodes (p : List Nat → Bool) (hp : ∀ a b, strcmp a b = 0 → p a = p b)
    (l : List Node) (hl : ∀ n ∈ l, 1 ≤ n.count) (g : HashMap) (h : MapInv g) :
    MapInv ((l.map (fun n => ({ key := n.key, count := n.count } : Entry))).foldl
        (fun g e => hashmap_add g e.key e.count) g)
      ∧ wt p (nodes ((l.map (fun n => ({ key := n.key, count := n.count } : Entry))).foldl
          (fun g e => hashmap_add g e.key e.count) g))
          = wt p (nodes g) + wt p l := by
  induction l generalizing g with
  | nil => exact ⟨h, by simp [wt]⟩
  | cons n l ih =>
    have hn := hl n (List.mem_cons_self _ _)
    obtain ⟨h1, h2⟩ := ih (fun x hx => hl x (List.mem_cons_of_mem _ hx))
      (hashmap_add g n.key n.count) (hashmap_add_inv g h n.key n.count hn)
    refine ⟨h1, ?_⟩
    rw [List.map_cons, List.foldl_cons, h2, hashmap_add_wt p hp g h n.key n.count]
    simp only [wt]
    omega

theorem local_map_spec (p : List Nat → Bool) (hp : ∀ a b, strcmp a b = 0 → p a = p b)
    (lines : List (List Nat)) (assign : List Nat) (tid : Nat) :
    MapInv (local_map lines assign tid)
      ∧ wt p (nodes (local_map lines assign tid))
          = (((thread_lines lines assign tid).filter p).length : Int) := by
  have h := foldl_add_one p hp (thread_lines lines assign tid) (create_hashmap (1 <<< 18))
    (create_inv _ (by decide))
  refine ⟨h.1, ?_⟩
  unfold local_map
  rw [h.2]
  show (0 : Int) + _ = _
  rw [zero_add]

theorem merge_local_spec (p : List Nat → Bool) (hp : ∀ a b, strcmp a b = 0 → p a = p b)
    (g loc : HashMap) (hg : MapInv g) (hloc : MapInv loc) :
    MapInv (merge_local g loc)
      ∧ wt p (nodes (merge_local g loc)) = wt p (nodes g) + wt p (nodes loc) := by
  unfold merge_local
  rw [collect_eq loc hloc]
  exact foldl_add_nodes p hp (nodes loc) (nodes_pos loc hloc) g hg

theorem foldl_merge_local (p : List Nat → Bool) (hp : ∀ a b, strcmp a b = 0 → p a = p b)
    (lines : List (List Nat)) (assign : List Nat) (order : List Nat) (g : HashMap)
    (hg : MapInv g) :
    MapInv (order.foldl (fun g t => merge_local g (local_map lines assign t)) g)
      ∧ wt p (nodes (order.foldl (fun g t => merge_local g (local_map lines assign t)) g))
          = wt p (nodes g)
            + (order.map (fun t => (((thread_lines lines assign t).filter p).length : Int))).sum
      := by
  induction order generalizing g with
  | nil => exact ⟨hg, by simp⟩
  | cons t order ih =>
    have hl := local_map_spec p hp lines assign t
    have hm := merge_local_spec p hp g (local_map lines assign t) hg hl.1
    obtain ⟨h1, h2⟩ := ih (merge_local g (local_map lines assign t)) hm.1
    refine ⟨h1, ?_⟩
    rw [List.foldl_cons, h2, hm.2, hl.2, List.map_cons, List.sum_cons]
    omega

end OmpExam

namespace OmpExam

open MpiExam (strcmp strcmp_self strcmp_swap strcmp_trans strcmp_congr_left
  strcmp_congr_right cstr)

/-! ## The lines of the threads -/

theorem thread_lines_nil (assign : List Nat) (t : Nat) : thread_lines [] assign t = [] := by
  unfold thread_lines
  rw [List.zip_nil_left]
  rfl

theorem thread_lines_cons (l : List Nat) (ls : List (List Nat)) (a : Nat) (as : List Nat)
    (t : Nat) :
    thread_lines (l :: ls) (a :: as) t
      = if a = t then l :: thread_lines ls as t else thread_lines ls as t := by
  unfold thread_lines
  rw [List.zip_cons_cons, List.filter_cons]
  by_cases h : a = t
  · simp [h]
  · simp [h]

theorem sum_indicator (order : List Nat) (a : Nat) (x : Int) :
    (order.map (fun t => if a = t then x else 0)).sum = x * (order.count a : Int) := by
  induction order with
  | nil => simp
  | cons t order ih =>
    rw [List.map_cons, List.sum_cons, ih, List.count_cons]
    by_cases h : a = t
    · have h' : (t == a) = true := by simp [h]
      rw [if_pos h, if_pos h']
      push_cast
      ring
    · have h' : ¬ (t == a) = true := by
        simp only [beq_iff_eq]
        exact fun e => h e.symm
      rw [if_neg h, if_neg h']
      push_cast
      ring

theorem thread_lines_sum (p : List Nat → Bool) (T : Nat) (order : List Nat)
    (horder : order.Perm (List.range T)) (lines : List (List Nat)) (assign : List Nat)
    (hlen : assign.length = lines.length) (hassign : ∀ a ∈ assign, a < T) :
    (order.map (fun t => (((thread_lines lines assign t).filter p).length : Int))).sum
      = ((lines.filter p).length : Int) := by
  induction lines generalizing assign with
  | nil =>
    simp only [thread_lines_nil, List.filter_nil, List.length_nil, Nat.cast_zero]
    induction order with
    | nil => rfl
    | cons t order _ => simp
  | cons l ls ih =>
    cases assign with
    | nil => simp at hlen
    | cons a as =>
      have ha : a < T := hassign a (List.mem_cons_self _ _)
      have hcount : order.count a = 1 :=
        List.count_eq_one_of_mem (horder.nodup_iff.2 (List.nodup_range T))
          (horder.mem_iff.2 (List.mem_range.2 ha))
      have hpoint : ∀ t, (((thread_lines (l :: ls) (a :: as) t).filter p).length : Int)
          = (if a = t then (if p l = true then (1 : Int) else 0) else 0)
            + (((thread_lines ls as t).filter p).length : Int) := by
        intro t
        rw [thread_lines_cons]
        by_cases h : a = t
        · rw [if_pos h, if_pos h, List.filter_cons]
          by_cases hp : p l = true
          · rw [if_pos hp, if_pos hp, List.length_cons]
            push_cast
            ring
          · rw [if_neg hp, if_neg hp, zero_add]
        · rw [if_neg h, if_neg h, zero_add]
      have hfun : (fun t => (((thread_lines (l :: ls) (a :: as) t).filter p).length : Int))
          = fun t => (if a = t then (if p l = true then (1 : Int) else 0) else 0)
            + (((thread_lines ls as t).filter p).length : Int) := funext hpoint
      rw [hfun, List.sum_map_add, sum_indicator, hcount,
        ih as (by simpa using hlen) (fun x hx => hassign x (List.mem_cons_of_mem _ hx)),
        List.filter_cons]
      by_cases hp : p l = true
      · rw [if_pos hp, if_pos hp, List.length_cons]
        push_cast
        ring
      · rw [if_neg hp, if_neg hp]
        push_cast
        ring

theorem global_map_spec (p : List Nat → Bool) (hp : ∀ a b, strcmp a b = 0 → p a = p b)
    (T : Nat) (order : List Nat) (horder : order.Perm (List.range T))
    (lines : List (List Nat)) (assign : List Nat)
    (hlen : assign.length = lines.length) (hassign : ∀ a ∈ assign, a < T) :
    MapInv (global_map lines assign order)
      ∧ wt p (nodes (global_map lines assign order)) = ((lines.filter p).length : Int) := by
  have h := foldl_merge_local p hp lines assign order (create_hashmap (1 <<< 20))
    (create_inv _ (by decide))
  refine ⟨h.1, ?_⟩
  unfold global_map
  rw [h.2, thread_lines_sum p T order horder lines assign hlen hassign]
  show (0 : Int) + _ = _
  rw [zero_add]

end OmpExam

namespace OmpExam

open MpiExam (strcmp strcmp_self strcmp_swap strcmp_trans strcmp_congr_left
  strcmp_congr_right cstr)

/-! ## The order of the rows -/

theorem not_before_iff (a b : Entry) :
    ¬ before b a ↔ (a.count > b.count ∨ (a.count = b.count ∧ strcmp a.key b.key ≤ 0)) := by
  unfold before
  have hs := strcmp_swap a.key b.key
  constructor
  · intro h
    by_cases h1 : a.count > b.count
    · exact Or.inl h1
    · right
      have h2 : ¬ b.count > a.count := fun e => h (Or.inl e)
      have h3 : a.count = b.count := by omega
      refine ⟨h3, ?_⟩
      by_contra h4
      exact h (Or.inr ⟨h3.symm, by omega⟩)
  · intro h hb
    rcases h with h | ⟨h1, h2⟩
    · rcases hb with hb | ⟨hb1, _⟩
      · omega
      · omega
    · rcases hb with hb | ⟨_, hb2⟩
      · omega
      · omega

theorem before_asymm (a b : Entry) (h : before a b) : ¬ before b a := by
  rw [not_before_iff]
  rcases h with h | ⟨h1, h2⟩
  · exact Or.inl h
  · exact Or.inr ⟨h1, by omega⟩

theorem not_before_trans (a b c : Entry) (h1 : ¬ before b a) (h2 : ¬ before c b) :
    ¬ before c a := by
  rw [not_before_iff] at h1 h2 ⊢
  rcases h1 with h1 | ⟨h1, h1'⟩
  · rcases h2 with h2 | ⟨h2, _⟩
    · left; omega
    · left; omega
  · rcases h2 with h2 | ⟨h2, h2'⟩
    · left; omega
    · right
      exact ⟨by omega, strcmp_trans _ _ _ h1' h2'⟩

theorem before_of_distinct (a b : Entry) (h : ¬ before b a) (hd : strcmp a.key b.key ≠ 0) :
    before a b := by
  rw [not_before_iff] at h
  rcases h with h | ⟨h1, h2⟩
  · exact Or.inl h
  · exact Or.inr ⟨h1, by omega⟩

/-! ## The merge sort of the rows -/

theorem omp_merge_loop_perm (fuel : Nat) (L R : List Entry)
    (h : L.length + R.length < fuel) : List.Perm (merge_loop fuel L R) (L ++ R) := by
  induction fuel generalizing L R with
  | zero => omega
  | succ n ih =>
    cases L with
    | nil => simp [merge_loop]
    | cons a L =>
      cases R with
      | nil => simp [merge_loop]
      | cons b R =>
        simp only [merge_loop]
        simp only [List.length_cons] at h
        split_ifs with hc
        · exact List.Perm.cons a (ih L (b :: R) (by simp only [List.length_cons]; omega))
        · have h1 := ih (a :: L) R (by simp only [List.length_cons]; omega)
          have h2 : List.Perm (b :: (a :: L ++ R)) (a :: L ++ b :: R) :=
            List.perm_middle.symm
          exact (List.Perm.cons b h1).trans h2

theorem omp_merge_loop_sorted (fuel : Nat) (L R : List Entry)
    (h : L.length + R.length < fuel)
    (hL : L.Pairwise (fun a b => ¬ before b a)) (hR : R.Pairwise (fun a b => ¬ before b a)) :
    (merge_loop fuel L R).Pairwise (fun a b => ¬ before b a) := by
  induction fuel generalizing L R with
  | zero => omega
  | succ n ih =>
    cases L with
    | nil => simpa [merge_loop] using hR
    | cons a L =>
      cases R with
      | nil => simpa [merge_loop] using hL
      | cons b R =>
        simp only [merge_loop]
        simp only [List.length_cons] at h
        have hL' := List.pairwise_cons.1 hL
        have hR' := List.pairwise_cons.1 hR
        split_ifs with hc
        · have hlen : L.length + (b :: R).length < n := by simp only [List.length_cons]; omega
          have hab : ¬ before b a := before_asymm a b hc
          refine List.pairwise_cons.2 ⟨?_, ih L (b :: R) hlen hL'.2 hR⟩
          intro x hx
          have hx' := (omp_merge_loop_perm n L (b :: R) hlen).mem_iff.1 hx
          rcases List.mem_append.1 hx' with hxL | hxR
          · exact hL'.1 x hxL
          · rcases List.mem_cons.1 hxR with rfl | hxR'
            · exact hab
            · exact not_before_trans a b x hab (hR'.1 x hxR')
        · have hlen : (a :: L).length + R.length < n := by simp only [List.length_cons]; omega
          have hba : ¬ before a b := hc
          refine List.pairwise_cons.2 ⟨?_, ih (a :: L) R hlen hL hR'.2⟩
          intro x hx
          have hx' := (omp_merge_loop_perm n (a :: L) R hlen).mem_iff.1 hx
          rcases List.mem_append.1 hx' with hxL | hxR
          · rcases List.mem_cons.1 hxL with rfl | hxL'
            · exact hba
            · exact not_before_trans b a x hba (hL'.1 x hxL')
          · exact hR'.1 x hxR

theorem omp_merge_append (A s1 s2 B : List Entry) (h1 : s1 ≠ []) :
    merge (A ++ (s1 ++ (s2 ++ B))) A.length (A.length + s1.length - 1)
      (A.length + s1.length + s2.length - 1)
    = A ++ (merge_loop (s1.length + s2.length + 1) s1 s2 ++ B) := by
  have hpos : 0 < s1.length := List.length_pos.2 h1
  unfold merge
  have e1 : A.length + s1.length - 1 + 1 - A.length = s1.length := by omega
  have e2 : A.length + s1.length + s2.length - 1 - (A.length + s1.length - 1) = s2.length := by
    omega
  have e3 : A.length + s1.length - 1 + 1 = (A ++ s1).length := by
    simp only [List.length_append]; omega
  have e4 : A.length + s1.length + s2.length - 1 + 1 = (A ++ (s1 ++ s2)).length := by
    simp only [List.length_append]; omega
  simp only [e1, e2]
  rw [e3, e4]
  have d1 : List.drop A.length (A ++ (s1 ++ (s2 ++ B))) = s1 ++ (s2 ++ B) :=
    List.drop_left' rfl
  have d2 : List.drop (A ++ s1).length (A ++ (s1 ++ (s2 ++ B))) = s2 ++ B := by
    rw [← List.append_assoc A s1]
    exact List.drop_left' rfl
  have d3 : List.drop (A ++ (s1 ++ s2)).length (A ++ (s1 ++ (s2 ++ B))) = B := by
    rw [← List.append_assoc s1 s2, ← List.append_assoc A (s1 ++ s2)]
    exact List.drop_left' rfl
  have t1 : List.take A.length (A ++ (s1 ++ (s2 ++ B))) = A := List.take_left' rfl
  rw [d1, d2, d3, t1, List.take_left' rfl, List.take_left' rfl]
  simp only [List.append_assoc]

theorem omp_sort_range (fuel : Nat) (A X B : List Entry)
    (hX : X ≠ []) (hfuel : X.length ≤ fuel) :
    ∃ s, parallel_merge_sort fuel (A ++ (X ++ B)) A.length (A.length + X.length - 1)
        = A ++ (s ++ B)
      ∧ List.Perm s X ∧ s.Pairwise (fun a b => ¬ before b a) := by
  induction fuel generalizing A X B with
  | zero =>
    have := List.length_pos.2 hX
    omega
  | succ n ih =>
    have hpos : 0 < X.length := List.length_pos.2 hX
    simp only [parallel_merge_sort]
    by_cases hlt : A.length ≥ A.length + X.length - 1
    · rw [if_pos hlt]
      refine ⟨X, rfl, List.Perm.refl _, ?_⟩
      have h1 : X.length = 1 := by omega
      match X, h1 with
      | [x], _ => exact List.pairwise_singleton _ _
    · rw [if_neg hlt]
      set k := (X.length - 1) / 2 + 1 with hk
      have hk1 : k < X.length := by omega
      have hX1 : (X.take k).length = k := by
        rw [List.length_take]; omega
      have hX2 : (X.drop k).length = X.length - k := List.length_drop _ _
      have hne1 : X.take k ≠ [] := by
        intro h0
        rw [h0] at hX1
        simp at hX1
        omega
      have hne2 : X.drop k ≠ [] := by
        intro h0
        rw [h0] at hX2
        simp at hX2
        omega
      have hm : (A.length + (A.length + X.length - 1)) / 2
          = A.length + (X.take k).length - 1 := by
        rw [hX1]
        omega
      rw [hm]
      obtain ⟨s1, hs1, hp1, hsort1⟩ := ih A (X.take k) (X.drop k ++ B) hne1 (by omega)
      have harr : A ++ (X ++ B) = A ++ (X.take k ++ (X.drop k ++ B)) := by
        rw [← List.append_assoc (X.take k), List.take_append_drop]
      rw [harr, hs1]
      have hl1 : s1.length = k := by rw [hp1.length_eq, hX1]
      obtain ⟨s2, hs2, hp2, hsort2⟩ := ih (A ++ s1) (X.drop k) B hne2 (by omega)
      have hidx1 : A.length + (X.take k).length - 1 + 1 = (A ++ s1).length := by
        simp only [List.length_append]; omega
      have hidx2 : A.length + X.length - 1 = (A ++ s1).length + (X.drop k).length - 1 := by
        simp only [List.length_append]; omega
      rw [hidx1, hidx2]
      rw [show A ++ (s1 ++ (X.drop k ++ B)) = (A ++ s1) ++ (X.drop k ++ B) by
        simp only [List.append_assoc]]
      rw [hs2]
      have hs1ne : s1 ≠ [] := by
        intro h0
        rw [h0] at hl1
        simp at hl1
        omega
      have hidx4 : (A ++ s1).length + (X.drop k).length - 1
          = A.length + s1.length + s2.length - 1 := by
        simp only [List.length_append]
        rw [hp2.length_eq]
      rw [hidx4]
      rw [show (A ++ s1) ++ (s2 ++ B) = A ++ (s1 ++ (s2 ++ B)) by simp only [List.append_assoc]]
      have hmid : A.length + (X.take k).length - 1 = A.length + s1.length - 1 := by omega
      rw [hmid, omp_merge_append A s1 s2 B hs1ne]
      refine ⟨_, rfl, ?_, ?_⟩
      · have hm := omp_merge_loop_perm (s1.length + s2.length + 1) s1 s2 (by omega)
        refine hm.trans ?_
        have : List.Perm (s1 ++ s2) (X.take k ++ X.drop k) := List.Perm.append hp1 hp2
        rw [List.take_append_drop] at this
        exact this
      · exact omp_merge_loop_sorted _ s1 s2 (by omega) hsort1 hsort2

theorem omp_sort_spec (entries : List Entry) :
    List.Perm (parallel_merge_sort entries.length entries 0 (entries.length - 1)) entries
      ∧ (parallel_merge_sort entries.length entries 0 (entries.length - 1)).Pairwise
          (fun a b => ¬ before b a) := by
  by_cases hne : entries = []
  · subst hne
    exact ⟨List.Perm.refl _, List.Pairwise.nil⟩
  · obtain ⟨s, hs, hp, hsort⟩ := omp_sort_range entries.length [] entries [] hne (le_refl _)
    simp only [List.nil_append, List.append_nil, List.length_nil, Nat.zero_add] at hs
    rw [hs]
    exact ⟨hp, hsort⟩

end OmpExam

namespace OmpExam

open MpiExam (strcmp strcmp_self strcmp_swap strcmp_trans strcmp_congr_left
  strcmp_congr_right cstr)

/-! ## The rows of the shared-memory variant -/

theorem rows_perm (lines : List (List Nat)) (assign : List Nat) (order : List Nat)
    (hinv : MapInv (global_map lines assign order)) :
    List.Perm (group_by_omp lines assign order)
      ((nodes (global_map lines assign order)).map
        (fun n => ({ key := n.key, count := n.count } : Entry)))
    ∧ (group_by_omp lines assign order).Pairwise (fun a b => ¬ before b a) := by
  unfold group_by_omp
  simp only
  rw [collect_eq _ hinv]
  exact omp_sort_spec _

/-- Claim C13.  Shared-memory variant: for every list of lines, every number of
threads `T`, every assignment of the iterations of the counting loop to the
threads and every order of the iterations of the merging loop, the rows written
after the sort are ordered by count descending then key ascending, have pairwise
different keys, every line has a row, and every row holds a key that is a line
with the number of occurrences of that line as count. -/
theorem shared_memory_exact (lines : List (List Nat)) (T : Nat) (assign : List Nat)
    (order : List Nat) (hlen : assign.length = lines.length)
    (hassign : ∀ a ∈ assign, a < T) (horder : order.Perm (List.range T)) :
    (group_by_omp lines assign order).Pairwise before
    ∧ (group_by_omp lines assign order).Pairwise (fun a b => strcmp a.key b.key ≠ 0)
    ∧ (∀ l ∈ lines, ∃ e ∈ group_by_omp lines assign order, strcmp e.key l = 0)
    ∧ (∀ e ∈ group_by_omp lines assign order,
        (∃ l ∈ lines, strcmp e.key l = 0) ∧ e.count = occurrences e.key lines) := by
  have hspec := fun k => global_map_spec (fun key => decide (strcmp key k = 0))
    (match_respects k) T order horder lines assign hlen hassign
  have hinv : MapInv (global_map lines assign order) := (hspec []).1
  obtain ⟨hperm, hsorted⟩ := rows_perm lines assign order hinv
  have hdn := nodes_distinct _ hinv
  have hdist : (group_by_omp lines assign order).Pairwise
      (fun a b => strcmp a.key b.key ≠ 0) := by
    refine (List.Perm.pairwise_iff ?_ hperm).2 (List.pairwise_map.2 hdn)
    intro x y hxy h0
    apply hxy
    rw [strcmp_swap, h0]
    rfl
  have hcount : ∀ e ∈ group_by_omp lines assign order, e.count = occurrences e.key lines
      ∧ 1 ≤ e.count := by
    intro e he
    obtain ⟨n, hn, hne⟩ := List.mem_map.1 (hperm.mem_iff.1 he)
    rw [← hne]
    show n.count = occurrences n.key lines ∧ 1 ≤ n.count
    refine ⟨?_, nodes_pos _ hinv n hn⟩
    rw [← wt_distinct n _ hdn hn, (hspec n.key).2]
    rfl
  refine ⟨?_, hdist, ?_, ?_⟩
  · refine (hsorted.and hdist).imp ?_
    intro a b hab
    exact before_of_distinct a b hab.1 hab.2
  · intro l hl
    by_contra hno
    have hz : wt (fun key => decide (strcmp key l = 0)) (nodes (global_map lines assign order))
        = 0 := by
      apply wt_zero
      intro n hn
      apply decide_eq_false
      intro h0
      apply hno
      refine ⟨{ key := n.key, count := n.count }, hperm.mem_iff.2 ?_, h0⟩
      exact List.mem_map.2 ⟨n, hn, rfl⟩
    rw [(hspec l).2] at hz
    have hmem : l ∈ lines.filter (fun x => decide (strcmp x l = 0)) :=
      List.mem_filter.2 ⟨hl, decide_eq_true (strcmp_self l)⟩
    have := List.length_pos_of_mem hmem
    omega
  · intro e he
    obtain ⟨h1, h2⟩ := hcount e he
    refine ⟨?_, h1⟩
    rw [h1] at h2
    unfold occurrences at h2
    have hpos : 0 < (lines.filter (fun l => decide (strcmp l e.key = 0))).length := by omega
    obtain ⟨l, hl⟩ := List.exists_mem_of_length_pos hpos
    have hl' := List.mem_filter.1 hl
    refine ⟨l, hl'.1, ?_⟩
    have h0 : strcmp l e.key = 0 := of_decide_eq_true hl'.2
    rw [strcmp_swap]
    omega

theorem shared_memory_exact_witness :
    (sample_assign.length = sample_lines.length ∧ (∀ a ∈ sample_assign, a < 2)
      ∧ [1, 0].Perm (List.range 2))
    ∧ (group_by_omp sample_lines sample_assign [1, 0]).Pairwise before
    ∧ (group_by_omp sample_lines sample_assign [1, 0]).Pairwise
        (fun a b => strcmp a.key b.key ≠ 0)
    ∧ (∀ l ∈ sample_lines, ∃ e ∈ group_by_omp sample_lines sample_assign [1, 0],
        strcmp e.key l = 0)
    ∧ (∀ e ∈ group_by_omp sample_lines sample_assign [1, 0],
        (∃ l ∈ sample_lines, strcmp e.key l = 0) ∧ e.count = occurrences e.key sample_lines) :=
  ⟨⟨by decide, by decide, by decide⟩,
    shared_memory_exact sample_lines 2 sample_assign [1, 0] (by decide) (by decide)
      (by decide)⟩

end OmpExam

namespace OmpExam

open MpiExam (strcmp strcmp_self strcmp_swap strcmp_trans strcmp_congr_left
  strcmp_congr_right cstr)

/-! ## Threads on one table: lists and buckets -/

theorem get_lt {α : Type} (l : List α) (i : Nat) (a : α) (h : l[i]? = some a) :
    i < l.length := by
  by_contra hn
  rw [List.getElem?_eq_none_iff.2 (by omega)] at h
  cases h

theorem get_mem {α : Type} (l : List α) (i : Nat) (a : α) (h : l[i]? = some a) : a ∈ l := by
  induction l generalizing i with
  | nil => simp at h
  | cons x l ih =>
    cases i with
    | zero =>
      simp only [List.getElem?_cons_zero, Option.some.injEq] at h
      rw [h]
      exact List.mem_cons_self _ _
    | succ i =>
      simp only [List.getElem?_cons_succ] at h
      exact List.mem_cons_of_mem _ (ih i h)

theorem mem_get {α : Type} (l : List α) (a : α) (h : a ∈ l) : ∃ i : Nat, l[i]? = some a := by
  induction l with
  | nil => cases h
  | cons x l ih =>
    rcases List.mem_cons.1 h with rfl | h'
    · exact ⟨0, List.getElem?_cons_zero⟩
    · obtain ⟨i, hi⟩ := ih h'
      exact ⟨i + 1, by simpa using hi⟩

theorem get_set_same {α : Type} (l : List α) (i : Nat) (a b : α) (h : l[i]? = some a) :
    (l.set i b)[i]? = some b :=
  List.getElem?_set_self (get_lt l i a h)

theorem get_set_other {α : Type} (l : List α) (i j : Nat) (b : α) (h : i ≠ j) :
    (l.set i b)[j]? = l[j]? :=
  List.getElem?_set_ne h

theorem sum_set_int {α : Type} (f : α → Int) (l : List α) (i : Nat) (a b : α)
    (h : l[i]? = some a) : ((l.set i b).map f).sum = (l.map f).sum - f a + f b := by
  induction l generalizing i with
  | nil => simp at h
  | cons x l ih =>
    cases i with
    | zero =>
      simp only [List.getElem?_cons_zero, Option.some.injEq] at h
      subst h
      simp only [List.set_cons_zero, List.map_cons, List.sum_cons]
      omega
    | succ i =>
      simp only [List.getElem?_cons_succ] at h
      simp only [List.set_cons_succ, List.map_cons, List.sum_cons, ih i h]
      omega

theorem sum_set_nat {α : Type} (f : α → Nat) (l : List α) (i : Nat) (a b : α)
    (h : l[i]? = some a) : ((l.set i b).map f).sum + f a = (l.map f).sum + f b := by
  induction l generalizing i with
  | nil => simp at h
  | cons x l ih =>
    cases i with
    | zero =>
      simp only [List.getElem?_cons_zero, Option.some.injEq] at h
      subst h
      simp only [List.set_cons_zero, List.map_cons, List.sum_cons]
      omega
    | succ i =>
      simp only [List.getElem?_cons_succ] at h
      have := ih i h
      simp only [List.set_cons_succ, List.map_cons, List.sum_cons]
      omega

theorem take_succ_get {α : Type} (l : List α) (i : Nat) (a : α) (h : l[i]? = some a) :
    l.take (i + 1) = l.take i ++ [a] := by
  induction l generalizing i with
  | nil => simp at h
  | cons x l ih =>
    cases i with
    | zero =>
      simp only [List.getElem?_cons_zero, Option.some.injEq] at h
      subst h
      rfl
    | succ i =>
      simp only [List.getElem?_cons_succ] at h
      simp only [List.take_succ_cons, ih i h, List.cons_append]

theorem slot_get_set_same (bs : List (Nat × List Node)) (idx : Nat) (chain : List Node) :
    bucket_get (bucket_set bs idx chain) idx = chain := by
  induction bs with
  | nil => simp [bucket_set, bucket_get]
  | cons b0 bs ih =>
    obtain ⟨i, c⟩ := b0
    simp only [bucket_set]
    split_ifs with h1 h2
    · simp [bucket_get]
    · simp [bucket_get, h2]
    · simp only [bucket_get, if_neg h2]
      exact ih

theorem slot_get_set_other (bs : List (Nat × List Node)) (idx j : Nat) (chain : List Node)
    (hj : j ≠ idx) : bucket_get (bucket_set bs idx chain) j = bucket_get bs j := by
  induction bs with
  | nil => simp [bucket_set, bucket_get, hj]
  | cons b0 bs ih =>
    obtain ⟨i, c⟩ := b0
    simp only [bucket_set]
    split_ifs with h1 h2
    · simp only [bucket_get, if_neg hj]
    · subst h2
      simp only [bucket_get, if_neg hj]
    · simp only [bucket_get, ih]

theorem slot_set_length (bs : List (Nat × List Node)) (idx : Nat) (chain : List Node)
    (hs : bs.Pairwise (fun a b => a.1 < b.1)) :
    ((bucket_set bs idx chain).flatMap (fun b => b.2)).length + (bucket_get bs idx).length
      = (bs.flatMap (fun b => b.2)).length + chain.length := by
  induction bs with
  | nil => simp [bucket_set, bucket_get]
  | cons b0 bs ih =>
    obtain ⟨i, c⟩ := b0
    have hs' := List.pairwise_cons.1 hs
    by_cases h1 : idx < i
    · have hne : ¬ idx = i := by omega
      simp only [bucket_set, bucket_get, if_pos h1, if_neg hne]
      have hnil : bucket_get bs idx = [] :=
        slot_get_nil_of_lt bs idx (fun b hb => lt_trans h1 (hs'.1 b hb))
      rw [hnil]
      simp only [List.flatMap_cons, List.length_append, List.length_nil]
      omega
    · by_cases h2 : idx = i
      · simp only [bucket_set, bucket_get, if_neg h1, if_pos h2]
        simp only [List.flatMap_cons, List.length_append]
        omega
      · simp only [bucket_set, bucket_get, if_neg h1, if_neg h2]
        have := ih hs'.2
        simp only [List.flatMap_cons, List.length_append]
        omega

theorem slot_get_length_le (bs : List (Nat × List Node)) (idx : Nat) :
    (bucket_get bs idx).length ≤ (bs.flatMap (fun b => b.2)).length := by
  induction bs with
  | nil => simp [bucket_get]
  | cons b0 bs ih =>
    obtain ⟨i, c⟩ := b0
    simp only [bucket_get, List.flatMap_cons, List.length_append]
    split_ifs
    · omega
    · omega

/-! ## The store in `cur->count` -/

theorem store_count_length (chain : List Node) (pos : Nat) (v : Int) :
    (store_count chain pos v).length = chain.length := by
  induction chain generalizing pos with
  | nil => rfl
  | cons n l ih =>
    cases pos with
    | zero => rfl
    | succ pos => simp only [store_count, List.length_cons, ih]

theorem store_count_keys (chain : List Node) (pos : Nat) (v : Int) :
    (store_count chain pos v).map (fun n => n.key) = chain.map (fun n => n.key) := by
  induction chain generalizing pos with
  | nil => rfl
  | cons n l ih =>
    cases pos with
    | zero => rfl
    | succ pos => simp only [store_count, List.map_cons, ih]

theorem store_count_wt (p : List Nat → Bool) (chain : List Node) (pos : Nat) (v : Int)
    (cur : Node) (h : chain[pos]? = some cur) :
    wt p (store_count chain pos v)
      = wt p chain + (if p cur.key = true then v - cur.count else 0) := by
  induction chain generalizing pos with
  | nil => simp at h
  | cons n l ih =>
    cases pos with
    | zero =>
      simp only [List.getElem?_cons_zero, Option.some.injEq] at h
      subst h
      simp only [store_count, wt]
      split_ifs <;> omega
    | succ pos =>
      simp only [List.getElem?_cons_succ] at h
      simp only [store_count, wt, ih pos h]
      omega

/-! ## The shape of the table -/

theorem shape_of_inv (m : HashMap) (h : MapInv m) : MapShape m :=
  ⟨h.1, h.2.1, h.2.2.1, fun b hb n hn => (h.2.2.2.1 b hb n hn).1, h.2.2.2.2⟩

theorem create_shape (cap : Nat) (hcap : 0 < cap) : MapShape (create_hashmap cap) :=
  shape_of_inv _ (create_inv cap hcap)

theorem shape_set (m : HashMap) (h : MapShape m) (idx : Nat) (hidx : idx < m.capacity)
    (chain : List Node)
    (hnodes : ∀ n ∈ chain, hash_string n.key % m.capacity = idx)
    (hchain : chain.Pairwise (fun x y => strcmp x.key y.key ≠ 0)) :
    MapShape { buckets := bucket_set m.buckets idx chain, capacity := m.capacity } := by
  obtain ⟨hcap, hs, hlt, hn, hc⟩ := h
  refine ⟨hcap, slot_set_sorted _ _ _ hs, ?_, ?_, ?_⟩
  · intro b hb
    rcases slot_set_mem _ _ _ b hb with h | h
    · rw [h]
      exact hidx
    · exact hlt b h
  · intro b hb n hnb
    rcases slot_set_mem _ _ _ b hb with h | h
    · rw [h] at hnb ⊢
      exact hnodes n hnb
    · exact hn b h n hnb
  · intro b hb
    rcases slot_set_mem _ _ _ b hb with h | h
    · rw [h]
      exact hchain
    · exact hc b h

theorem shape_chain (m : HashMap) (h : MapShape m) (idx : Nat) :
    (∀ n ∈ bucket_get m.buckets idx, hash_string n.key % m.capacity = idx)
    ∧ (bucket_get m.buckets idx).Pairwise (fun x y => strcmp x.key y.key ≠ 0) := by
  rcases slot_get_mem m.buckets idx with h0 | hmem
  · rw [h0]
    exact ⟨fun n hn => absurd hn (List.not_mem_nil n), List.Pairwise.nil⟩
  · exact ⟨fun n hn => h.2.2.2.1 _ hmem n hn, h.2.2.2.2 _ hmem⟩

theorem shape_distinct (m : HashMap) (h : MapShape m) :
    (nodes m).Pairwise (fun a b => strcmp a.key b.key ≠ 0) := by
  unfold nodes
  rw [List.pairwise_flatMap]
  refine ⟨fun b hb => h.2.2.2.2 b hb, ?_⟩
  refine List.Pairwise.imp_of_mem ?_ h.2.1
  intro b1 b2 hb1 hb2 hlt x hx y hy hxy
  have h1 := h.2.2.2.1 b1 hb1 x hx
  have h2 := h.2.2.2.1 b2 hb2 y hy
  rw [hash_string_congr x.key y.key hxy] at h1
  omega

theorem call_sum_append (p : List Nat → Bool) (l1 l2 : List Call) :
    call_sum p (l1 ++ l2) = call_sum p l1 + call_sum p l2 := by
  induction l1 with
  | nil => simp [call_sum]
  | cons c l ih =>
    rw [List.cons_append]
    simp only [call_sum, ih]
    omega

theorem call_sum_perm (p : List Nat → Bool) {l1 l2 : List Call} (h : List.Perm l1 l2) :
    call_sum p l1 = call_sum p l2 := by
  induction h with
  | nil => rfl
  | cons c _ ih => simp only [call_sum, ih]
  | swap a b l =>
    simp only [call_sum]
    omega
  | trans _ _ ih1 ih2 => exact ih1.trans ih2

end OmpExam

namespace OmpExam

open MpiExam (strcmp strcmp_self strcmp_swap strcmp_trans strcmp_congr_left
  strcmp_congr_right cstr)

/-! ## The locks -/

theorem set_cases (l : List Thread) (tid i : Nat) (t t' x : Thread) (ht : l[tid]? = some t)
    (hx : (l.set tid t')[i]? = some x) :
    (i = tid ∧ x = t') ∨ (i ≠ tid ∧ l[i]? = some x) := by
  by_cases h : i = tid
  · subst h
    rw [get_set_same l i t t' ht] at hx
    exact Or.inl ⟨rfl, (Option.some.inj hx).symm⟩
  · rw [get_set_other l tid i t' (fun e => h e.symm)] at hx
    exact Or.inr ⟨h, hx⟩

theorem lock_same (s : World) (h : LockInv s) (tid : Nat) (t t' : Thread) (m' : HashMap)
    (ht : s.threads[tid]? = some t) (hc : crit t'.pc = crit t.pc) :
    LockInv { m := m', held := s.held, threads := s.threads.set tid t' } := by
  obtain ⟨hnd, hlh, hhl, hme⟩ := h
  refine ⟨hnd, ?_, ?_, ?_⟩
  · intro i x b hx hb
    rcases set_cases _ _ _ _ _ _ ht hx with ⟨_, rfl⟩ | ⟨_, hx'⟩
    · rw [hc] at hb
      exact hlh tid t b ht hb
    · exact hlh i x b hx' hb
  · intro b hb
    obtain ⟨i, x, hx, hxb⟩ := hhl b hb
    by_cases hi : i = tid
    · subst hi
      rw [ht] at hx
      have := Option.some.inj hx
      subst this
      exact ⟨i, t', get_set_same _ _ _ _ ht, by rw [hc]; exact hxb⟩
    · exact ⟨i, x, by rw [get_set_other _ _ _ _ (fun e => hi e.symm)]; exact hx, hxb⟩
  · intro i j x y b hx hy hxb hyb
    have hx' : ∃ x0, s.threads[i]? = some x0 ∧ crit x0.pc = some b := by
      rcases set_cases _ _ _ _ _ _ ht hx with ⟨rfl, rfl⟩ | ⟨_, hx'⟩
      · exact ⟨t, ht, by rw [← hc]; exact hxb⟩
      · exact ⟨x, hx', hxb⟩
    have hy' : ∃ y0, s.threads[j]? = some y0 ∧ crit y0.pc = some b := by
      rcases set_cases _ _ _ _ _ _ ht hy with ⟨rfl, rfl⟩ | ⟨_, hy'⟩
      · exact ⟨t, ht, by rw [← hc]; exact hyb⟩
      · exact ⟨y, hy', hyb⟩
    obtain ⟨x0, h1, h2⟩ := hx'
    obtain ⟨y0, h3, h4⟩ := hy'
    exact hme i j x0 y0 b h1 h3 h2 h4

theorem lock_acquire (s : World) (h : LockInv s) (tid : Nat) (t t' : Thread) (m' : HashMap)
    (b : Nat) (ht : s.threads[tid]? = some t) (hc : crit t.pc = none)
    (hc' : crit t'.pc = some b) (hb : b ∉ s.held) :
    LockInv { m := m', held := b :: s.held, threads := s.threads.set tid t' } := by
  obtain ⟨hnd, hlh, hhl, hme⟩ := h
  refine ⟨List.nodup_cons.2 ⟨hb, hnd⟩, ?_, ?_, ?_⟩
  · intro i x c hx hxc
    rcases set_cases _ _ _ _ _ _ ht hx with ⟨_, rfl⟩ | ⟨_, hx'⟩
    · rw [hc'] at hxc
      rw [← Option.some.inj hxc]
      exact List.mem_cons_self _ _
    · exact List.mem_cons_of_mem _ (hlh i x c hx' hxc)
  · intro c hcm
    rcases List.mem_cons.1 hcm with rfl | hcm'
    · exact ⟨tid, t', get_set_same _ _ _ _ ht, hc'⟩
    · obtain ⟨i, x, hx, hxc⟩ := hhl c hcm'
      have hi : i ≠ tid := by
        intro e
        subst e
        rw [ht] at hx
        rw [Option.some.inj hx, hxc] at hc
        cases hc
      exact ⟨i, x, by rw [get_set_other _ _ _ _ (fun e => hi e.symm)]; exact hx, hxc⟩
  · intro i j x y c hx hy hxc hyc
    rcases set_cases _ _ _ _ _ _ ht hx with ⟨rfl, rfl⟩ | ⟨hi, hx'⟩
    · rcases set_cases _ _ _ _ _ _ ht hy with ⟨rfl, _⟩ | ⟨_, hy'⟩
      · rfl
      · exfalso
        rw [hc'] at hxc
        rw [← Option.some.inj hxc] at hyc
        exact hb (hlh j y b hy' hyc)
    · rcases set_cases _ _ _ _ _ _ ht hy with ⟨rfl, rfl⟩ | ⟨_, hy'⟩
      · exfalso
        rw [hc'] at hyc
        rw [← Option.some.inj hyc] at hxc
        exact hb (hlh i x b hx' hxc)
      · exact hme i j x y c hx' hy' hxc hyc

theorem lock_release (s : World) (h : LockInv s) (tid : Nat) (t t' : Thread) (m' : HashMap)
    (b : Nat) (ht : s.threads[tid]? = some t) (hc : crit t.pc = some b)
    (hc' : crit t'.pc = none) :
    LockInv { m := m', held := s.held.erase b, threads := s.threads.set tid t' } := by
  obtain ⟨hnd, hlh, hhl, hme⟩ := h
  refine ⟨hnd.erase b, ?_, ?_, ?_⟩
  · intro i x c hx hxc
    rcases set_cases _ _ _ _ _ _ ht hx with ⟨_, rfl⟩ | ⟨hi, hx'⟩
    · rw [hc'] at hxc
      cases hxc
    · have hne : c ≠ b := by
        intro e
        subst e
        exact hi (hme i tid x t c hx' ht hxc hc)
      exact (List.mem_erase_of_ne hne).2 (hlh i x c hx' hxc)
  · intro c hcm
    have hcm' := (List.Nodup.mem_erase_iff hnd).1 hcm
    obtain ⟨i, x, hx, hxc⟩ := hhl c hcm'.2
    have hi : i ≠ tid := by
      intro e
      subst e
      rw [ht] at hx
      rw [Option.some.inj hx, hxc] at hc
      exact hcm'.1 (Option.some.inj hc)
    exact ⟨i, x, by rw [get_set_other _ _ _ _ (fun e => hi e.symm)]; exact hx, hxc⟩
  · intro i j x y c hx hy hxc hyc
    rcases set_cases _ _ _ _ _ _ ht hx with ⟨_, rfl⟩ | ⟨_, hx'⟩
    · rw [hc'] at hxc
      cases hxc
    · rcases set_cases _ _ _ _ _ _ ht hy with ⟨_, rfl⟩ | ⟨_, hy'⟩
      · rw [hc'] at hyc
        cases hyc
      · exact hme i j x y c hx' hy' hxc hyc

/-! ## What the threads know of the table -/

theorem asserts_frame (m m' : HashMap) (pc : Pc) (hcap : m'.capacity = m.capacity)
    (hget : ∀ h, crit pc = some h → bucket_get m'.buckets h = bucket_get m.buckets h)
    (ha : Asserts m pc) : Asserts m' pc := by
  cases pc with
  | idle => trivial
  | lock key cnt h =>
    show h = hash_string key % m'.capacity
    rw [hcap]
    exact ha
  | scan key cnt h pos =>
    show h = hash_string key % m'.capacity ∧ _
    rw [hcap, hget h rfl]
    exact ha
  | add key cnt h pos old =>
    show h = hash_string key % m'.capacity ∧ _
    rw [hcap, hget h rfl]
    exact ha
  | link key cnt h next =>
    show h = hash_string key % m'.capacity ∧ _
    rw [hcap, hget h rfl]
    exact ha
  | unlock h => trivial

theorem others_frame (s : World) (hinv : WorldInv s) (tid : Nat) (t : Thread) (b : Nat)
    (ht : s.threads[tid]? = some t) (hc : crit t.pc = some b) (chain : List Node) :
    ∀ j (tj : Thread), j ≠ tid → s.threads[j]? = some tj →
      Asserts { buckets := bucket_set s.m.buckets b chain, capacity := s.m.capacity } tj.pc := by
  intro j tj hj htj
  refine asserts_frame s.m { buckets := bucket_set s.m.buckets b chain, capacity := s.m.capacity }
    tj.pc rfl ?_ (hinv.2.2 j tj htj)
  intro c hcj
  show bucket_get (bucket_set s.m.buckets b chain) c = bucket_get s.m.buckets c
  apply slot_get_set_other
  intro e
  subst e
  exact hj (hinv.2.1.2.2.2 j tid tj t c htj ht hcj hc)

theorem world_update (s : World) (tid : Nat) (t t' : Thread) (m' : HashMap)
    (held' : List Nat) (ht : s.threads[tid]? = some t) (hshape : MapShape m')
    (hlock : LockInv { m := m', held := held', threads := s.threads.set tid t' })
    (ha : Asserts m' t'.pc)
    (hothers : ∀ j (tj : Thread), j ≠ tid → s.threads[j]? = some tj → Asserts m' tj.pc) :
    WorldInv { m := m', held := held', threads := s.threads.set tid t' } := by
  refine ⟨hshape, hlock, ?_⟩
  intro i x hx
  rcases set_cases _ _ _ _ _ _ ht hx with ⟨_, rfl⟩ | ⟨hi, hx'⟩
  · exact ha
  · exact hothers i x hi hx'

end OmpExam

namespace OmpExam

open MpiExam (strcmp strcmp_self strcmp_swap strcmp_trans strcmp_congr_left
  strcmp_congr_right cstr)

/-! ## The invariant of the interleaved execution -/

theorem step_inv (s : World) (hinv : WorldInv s) (tid : Nat) : WorldInv (step s tid) := by
  unfold step
  cases hthr : s.threads[tid]? with
  | none => exact hinv
  | some t =>
    obtain ⟨todo, pc⟩ := t
    have hA := hinv.2.2 tid _ hthr
    have hsame : ∀ j (tj : Thread), j ≠ tid → s.threads[j]? = some tj → Asserts s.m tj.pc :=
      fun j tj _ htj => hinv.2.2 j tj htj
    cases pc with
    | idle =>
      cases todo with
      | nil =>
        simp only [thread_step]
        exact world_update s tid _ _ s.m s.held hthr hinv.1
          (lock_same s hinv.2.1 tid _ _ s.m hthr rfl) trivial hsame
      | cons c rest =>
        simp only [thread_step]
        exact world_update s tid _ _ s.m s.held hthr hinv.1
          (lock_same s hinv.2.1 tid _ _ s.m hthr rfl) rfl hsame
    | lock key cnt h =>
      simp only [thread_step]
      by_cases hh : h ∈ s.held
      · simp only [if_pos hh]
        exact world_update s tid _ _ s.m s.held hthr hinv.1
          (lock_same s hinv.2.1 tid _ _ s.m hthr rfl) hA hsame
      · simp only [if_neg hh]
        refine world_update s tid _ _ s.m (h :: s.held) hthr hinv.1
          (lock_acquire s hinv.2.1 tid _ _ s.m h hthr rfl rfl hh) ?_ hsame
        exact ⟨hA, fun n hn => by simp at hn⟩
    | scan key cnt h pos =>
      simp only [thread_step]
      cases hcur : (bucket_get s.m.buckets h)[pos]? with
      | none =>
        simp only
        refine world_update s tid _ _ s.m s.held hthr hinv.1
          (lock_same s hinv.2.1 tid _ _ s.m hthr rfl) ?_ hsame
        refine ⟨hA.1, rfl, ?_⟩
        have hlen := List.getElem?_eq_none_iff.1 hcur
        have h2 := hA.2
        rw [List.take_of_length_le hlen] at h2
        exact h2
      | some cur =>
        simp only
        by_cases hk : strcmp cur.key key = 0
        · simp only [if_pos hk]
          exact world_update s tid _ _ s.m s.held hthr hinv.1
            (lock_same s hinv.2.1 tid _ _ s.m hthr rfl) ⟨hA.1, cur, hcur, rfl, hk⟩ hsame
        · simp only [if_neg hk]
          refine world_update s tid _ _ s.m s.held hthr hinv.1
            (lock_same s hinv.2.1 tid _ _ s.m hthr rfl) ⟨hA.1, ?_⟩ hsame
          intro n hn
          rw [take_succ_get _ _ _ hcur] at hn
          rcases List.mem_append.1 hn with h1 | h1
          · exact hA.2 n h1
          · rw [List.mem_singleton] at h1
            rw [h1]
            exact hk
    | add key cnt h pos old =>
      simp only [thread_step]
      obtain ⟨hh, cur, hcur, hold, hk⟩ := hA
      obtain ⟨hnodes, hchain⟩ := shape_chain s.m hinv.1 h
      have hlt : h < s.m.capacity := by
        rw [hh]
        exact Nat.mod_lt _ hinv.1.1
      refine world_update s tid _ _ _ s.held hthr ?_
        (lock_same s hinv.2.1 tid _ _ _ hthr rfl) trivial
        (others_frame s hinv tid _ h hthr rfl _)
      apply shape_set s.m hinv.1 h hlt
      · exact forall_of_keys (fun k => hash_string k % s.m.capacity = h) _ _
          (store_count_keys _ _ _) hnodes
      · exact pairwise_of_keys _ _ (store_count_keys _ _ _) hchain
    | link key cnt h next =>
      simp only [thread_step]
      obtain ⟨hh, hnext, hno⟩ := hA
      obtain ⟨hnodes, hchain⟩ := shape_chain s.m hinv.1 h
      have hlt : h < s.m.capacity := by
        rw [hh]
        exact Nat.mod_lt _ hinv.1.1
      refine world_update s tid _ _ _ s.held hthr ?_
        (lock_same s hinv.2.1 tid _ _ _ hthr rfl) trivial
        (others_frame s hinv tid _ h hthr rfl _)
      apply shape_set s.m hinv.1 h hlt
      · intro n hn
        rcases List.mem_cons.1 hn with rfl | hn'
        · show hash_string (strdup key) % s.m.capacity = h
          rw [hash_string_congr _ _ (strdup_eq key), hh]
        · rw [← hnext] at hn'
          exact hnodes n hn'
      · rw [← hnext] at hno ⊢
        refine List.pairwise_cons.2 ⟨?_, hchain⟩
        intro n hn
        show strcmp (strdup key) n.key ≠ 0
        have hne := hno n hn
        rw [strcmp_congr_left _ _ n.key (strdup_eq key), strcmp_swap n.key key]
        omega
    | unlock h =>
      simp only [thread_step]
      exact world_update s tid _ _ s.m _ hthr hinv.1
        (lock_release s hinv.2.1 tid _ _ s.m h hthr rfl rfl) trivial hsame

theorem run_inv (s : World) (hinv : WorldInv s) (sched : List Nat) : WorldInv (run s sched) := by
  induction sched generalizing s with
  | nil => exact hinv
  | cons tid rest ih => exact ih (step s tid) (step_inv s hinv tid)

theorem start_inv (m : HashMap) (hm : MapShape m) (calls : List (List Call)) :
    WorldInv (start m calls) := by
  have hidle : ∀ (i : Nat) (t : Thread), (start m calls).threads[i]? = some t → t.pc = Pc.idle := by
    intro i t ht
    have hmem := get_mem _ i t ht
    obtain ⟨cs, _, rfl⟩ := List.mem_map.1 hmem
    rfl
  refine ⟨hm, ⟨List.nodup_nil, ?_, ?_, ?_⟩, ?_⟩
  · intro i t h ht hc
    rw [hidle i t ht] at hc
    cases hc
  · intro h hh
    cases hh
  · intro i j ti tj h hti _ hc _
    rw [hidle i ti hti] at hc
    cases hc
  · intro i t ht
    rw [hidle i t ht]
    trivial

end OmpExam

namespace OmpExam

open MpiExam (strcmp strcmp_self strcmp_swap strcmp_trans strcmp_congr_left
  strcmp_congr_right cstr)

/-! ## The counts during the interleaved execution -/

theorem step_total (p : List Nat → Bool) (hp : ∀ a b, strcmp a b = 0 → p a = p b)
    (s : World) (hinv : WorldInv s) (tid : Nat) :
    (wt p (nodes (step s tid).m) + ((step s tid).threads.map (thread_sum p)).sum) % 2 ^ 32
      = (wt p (nodes s.m) + (s.threads.map (thread_sum p)).sum) % 2 ^ 32 := by
  unfold step
  cases hthr : s.threads[tid]? with
  | none => rfl
  | some t =>
    obtain ⟨todo, pc⟩ := t
    have hA := hinv.2.2 tid _ hthr
    have hsum := fun t' => sum_set_int (thread_sum p) s.threads tid _ t' hthr
    cases pc with
    | idle =>
      cases todo with
      | nil =>
        simp only [thread_step]
        rw [hsum]
        omega
      | cons c rest =>
        simp only [thread_step]
        rw [hsum]
        simp only [thread_sum, call_sum, pc_sum]
        omega
    | lock key cnt h =>
      simp only [thread_step]
      by_cases hh : h ∈ s.held
      · simp only [if_pos hh]
        rw [hsum]
        omega
      · simp only [if_neg hh]
        rw [hsum]
        simp only [thread_sum, pc_sum]
        omega
    | scan key cnt h pos =>
      simp only [thread_step]
      cases hcur : (bucket_get s.m.buckets h)[pos]? with
      | none =>
        simp only
        rw [hsum]
        simp only [thread_sum, pc_sum]
        omega
      | some cur =>
        simp only
        by_cases hk : strcmp cur.key key = 0
        · simp only [if_pos hk]
          rw [hsum]
          simp only [thread_sum, pc_sum]
          omega
        · simp only [if_neg hk]
          rw [hsum]
          simp only [thread_sum, pc_sum]
          omega
    | add key cnt h pos old =>
      simp only [thread_step]
      obtain ⟨hh, cur, hcur, hold, hk⟩ := hA
      rw [hsum]
      have h1 := slot_set_wt p s.m.buckets h
        (store_count (bucket_get s.m.buckets h) pos (MpiExam.wrap32 (old + cnt))) hinv.1.2.1
      rw [store_count_wt p _ pos (MpiExam.wrap32 (old + cnt)) cur hcur, hp _ _ hk, hold] at h1
      simp only [thread_sum, pc_sum, nodes]
      obtain ⟨q, hq⟩ : ∃ q : Int, MpiExam.wrap32 (old + cnt) = old + cnt + 2 ^ 32 * q :=
        ⟨-((old + cnt + 2 ^ 31) / 2 ^ 32), by unfold MpiExam.wrap32; omega⟩
      split_ifs at h1 ⊢ <;> omega
    | link key cnt h next =>
      simp only [thread_step]
      obtain ⟨hh, hnext, hno⟩ := hA
      rw [hsum]
      have h1 := slot_set_wt p s.m.buckets h ({ key := strdup key, count := cnt } :: next)
        hinv.1.2.1
      rw [hnext] at h1
      simp only [wt] at h1
      rw [hp _ _ (strdup_eq key)] at h1
      simp only [thread_sum, pc_sum, nodes]
      split_ifs at h1 ⊢ <;> omega
    | unlock h =>
      simp only [thread_step]
      rw [hsum]
      simp only [thread_sum, pc_sum]
      omega

theorem run_total (p : List Nat → Bool) (hp : ∀ a b, strcmp a b = 0 → p a = p b)
    (s : World) (hinv : WorldInv s) (sched : List Nat) :
    (wt p (nodes (run s sched).m) + ((run s sched).threads.map (thread_sum p)).sum) % 2 ^ 32
      = (wt p (nodes s.m) + (s.threads.map (thread_sum p)).sum) % 2 ^ 32 := by
  induction sched generalizing s with
  | nil => rfl
  | cons tid rest ih =>
    have e : run s (tid :: rest) = run (step s tid) rest := rfl
    rw [e, ih (step s tid) (step_inv s hinv tid), step_total p hp s hinv tid]

theorem start_total (p : List Nat → Bool) (m : HashMap) (calls : List (List Call)) :
    ((start m calls).threads.map (thread_sum p)).sum = call_sum p calls.flatten := by
  unfold start
  simp only
  induction calls with
  | nil => rfl
  | cons cs rest ih =>
    rw [List.map_cons, List.map_cons, List.sum_cons, ih, List.flatten_cons, call_sum_append]
    simp only [thread_sum, pc_sum]
    omega

theorem finished_total (p : List Nat → Bool) (s : World) (h : finished s) :
    (s.threads.map (thread_sum p)).sum = 0 := by
  unfold finished at h
  generalize s.threads = l at h
  induction l with
  | nil => rfl
  | cons t l ih =>
    obtain ⟨h1, h2⟩ := h t (List.mem_cons_self _ _)
    rw [List.map_cons, List.sum_cons, ih (fun x hx => h x (List.mem_cons_of_mem _ hx))]
    simp only [thread_sum, h1, h2, call_sum, pc_sum]
    omega

theorem finished_held (s : World) (hinv : WorldInv s) (h : finished s) : s.held = [] := by
  cases hh : s.held with
  | nil => rfl
  | cons b rest =>
    exfalso
    obtain ⟨i, t, ht, hc⟩ := hinv.2.1.2.2.1 b (by rw [hh]; exact List.mem_cons_self _ _)
    rw [(h t (get_mem _ i t ht)).1] at hc
    cases hc

end OmpExam

namespace OmpExam

open MpiExam (strcmp strcmp_self strcmp_swap strcmp_trans strcmp_congr_left
  strcmp_congr_right cstr)

/-! ## Progress of the interleaved execution -/

theorem sum_set_le {α : Type} (f g : α → Nat) (hfg : ∀ x, f x ≤ g x) (l : List α) (i : Nat)
    (a b : α) (h : l[i]? = some a) :
    ((l.set i b).map f).sum + g a ≤ (l.map g).sum + f b := by
  induction l generalizing i with
  | nil => simp at h
  | cons x l ih =>
    cases i with
    | zero =>
      simp only [List.getElem?_cons_zero, Option.some.injEq] at h
      subst h
      simp only [List.set_cons_zero, List.map_cons, List.sum_cons]
      have hsum : (l.map f).sum ≤ (l.map g).sum := by
        clear ih
        induction l with
        | nil => exact le_refl _
        | cons y l ih2 =>
          simp only [List.map_cons, List.sum_cons]
          have := hfg y
          omega
      omega
    | succ i =>
      simp only [List.getElem?_cons_succ] at h
      have := ih i h
      have := hfg x
      simp only [List.set_cons_succ, List.map_cons, List.sum_cons]
      omega

theorem thread_cost_mono (N N' : Nat) (h : N' ≤ N) (t : Thread) :
    thread_cost N' t ≤ thread_cost N t := by
  unfold thread_cost
  have h1 : t.todo.length * (N' + 5) ≤ t.todo.length * (N + 5) :=
    Nat.mul_le_mul_left _ (by omega)
  cases t.pc <;> simp only <;> omega

theorem cost_step (s : World) (tid : Nat) (t t' : Thread) (m' : HashMap) (held' : List Nat)
    (ht : s.threads[tid]? = some t)
    (hN : node_bound { m := m', held := held', threads := s.threads.set tid t' }
      ≤ node_bound s)
    (htc : thread_cost (node_bound { m := m', held := held', threads := s.threads.set tid t' }) t'
      < thread_cost (node_bound s) t) :
    cost { m := m', held := held', threads := s.threads.set tid t' } < cost s := by
  have h := sum_set_le
    (thread_cost (node_bound { m := m', held := held', threads := s.threads.set tid t' }))
    (thread_cost (node_bound s)) (thread_cost_mono _ _ hN) s.threads tid t t' ht
  unfold cost
  simp only
  omega

theorem bound_step (s : World) (tid : Nat) (t t' : Thread) (m' : HashMap) (held' : List Nat)
    (ht : s.threads[tid]? = some t) :
    node_bound { m := m', held := held', threads := s.threads.set tid t' } + open_calls t
      = (nodes m').length + (s.threads.map open_calls).sum + open_calls t' := by
  have h := sum_set_nat open_calls s.threads tid t t' ht
  unfold node_bound
  simp only
  omega

theorem chain_le_bound (s : World) (h : Nat) :
    (bucket_get s.m.buckets h).length ≤ node_bound s := by
  have := slot_get_length_le s.m.buckets h
  unfold node_bound nodes
  omega

theorem cost_step_le (s : World) (tid : Nat) (t t' : Thread) (m' : HashMap) (held' : List Nat)
    (ht : s.threads[tid]? = some t)
    (hlen : (nodes m').length + open_calls t' ≤ (nodes s.m).length + open_calls t)
    (htc : thread_cost (node_bound s) t' < thread_cost (node_bound s) t) :
    cost { m := m', held := held', threads := s.threads.set tid t' } < cost s := by
  have hb := bound_step s tid t t' m' held' ht
  have hN : node_bound { m := m', held := held', threads := s.threads.set tid t' }
      ≤ node_bound s := by
    have e : node_bound s = (nodes s.m).length + (s.threads.map open_calls).sum := rfl
    omega
  exact cost_step s tid t t' m' held' ht hN (lt_of_le_of_lt (thread_cost_mono _ _ hN t') htc)

/-- A thread that can move: it is not at the end of its calls and it does not
wait for a lock that is set. -/
theorem step_enabled (s : World) (hinv : WorldInv s) (tid : Nat) (t : Thread)
    (ht : s.threads[tid]? = some t)
    (h1 : t.pc = Pc.idle → t.todo ≠ [])
    (h2 : ∀ key cnt h, t.pc = Pc.lock key cnt h → h ∉ s.held) :
    cost (step s tid) < cost s := by
  unfold step
  rw [ht]
  simp only
  obtain ⟨todo, pc⟩ := t
  have hA := hinv.2.2 tid _ ht
  cases pc with
  | idle =>
    cases todo with
    | nil => exact absurd rfl (h1 rfl)
    | cons c rest =>
      simp only [thread_step]
      apply cost_step_le s tid _ _ _ _ ht
      · simp only [open_calls, List.length_cons]
        omega
      · simp only [thread_cost, List.length_cons, Nat.succ_mul]
        omega
  | lock key cnt h =>
    have hh := h2 key cnt h rfl
    simp only [thread_step, if_neg hh]
    apply cost_step_le s tid _ _ _ _ ht
    · simp only [open_calls]
      omega
    · simp only [thread_cost]
      omega
  | scan key cnt h pos =>
    simp only [thread_step]
    cases hcur : (bucket_get s.m.buckets h)[pos]? with
    | none =>
      simp only
      apply cost_step_le s tid _ _ _ _ ht
      · simp only [open_calls]
        omega
      · simp only [thread_cost]
        omega
    | some cur =>
      simp only
      have hpos : pos < node_bound s :=
        lt_of_lt_of_le (get_lt _ _ _ hcur) (chain_le_bound s h)
      by_cases hk : strcmp cur.key key = 0
      · simp only [if_pos hk]
        apply cost_step_le s tid _ _ _ _ ht
        · simp only [open_calls]
          omega
        · simp only [thread_cost]
          omega
      · simp only [if_neg hk]
        apply cost_step_le s tid _ _ _ _ ht
        · simp only [open_calls]
          omega
        · simp only [thread_cost]
          omega
  | add key cnt h pos old =>
    simp only [thread_step]
    have hlen := slot_set_length s.m.buckets h
      (store_count (bucket_get s.m.buckets h) pos (MpiExam.wrap32 (old + cnt))) hinv.1.2.1
    rw [store_count_length] at hlen
    apply cost_step_le s tid _ _ _ _ ht
    · simp only [open_calls, nodes]
      omega
    · simp only [thread_cost]
      omega
  | link key cnt h next =>
    simp only [thread_step]
    obtain ⟨hh, hnext, hno⟩ := hA
    have hlen := slot_set_length s.m.buckets h ({ key := strdup key, count := cnt } :: next)
      hinv.1.2.1
    rw [hnext, List.length_cons] at hlen
    apply cost_step_le s tid _ _ _ _ ht
    · simp only [open_calls, nodes]
      omega
    · simp only [thread_cost]
      omega
  | unlock h =>
    simp only [thread_step]
    apply cost_step_le s tid _ _ _ _ ht
    · simp only [open_calls]
      omega
    · simp only [thread_cost]
      omega

theorem progress (s : World) (hinv : WorldInv s) (hnf : ¬ finished s) :
    ∃ tid, cost (step s tid) < cost s := by
  unfold finished at hnf
  push_neg at hnf
  obtain ⟨t, ht, hnot⟩ := hnf
  obtain ⟨i, hi⟩ := mem_get _ t ht
  by_cases hwait : ∃ key cnt h, t.pc = Pc.lock key cnt h ∧ h ∈ s.held
  · obtain ⟨key, cnt, h, _, hh⟩ := hwait
    obtain ⟨j, tj, htj, hc⟩ := hinv.2.1.2.2.1 h hh
    refine ⟨j, step_enabled s hinv j tj htj ?_ ?_⟩
    · intro e
      rw [e] at hc
      cases hc
    · intro key' cnt' h' e
      rw [e] at hc
      cases hc
  · refine ⟨i, step_enabled s hinv i t hi ?_ ?_⟩
    · intro e
      exact hnot e
    · intro key cnt h e hh
      exact hwait ⟨key, cnt, h, e, hh⟩

theorem exists_finish (n : Nat) (s : World) (hinv : WorldInv s) (hn : cost s ≤ n) :
    ∃ sched, finished (run s sched) := by
  induction n generalizing s with
  | zero =>
    by_cases hf : finished s
    · exact ⟨[], hf⟩
    · obtain ⟨tid, h⟩ := progress s hinv hf
      omega
  | succ n ih =>
    by_cases hf : finished s
    · exact ⟨[], hf⟩
    · obtain ⟨tid, h⟩ := progress s hinv hf
      obtain ⟨sched, hs⟩ := ih (step s tid) (step_inv s hinv tid) (by omega)
      exact ⟨tid :: sched, hs⟩

theorem run_append (s : World) (l1 l2 : List Nat) : run s (l1 ++ l2) = run (run s l1) l2 := by
  unfold run
  rw [List.foldl_append]

end OmpExam

namespace OmpExam

open MpiExam (strcmp strcmp_self strcmp_swap strcmp_trans strcmp_congr_left
  strcmp_congr_right cstr)

/-! ## Counts as `int`: the calls executed one after the other -/

theorem nodes_set_mem (bs : List (Nat × List Node)) (idx : Nat) (chain : List Node) (n : Node)
    (h : n ∈ (bucket_set bs idx chain).flatMap (fun b => b.2)) :
    n ∈ chain ∨ n ∈ bs.flatMap (fun b => b.2) := by
  obtain ⟨b, hb, hn⟩ := List.mem_flatMap.1 h
  rcases slot_set_mem bs idx chain b hb with h1 | h1
  · left
    rw [h1] at hn
    exact hn
  · right
    exact List.mem_flatMap.2 ⟨b, h1, hn⟩

theorem slot_get_nodes (bs : List (Nat × List Node)) (idx : Nat) (n : Node)
    (h : n ∈ bucket_get bs idx) : n ∈ bs.flatMap (fun b => b.2) := by
  rcases slot_get_mem bs idx with h0 | hmem
  · rw [h0] at h
    cases h
  · exact List.mem_flatMap.2 ⟨_, hmem, h⟩

theorem store_count_mem (chain : List Node) (pos : Nat) (v : Int) (n : Node)
    (h : n ∈ store_count chain pos v) : n.count = v ∨ n ∈ chain := by
  induction chain generalizing pos with
  | nil => cases h
  | cons m l ih =>
    cases pos with
    | zero =>
      simp only [store_count] at h
      rcases List.mem_cons.1 h with h1 | h1
      · left
        rw [h1]
      · exact Or.inr (List.mem_cons_of_mem _ h1)
    | succ pos =>
      simp only [store_count] at h
      rcases List.mem_cons.1 h with h1 | h1
      · right
        rw [h1]
        exact List.mem_cons_self _ _
      · rcases ih pos h1 with h2 | h2
        · exact Or.inl h2
        · exact Or.inr (List.mem_cons_of_mem _ h2)

theorem wt_int_range (k : List Nat) (l : List Node)
    (hd : l.Pairwise (fun x y => strcmp x.key y.key ≠ 0)) (hint : IntNodes l) :
    -(2 ^ 31) ≤ wt (fun key => decide (strcmp key k = 0)) l
      ∧ wt (fun key => decide (strcmp key k = 0)) l < 2 ^ 31 := by
  induction l with
  | nil =>
    simp only [wt]
    omega
  | cons m l ih =>
    have hd' := List.pairwise_cons.1 hd
    have hm := hint m (List.mem_cons_self _ _)
    have hl := ih hd'.2 (fun x hx => hint x (List.mem_cons_of_mem _ hx))
    simp only [wt]
    by_cases hmk : strcmp m.key k = 0
    · have h1 : decide (strcmp m.key k = 0) = true := decide_eq_true hmk
      rw [if_pos h1, wt_zero, add_zero]
      · exact hm
      · intro x hx
        apply decide_eq_false
        intro h0
        apply hd'.1 x hx
        rw [strcmp_congr_left m.key k x.key hmk, strcmp_swap]
        omega
    · have h1 : ¬ decide (strcmp m.key k = 0) = true := fun h0 => hmk (of_decide_eq_true h0)
      rw [if_neg h1, zero_add]
      exact hl

theorem wt_of_mod (x y : Int) (h1 : -(2 ^ 31) ≤ x) (h2 : x < 2 ^ 31)
    (h : x % 2 ^ 32 = y % 2 ^ 32) : x = MpiExam.wrap32 y := by
  unfold MpiExam.wrap32
  omega

theorem seq_chain_none (key : List Nat) (cnt : Int) (chain : List Node) :
    Int32.chain_add key cnt chain = none ↔ ∀ n ∈ chain, strcmp n.key key ≠ 0 := by
  induction chain with
  | nil => simp [Int32.chain_add]
  | cons n rest ih =>
    simp only [Int32.chain_add]
    by_cases h : strcmp n.key key = 0
    · simp [h]
    · simp only [if_neg h, Option.map_eq_none', ih, List.mem_cons, forall_eq_or_imp]
      constructor
      · intro hr
        exact ⟨h, hr⟩
      · intro hr
        exact hr.2

theorem seq_chain_some (key : List Nat) (cnt : Int) (chain chain' : List Node)
    (h : Int32.chain_add key cnt chain = some chain') :
    chain'.map (fun n => n.key) = chain.map (fun n => n.key)
    ∧ (∀ p : List Nat → Bool, (∀ a b, strcmp a b = 0 → p a = p b) →
        wt p chain' % 2 ^ 32 = (wt p chain + (if p key = true then cnt else 0)) % 2 ^ 32)
    ∧ (IntNodes chain → IntNodes chain') := by
  induction chain generalizing chain' with
  | nil => simp [Int32.chain_add] at h
  | cons n rest ih =>
    simp only [Int32.chain_add] at h
    split_ifs at h with hc
    · have := Option.some.inj h
      subst this
      refine ⟨rfl, ?_, ?_⟩
      · intro p hp
        simp only [wt]
        rw [hp _ _ hc]
        obtain ⟨q, hq⟩ : ∃ q : Int, MpiExam.wrap32 (n.count + cnt) = n.count + cnt + 2 ^ 32 * q :=
          ⟨-((n.count + cnt + 2 ^ 31) / 2 ^ 32), by unfold MpiExam.wrap32; omega⟩
        split_ifs <;> omega
      · intro hint m hm
        rcases List.mem_cons.1 hm with rfl | hm'
        · exact MpiExam.wrap32_range _
        · exact hint m (List.mem_cons_of_mem _ hm')
    · cases hr : Int32.chain_add key cnt rest with
      | none => simp [hr] at h
      | some c =>
        rw [hr] at h
        have := Option.some.inj h
        subst this
        obtain ⟨h1, h2, h3⟩ := ih c hr
        refine ⟨?_, ?_, ?_⟩
        · simp only [List.map_cons, h1]
        · intro p hp
          simp only [wt]
          have := h2 p hp
          omega
        · intro hint m hm
          rcases List.mem_cons.1 hm with rfl | hm'
          · exact hint _ (List.mem_cons_self _ _)
          · exact h3 (fun x hx => hint x (List.mem_cons_of_mem _ hx)) m hm'

theorem seq_add_shape (m : HashMap) (h : MapShape m) (key : List Nat) (cnt : Int) :
    MapShape (Int32.hashmap_add m key cnt) := by
  obtain ⟨hnodes, hchain⟩ := shape_chain m h (hash_string key % m.capacity)
  have hlt : hash_string key % m.capacity < m.capacity := Nat.mod_lt _ h.1
  unfold Int32.hashmap_add
  simp only
  cases hc : Int32.chain_add key cnt (bucket_get m.buckets (hash_string key % m.capacity)) with
  | none =>
    simp only
    apply shape_set m h _ hlt
    · intro n hn
      rcases List.mem_cons.1 hn with rfl | hn'
      · rw [hash_string_congr _ _ (strdup_eq key)]
      · exact hnodes n hn'
    · refine List.pairwise_cons.2 ⟨?_, hchain⟩
      intro n hn
      have hne := (seq_chain_none key cnt _).1 hc n hn
      show strcmp (strdup key) n.key ≠ 0
      rw [strcmp_congr_left _ _ n.key (strdup_eq key), strcmp_swap n.key key]
      omega
  | some chain =>
    simp only
    obtain ⟨hkeys, _, _⟩ := seq_chain_some key cnt _ chain hc
    apply shape_set m h _ hlt
    · exact forall_of_keys (fun k => hash_string k % m.capacity
        = hash_string key % m.capacity) chain _ hkeys hnodes
    · exact pairwise_of_keys chain _ hkeys hchain

theorem seq_add_total (p : List Nat → Bool) (hp : ∀ a b, strcmp a b = 0 → p a = p b)
    (m : HashMap) (h : MapShape m) (key : List Nat) (cnt : Int) :
    wt p (nodes (Int32.hashmap_add m key cnt)) % 2 ^ 32
      = (wt p (nodes m) + (if p key = true then cnt else 0)) % 2 ^ 32 := by
  unfold nodes Int32.hashmap_add
  simp only
  have hset := fun chain =>
    slot_set_wt p m.buckets (hash_string key % m.capacity) chain h.2.1
  cases hc : Int32.chain_add key cnt (bucket_get m.buckets (hash_string key % m.capacity)) with
  | none =>
    simp only
    have h1 := hset ({ key := strdup key, count := cnt } ::
      bucket_get m.buckets (hash_string key % m.capacity))
    simp only [wt] at h1
    rw [hp _ _ (strdup_eq key)] at h1
    omega
  | some chain =>
    simp only
    have h1 := hset chain
    have h2 := (seq_chain_some key cnt _ chain hc).2.1 p hp
    omega

theorem seq_add_int (m : HashMap) (hint : IntNodes (nodes m)) (key : List Nat) (cnt : Int)
    (hcnt : -(2 ^ 31) ≤ cnt ∧ cnt < 2 ^ 31) : IntNodes (nodes (Int32.hashmap_add m key cnt)) := by
  have hchain : IntNodes (bucket_get m.buckets (hash_string key % m.capacity)) :=
    fun n hn => hint n (slot_get_nodes _ _ n hn)
  unfold Int32.hashmap_add
  simp only
  cases hc : Int32.chain_add key cnt (bucket_get m.buckets (hash_string key % m.capacity)) with
  | none =>
    simp only
    intro n hn
    rcases nodes_set_mem _ _ _ n hn with h1 | h1
    · rcases List.mem_cons.1 h1 with rfl | h2
      · exact hcnt
      · exact hchain n h2
    · exact hint n h1
  | some chain =>
    simp only
    intro n hn
    rcases nodes_set_mem _ _ _ n hn with h1 | h1
    · exact (seq_chain_some key cnt _ chain hc).2.2 hchain n h1
    · exact hint n h1

theorem seq_run_spec (p : List Nat → Bool) (hp : ∀ a b, strcmp a b = 0 → p a = p b)
    (calls : List Call) (m : HashMap) (h : MapShape m) (hint : IntNodes (nodes m))
    (hcalls : IntCalls calls) :
    MapShape (Int32.run_calls m calls) ∧ IntNodes (nodes (Int32.run_calls m calls))
      ∧ wt p (nodes (Int32.run_calls m calls)) % 2 ^ 32
          = (wt p (nodes m) + call_sum p calls) % 2 ^ 32 := by
  induction calls generalizing m with
  | nil => exact ⟨h, hint, by simp [Int32.run_calls, call_sum]⟩
  | cons c cs ih =>
    obtain ⟨h1, h2, h3⟩ := ih (Int32.hashmap_add m c.key c.cnt) (seq_add_shape m h c.key c.cnt)
      (seq_add_int m hint c.key c.cnt (hcalls c (List.mem_cons_self _ _)))
      (fun x hx => hcalls x (List.mem_cons_of_mem _ hx))
    have e : Int32.run_calls m (c :: cs)
        = Int32.run_calls (Int32.hashmap_add m c.key c.cnt) cs := rfl
    refine ⟨h1, h2, ?_⟩
    rw [e, h3]
    have h4 := seq_add_total p hp m h c.key c.cnt
    simp only [call_sum]
    omega

end OmpExam

namespace OmpExam

open MpiExam (strcmp strcmp_self strcmp_swap strcmp_trans strcmp_congr_left
  strcmp_congr_right cstr)

/-! ## Counts as `int` during the interleaved execution -/

theorem int_update (s : World) (hint : IntWorld s) (tid : Nat) (t' : Thread) (m' : HashMap)
    (held' : List Nat) (hm : IntNodes (nodes m'))
    (ht : IntCalls t'.todo ∧ -(2 ^ 31) ≤ pc_cnt t'.pc ∧ pc_cnt t'.pc < 2 ^ 31) :
    IntWorld { m := m', held := held', threads := s.threads.set tid t' } := by
  refine ⟨hm, ?_⟩
  intro t hmem
  rcases List.mem_or_eq_of_mem_set hmem with h | h
  · exact hint.2 t h
  · rw [h]
    exact ht

theorem step_int (s : World) (hinv : WorldInv s) (hint : IntWorld s) (tid : Nat) :
    IntWorld (step s tid) := by
  unfold step
  cases hthr : s.threads[tid]? with
  | none => exact hint
  | some t =>
    obtain ⟨todo, pc⟩ := t
    have hA := hinv.2.2 tid _ hthr
    have ht := hint.2 _ (get_mem _ tid _ hthr)
    have hzero : -(2 ^ 31) ≤ (0 : Int) ∧ (0 : Int) < 2 ^ 31 := by omega
    cases pc with
    | idle =>
      cases todo with
      | nil => exact int_update s hint tid _ _ _ hint.1 ht
      | cons c rest =>
        exact int_update s hint tid _ _ _ hint.1
          ⟨fun x hx => ht.1 x (List.mem_cons_of_mem _ hx), ht.1 c (List.mem_cons_self _ _)⟩
    | lock key cnt h =>
      simp only [thread_step]
      by_cases hh : h ∈ s.held
      · simp only [if_pos hh]
        exact int_update s hint tid _ _ _ hint.1 ht
      · simp only [if_neg hh]
        exact int_update s hint tid _ _ _ hint.1 ht
    | scan key cnt h pos =>
      simp only [thread_step]
      cases hcur : (bucket_get s.m.buckets h)[pos]? with
      | none => exact int_update s hint tid _ _ _ hint.1 ht
      | some cur =>
        simp only
        by_cases hk : strcmp cur.key key = 0
        · simp only [if_pos hk]
          exact int_update s hint tid _ _ _ hint.1 ht
        · simp only [if_neg hk]
          exact int_update s hint tid _ _ _ hint.1 ht
    | add key cnt h pos old =>
      simp only [thread_step]
      refine int_update s hint tid _ _ _ ?_ ⟨ht.1, hzero⟩
      intro n hn
      rcases nodes_set_mem _ _ _ n hn with h1 | h1
      · rcases store_count_mem _ _ _ n h1 with h2 | h2
        · rw [h2]
          exact MpiExam.wrap32_range _
        · exact hint.1 n (slot_get_nodes _ _ n h2)
      · exact hint.1 n h1
    | link key cnt h next =>
      simp only [thread_step]
      obtain ⟨hh, hnext, hno⟩ := hA
      refine int_update s hint tid _ _ _ ?_ ⟨ht.1, hzero⟩
      intro n hn
      rcases nodes_set_mem _ _ _ n hn with h1 | h1
      · rcases List.mem_cons.1 h1 with rfl | h2
        · exact ht.2
        · rw [← hnext] at h2
          exact hint.1 n (slot_get_nodes _ _ n h2)
      · exact hint.1 n h1
    | unlock h => exact int_update s hint tid _ _ _ hint.1 ⟨ht.1, hzero⟩

theorem run_int (s : World) (hinv : WorldInv s) (hint : IntWorld s) (sched : List Nat) :
    IntWorld (run s sched) := by
  induction sched generalizing s with
  | nil => exact hint
  | cons tid rest ih =>
    exact ih (step s tid) (step_inv s hinv tid) (step_int s hinv hint tid)

theorem start_int (m : HashMap) (hm : IntNodes (nodes m)) (calls : List (List Call))
    (hcalls : IntCalls calls.flatten) : IntWorld (start m calls) := by
  refine ⟨hm, ?_⟩
  intro t ht
  obtain ⟨cs, hcs, rfl⟩ := List.mem_map.1 ht
  refine ⟨fun c hc => hcalls c (List.mem_flatten.2 ⟨cs, hcs, hc⟩), ?_⟩
  show -(2 ^ 31) ≤ (0 : Int) ∧ (0 : Int) < 2 ^ 31
  omega

end OmpExam

namespace OmpExam

open MpiExam (strcmp strcmp_self strcmp_swap strcmp_trans strcmp_congr_left
  strcmp_congr_right cstr)

/-! ## Atomicity of `hashmap_add` under the lock of the bucket -/

theorem step_frame (s : World) (hinv : WorldInv s) (tid i : Nat) (t : Thread) (h : Nat)
    (ht : s.threads[i]? = some t) (hc : crit t.pc = some h) (hi : i ≠ tid) :
    bucket_get (step s tid).m.buckets h = bucket_get s.m.buckets h := by
  unfold step
  cases hthr : s.threads[tid]? with
  | none => rfl
  | some t0 =>
    obtain ⟨todo, pc⟩ := t0
    have hne : ∀ h0, crit pc = some h0 → h ≠ h0 := by
      intro h0 hc0 e
      subst e
      exact hi (hinv.2.1.2.2.2 i tid t _ h ht hthr hc hc0)
    cases pc with
    | idle =>
      cases todo with
      | nil => rfl
      | cons c rest => rfl
    | lock key cnt h0 =>
      simp only [thread_step]
      split_ifs <;> rfl
    | scan key cnt h0 pos =>
      simp only [thread_step]
      cases (bucket_get s.m.buckets h0)[pos]? with
      | none => rfl
      | some cur =>
        simp only
        split_ifs <;> rfl
    | add key cnt h0 pos old =>
      simp only [thread_step]
      exact slot_get_set_other _ _ _ _ (hne h0 rfl)
    | link key cnt h0 next =>
      simp only [thread_step]
      exact slot_get_set_other _ _ _ _ (hne h0 rfl)
    | unlock h0 => rfl

/-- C22, as stated, fails for the counts: two threads add the key `a` to the
empty table, one with `cnt = 2147483647` and one with `cnt = 1`; when both have
returned the table holds one node for `a` with the count -2147483648, not the
sum 2147483648 of the `cnt` arguments. -/
theorem bucket_lock_counterexample :
    (MapShape (create_hashmap (1 <<< 20)) ∧ IntNodes (nodes (create_hashmap (1 <<< 20)))
      ∧ IntCalls max_calls.flatten)
    ∧ finished (run (start (create_hashmap (1 <<< 20)) max_calls) max_sched)
    ∧ nodes (run (start (create_hashmap (1 <<< 20)) max_calls) max_sched).m
        = [{ key := [97], count := -2147483648 }]
    ∧ call_sum (fun key => decide (strcmp key [97] = 0)) max_calls.flatten = 2147483648 :=
  ⟨⟨create_shape _ (by decide), by decide, by decide⟩, by decide, by decide, by decide⟩

/-- C22, amended (bucket-lock atomicity).  Threads execute their calls of
`hashmap_add` on one table, step by step and interleaved in any order (`sched`);
the counts of the initial table and the `cnt` arguments are values of an `int`.
In every state `s` that they reach: a lock is set exactly when a thread is
between `omp_set_lock` and `omp_unset_lock` for its bucket, and no two threads
are there for the same bucket; a step of another thread leaves the chain of
the bucket of such a thread as it is; the table holds no key twice.  When all
threads have returned from their last call no lock is set, the count of every
key is its count in the initial table plus the sum of the `cnt` arguments of
the calls for it, reduced to 32 bits (the sum itself when it is in the range
of an `int`), which is the count after the same calls executed one after the
other in any order.  From every state the threads can complete their calls. -/
theorem bucket_lock_atomicity (m0 : HashMap) (hm0 : MapShape m0) (hint0 : IntNodes (nodes m0))
    (calls : List (List Call)) (hcalls : IntCalls calls.flatten)
    (sched : List Nat) (s : World) (hs : s = run (start m0 calls) sched) :
    LockInv s
    ∧ (∀ (tid i : Nat) (t : Thread) (h : Nat), s.threads[i]? = some t → crit t.pc = some h →
        i ≠ tid → bucket_get (step s tid).m.buckets h = bucket_get s.m.buckets h)
    ∧ (nodes s.m).Pairwise (fun a b => strcmp a.key b.key ≠ 0)
    ∧ (finished s →
        s.held = []
        ∧ (∀ k, wt (fun key => decide (strcmp key k = 0)) (nodes s.m)
            = MpiExam.wrap32 (wt (fun key => decide (strcmp key k = 0)) (nodes m0)
                + call_sum (fun key => decide (strcmp key k = 0)) calls.flatten))
        ∧ (∀ n ∈ nodes s.m, n.count
            = MpiExam.wrap32 (wt (fun key => decide (strcmp key n.key = 0)) (nodes m0)
                + call_sum (fun key => decide (strcmp key n.key = 0)) calls.flatten))
        ∧ (∀ k, -(2 ^ 31) ≤ wt (fun key => decide (strcmp key k = 0)) (nodes m0)
                + call_sum (fun key => decide (strcmp key k = 0)) calls.flatten →
            wt (fun key => decide (strcmp key k = 0)) (nodes m0)
                + call_sum (fun key => decide (strcmp key k = 0)) calls.flatten < 2 ^ 31 →
            wt (fun key => decide (strcmp key k = 0)) (nodes s.m)
              = wt (fun key => decide (strcmp key k = 0)) (nodes m0)
                + call_sum (fun key => decide (strcmp key k = 0)) calls.flatten)
        ∧ ∀ order : List Call, order.Perm calls.flatten →
            ∀ k, wt (fun key => decide (strcmp key k = 0)) (nodes s.m)
              = wt (fun key => decide (strcmp key k = 0)) (nodes (Int32.run_calls m0 order)))
    ∧ ∃ more, finished (run s more) := by
  have hinv : WorldInv s := by
    rw [hs]
    exact run_inv _ (start_inv m0 hm0 calls) sched
  have hint : IntWorld s := by
    rw [hs]
    exact run_int _ (start_inv m0 hm0 calls) (start_int m0 hint0 calls hcalls) sched
  have hdist := shape_distinct s.m hinv.1
  refine ⟨hinv.2.1, fun tid i t h ht hc hi => step_frame s hinv tid i t h ht hc hi, hdist, ?_,
    exists_finish (cost s) s hinv (le_refl _)⟩
  intro hfin
  have htotal : ∀ k, wt (fun key => decide (strcmp key k = 0)) (nodes s.m)
      = MpiExam.wrap32 (wt (fun key => decide (strcmp key k = 0)) (nodes m0)
        + call_sum (fun key => decide (strcmp key k = 0)) calls.flatten) := by
    intro k
    have h1 := run_total (fun key => decide (strcmp key k = 0)) (match_respects k)
      (start m0 calls) (start_inv m0 hm0 calls) sched
    rw [← hs, finished_total _ s hfin, start_total] at h1
    have e : (start m0 calls).m = m0 := rfl
    rw [e, add_zero] at h1
    have hr := wt_int_range k (nodes s.m) hdist hint.1
    exact wt_of_mod _ _ hr.1 hr.2 h1
  refine ⟨finished_held s hinv hfin, htotal, ?_, ?_, ?_⟩
  · intro n hn
    rw [← htotal n.key]
    exact (wt_distinct n _ hdist hn).symm
  · intro k h1 h2
    rw [htotal k, MpiExam.wrap32_small _ h1 h2]
  · intro order horder k
    have hord : IntCalls order := fun c hc => hcalls c (horder.mem_iff.1 hc)
    obtain ⟨hshape, hnodes, hmod⟩ := seq_run_spec _ (match_respects k) order m0 hm0 hint0 hord
    have hr := wt_int_range k _ (shape_distinct _ hshape) hnodes
    rw [htotal k, wt_of_mod _ _ hr.1 hr.2 hmod, call_sum_perm _ horder]

theorem bucket_lock_atomicity_witness :
    (MapShape (create_hashmap (1 <<< 20)) ∧ IntNodes (nodes (create_hashmap (1 <<< 20)))
      ∧ IntCalls sample_calls.flatten
      ∧ run (start (create_hashmap (1 <<< 20)) sample_calls) sample_sched
        = run (start (create_hashmap (1 <<< 20)) sample_calls) sample_sched
      ∧ finished (run (start (create_hashmap (1 <<< 20)) sample_calls) sample_sched))
    ∧ LockInv (run (start (create_hashmap (1 <<< 20)) sample_calls) sample_sched)
    ∧ (nodes (run (start (create_hashmap (1 <<< 20)) sample_calls) sample_sched).m).Pairwise
        (fun a b => strcmp a.key b.key ≠ 0)
    ∧ (run (start (create_hashmap (1 <<< 20)) sample_calls) sample_sched).held = []
    ∧ ∀ n ∈ nodes (run (start (create_hashmap (1 <<< 20)) sample_calls) sample_sched).m,
        n.count = MpiExam.wrap32 (wt (fun key => decide (strcmp key n.key = 0))
            (nodes (create_hashmap (1 <<< 20)))
          + call_sum (fun key => decide (strcmp key n.key = 0)) sample_calls.flatten) :=
  have hfin : finished (run (start (create_hashmap (1 <<< 20)) sample_calls) sample_sched) := by
    decide
  have h := bucket_lock_atomicity (create_hashmap (1 <<< 20)) (create_shape _ (by decide))
    (by decide) sample_calls (by decide) sample_sched _ rfl
  ⟨⟨create_shape _ (by decide), by decide, by decide, rfl, hfin⟩, h.1, h.2.2.1,
    (h.2.2.2.1 hfin).1, (h.2.2.2.1 hfin).2.2.1⟩

end OmpExam
